import Mathlib

/-!
# Working set of the account-state engine (`state/factory/workingset.go`)

A shallow embedding of the block-scoped working set: the cached account
states, the candidate pool, the account trie and the shared write batch,
together with the action pipeline (`handleTsf`, `handleVote`, `RunActions`,
`Commit`).

Conventions of the embedding.

* Go pointers into `ws.cachedStates` are represented by the key (`PKHash`)
  under which the pointed-to object is cached; reading a field of the pointer
  is a lookup in the current map, so aliasing (sender = recipient = producer)
  is handled by the map itself.
* `*big.Int` is `Int`, `uint64` is `Nat` with an explicit reduction modulo
  `2 ^ 64` where the source subtracts.
* An `error` value is represented by its cause (`errors.Cause`): wrapping with
  context does not change it.
* Code in other packages (address decoding, the trie, serialisation, the
  key-value store) is either a field of `Env` or a definition whose doc
  comment starts with `Modelled from the spec:`.
-/

namespace Iotex

/-- Byte strings (`[]byte`). -/
abbrev Bytes := List Nat

/-- The 20-byte hash of a public key (`hash.PKHash`), the trie key of an account. -/
abbrev PKHash := Bytes

/-- A 32-byte hash (`hash.Hash32B`). -/
abbrev Hash32B := Bytes

/-- Finite maps keyed by byte strings (Go `map[hash.PKHash]T`). -/
abbrev Map (V : Type) := AList (fun _ : Bytes => V)

/-- Error causes, as compared by `errors.Cause(err) == sentinel`; `nilDereference`
stands for the runtime panic of a nil pointer dereference. -/
inductive Err where
  | ErrStateNotExist
  | ErrNotEnoughBalance
  | ErrOutOfGas
  | ErrNotExist
  | ErrAlreadyExist
  | ErrCandidateMap
  | invalidAddress
  | trieFailure
  | storageFailure
  | serialization
  | castFailure
  | intrinsicGas
  | missingCtx
  | contractCommit
  | nilDereference
  | handlerFailure (code : Nat)
  deriving DecidableEq, Repr

/-- The account record `state.Account`. -/
structure Account where
  nonce : Nat
  balance : Int
  root : Hash32B
  codeHash : Bytes
  isCandidate : Bool
  votingWeight : Int
  votee : String
  deriving DecidableEq, Repr

/-- The value `hash.ZeroHash32B`. -/
def ZeroHash32B : Hash32B := List.replicate 32 0

/-- The zero value `state.Account{}` with allocated big integers; its storage
root is the zero hash. -/
def Account.zero : Account :=
  { nonce := 0, balance := 0, root := ZeroHash32B, codeHash := [], isCandidate := false,
    votingWeight := 0, votee := "" }

/-- A value of interface type `state.State`: an account or some other state kind. -/
inductive State where
  | account (a : Account)
  | other (tag : Nat)
  deriving DecidableEq, Repr

/-- The candidate record `state.Candidate` (a nil `Votes` is read as `0`). -/
structure Candidate where
  address : String
  publicKey : Bytes
  votes : Int
  creationHeight : Nat
  lastUpdateHeight : Nat
  deriving DecidableEq, Repr

abbrev CandidateList := List Candidate

/-- Kinds of write operation in a batch. -/
inductive WriteType where
  | Put
  | PutIfNotExists
  | Delete
  deriving DecidableEq, Repr

/-- A staged write `{ namespace, key, value, kind }`; a `Delete` has no value. -/
structure WriteOp where
  writeType : WriteType
  ns : String
  key : Bytes
  value : Option Bytes
  deriving DecidableEq, Repr

/-- Modelled from the spec: the `CachedBatch` of package `db` (its source is not
part of the working-set file): an ordered sequence of write operations plus an
overlay mapping `(namespace, key)` to a live value (`some v`) or a tombstone
(`none`). -/
structure CachedBatch where
  writeQueue : List WriteOp
  overlay : AList (fun _ : String × Bytes => Option Bytes)

/-- Modelled from the spec: `NewCachedBatch()`, an empty sequence and overlay. -/
def NewCachedBatch : CachedBatch := { writeQueue := [], overlay := ∅ }

/-- Modelled from the spec: `CachedBatch.Put` populates the overlay and appends
the operation. -/
def CachedBatch.Put (cb : CachedBatch) (ns : String) (key value : Bytes) : CachedBatch :=
  { writeQueue := cb.writeQueue ++ [⟨WriteType.Put, ns, key, some value⟩],
    overlay := cb.overlay.insert (ns, key) (some value) }

/-- Modelled from the spec: `CachedBatch.PutIfNotExists` fails with
`ErrAlreadyExist` when the overlay holds a live value, and otherwise records
the operation and populates the overlay. -/
def CachedBatch.PutIfNotExists (cb : CachedBatch) (ns : String) (key value : Bytes) :
    Except Err CachedBatch :=
  match cb.overlay.lookup (ns, key) with
  | some (some _) => .error Err.ErrAlreadyExist
  | _ =>
    .ok { writeQueue := cb.writeQueue ++ [⟨WriteType.PutIfNotExists, ns, key, some value⟩],
          overlay := cb.overlay.insert (ns, key) (some value) }

/-- Modelled from the spec: `CachedBatch.Delete` installs a tombstone and appends
the operation. -/
def CachedBatch.Delete (cb : CachedBatch) (ns : String) (key : Bytes) : CachedBatch :=
  { writeQueue := cb.writeQueue ++ [⟨WriteType.Delete, ns, key, none⟩],
    overlay := cb.overlay.insert (ns, key) none }

/-- Modelled from the spec: `CachedBatch.Clear` empties the sequence and the overlay. -/
def CachedBatch.Clear (_cb : CachedBatch) : CachedBatch := NewCachedBatch

/-- Modelled from the spec: `CachedBatch.Size`. -/
def CachedBatch.Size (cb : CachedBatch) : Nat := cb.writeQueue.length

/-- Modelled from the spec: `CachedBatch.Entry(i)`, an error past the end. -/
def CachedBatch.Entry (cb : CachedBatch) (i : Nat) : Except Err WriteOp :=
  match cb.writeQueue.get? i with
  | some w => .ok w
  | none => .error Err.ErrNotExist

/-- Modelled from the spec: `CachedBatch.Get` consults the overlay only. -/
def CachedBatch.Get (cb : CachedBatch) (ns : String) (key : Bytes) : Except Err Bytes :=
  match cb.overlay.lookup (ns, key) with
  | some (some v) => .ok v
  | _ => .error Err.ErrNotExist

/-- Modelled from the spec: staging of an already formed operation in a
`CachedBatch`, by the method of its kind (a refused `PutIfNotExists` stages
nothing). -/
def CachedBatch.stage (cb : CachedBatch) (w : WriteOp) : CachedBatch :=
  match w.writeType with
  | WriteType.Put => cb.Put w.ns w.key (w.value.getD [])
  | WriteType.Delete => cb.Delete w.ns w.key
  | WriteType.PutIfNotExists =>
    match cb.PutIfNotExists w.ns w.key (w.value.getD []) with
    | .ok cb' => cb'
    | .error _ => cb

/-- Modelled from the spec: the in-memory `KVStore`, a mapping
`namespace → key → value`. -/
structure KVStore where
  buckets : AList (fun _ : String => Map Bytes)

/-- Modelled from the spec: the bucket of a namespace, empty when absent. -/
def KVStore.bucket (s : KVStore) (ns : String) : Map Bytes :=
  (s.buckets.lookup ns).getD ∅

/-- Modelled from the spec: `KVStore.Get` fails with `ErrNotExist` if the
namespace or the key is absent. -/
def KVStore.Get (s : KVStore) (ns : String) (key : Bytes) : Except Err Bytes :=
  match s.buckets.lookup ns with
  | none => .error Err.ErrNotExist
  | some b =>
    match b.lookup key with
    | none => .error Err.ErrNotExist
    | some v => .ok v

/-- Modelled from the spec: `KVStore.Put`, creating the namespace if absent. -/
def KVStore.Put (s : KVStore) (ns : String) (key value : Bytes) : KVStore :=
  { buckets := s.buckets.insert ns ((s.bucket ns).insert key value) }

/-- Modelled from the spec: `KVStore.PutIfNotExists`, an atomic create. -/
def KVStore.PutIfNotExists (s : KVStore) (ns : String) (key value : Bytes) :
    Except Err KVStore :=
  match (s.bucket ns).lookup key with
  | some _ => .error Err.ErrAlreadyExist
  | none => .ok (s.Put ns key value)

/-- Modelled from the spec: `KVStore.Delete`; deleting a missing key is not an error. -/
def KVStore.Delete (s : KVStore) (ns : String) (key : Bytes) : KVStore :=
  match s.buckets.lookup ns with
  | none => s
  | some b => { buckets := s.buckets.insert ns (b.erase key) }

/-- Modelled from the spec: the replay of `KVStore.Commit`, which applies the
write operations in order and stops at the first failure. -/
def KVStore.replay (s : KVStore) : List WriteOp → Except Err KVStore
  | [] => .ok s
  | w :: rest =>
    match w.writeType with
    | WriteType.Put => KVStore.replay (s.Put w.ns w.key (w.value.getD [])) rest
    | WriteType.Delete => KVStore.replay (s.Delete w.ns w.key) rest
    | WriteType.PutIfNotExists =>
      match s.PutIfNotExists w.ns w.key (w.value.getD []) with
      | .error e => .error e
      | .ok s' => KVStore.replay s' rest

/-- Modelled from the spec: `KVStore.Commit(batch)` applies every operation in
order under one transaction; on failure the store is left as it was and the
error is surfaced. The result pairs the store after the call with the error. -/
def KVStore.Commit (s : KVStore) (cb : CachedBatch) : KVStore × Option Err :=
  match s.replay cb.writeQueue with
  | .ok s' => (s', none)
  | .error e => (s, some e)

/-- Modelled from the spec: the account trie consumed through its contract
`Get / Upsert / RootHash`: its logical content is a finite map from keys to
serialised values. -/
structure Trie where
  entries : Map Bytes

/-- A contract: an account together with its storage trie (`newContract(account, tr)`). -/
structure Contract where
  account : Account
  trie : Trie

/-- The collaborators of the working set that live in other packages, and the
choices the Go runtime makes. -/
structure Env where
  /-- Decoder `iotxaddress.AddressToPKHash`; `none` is a decoding error. -/
  AddressToPKHash : String → Option PKHash
  /-- Encoder `state.Serialize`; `none` is an encoding error. -/
  Serialize : State → Option Bytes
  /-- Decoder `state.Deserialize` into a `*state.Account`; `none` is a decoding error. -/
  Deserialize : Bytes → Option Account
  /-- Keys whose `trie.Get` fails with an error other than `trie.ErrNotExist`. -/
  trieGetFails : Bytes → Bool
  /-- Keys whose `trie.Upsert` fails. -/
  trieUpsertFails : Bytes → Bool
  /-- The node writes an upsert of `(key, value)` stages in the shared batch. -/
  trieWrites : Trie → Bytes → Bytes → List WriteOp
  /-- The root `trie.RootHash()` of a trie with the given content. -/
  trieRoot : Trie → Hash32B
  /-- The order in which a Go `range` visits the keys of a map. -/
  rangeOrder : List Bytes → List Bytes
  /-- Reads `(namespace, key)` of the store that fail with a storage error. -/
  storeGetFails : String → Bytes → Bool
  /-- Decoder `CandidateList.Deserialize`. -/
  DeserializeCandidates : Bytes → Option CandidateList
  /-- Encoder `CandidateList.Serialize`. -/
  SerializeCandidates : CandidateList → Option Bytes
  /-- Contracts whose `Commit` fails. -/
  contractCommitFails : Contract → Bool
  /-- The key constant `AccountTrieRootKey`. -/
  AccountTrieRootKey : Bytes
  /-- The key constant `CurrentHeightKey`. -/
  CurrentHeightKey : Bytes

/-- Modelled from the spec: the namespace `trie.AccountKVNameSpace`. -/
def AccountKVNameSpace : String := "Account"

/-- Modelled from the spec: the namespace `trie.CandidateKVNameSpace`. -/
def CandidateKVNameSpace : String := "Candidate"

/-- Modelled from the spec: the namespace `trie.ContractKVNameSpace`. -/
def ContractKVNameSpace : String := "Contract"

/-- Modelled from the spec: the namespace `trie.CodeKVNameSpace`. -/
def CodeKVNameSpace : String := "Code"

/-- Modelled from the spec: `byteutil.Uint64ToBytes`, the 8-byte big-endian
encoding of an unsigned 64-bit integer. -/
def Uint64ToBytes (n : Nat) : Bytes :=
  [n / 2 ^ 56 % 256, n / 2 ^ 48 % 256, n / 2 ^ 40 % 256, n / 2 ^ 32 % 256,
   n / 2 ^ 24 % 256, n / 2 ^ 16 % 256, n / 2 ^ 8 % 256, n % 256]

/-- Modelled from the spec: `trie.Get`; a not-found read returns `ErrNotExist`. -/
def Trie.Get (env : Env) (t : Trie) (key : Bytes) : Except Err Bytes :=
  if env.trieGetFails key then .error Err.trieFailure
  else
    match t.entries.lookup key with
    | none => .error Err.ErrNotExist
    | some v => .ok v

/-- Modelled from the spec: `trie.Upsert`; the write lands in the shared batch.
A failing upsert changes nothing. -/
def Trie.Upsert (env : Env) (t : Trie) (cb : CachedBatch) (key value : Bytes) :
    Except Err (Trie × CachedBatch) :=
  if env.trieUpsertFails key then .error Err.trieFailure
  else .ok ({ entries := t.entries.insert key value },
            (env.trieWrites t key value).foldl CachedBatch.stage cb)

/-- Modelled from the spec: `trie.RootHash`. -/
def Trie.RootHash (env : Env) (t : Trie) : Hash32B := env.trieRoot t

/-- Modelled from the spec: `Contract.Commit` finalises the storage trie and
writes its root onto `account.storage_root`; it does not commit the shared batch. -/
def Contract.Commit (env : Env) (c : Contract) : Except Err Contract :=
  if env.contractCommitFails c then .error Err.contractCommit
  else .ok { c with account := { c.account with root := c.trie.RootHash env } }

/-- Modelled from the spec: `Contract.SelfState` returns the current account. -/
def Contract.SelfState (c : Contract) : Account := c.account

/-- The working set `workingSet` (its `actionHandlers` are passed to `RunActions`). -/
structure WorkingSet where
  ver : Nat
  blkHeight : Nat
  cachedCandidates : Map Candidate
  cachedStates : Map State
  cachedContract : Map Contract
  accountTrie : Trie
  cb : CachedBatch
  dao : KVStore

/-- Modelled from the spec: `Account.AddBalance` adds to the balance and never fails. -/
def Account.AddBalance (a : Account) (amount : Int) : Except Err Account :=
  .ok { a with balance := a.balance + amount }

/-- Modelled from the spec: `Account.SubBalance` fails with `ErrNotEnoughBalance`
iff the amount exceeds the balance, and otherwise subtracts it. -/
def Account.SubBalance (a : Account) (amount : Int) : Except Err Account :=
  if amount > a.balance then .error Err.ErrNotEnoughBalance
  else .ok { a with balance := a.balance - amount }

/-- The cast `stateToAccountState`. -/
def stateToAccountState (s : State) : Except Err Account :=
  match s with
  | State.account a => .ok a
  | State.other _ => .error Err.castFailure

/-- Method `State`: pulls a state from the account trie and decodes it into an account. -/
def WorkingSet.State (env : Env) (ws : WorkingSet) (hash : PKHash) : Except Err Account :=
  match ws.accountTrie.Get env hash with
  | .error Err.ErrNotExist => .error Err.ErrStateNotExist
  | .error e => .error e
  | .ok mstate =>
    match env.Deserialize mstate with
    | none => .error Err.serialization
    | some a => .ok a

/-- Method `CachedState` with an account template: the cached state if present,
otherwise the state from the trie, which is then cached. -/
def WorkingSet.CachedState (env : Env) (ws : WorkingSet) (hash : PKHash) :
    Except Err (Iotex.State × WorkingSet) :=
  match ws.cachedStates.lookup hash with
  | some s => .ok (s, ws)
  | none =>
    match ws.State env hash with
    | .error e => .error e
    | .ok a =>
      .ok (Iotex.State.account a,
           { ws with cachedStates := ws.cachedStates.insert hash (Iotex.State.account a) })

/-- Method `LoadOrCreateAccountState`: the result is the key under which the
returned account pointer is cached, with the working set after the call. On
an error the working set is unchanged. -/
def WorkingSet.LoadOrCreateAccountState (env : Env) (ws : WorkingSet) (addr : String)
    (init : Int) : Except Err (PKHash × WorkingSet) :=
  match env.AddressToPKHash addr with
  | none => .error Err.invalidAddress
  | some addrHash =>
    match ws.CachedState env addrHash with
    | .error Err.ErrStateNotExist =>
      let account : Account :=
        { Account.zero with balance := (init.natAbs : Int), votingWeight := 0 }
      .ok (addrHash,
           { ws with cachedStates := ws.cachedStates.insert addrHash (Iotex.State.account account) })
    | .error e => .error e
    | .ok (s, ws') =>
      match stateToAccountState s with
      | .error e => .error e
      | .ok _ => .ok (addrHash, ws')

/-- Reads the account behind a pointer into `cachedStates`. -/
def WorkingSet.account (ws : WorkingSet) (h : PKHash) : Account :=
  match ws.cachedStates.lookup h with
  | some (Iotex.State.account a) => a
  | _ => Account.zero

/-- Writes through a pointer into `cachedStates`. -/
def WorkingSet.setAccount (ws : WorkingSet) (h : PKHash) (a : Account) : WorkingSet :=
  { ws with cachedStates := ws.cachedStates.insert h (Iotex.State.account a) }

/-- A transfer action, as seen through its accessors. `intrinsicGas = none`
stands for an error of `IntrinsicGas()`. -/
structure Transfer where
  nonce : Nat
  amount : Int
  sender : String
  recipient : String
  gasPrice : Int
  intrinsicGas : Option Nat
  isCoinbase : Bool
  isContract : Bool
  hash : Hash32B
  deriving DecidableEq, Repr

/-- The gas fee charged for a transfer: `gasPrice × intrinsicGas` when gas
charging is enabled, nothing otherwise. -/
def Transfer.fee (tx : Transfer) (enableGasCharge : Bool) : Int :=
  if enableGasCharge then tx.gasPrice * ((tx.intrinsicGas.getD 0 : Nat) : Int) else 0

/-- The transfer is one `handleTsf` charges gas for: neither a contract
transfer (skipped) nor a coinbase transfer. -/
def Transfer.charged (tx : Transfer) : Bool := !tx.isContract && !tx.isCoinbase

/-- The sum of the intrinsic gas of the charged transfers of a list. -/
def chargedGas : List Transfer → Nat
  | [] => 0
  | tx :: rest => (if tx.charged then tx.intrinsicGas.getD 0 else 0) + chargedGas rest

/-- A vote action, as seen through its accessors. -/
structure Vote where
  nonce : Nat
  voter : String
  votee : String
  voterPublicKey : Bytes
  gasPrice : Int
  intrinsicGas : Option Nat
  hash : Hash32B
  deriving DecidableEq, Repr

/-- An execution action, as seen through its accessors. -/
structure Execution where
  nonce : Nat
  executor : String
  hash : Hash32B
  deriving DecidableEq, Repr

/-- The state threaded through the action loops: the working set, the gas
limit behind `*gasLimit`, and the error returned, if any. The working set and
gas limit are those reached when the loop returned. -/
structure Outcome where
  ws : WorkingSet
  gasLimit : Nat
  err : Option Err

/-- The `if enableGasCharge` block of `handleTsf`. -/
def tsfChargeGas (producer : PKHash) (tx : Transfer) (sender : PKHash)
    (ws : WorkingSet) (gasLimit : Nat) : Outcome :=
  match tx.intrinsicGas with
  | none => ⟨ws, gasLimit, some Err.intrinsicGas⟩
  | some gas =>
    if gasLimit < gas then ⟨ws, gasLimit, some Err.ErrOutOfGas⟩
    else
      let gasFee : Int := tx.gasPrice * (gas : Int)
      if tx.amount + gasFee > (ws.account sender).balance then
        ⟨ws, gasLimit, some Err.ErrNotEnoughBalance⟩
      else
        match (ws.account sender).SubBalance gasFee with
        | .error e => ⟨ws, gasLimit, some e⟩
        | .ok a =>
          let ws := ws.setAccount sender a
          match (ws.account producer).AddBalance gasFee with
          | .error e => ⟨ws, gasLimit, some e⟩
          | .ok p =>
            let ws := ws.setAccount producer p
            ⟨ws, (gasLimit + 2 ^ 64 - gas) % 2 ^ 64, none⟩

/-- The part of the `!tx.IsCoinbase()` block of `handleTsf` after gas charging:
debit the amount, bump the nonce, update the weight of the sender's votee. -/
def tsfDebit (env : Env) (tx : Transfer) (sender : PKHash) (ws : WorkingSet)
    (gasLimit : Nat) : Outcome :=
  match (ws.account sender).SubBalance tx.amount with
  | .error e => ⟨ws, gasLimit, some e⟩
  | .ok a =>
    let ws := ws.setAccount sender a
    let ws :=
      if tx.nonce > (ws.account sender).nonce then
        ws.setAccount sender { ws.account sender with nonce := tx.nonce }
      else ws
    if (ws.account sender).votee ≠ "" ∧ (ws.account sender).votee ≠ tx.sender then
      match ws.LoadOrCreateAccountState env (ws.account sender).votee 0 with
      | .error e => ⟨ws, gasLimit, some e⟩
      | .ok (voteeOfSender, ws) =>
        ⟨ws.setAccount voteeOfSender
            { ws.account voteeOfSender with
              votingWeight := (ws.account voteeOfSender).votingWeight - tx.amount },
          gasLimit, none⟩
    else ⟨ws, gasLimit, none⟩

/-- The `!tx.IsCoinbase()` block of `handleTsf`. -/
def tsfSender (env : Env) (producer : PKHash) (tx : Transfer) (ws : WorkingSet)
    (gasLimit : Nat) (enableGasCharge : Bool) : Outcome :=
  match ws.LoadOrCreateAccountState env tx.sender 0 with
  | .error e => ⟨ws, gasLimit, some e⟩
  | .ok (sender, ws) =>
    if enableGasCharge then
      let r := tsfChargeGas producer tx sender ws gasLimit
      match r.err with
      | some _ => r
      | none => tsfDebit env tx sender r.ws r.gasLimit
    else tsfDebit env tx sender ws gasLimit

/-- The recipient part of the body of `handleTsf`. -/
def tsfRecipient (env : Env) (tx : Transfer) (ws : WorkingSet) (gasLimit : Nat) : Outcome :=
  match ws.LoadOrCreateAccountState env tx.recipient 0 with
  | .error e => ⟨ws, gasLimit, some e⟩
  | .ok (recipient, ws) =>
    match (ws.account recipient).AddBalance tx.amount with
    | .error e => ⟨ws, gasLimit, some e⟩
    | .ok a =>
      let ws := ws.setAccount recipient a
      if (ws.account recipient).votee ≠ "" ∧ (ws.account recipient).votee ≠ tx.recipient then
        match ws.LoadOrCreateAccountState env (ws.account recipient).votee 0 with
        | .error e => ⟨ws, gasLimit, some e⟩
        | .ok (voteeOfRecipient, ws) =>
          ⟨ws.setAccount voteeOfRecipient
              { ws.account voteeOfRecipient with
                votingWeight := (ws.account voteeOfRecipient).votingWeight + tx.amount },
            gasLimit, none⟩
      else ⟨ws, gasLimit, none⟩

/-- One iteration of the loop of `handleTsf`. -/
def tsfStep (env : Env) (producer : PKHash) (tx : Transfer) (ws : WorkingSet)
    (gasLimit : Nat) (enableGasCharge : Bool) : Outcome :=
  if tx.isContract then ⟨ws, gasLimit, none⟩
  else if !tx.isCoinbase then
    let r := tsfSender env producer tx ws gasLimit enableGasCharge
    match r.err with
    | some _ => r
    | none => tsfRecipient env tx r.ws r.gasLimit
  else tsfRecipient env tx ws gasLimit

/-- Function `handleTsf`. The pointer `producer` is the key of the producer's
account in `cachedStates` (in `RunActions` it is the result of
`LoadOrCreateAccountState`). -/
def handleTsf (env : Env) (producer : PKHash) (tsfs : List Transfer) (ws : WorkingSet)
    (gasLimit : Nat) (enableGasCharge : Bool) : Outcome :=
  match tsfs with
  | [] => ⟨ws, gasLimit, none⟩
  | tx :: rest =>
    let r := tsfStep env producer tx ws gasLimit enableGasCharge
    match r.err with
    | some _ => r
    | none => handleTsf env producer rest r.ws r.gasLimit enableGasCharge

/-- The `if enableGasCharge` block of `handleVote`. -/
def voteChargeGas (producer : PKHash) (v : Vote) (voteFrom : PKHash)
    (ws : WorkingSet) (gasLimit : Nat) : Outcome :=
  match v.intrinsicGas with
  | none => ⟨ws, gasLimit, some Err.intrinsicGas⟩
  | some gas =>
    if gasLimit < gas then ⟨ws, gasLimit, some Err.ErrOutOfGas⟩
    else
      let gasFee : Int := v.gasPrice * (gas : Int)
      if gasFee > (ws.account voteFrom).balance then
        ⟨ws, gasLimit, some Err.ErrNotEnoughBalance⟩
      else
        match (ws.account voteFrom).SubBalance gasFee with
        | .error e => ⟨ws, gasLimit, some e⟩
        | .ok a =>
          let ws := ws.setAccount voteFrom a
          match (ws.account producer).AddBalance gasFee with
          | .error e => ⟨ws, gasLimit, some e⟩
          | .ok p =>
            let ws := ws.setAccount producer p
            ⟨ws, (gasLimit + 2 ^ 64 - gas) % 2 ^ 64, none⟩

/-- The vote-to-self branch of `handleVote`: self-nomination. -/
def selfNominate (blockHeight : Nat) (v : Vote) (voteFrom voterPKHash : PKHash)
    (ws : WorkingSet) : WorkingSet :=
  let ws := ws.setAccount voteFrom { ws.account voteFrom with votee := v.voter }
  let ws := ws.setAccount voteFrom { ws.account voteFrom with isCandidate := true }
  match ws.cachedCandidates.lookup voterPKHash with
  | some _ => ws
  | none =>
    { ws with
      cachedCandidates := ws.cachedCandidates.insert voterPKHash
        { address := v.voter, publicKey := v.voterPublicKey, votes := 0,
          creationHeight := blockHeight, lastUpdateHeight := 0 } }

/-- The body of the loop of `handleVote` after gas charging. -/
def voteApply (env : Env) (blockHeight : Nat) (v : Vote) (voteFrom voterPKHash : PKHash)
    (ws : WorkingSet) (gasLimit : Nat) : Outcome :=
  let ws :=
    if v.nonce > (ws.account voteFrom).nonce then
      ws.setAccount voteFrom { ws.account voteFrom with nonce := v.nonce }
    else ws
  let r : Outcome :=
    if (ws.account voteFrom).votee ≠ "" ∧ (ws.account voteFrom).votee ≠ v.voter then
      match ws.LoadOrCreateAccountState env (ws.account voteFrom).votee 0 with
      | .error e => ⟨ws, gasLimit, some e⟩
      | .ok (oldVotee, ws) =>
        let ws := ws.setAccount oldVotee
          { ws.account oldVotee with
            votingWeight := (ws.account oldVotee).votingWeight - (ws.account voteFrom).balance }
        ⟨ws.setAccount voteFrom { ws.account voteFrom with votee := "" }, gasLimit, none⟩
    else ⟨ws, gasLimit, none⟩
  match r.err with
  | some _ => r
  | none =>
    let ws := r.ws
    if v.votee = "" then
      ⟨ws.setAccount voteFrom { ws.account voteFrom with isCandidate := false }, gasLimit, none⟩
    else
      match ws.LoadOrCreateAccountState env v.votee 0 with
      | .error e => ⟨ws, gasLimit, some e⟩
      | .ok (voteTo, ws) =>
        if v.voter ≠ v.votee then
          let ws := ws.setAccount voteTo
            { ws.account voteTo with
              votingWeight := (ws.account voteTo).votingWeight + (ws.account voteFrom).balance }
          ⟨ws.setAccount voteFrom { ws.account voteFrom with votee := v.votee }, gasLimit, none⟩
        else ⟨selfNominate blockHeight v voteFrom voterPKHash ws, gasLimit, none⟩

/-- The nonce update of `handleVote`, the first step of `voteApply`. -/
def voteNonce (v : Vote) (voteFrom : PKHash) (ws : WorkingSet) : WorkingSet :=
  if v.nonce > (ws.account voteFrom).nonce then
    ws.setAccount voteFrom { ws.account voteFrom with nonce := v.nonce }
  else ws

/-- The update of the old votee's weight in `handleVote`, the second step of
`voteApply`. -/
def voteOldVotee (env : Env) (v : Vote) (voteFrom : PKHash) (ws : WorkingSet)
    (gasLimit : Nat) : Outcome :=
  if (ws.account voteFrom).votee ≠ "" ∧ (ws.account voteFrom).votee ≠ v.voter then
    match ws.LoadOrCreateAccountState env (ws.account voteFrom).votee 0 with
    | .error e => ⟨ws, gasLimit, some e⟩
    | .ok (oldVotee, ws) =>
      let ws := ws.setAccount oldVotee
        { ws.account oldVotee with
          votingWeight := (ws.account oldVotee).votingWeight - (ws.account voteFrom).balance }
      ⟨ws.setAccount voteFrom { ws.account voteFrom with votee := "" }, gasLimit, none⟩
  else ⟨ws, gasLimit, none⟩

/-- The unvote and the vote for the new votee in `handleVote`, the last step of
`voteApply`. -/
def voteNewVotee (env : Env) (blockHeight : Nat) (v : Vote) (voteFrom voterPKHash : PKHash)
    (ws : WorkingSet) (gasLimit : Nat) : Outcome :=
  if v.votee = "" then
    ⟨ws.setAccount voteFrom { ws.account voteFrom with isCandidate := false }, gasLimit, none⟩
  else
    match ws.LoadOrCreateAccountState env v.votee 0 with
    | .error e => ⟨ws, gasLimit, some e⟩
    | .ok (voteTo, ws) =>
      if v.voter ≠ v.votee then
        let ws := ws.setAccount voteTo
          { ws.account voteTo with
            votingWeight := (ws.account voteTo).votingWeight + (ws.account voteFrom).balance }
        ⟨ws.setAccount voteFrom { ws.account voteFrom with votee := v.votee }, gasLimit, none⟩
      else ⟨selfNominate blockHeight v voteFrom voterPKHash ws, gasLimit, none⟩

/-- One iteration of the loop of `handleVote`. -/
def voteStep (env : Env) (producer : PKHash) (blockHeight : Nat) (v : Vote)
    (ws : WorkingSet) (gasLimit : Nat) (enableGasCharge : Bool) : Outcome :=
  match ws.LoadOrCreateAccountState env v.voter 0 with
  | .error e => ⟨ws, gasLimit, some e⟩
  | .ok (voteFrom, ws) =>
    match env.AddressToPKHash v.voter with
    | none => ⟨ws, gasLimit, some Err.invalidAddress⟩
    | some voterPKHash =>
      if enableGasCharge then
        let r := voteChargeGas producer v voteFrom ws gasLimit
        match r.err with
        | some _ => r
        | none => voteApply env blockHeight v voteFrom voterPKHash r.ws r.gasLimit
      else voteApply env blockHeight v voteFrom voterPKHash ws gasLimit

/-- Function `handleVote`. -/
def handleVote (env : Env) (producer : PKHash) (blockHeight : Nat) (votes : List Vote)
    (ws : WorkingSet) (gasLimit : Nat) (enableGasCharge : Bool) : Outcome :=
  match votes with
  | [] => ⟨ws, gasLimit, none⟩
  | v :: rest =>
    let r := voteStep env producer blockHeight v ws gasLimit enableGasCharge
    match r.err with
    | some _ => r
    | none => handleVote env producer blockHeight rest r.ws r.gasLimit enableGasCharge

/-- An action of a block; `action.Action` is implemented by these three kinds. -/
inductive Action where
  | transfer (t : Transfer)
  | vote (v : Vote)
  | execution (e : Execution)
  deriving DecidableEq, Repr

/-- Accessor `Action.Hash`. -/
def Action.hash : Action → Hash32B
  | Action.transfer t => t.hash
  | Action.vote v => v.hash
  | Action.execution e => e.hash

/-- Modelled from the spec: `action.ClassifyActions` splits the actions into
transfers, votes and executions, each in input order. -/
def ClassifyActions (actions : List Action) : List Transfer × List Vote × List Execution :=
  (actions.filterMap (fun a => match a with | Action.transfer t => some t | _ => none),
   actions.filterMap (fun a => match a with | Action.vote v => some v | _ => none),
   actions.filterMap (fun a => match a with | Action.execution e => some e | _ => none))

/-- The record `state.RunActionsCtx`; `GasLimit` is the value behind the pointer. -/
structure RunActionsCtx where
  ProducerAddr : String
  GasLimit : Nat
  EnableGasCharge : Bool

/-- A receipt `action.Receipt`, kept abstract. -/
abbrev Receipt := Bytes

/-- An `ActionHandler.Handle(ctx, act, ws)`: it may mutate the working set and
the gas limit behind the context, and returns a receipt (possibly nil) or an error. -/
abbrev ActionHandler :=
  Action → WorkingSet → Nat → WorkingSet × Nat × Except Err (Option Receipt)

/-- Method `RootHash`. -/
def WorkingSet.RootHash (env : Env) (ws : WorkingSet) : Hash32B :=
  ws.accountTrie.RootHash env

/-- Method `PutState`: serialise and upsert into the account trie. -/
def WorkingSet.PutState (env : Env) (ws : WorkingSet) (pkHash : PKHash) (s : Iotex.State) :
    Except Err WorkingSet :=
  match env.Serialize s with
  | none => .error Err.serialization
  | some ss =>
    match ws.accountTrie.Upsert env ws.cb pkHash ss with
    | .error e => .error e
    | .ok (t, cb) => .ok { ws with accountTrie := t, cb := cb }

/-- Read `ws.dao.Get`, with the storage failures of the environment. -/
def WorkingSet.daoGet (env : Env) (ws : WorkingSet) (ns : String) (key : Bytes) :
    Except Err Bytes :=
  if env.storeGetFails ns key then .error Err.storageFailure else ws.dao.Get ns key

/-- Method `getCandidates`. -/
def WorkingSet.getCandidates (env : Env) (ws : WorkingSet) (height : Nat) :
    Except Err CandidateList :=
  match ws.daoGet env CandidateKVNameSpace (Uint64ToBytes height) with
  | .error e => .error e
  | .ok candidatesBytes =>
    match env.DeserializeCandidates candidatesBytes with
    | none => .error Err.serialization
    | some candidates => .ok candidates

/-- Method `updateCandidate`: the entry is dereferenced without a check, so a
missing entry is a nil pointer dereference. -/
def WorkingSet.updateCandidate (ws : WorkingSet) (pkHash : PKHash) (totalWeight : Int)
    (blockHeight : Nat) : Except Err WorkingSet :=
  match ws.cachedCandidates.lookup pkHash with
  | none => .error Err.nilDereference
  | some candidate =>
    .ok { ws with
          cachedCandidates := ws.cachedCandidates.insert pkHash
            { candidate with votes := totalWeight, lastUpdateHeight := blockHeight } }

/-- Method `clearCache`. -/
def WorkingSet.clearCache (ws : WorkingSet) : WorkingSet :=
  { ws with cachedStates := ∅, cachedContract := ∅, cachedCandidates := ∅ }

/-- Method `Commit`: the working set after the call and the error returned. -/
def WorkingSet.Commit (ws : WorkingSet) : WorkingSet × Option Err :=
  match ws.dao.Commit ws.cb with
  | (dao, some e) => ({ ws with dao := dao }, some e)
  | (dao, none) => (({ ws with dao := dao } : WorkingSet).clearCache, none)

/-! ## Contract functions of the working set -/

/-- The collaborators of the contract functions that live in other packages. -/
structure ContractEnv where
  /-- Roots for which `trie.NewTrieSharedBatch` fails. -/
  newTrieFails : Hash32B → Bool
  /-- The trie `trie.NewTrieSharedBatch(dao, cb, namespace, root)` materialises. -/
  openTrie : KVStore → CachedBatch → Hash32B → Trie
  /-- The sentinel `trie.EmptyRoot`. -/
  EmptyRoot : Hash32B
  /-- The hash `hash.Hash256b`. -/
  Hash256b : Bytes → Bytes
  /-- The conversion `byteutil.BytesTo32B`. -/
  BytesTo32B : Bytes → Hash32B

/-- Modelled from the spec: `Contract.SetCode(hash, code)` sets the code hash of
the account and stages a write of the code in the `Code` namespace under that
hash. -/
def Contract.SetCode (c : Contract) (cb : CachedBatch) (hash : Hash32B) (code : Bytes) :
    Contract × CachedBatch :=
  ({ c with account := { c.account with codeHash := hash } },
   cb.Put CodeKVNameSpace hash code)

/-- Modelled from the spec: `Contract.GetCode` returns the code of the account,
read under its code hash from the shared batch or else from the store. -/
def Contract.GetCode (c : Contract) (cb : CachedBatch) (dao : KVStore) : Except Err Bytes :=
  match cb.Get CodeKVNameSpace c.account.codeHash with
  | .ok code => .ok code
  | .error _ => dao.Get CodeKVNameSpace c.account.codeHash

/-- Modelled from the spec: `Contract.GetState` forwards to the storage trie. -/
def Contract.GetState (env : Env) (c : Contract) (key : Hash32B) : Except Err Bytes :=
  c.trie.Get env key

/-- Modelled from the spec: `Contract.SetState` forwards to the storage trie,
which writes into the shared batch. -/
def Contract.SetState (env : Env) (c : Contract) (cb : CachedBatch) (key : Hash32B)
    (value : Bytes) : Except Err (Contract × CachedBatch) :=
  match c.trie.Upsert env cb key value with
  | .error e => .error e
  | .ok (t, cb) => .ok ({ c with trie := t }, cb)

/-- Method `UpdateCachedStates`. -/
def WorkingSet.UpdateCachedStates (ws : WorkingSet) (pkHash : PKHash) (account : Account) :
    WorkingSet :=
  { ws with cachedStates := ws.cachedStates.insert pkHash (Iotex.State.account account) }

/-- Method `getContract`: the working set when it returns, and the contract or
the error returned. -/
def WorkingSet.getContract (env : Env) (cenv : ContractEnv) (ws : WorkingSet) (addr : PKHash) :
    WorkingSet × Except Err Contract :=
  match ws.CachedState env addr with
  | .error e => (ws, .error e)
  | .ok (s, ws) =>
    match stateToAccountState s with
    | .error e => (ws, .error e)
    | .ok account =>
      let ws := { ws with cachedStates := ws.cachedStates.erase addr }
      let account :=
        if account.root = ZeroHash32B then { account with root := cenv.EmptyRoot } else account
      if cenv.newTrieFails account.root then (ws, .error Err.trieFailure)
      else
        let contract : Contract := ⟨account, cenv.openTrie ws.dao ws.cb account.root⟩
        ({ ws with cachedContract := ws.cachedContract.insert addr contract }, .ok contract)

/-- Method `CachedAccountState`. -/
def WorkingSet.CachedAccountState (env : Env) (ws : WorkingSet) (addr : String) :
    WorkingSet × Except Err Account :=
  match env.AddressToPKHash addr with
  | none => (ws, .error Err.invalidAddress)
  | some addrHash =>
    match ws.cachedContract.lookup addrHash with
    | some contract => (ws, .ok contract.SelfState)
    | none =>
      match ws.CachedState env addrHash with
      | .error e => (ws, .error e)
      | .ok (state, ws) => (ws, stateToAccountState state)

/-- Method `GetCodeHash`. -/
def WorkingSet.GetCodeHash (env : Env) (cenv : ContractEnv) (ws : WorkingSet) (addr : PKHash) :
    WorkingSet × Except Err Hash32B :=
  match ws.cachedContract.lookup addr with
  | some contract => (ws, .ok (cenv.BytesTo32B contract.SelfState.codeHash))
  | none =>
    match ws.CachedState env addr with
    | .error e => (ws, .error e)
    | .ok (state, ws) =>
      match stateToAccountState state with
      | .error e => (ws, .error e)
      | .ok account => (ws, .ok (cenv.BytesTo32B account.codeHash))

/-- Method `GetCode`. -/
def WorkingSet.GetCode (env : Env) (ws : WorkingSet) (addr : PKHash) :
    WorkingSet × Except Err Bytes :=
  match ws.cachedContract.lookup addr with
  | some contract => (ws, contract.GetCode ws.cb ws.dao)
  | none =>
    match ws.CachedState env addr with
    | .error e => (ws, .error e)
    | .ok (state, ws) =>
      match stateToAccountState state with
      | .error e => (ws, .error e)
      | .ok account => (ws, ws.dao.Get CodeKVNameSpace account.codeHash)

/-- Method `SetCode`: the working set when it returns and the error returned. -/
def WorkingSet.SetCode (env : Env) (cenv : ContractEnv) (ws : WorkingSet) (addr : PKHash)
    (code : Bytes) : WorkingSet × Option Err :=
  match ws.cachedContract.lookup addr with
  | some contract =>
    let (contract, cb) := contract.SetCode ws.cb (cenv.BytesTo32B (cenv.Hash256b code)) code
    ({ ws with cachedContract := ws.cachedContract.insert addr contract, cb := cb }, none)
  | none =>
    match ws.getContract env cenv addr with
    | (ws, .error e) => (ws, some e)
    | (ws, .ok contract) =>
      let (contract, cb) := contract.SetCode ws.cb (cenv.BytesTo32B (cenv.Hash256b code)) code
      ({ ws with cachedContract := ws.cachedContract.insert addr contract, cb := cb }, none)

/-- Method `GetContractState`. -/
def WorkingSet.GetContractState (env : Env) (cenv : ContractEnv) (ws : WorkingSet)
    (addr : PKHash) (key : Hash32B) : WorkingSet × Except Err Hash32B :=
  match ws.cachedContract.lookup addr with
  | some contract => (ws, (contract.GetState env key).map cenv.BytesTo32B)
  | none =>
    match ws.getContract env cenv addr with
    | (ws, .error e) => (ws, .error e)
    | (ws, .ok contract) => (ws, (contract.GetState env key).map cenv.BytesTo32B)

/-- Method `SetContractState`: the working set when it returns and the error
returned. A failing `SetState` changes nothing. -/
def WorkingSet.SetContractState (env : Env) (cenv : ContractEnv) (ws : WorkingSet)
    (addr : PKHash) (key value : Hash32B) : WorkingSet × Option Err :=
  match ws.cachedContract.lookup addr with
  | some contract =>
    match contract.SetState env ws.cb key value with
    | .error e => (ws, some e)
    | .ok (contract, cb) =>
      ({ ws with cachedContract := ws.cachedContract.insert addr contract, cb := cb }, none)
  | none =>
    match ws.getContract env cenv addr with
    | (ws, .error e) => (ws, some e)
    | (ws, .ok contract) =>
      match contract.SetState env ws.cb key value with
      | .error e => (ws, some e)
      | .ok (contract, cb) =>
        ({ ws with cachedContract := ws.cachedContract.insert addr contract, cb := cb }, none)

/-- A call of one of the public operations of the working set on accounts and
contracts. -/
inductive WsOp where
  | LoadOrCreateAccountState (addr : String) (init : Int)
  | CachedAccountState (addr : String)
  | CachedState (hash : PKHash)
  | UpdateCachedStates (pkHash : PKHash) (account : Account)
  | GetCodeHash (addr : PKHash)
  | GetCode (addr : PKHash)
  | SetCode (addr : PKHash) (code : Bytes)
  | GetContractState (addr : PKHash) (key : Hash32B)
  | SetContractState (addr : PKHash) (key value : Hash32B)
  deriving DecidableEq, Repr

/-- The working set after a call, whether or not the call returned an error. -/
def WorkingSet.apply (env : Env) (cenv : ContractEnv) (ws : WorkingSet) : WsOp → WorkingSet
  | WsOp.LoadOrCreateAccountState addr init =>
    match ws.LoadOrCreateAccountState env addr init with
    | .ok (_, ws') => ws'
    | .error _ => ws
  | WsOp.CachedAccountState addr => (ws.CachedAccountState env addr).1
  | WsOp.CachedState hash =>
    match ws.CachedState env hash with
    | .ok (_, ws') => ws'
    | .error _ => ws
  | WsOp.UpdateCachedStates pkHash account => ws.UpdateCachedStates pkHash account
  | WsOp.GetCodeHash addr => (ws.GetCodeHash env cenv addr).1
  | WsOp.GetCode addr => (ws.GetCode env addr).1
  | WsOp.SetCode addr code => (ws.SetCode env cenv addr code).1
  | WsOp.GetContractState addr key => (ws.GetContractState env cenv addr key).1
  | WsOp.SetContractState addr key value => (ws.SetContractState env cenv addr key value).1

/-- The working set after a sequence of calls. -/
def WorkingSet.applyAll (env : Env) (cenv : ContractEnv) (ws : WorkingSet) :
    List WsOp → WorkingSet
  | [] => ws
  | op :: rest => (ws.apply env cenv op).applyAll env cenv rest

/-- The operation consults `cachedContract` before it loads an account into
`cachedStates`. -/
def WsOp.viaContract : WsOp → Bool
  | WsOp.LoadOrCreateAccountState _ _ => false
  | WsOp.CachedState _ => false
  | WsOp.UpdateCachedStates _ _ => false
  | _ => true

/-- No address is a key of both `cachedStates` and `cachedContract`. -/
def SingleOwner (ws : WorkingSet) : Prop :=
  ∀ k, ¬ (k ∈ ws.cachedStates ∧ k ∈ ws.cachedContract)

/-- Modelled from the spec: the loop of `state.CandidatesToMap` over the list,
which keys each candidate by the hash of its address. -/
def candidatesToMapLoop (env : Env) : CandidateList → Map Candidate → Except Err (Map Candidate)
  | [], m => .ok m
  | c :: rest, m =>
    match env.AddressToPKHash c.address with
    | none => .error Err.invalidAddress
    | some pkHash => candidatesToMapLoop env rest (m.insert pkHash c)

/-- Modelled from the spec: `state.CandidatesToMap` keys every candidate by the
hash of its address. -/
def CandidatesToMap (env : Env) (candidates : CandidateList) : Except Err (Map Candidate) :=
  candidatesToMapLoop env candidates ∅

/-- The entries of a map in the order a Go `range` visits them. -/
def rangeEntries {V : Type} (env : Env) (m : Map V) : List (Bytes × V) :=
  (env.rangeOrder m.keys).filterMap (fun k => (m.lookup k).map (fun v => (k, v)))

/-- Modelled from the spec: `state.MapToCandidates` lists the candidates of the map. -/
def MapToCandidates (env : Env) (m : Map Candidate) : Except Err CandidateList :=
  .ok ((rangeEntries env m).map Prod.snd)

/-- Modelled from the spec: the order of a `CandidateList`, votes descending
and then address ascending. -/
def Candidate.before (a b : Candidate) : Prop :=
  a.votes > b.votes ∨ (a.votes = b.votes ∧ a.address ≤ b.address)

instance (a b : Candidate) : Decidable (Candidate.before a b) := by
  unfold Candidate.before; infer_instance

/-- Modelled from the spec: `sort.Sort(candidates)`. -/
def sortCandidates (l : CandidateList) : CandidateList :=
  l.insertionSort Candidate.before

/-- Result of `RunActions`: the working set and gas limit when it returned, and
its three return values. -/
structure RunResult where
  ws : WorkingSet
  gasLimit : Nat
  root : Hash32B
  receipts : Option (Map Receipt)
  err : Option Err

/-- The failing return `hash.ZeroHash32B, nil, err` of `RunActions`. -/
def RunResult.fail (ws : WorkingSet) (gasLimit : Nat) (e : Err) : RunResult :=
  ⟨ws, gasLimit, ZeroHash32B, none, some e⟩

/-- Recovery of `cachedCandidates` at the start of `RunActions` (after
`ws.blkHeight = blockHeight`). -/
def recoverCandidates (env : Env) (ws : WorkingSet) (blockHeight : Nat) :
    Except Err WorkingSet :=
  if blockHeight > 0 ∧ ws.cachedCandidates.keys.length = 0 then
    let candidates : CandidateList :=
      match ws.getCandidates env (blockHeight - 1) with
      | .error _ => []
      | .ok candidates => candidates
    match CandidatesToMap env candidates with
    | .error e => .error e
    | .ok m => .ok { ws with cachedCandidates := m }
  else .ok ws

/-- One iteration of the loop of `RunActions` over `ws.cachedStates`: the
working set when the iteration ends or returns, and the error returned. -/
def flushState (env : Env) (blockHeight : Nat) (ws : WorkingSet) (addr : PKHash)
    (state : Iotex.State) : WorkingSet × Option Err :=
  match ws.PutState env addr state with
  | .error e => (ws, some e)
  | .ok ws =>
    match stateToAccountState state with
    | .error e => (ws, some e)
    | .ok account =>
      if !account.isCandidate then
        ({ ws with cachedCandidates := ws.cachedCandidates.erase addr }, none)
      else
        let totalWeight : Int := 0 + account.votingWeight
        match env.AddressToPKHash account.votee with
        | none => (ws, some Err.invalidAddress)
        | some voteePKHash =>
          let totalWeight := if addr = voteePKHash then totalWeight + account.balance
                             else totalWeight
          match ws.updateCandidate addr totalWeight blockHeight with
          | .error e => (ws, some e)
          | .ok ws => (ws, none)

/-- The loop of `RunActions` over the entries of `ws.cachedStates`, in the
given order of visit. -/
def flushStates (env : Env) (blockHeight : Nat) :
    List (PKHash × Iotex.State) → WorkingSet → WorkingSet × Option Err
  | [], ws => (ws, none)
  | (addr, state) :: rest, ws =>
    match flushState env blockHeight ws addr state with
    | (ws, some e) => (ws, some e)
    | (ws, none) => flushStates env blockHeight rest ws

/-- The loop of `RunActions` over `ws.cachedContract`. -/
def flushContracts (env : Env) :
    List (PKHash × Contract) → WorkingSet → WorkingSet × Option Err
  | [], ws => (ws, none)
  | (addr, contract) :: rest, ws =>
    match contract.Commit env with
    | .error e => (ws, some e)
    | .ok contract =>
      let ws := { ws with cachedContract := ws.cachedContract.insert addr contract }
      match ws.PutState env addr (Iotex.State.account contract.SelfState) with
      | .error e => (ws, some e)
      | .ok ws => flushContracts env rest ws

/-- One iteration of the loop of `RunActions` that raises the nonce of executors. -/
def bumpExecutor (env : Env) (ws : WorkingSet) (e : Execution) : WorkingSet × Option Err :=
  match env.AddressToPKHash e.executor with
  | none => (ws, some Err.invalidAddress)
  | some executorPKHash =>
    match ws.CachedState env executorPKHash with
    | .error err => (ws, some err)
    | .ok (state, ws) =>
      match stateToAccountState state with
      | .error err => (ws, some err)
      | .ok account =>
        let account := if e.nonce > account.nonce then { account with nonce := e.nonce }
                       else account
        let ws := ws.setAccount executorPKHash account
        match ws.PutState env executorPKHash (Iotex.State.account account) with
        | .error err => (ws, some err)
        | .ok ws => (ws, none)

/-- The loop of `RunActions` over the executions. -/
def bumpExecutors (env : Env) : List Execution → WorkingSet → WorkingSet × Option Err
  | [], ws => (ws, none)
  | e :: rest, ws =>
    match bumpExecutor env ws e with
    | (ws, some err) => (ws, some err)
    | (ws, none) => bumpExecutors env rest ws

/-- State of the loop of `RunActions` that dispatches actions to the handlers. -/
structure HandlerState where
  ws : WorkingSet
  gasLimit : Nat
  receipts : Map Receipt
  err : Option Err

/-- The inner loop over the handlers, for one action. -/
def runHandlersOn (act : Action) : List ActionHandler → HandlerState → HandlerState
  | [], st => st
  | h :: rest, st =>
    match h act st.ws st.gasLimit with
    | (ws, gl, .error e) => ⟨ws, gl, st.receipts, some e⟩
    | (ws, gl, .ok none) => runHandlersOn act rest ⟨ws, gl, st.receipts, none⟩
    | (ws, gl, .ok (some receipt)) =>
      runHandlersOn act rest ⟨ws, gl, st.receipts.insert act.hash receipt, none⟩

/-- The outer loop over the actions. -/
def runHandlers (handlers : List ActionHandler) : List Action → HandlerState → HandlerState
  | [], st => st
  | act :: rest, st =>
    let st := runHandlersOn act handlers st
    match st.err with
    | some _ => st
    | none => runHandlers handlers rest st

/-- The end of `RunActions`: the three finalisation writes and the return value. -/
def finalize (env : Env) (blockHeight : Nat) (ws : WorkingSet) (gasLimit : Nat)
    (receipts : Map Receipt) : RunResult :=
  let rootHash := ws.accountTrie.RootHash env
  let ws := { ws with cb := ws.cb.Put AccountKVNameSpace env.AccountTrieRootKey rootHash }
  match MapToCandidates env ws.cachedCandidates with
  | .error e => RunResult.fail ws gasLimit e
  | .ok candidates =>
    let candidates := sortCandidates candidates
    match env.SerializeCandidates candidates with
    | none => RunResult.fail ws gasLimit Err.serialization
    | some candidatesBytes =>
      let h := Uint64ToBytes blockHeight
      let ws := { ws with cb := ws.cb.Put CandidateKVNameSpace h candidatesBytes }
      let ws := { ws with cb := ws.cb.Put AccountKVNameSpace env.CurrentHeightKey h }
      ⟨ws, gasLimit, ws.RootHash env, some receipts, none⟩

/-- The body of `RunActions` after the recovery of `cachedCandidates`: context,
producer, transfers, votes, the flushes, the nonces of executors, the handlers
and the finalisation. -/
def runActionsFrom (env : Env) (handlers : List ActionHandler) (ws : WorkingSet)
    (ctx : Option RunActionsCtx) (blockHeight : Nat) (actions : List Action) : RunResult :=
  match ctx with
  | none => RunResult.fail ws 0 Err.missingCtx
  | some raCtx =>
    match ws.LoadOrCreateAccountState env raCtx.ProducerAddr 0 with
    | .error e => RunResult.fail ws raCtx.GasLimit e
    | .ok (producer, ws) =>
      let (tsfs, votes, executions) := ClassifyActions actions
      let r := handleTsf env producer tsfs ws raCtx.GasLimit raCtx.EnableGasCharge
      match r.err with
      | some e => RunResult.fail r.ws r.gasLimit e
      | none =>
        let r := handleVote env producer blockHeight votes r.ws r.gasLimit raCtx.EnableGasCharge
        match r.err with
        | some e => RunResult.fail r.ws r.gasLimit e
        | none =>
          match flushStates env blockHeight (rangeEntries env r.ws.cachedStates) r.ws with
          | (ws, some e) => RunResult.fail ws r.gasLimit e
          | (ws, none) =>
            match flushContracts env (rangeEntries env ws.cachedContract) ws with
            | (ws, some e) => RunResult.fail ws r.gasLimit e
            | (ws, none) =>
              match bumpExecutors env executions ws with
              | (ws, some e) => RunResult.fail ws r.gasLimit e
              | (ws, none) =>
                let st := runHandlers handlers actions ⟨ws, r.gasLimit, ∅, none⟩
                match st.err with
                | some e => RunResult.fail st.ws st.gasLimit e
                | none => finalize env blockHeight st.ws st.gasLimit st.receipts

/-- Method `RunActions`. The context is `none` when `state.GetRunActionsCtx`
finds no `RunActionsCtx`; `handlers` is the field `ws.actionHandlers`. -/
def WorkingSet.RunActions (env : Env) (handlers : List ActionHandler) (ws : WorkingSet)
    (ctx : Option RunActionsCtx) (blockHeight : Nat) (actions : List Action) : RunResult :=
  let ws := { ws with blkHeight := blockHeight }
  match recoverCandidates env ws blockHeight with
  | .error e => RunResult.fail ws (match ctx with | some c => c.GasLimit | none => 0) e
  | .ok ws => runActionsFrom env handlers ws ctx blockHeight actions

/-- The body of `RunActions` before the finalisation writes: the recovery of
the candidates, the context, the producer, the transfers, the votes, the two
flushes, the nonces of executors and the handlers. The result is the state
handed to the finalisation, or the failing return of the stage that failed. -/
def runStages (env : Env) (handlers : List ActionHandler) (ws : WorkingSet)
    (ctx : Option RunActionsCtx) (blockHeight : Nat) (actions : List Action) :
    Except RunResult HandlerState :=
  let ws := { ws with blkHeight := blockHeight }
  match recoverCandidates env ws blockHeight with
  | .error e => .error (RunResult.fail ws (match ctx with | some c => c.GasLimit | none => 0) e)
  | .ok ws =>
    match ctx with
    | none => .error (RunResult.fail ws 0 Err.missingCtx)
    | some raCtx =>
      match ws.LoadOrCreateAccountState env raCtx.ProducerAddr 0 with
      | .error e => .error (RunResult.fail ws raCtx.GasLimit e)
      | .ok (producer, ws) =>
        let (tsfs, votes, executions) := ClassifyActions actions
        let r := handleTsf env producer tsfs ws raCtx.GasLimit raCtx.EnableGasCharge
        match r.err with
        | some e => .error (RunResult.fail r.ws r.gasLimit e)
        | none =>
          let r := handleVote env producer blockHeight votes r.ws r.gasLimit
            raCtx.EnableGasCharge
          match r.err with
          | some e => .error (RunResult.fail r.ws r.gasLimit e)
          | none =>
            match flushStates env blockHeight (rangeEntries env r.ws.cachedStates) r.ws with
            | (ws, some e) => .error (RunResult.fail ws r.gasLimit e)
            | (ws, none) =>
              match flushContracts env (rangeEntries env ws.cachedContract) ws with
              | (ws, some e) => .error (RunResult.fail ws r.gasLimit e)
              | (ws, none) =>
                match bumpExecutors env executions ws with
                | (ws, some e) => .error (RunResult.fail ws r.gasLimit e)
                | (ws, none) =>
                  let st := runHandlers handlers actions ⟨ws, r.gasLimit, ∅, none⟩
                  match st.err with
                  | some e => .error (RunResult.fail st.ws st.gasLimit e)
                  | none => .ok st

/-! ## Views of the working set used to state the properties -/

/-- The account `LoadOrCreateAccountState(addr, 0)` returns for the hash `h`,
computed without changing the working set: the cached state if there is one,
otherwise the account stored in the trie, otherwise a fresh zero account. -/
def WorkingSet.view (env : Env) (ws : WorkingSet) (h : PKHash) : Except Err Account :=
  match ws.cachedStates.lookup h with
  | some s => stateToAccountState s
  | none =>
    match ws.State env h with
    | .error Err.ErrStateNotExist => .ok Account.zero
    | .error e => .error e
    | .ok a => .ok a

/-- The working set after an account has been brought into the cache. -/
def WorkingSet.ensure (ws : WorkingSet) (h : PKHash) (a : Account) : WorkingSet :=
  match ws.cachedStates.lookup h with
  | some _ => ws
  | none => ws.setAccount h a

/-- The key `h` is cached and holds an account. -/
def WorkingSet.cachedAccount (ws : WorkingSet) (h : PKHash) : Prop :=
  ∃ a, ws.cachedStates.lookup h = some (Iotex.State.account a)

/-- Rules of invariance for the transfer loop: a property `P` of the working
set that is kept by every elementary update `handleTsf` performs on an account
reached through a pointer into the cache. `A` describes the amounts that are
credited to a balance (transfer amounts and gas fees). -/
structure TsfInvariant (env : Env) (P : WorkingSet → Prop) (A : Int → Prop) : Prop where
  load : ∀ {ws ws' : WorkingSet} {addr : String} {h : PKHash}, P ws →
    ws.LoadOrCreateAccountState env addr 0 = .ok (h, ws') → P ws'
  debit : ∀ {ws : WorkingSet} {h : PKHash} {x : Int}, P ws → ws.cachedAccount h →
    x ≤ (ws.account h).balance →
    P (ws.setAccount h { ws.account h with balance := (ws.account h).balance - x })
  credit : ∀ {ws : WorkingSet} {h : PKHash} {x : Int}, P ws → ws.cachedAccount h → A x →
    P (ws.setAccount h { ws.account h with balance := (ws.account h).balance + x })
  nonce : ∀ {ws : WorkingSet} {h : PKHash} {n : Nat}, P ws → ws.cachedAccount h →
    (ws.account h).nonce < n → P (ws.setAccount h { ws.account h with nonce := n })
  weight : ∀ {ws : WorkingSet} {h : PKHash} (w : Int), P ws → ws.cachedAccount h →
    P (ws.setAccount h { ws.account h with votingWeight := w })

/-- Rules of invariance for both action loops: the rules of the transfer loop
and those for the updates only `handleVote` performs. -/
structure Invariant (env : Env) (P : WorkingSet → Prop) (A : Int → Prop)
    extends TsfInvariant env P A : Prop where
  votee : ∀ {ws : WorkingSet} {h : PKHash} (s : String), P ws → ws.cachedAccount h →
    P (ws.setAccount h { ws.account h with votee := s })
  unvote : ∀ {ws : WorkingSet} {h : PKHash}, P ws → ws.cachedAccount h →
    P (ws.setAccount h { ws.account h with isCandidate := false })
  nominate : ∀ {ws : WorkingSet} {h : PKHash} (blockHeight : Nat) (v : Vote), P ws →
    ws.cachedAccount h → P (selfNominate blockHeight v h h ws)

/-- The error is a failure to load an account: the address does not decode,
the trie read fails, the stored bytes do not decode, or the cached state is
not an account. -/
def Err.loadFailure (e : Err) : Prop :=
  e = Err.invalidAddress ∨ e = Err.trieFailure ∨ e = Err.serialization ∨ e = Err.castFailure

/-- The address loads: it decodes and the account is readable. -/
def Loads (env : Env) (ws : WorkingSet) (addr : String) : Prop :=
  ∃ h a, env.AddressToPKHash addr = some h ∧ ws.view env h = .ok a

/-- Every account the working set can see has a non-negative balance. -/
def NonNeg (env : Env) (ws : WorkingSet) : Prop :=
  ∀ h a, ws.view env h = .ok a → 0 ≤ a.balance

/-- The nonce of the account at `h` as the working set sees it (`0` when the
account cannot be read). -/
def nonceOf (env : Env) (ws : WorkingSet) (h : PKHash) : Nat :=
  match ws.view env h with
  | .ok a => a.nonce
  | .error _ => 0

/-- Every visible account that is flagged `isCandidate` has an entry in
`cachedCandidates`. -/
def CandidatesCover (env : Env) (ws : WorkingSet) : Prop :=
  ∀ h a, ws.view env h = .ok a → a.isCandidate = true → h ∈ ws.cachedCandidates

/-- Relative to `ws0`, every readable account is still readable and has the
same votee. -/
def KeepsVotee (env : Env) (ws0 ws : WorkingSet) : Prop :=
  ∀ k a, ws0.view env k = .ok a → ∃ a', ws.view env k = .ok a' ∧ a'.votee = a.votee

/-- Every cached account that is flagged `isCandidate` has an entry in
`cachedCandidates`. -/
def CachedCover (ws : WorkingSet) : Prop :=
  ∀ h a, ws.cachedStates.lookup h = some (Iotex.State.account a) → a.isCandidate = true →
    h ∈ ws.cachedCandidates

/-- The visit of the entry `(addr, state)` by the flush of the cached states can
succeed on `ws`: the state serialises, the upsert of the key does not fail, the
state is an account, and if the account is a candidate its votee decodes and
the pool has an entry for `addr`. -/
def FlushOk (env : Env) (ws : WorkingSet) (p : PKHash × Iotex.State) : Prop :=
  (∃ ss, env.Serialize p.2 = some ss) ∧ env.trieUpsertFails p.1 = false ∧
  ∃ a, p.2 = Iotex.State.account a ∧
    (a.isCandidate = true →
      (∃ hv, env.AddressToPKHash a.votee = some hv) ∧ p.1 ∈ ws.cachedCandidates)

/-- The entries of a map as a list of pairs. -/
def mapEntries {V : Type} (m : Map V) : List (Bytes × V) := m.entries.map (fun e => (e.1, e.2))

/-- Equality of results is decidable when equality of errors and values is. -/
instance instDecidableEqExcept {ε α : Type} [DecidableEq ε] [DecidableEq α] :
    DecidableEq (Except ε α) := fun a b =>
  match a, b with
  | .ok x, .ok y =>
    if h : x = y then isTrue (by rw [h]) else isFalse (fun h' => h (by cases h'; rfl))
  | .error x, .error y =>
    if h : x = y then isTrue (by rw [h]) else isFalse (fun h' => h (by cases h'; rfl))
  | .ok _, .error _ => isFalse (fun h' => by cases h')
  | .error _, .ok _ => isFalse (fun h' => by cases h')

/-! ## Calls on a cached batch and the reading of a log -/

/-- A call of one of the mutating methods of a `CachedBatch`. -/
inductive BatchCall where
  | Put (ns : String) (key value : Bytes)
  | PutIfNotExists (ns : String) (key value : Bytes)
  | Delete (ns : String) (key : Bytes)
  | Clear
  deriving DecidableEq, Repr

/-- Modelled from the spec: the call returns without error; only a
`PutIfNotExists` can be refused. -/
def CachedBatch.accepts (cb : CachedBatch) : BatchCall → Bool
  | BatchCall.PutIfNotExists ns key value =>
    match cb.PutIfNotExists ns key value with
    | .ok _ => true
    | .error _ => false
  | _ => true

/-- Modelled from the spec: the batch after a call; a refused `PutIfNotExists`
fails immediately and leaves the batch as it was. -/
def CachedBatch.call (cb : CachedBatch) : BatchCall → CachedBatch
  | BatchCall.Put ns key value => cb.Put ns key value
  | BatchCall.PutIfNotExists ns key value =>
    match cb.PutIfNotExists ns key value with
    | .ok cb' => cb'
    | .error _ => cb
  | BatchCall.Delete ns key => cb.Delete ns key
  | BatchCall.Clear => cb.Clear

/-- The batch after a sequence of calls. -/
def CachedBatch.run (cb : CachedBatch) : List BatchCall → CachedBatch
  | [] => cb
  | c :: rest => (cb.call c).run rest

/-- The calls of a sequence that returned without error, in order. -/
def CachedBatch.accepted (cb : CachedBatch) : List BatchCall → List BatchCall
  | [] => []
  | c :: rest => (if cb.accepts c then [c] else []) ++ (cb.call c).accepted rest

/-- The write operation a call asks to record: its kind, namespace, key and
value, a `Delete` carrying no value; `Clear` records nothing. -/
def BatchCall.op : BatchCall → Option WriteOp
  | BatchCall.Put ns key value => some ⟨WriteType.Put, ns, key, some value⟩
  | BatchCall.PutIfNotExists ns key value =>
    some ⟨WriteType.PutIfNotExists, ns, key, some value⟩
  | BatchCall.Delete ns key => some ⟨WriteType.Delete, ns, key, none⟩
  | BatchCall.Clear => none

/-- The operation is on `(ns, key)`. -/
def WriteOp.touches (w : WriteOp) (ns : String) (key : Bytes) : Prop :=
  w.ns = ns ∧ w.key = key

instance (w : WriteOp) (ns : String) (key : Bytes) : Decidable (w.touches ns key) := by
  unfold WriteOp.touches; infer_instance

/-- The most recent operation of a log on `(ns, key)`, if there is one. -/
def lastOp : List WriteOp → String → Bytes → Option WriteOp
  | [], _, _ => none
  | w :: rest, ns, key =>
    match lastOp rest ns key with
    | some w' => some w'
    | none => if w.touches ns key then some w else none

/-- What a read of the key returns right after the operation: the value
written, or `ErrNotExist` after a `Delete`. -/
def WriteOp.reads (w : WriteOp) : Except Err Bytes :=
  match w.writeType with
  | WriteType.Delete => .error Err.ErrNotExist
  | _ => .ok (w.value.getD [])

/-- What a read of `(ns, key)` returns according to a log alone: the reading of
its most recent operation on the key, `ErrNotExist` when there is none. -/
def logReads (q : List WriteOp) (ns : String) (key : Bytes) : Except Err Bytes :=
  match lastOp q ns key with
  | none => .error Err.ErrNotExist
  | some w => w.reads

/-- The calls of a sequence that come after its last `Clear` (all of them when
there is none). -/
def sinceClear : List BatchCall → List BatchCall
  | [] => []
  | c :: rest =>
    if BatchCall.Clear ∈ rest then sinceClear rest
    else if c = BatchCall.Clear then rest else c :: rest

/-- The log of a sequence of calls on a fresh batch: the operations of the
calls that returned without error since the last `Clear`, in order. -/
def recordedOps (calls : List BatchCall) : List WriteOp :=
  (sinceClear (NewCachedBatch.accepted calls)).filterMap BatchCall.op

/-- The overlay of the batch agrees with its log: every read returns what the
log alone tells. -/
def CachedBatch.Coherent (cb : CachedBatch) : Prop :=
  ∀ ns key, cb.Get ns key = logReads cb.writeQueue ns key

/-- The values of a map, in the order of its entries. -/
def mapValues {V : Type} (m : Map V) : List V := m.entries.map (fun e => e.2)

/-! ## The ledger: every account as the working set sees it -/

/-- The account at every hash as the working set sees it. An account that does
not exist yet, or that cannot be read, counts as the zero account. -/
def WorkingSet.ledger (env : Env) (ws : WorkingSet) (k : PKHash) : Account :=
  match ws.view env k with
  | .ok a => a
  | .error _ => Account.zero

/-- The ledger after the account at `h` has been replaced by `g` of it. -/
def setAt (G : PKHash → Account) (h : PKHash) (g : Account → Account) : PKHash → Account :=
  fun k => if k = h then g (G h) else G k

/-- The account after `x` has been added to its balance. -/
def Account.credit (x : Int) (a : Account) : Account := { a with balance := a.balance + x }

/-- The account after `x` has been added to its voting weight. -/
def Account.addWeight (x : Int) (a : Account) : Account :=
  { a with votingWeight := a.votingWeight + x }

/-- The account after its nonce has been raised to `n` if `n` is larger. -/
def Account.bump (n : Nat) (a : Account) : Account :=
  if n > a.nonce then { a with nonce := n } else a

/-- The hash of the votee whose weight follows the balance of the account `a`,
which is known under the address `self`: the hash of its votee if the votee is
set and is not `self`. -/
def delegate (env : Env) (self : String) (a : Account) : Option PKHash :=
  if a.votee ≠ "" ∧ a.votee ≠ self then env.AddressToPKHash a.votee else none

/-- The ledger after the weight of the delegate of the account at `h` has
changed by `x`. -/
def shiftWeight (env : Env) (self : String) (h : PKHash) (x : Int) (G : PKHash → Account) :
    PKHash → Account :=
  match delegate env self (G h) with
  | some hv => setAt G hv (Account.addWeight x)
  | none => G

/-- The ledger after `payer` has paid the gas fee to the producer. -/
def gasEffect (producer payer : PKHash) (fee : Int) (G : PKHash → Account) : PKHash → Account :=
  setAt (setAt G payer (Account.credit (-fee))) producer (Account.credit fee)

/-- The effect of the sender part of one iteration of `handleTsf` on the ledger,
when the iteration succeeds. -/
def senderEffect (env : Env) (producer : PKHash) (tx : Transfer) (e : Bool)
    (G : PKHash → Account) : PKHash → Account :=
  match env.AddressToPKHash tx.sender with
  | none => G
  | some hs =>
    let G := if e then gasEffect producer hs (tx.fee true) G else G
    let G := setAt (setAt G hs (Account.credit (-tx.amount))) hs (Account.bump tx.nonce)
    shiftWeight env tx.sender hs (-tx.amount) G

/-- The effect of the recipient part of one iteration of `handleTsf` on the
ledger, when the iteration succeeds. -/
def recipientEffect (env : Env) (tx : Transfer) (G : PKHash → Account) : PKHash → Account :=
  match env.AddressToPKHash tx.recipient with
  | none => G
  | some hr => shiftWeight env tx.recipient hr tx.amount (setAt G hr (Account.credit tx.amount))

/-- The effect of one iteration of `handleTsf` on the ledger, when the iteration
succeeds. -/
def tsfEffect (env : Env) (producer : PKHash) (tx : Transfer) (e : Bool)
    (G : PKHash → Account) : PKHash → Account :=
  if tx.isContract then G
  else if !tx.isCoinbase then recipientEffect env tx (senderEffect env producer tx e G)
  else recipientEffect env tx G

/-- The gas fee charged for a vote: `gasPrice × intrinsicGas`. -/
def Vote.fee (v : Vote) : Int := v.gasPrice * ((v.intrinsicGas.getD 0 : Nat) : Int)

/-- The effect of the update of the old votee in `handleVote` on the ledger. -/
def oldVoteeEffect (env : Env) (v : Vote) (hf : PKHash) (G : PKHash → Account) :
    PKHash → Account :=
  match delegate env v.voter (G hf) with
  | some ho =>
    setAt (setAt G ho (Account.addWeight (-(G hf).balance))) hf (fun a => { a with votee := "" })
  | none => G

/-- The effect of the unvote or the vote for the new votee in `handleVote` on the
ledger. -/
def newVoteeEffect (env : Env) (v : Vote) (hf : PKHash) (G : PKHash → Account) :
    PKHash → Account :=
  if v.votee = "" then setAt G hf (fun a => { a with isCandidate := false })
  else
    match env.AddressToPKHash v.votee with
    | none => G
    | some ht =>
      if v.voter ≠ v.votee then
        setAt (setAt G ht (Account.addWeight (G hf).balance)) hf
          (fun a => { a with votee := v.votee })
      else setAt G hf (fun a => { a with votee := v.voter, isCandidate := true })

/-- The effect of one iteration of `handleVote` on the ledger, when the
iteration succeeds. -/
def voteEffect (env : Env) (producer : PKHash) (v : Vote) (e : Bool)
    (G : PKHash → Account) : PKHash → Account :=
  match env.AddressToPKHash v.voter with
  | none => G
  | some hf =>
    let G := if e then gasEffect producer hf v.fee G else G
    let G := setAt G hf (Account.bump v.nonce)
    newVoteeEffect env v hf (oldVoteeEffect env v hf G)

/-- The hash of the sender of a transfer is `k`. -/
def Transfer.sentBy (env : Env) (k : PKHash) (tx : Transfer) : Bool :=
  env.AddressToPKHash tx.sender = some k

/-- The hash of the voter of a vote is `k`. -/
def Vote.castBy (env : Env) (k : PKHash) (v : Vote) : Bool :=
  env.AddressToPKHash v.voter = some k

/-- The hash of the executor of an execution is `k`. -/
def Execution.runBy (env : Env) (k : PKHash) (x : Execution) : Bool :=
  env.AddressToPKHash x.executor = some k

/-- The maximum of `n` and the numbers of a list. -/
def maxNonce (n : Nat) (l : List Nat) : Nat := l.foldl max n

/-- The total amount of the coinbase transfers of a list that `handleTsf` does
not skip as contract transfers. -/
def coinbaseTotal : List Transfer → Int
  | [] => 0
  | tx :: rest => (if tx.isCoinbase ∧ ¬ tx.isContract then tx.amount else 0) + coinbaseTotal rest

/-- The total amount of all coinbase transfers of a list. -/
def coinbaseAmount : List Transfer → Int
  | [] => 0
  | tx :: rest => (if tx.isCoinbase then tx.amount else 0) + coinbaseAmount rest

/-- From the ledger `G` to the ledger `G'` the balances change on finitely many
accounts only, and their sum over any finite set that contains these accounts
grows by `c`. -/
def Moves (G G' : PKHash → Account) (c : Int) : Prop :=
  ∃ S : Finset PKHash, (∀ k, k ∉ S → (G' k).balance = (G k).balance) ∧
    ∀ K : Finset PKHash, S ⊆ K → ∑ k in K, (G' k).balance = ∑ k in K, (G k).balance + c

/-- The address decoder maps different addresses to different hashes. -/
def DecoderInjective (env : Env) : Prop :=
  ∀ s t h, env.AddressToPKHash s = some h → env.AddressToPKHash t = some h → s = t

/-- The account `a` has voted for the account at `X`. -/
def votesFor (env : Env) (a : Account) (X : PKHash) : Prop :=
  a.votee ≠ "" ∧ env.AddressToPKHash a.votee = some X

instance (env : Env) (a : Account) (X : PKHash) : Decidable (votesFor env a X) := by
  unfold votesFor; exact inferInstance

/-- The sum of the balances of the accounts of `K` other than `X` that have
voted for `X`. -/
def weightSum (env : Env) (G : PKHash → Account) (K : Finset PKHash) (X : PKHash) : Int :=
  ∑ Y in K.filter (fun Y => Y ≠ X ∧ votesFor env (G Y) X), (G Y).balance

/-- What the account `a` at the hash `Y` adds to the sum of `X`: its balance if
`Y` is not `X` and `a` has voted for `X`. -/
def contrib (env : Env) (a : Account) (Y X : PKHash) : Int :=
  if Y ≠ X ∧ votesFor env a X then a.balance else 0

/-- Every account outside `K` has balance zero. -/
def Covers (G : PKHash → Account) (K : Finset PKHash) : Prop :=
  ∀ k, k ∉ K → (G k).balance = 0

/-- The delegated-weight property of a ledger: the voting weight of every
account is the sum of the balances of the other accounts that have voted for
it. All balances outside a finite set are zero. -/
def Delegated (env : Env) (G : PKHash → Account) : Prop :=
  ∃ K : Finset PKHash, Covers G K ∧ ∀ X, (G X).votingWeight = weightSum env G K X

/-! ## A concrete environment and working set for the examples -/

/-- An environment with four addresses, mapped to the hashes `[1]`, `[2]`,
`[3]` and `[4]`; every other string fails to decode. -/
def demoEnv : Env :=
  { AddressToPKHash := fun s =>
      if s = "io1alice" then some [1] else if s = "io1bob" then some [2]
      else if s = "io1producer" then some [3] else if s = "io1carol" then some [4]
      else none
    Serialize := fun s => match s with
      | Iotex.State.account a => some [a.nonce, a.balance.toNat]
      | Iotex.State.other _ => none
    Deserialize := fun _ => none
    trieGetFails := fun _ => false
    trieUpsertFails := fun _ => false
    trieWrites := fun _ key value => [⟨WriteType.Put, AccountKVNameSpace, key, some value⟩]
    trieRoot := fun t => t.entries.keys.flatten
    rangeOrder := fun l => l
    storeGetFails := fun _ _ => false
    DeserializeCandidates := fun _ => none
    SerializeCandidates := fun l => some (l.map (fun c => c.votes.toNat))
    contractCommitFails := fun _ => false
    AccountTrieRootKey := [0]
    CurrentHeightKey := [1] }

/-- A working set with the given cached states and nothing else. -/
def demoWs (cached : Map Iotex.State) : WorkingSet :=
  { ver := 1, blkHeight := 0, cachedCandidates := ∅, cachedStates := cached,
    cachedContract := ∅, accountTrie := ⟨∅⟩, cb := NewCachedBatch, dao := ⟨∅⟩ }

/-- An account with the given balance and all other fields zero. -/
def acct (balance : Int) : Account := { Account.zero with balance := balance }

/-- Alice holds `balance`; the producer is cached with balance zero. -/
def demoCache (balance : Int) : Map Iotex.State :=
  ((∅ : Map Iotex.State).insert [1] (Iotex.State.account (acct balance))).insert [3]
    (Iotex.State.account (acct 0))

/-- A plain transfer from alice to bob. -/
def demoTransfer (amount gasPrice : Int) (gas : Nat) : Transfer :=
  { nonce := 1, amount := amount, sender := "io1alice", recipient := "io1bob",
    gasPrice := gasPrice, intrinsicGas := some gas, isCoinbase := false, isContract := false,
    hash := [7] }

/-- A transfer of `amount` from alice to herself, without gas price. -/
def demoSelfTransfer (amount : Int) : Transfer :=
  { demoTransfer amount 0 0 with recipient := "io1alice" }

/-- A coinbase transfer of `amount` to bob. -/
def demoCoinbase (amount : Int) : Transfer :=
  { nonce := 0, amount := amount, sender := "", recipient := "io1bob", gasPrice := 0,
    intrinsicGas := some 0, isCoinbase := true, isContract := false, hash := [8] }

/-- Bob is cached with balance 0 and has voted for carol; the producer is cached. -/
def demoVoterCache : Map Iotex.State :=
  ((∅ : Map Iotex.State).insert [2]
    (Iotex.State.account { acct 0 with votee := "io1carol" })).insert [3]
    (Iotex.State.account (acct 0))

/-- A vote of alice for herself. -/
def demoSelfVote : Vote :=
  { nonce := 1, voter := "io1alice", votee := "io1alice", voterPublicKey := [9],
    gasPrice := 0, intrinsicGas := some 0, hash := [10] }

/-- The working set at the start of block 7: alice holds 500, the producer is
cached, the candidate pool is empty. -/
def demoBlockStart : WorkingSet :=
  { demoWs (demoCache 500) with blkHeight := 7 }

/-- The result of the flush of the cached states at height 7 after alice has
voted for herself. -/
def demoFlushed : WorkingSet × Option Err :=
  flushStates demoEnv 7
    (rangeEntries demoEnv
      (handleVote demoEnv [3] 7 [demoSelfVote] (handleTsf demoEnv [3] [] demoBlockStart 100 false).ws
        (handleTsf demoEnv [3] [] demoBlockStart 100 false).gasLimit false).ws.cachedStates)
    (handleVote demoEnv [3] 7 [demoSelfVote] (handleTsf demoEnv [3] [] demoBlockStart 100 false).ws
      (handleTsf demoEnv [3] [] demoBlockStart 100 false).gasLimit false).ws

/-- A store whose only entry is an undecodable value where the candidate
snapshot of height 6 is expected. -/
def demoBadStore : KVStore :=
  (⟨∅⟩ : KVStore).Put CandidateKVNameSpace (Uint64ToBytes 6) [1, 2, 3]

/-- The context of the examples: the producer, a gas limit of 100, no gas charging. -/
def demoCtx : RunActionsCtx :=
  { ProducerAddr := "io1producer", GasLimit := 100, EnableGasCharge := false }

/-- A store whose only entry is `(test_ns2, [1]) ↦ [10]`. -/
def demoStore : KVStore := (⟨∅⟩ : KVStore).Put "test_ns2" [1] [10]

/-- The calls of the test of the batch: a put, a refused create, two deletes
and a create. -/
def demoCalls : List BatchCall :=
  [BatchCall.Put "test_ns1" [1] [11], BatchCall.PutIfNotExists "test_ns1" [1] [11],
   BatchCall.Delete "test_ns1" [4], BatchCall.Delete "test_ns1" [1],
   BatchCall.PutIfNotExists "test_ns1" [1] [11]]

/-- A put followed by the creation of a key that `demoStore` holds. -/
def demoCollidingCalls : List BatchCall :=
  [BatchCall.Put "test_ns1" [3] [13], BatchCall.PutIfNotExists "test_ns2" [1] [12]]

/-- A put followed by the deletion of the key that `demoStore` holds. -/
def demoCleanCalls : List BatchCall :=
  [BatchCall.Put "test_ns1" [3] [13], BatchCall.Delete "test_ns2" [1]]

/-- A working set with cached accounts over `demoStore`, whose shared batch
has received the given calls. -/
def demoCommit (calls : List BatchCall) : WorkingSet :=
  { demoWs (demoCache 500) with dao := demoStore, cb := NewCachedBatch.run calls }

/-- Alice holds 500 and has voted for bob, whose voting weight is 500; the
producer is cached. -/
def demoRevoteCache : Map Iotex.State :=
  (((∅ : Map Iotex.State).insert [1]
    (Iotex.State.account { acct 500 with votee := "io1bob" })).insert [2]
    (Iotex.State.account { acct 0 with votingWeight := 500 })).insert [3]
    (Iotex.State.account (acct 0))

/-- A vote of alice for the given votee (an unvote when it is empty). -/
def demoVote (votee : String) : Vote :=
  { nonce := 1, voter := "io1alice", votee := votee, voterPublicKey := [9],
    gasPrice := 0, intrinsicGas := some 0, hash := [11] }

/-- The environment of the examples with a candidate encoder that fails. -/
def demoEnvNoEncoder : Env := { demoEnv with SerializeCandidates := fun _ => none }

/-- Collaborators of the contract functions for the examples: every trie opens
empty, the sentinel is `[0]`. -/
def demoContractEnv : ContractEnv :=
  { newTrieFails := fun _ => false, openTrie := fun _ _ _ => ⟨∅⟩, EmptyRoot := [0],
    Hash256b := fun code => code, BytesTo32B := fun b => b }

/-- The environment of the examples with a decoder of stored accounts: every
stored value decodes to an account of balance 5. -/
def demoEnvStored : Env := { demoEnv with Deserialize := fun _ => some (acct 5) }

/-- A fresh working set, with empty caches, over an account trie that holds the
account of alice. -/
def demoWsStored : WorkingSet :=
  { demoWs ∅ with accountTrie := ⟨(∅ : Map Bytes).insert [1] [0, 5]⟩ }

/-! ## Basic facts about the cache -/

theorem account_setAccount (ws : WorkingSet) (h k : PKHash) (a : Account) :
    (ws.setAccount h a).account k = if k = h then a else ws.account k := by
  unfold WorkingSet.account WorkingSet.setAccount
  by_cases hk : k = h
  · subst hk; simp
  · simp [hk, AList.lookup_insert_ne hk]

theorem lookup_setAccount (ws : WorkingSet) (h k : PKHash) (a : Account) :
    (ws.setAccount h a).cachedStates.lookup k =
      if k = h then some (Iotex.State.account a) else ws.cachedStates.lookup k := by
  unfold WorkingSet.setAccount
  by_cases hk : k = h
  · subst hk; simp
  · simp [hk, AList.lookup_insert_ne hk]

theorem State_setAccount (env : Env) (ws : WorkingSet) (h k : PKHash) (a : Account) :
    (ws.setAccount h a).State env k = ws.State env k := rfl

theorem view_setAccount (env : Env) (ws : WorkingSet) (h k : PKHash) (a : Account) :
    (ws.setAccount h a).view env k = if k = h then .ok a else ws.view env k := by
  unfold WorkingSet.view
  rw [lookup_setAccount, State_setAccount]
  by_cases hk : k = h
  · simp [hk, stateToAccountState]
  · simp [hk]

theorem view_of_lookup {env : Env} {ws : WorkingSet} {h : PKHash} {a : Account}
    (hl : ws.cachedStates.lookup h = some (Iotex.State.account a)) :
    ws.view env h = .ok a := by
  simp [WorkingSet.view, hl, stateToAccountState]

theorem account_of_lookup {ws : WorkingSet} {h : PKHash} {a : Account}
    (hl : ws.cachedStates.lookup h = some (Iotex.State.account a)) :
    ws.account h = a := by
  simp [WorkingSet.account, hl]

theorem lookup_ensure_self {env : Env} {ws : WorkingSet} {h : PKHash} {a : Account}
    (hv : ws.view env h = .ok a) :
    (ws.ensure h a).cachedStates.lookup h = some (Iotex.State.account a) := by
  unfold WorkingSet.ensure
  cases hl : ws.cachedStates.lookup h with
  | none => simp [lookup_setAccount]
  | some s =>
    simp only [hl]
    cases s with
    | account b => simp [WorkingSet.view, hl, stateToAccountState] at hv; simp [hv]
    | other t => simp [WorkingSet.view, hl, stateToAccountState] at hv

theorem lookup_ensure_ne (ws : WorkingSet) {h k : PKHash} (a : Account) (hk : k ≠ h) :
    (ws.ensure h a).cachedStates.lookup k = ws.cachedStates.lookup k := by
  unfold WorkingSet.ensure
  cases ws.cachedStates.lookup h with
  | none => simp [lookup_setAccount, hk]
  | some s => rfl

theorem account_ensure_self {env : Env} {ws : WorkingSet} {h : PKHash} {a : Account}
    (hv : ws.view env h = .ok a) : (ws.ensure h a).account h = a :=
  account_of_lookup (lookup_ensure_self hv)

theorem account_ensure_ne (ws : WorkingSet) {h k : PKHash} (a : Account) (hk : k ≠ h) :
    (ws.ensure h a).account k = ws.account k := by
  unfold WorkingSet.account
  rw [lookup_ensure_ne ws a hk]

theorem State_ensure (env : Env) (ws : WorkingSet) (h k : PKHash) (a : Account) :
    (ws.ensure h a).State env k = ws.State env k := by
  unfold WorkingSet.ensure
  cases ws.cachedStates.lookup h <;> rfl

theorem view_ensure {env : Env} {ws : WorkingSet} {h : PKHash} {a : Account}
    (hv : ws.view env h = .ok a) (k : PKHash) :
    (ws.ensure h a).view env k = ws.view env k := by
  by_cases hk : k = h
  · subst hk
    rw [view_of_lookup (lookup_ensure_self hv), hv]
  · unfold WorkingSet.view
    rw [lookup_ensure_ne ws a hk, State_ensure]

/-- `LoadOrCreateAccountState(addr, 0)` in terms of the view: it fails when the
address does not decode or the view is an error, and otherwise brings the
viewed account into the cache. -/
theorem LoadOrCreate_eq_view (env : Env) (ws : WorkingSet) (addr : String) :
    ws.LoadOrCreateAccountState env addr 0 =
      match env.AddressToPKHash addr with
      | none => .error Err.invalidAddress
      | some h =>
        match ws.view env h with
        | .error e => .error e
        | .ok a => .ok (h, ws.ensure h a) := by
  unfold WorkingSet.LoadOrCreateAccountState
  cases hd : env.AddressToPKHash addr with
  | none => rfl
  | some h =>
    simp only
    unfold WorkingSet.CachedState WorkingSet.view WorkingSet.ensure
    cases hl : ws.cachedStates.lookup h with
    | some s =>
      cases s with
      | account b => simp [stateToAccountState]
      | other t => simp [stateToAccountState]
    | none =>
      simp only
      cases hs : ws.State env h with
      | ok a => simp [stateToAccountState, WorkingSet.setAccount]
      | error e =>
        cases e <;> simp [WorkingSet.setAccount, Account.zero]

theorem LoadOrCreate_ok {env : Env} {ws : WorkingSet} {addr : String} {h : PKHash}
    {a : Account} (hd : env.AddressToPKHash addr = some h) (hv : ws.view env h = .ok a) :
    ws.LoadOrCreateAccountState env addr 0 = .ok (h, ws.ensure h a) := by
  rw [LoadOrCreate_eq_view, hd]; simp [hv]

/-! ## Rules of invariance for the action loops -/

theorem cachedAccount_setAccount_self (ws : WorkingSet) (h : PKHash) (a : Account) :
    (ws.setAccount h a).cachedAccount h :=
  ⟨a, by simp [lookup_setAccount]⟩

theorem cachedAccount_setAccount {ws : WorkingSet} {k : PKHash} (hk : ws.cachedAccount k)
    (h : PKHash) (a : Account) : (ws.setAccount h a).cachedAccount k := by
  by_cases hkh : k = h
  · subst hkh; exact cachedAccount_setAccount_self ws k a
  · obtain ⟨b, hb⟩ := hk
    exact ⟨b, by simp [lookup_setAccount, hkh, hb]⟩

theorem LoadOrCreate_cached {env : Env} {ws ws' : WorkingSet} {addr : String} {h : PKHash}
    (hl : ws.LoadOrCreateAccountState env addr 0 = .ok (h, ws')) :
    ws'.cachedAccount h ∧ ∀ k, ws.cachedAccount k → ws'.cachedAccount k := by
  rw [LoadOrCreate_eq_view] at hl
  split at hl
  · cases hl
  · split at hl
    · cases hl
    · rename_i a hv
      cases hl
      refine ⟨⟨a, lookup_ensure_self hv⟩, ?_⟩
      intro k ⟨b, hb⟩
      by_cases hkh : k = h
      · subst hkh; exact ⟨a, lookup_ensure_self hv⟩
      · exact ⟨b, by rw [lookup_ensure_ne ws a hkh, hb]⟩

theorem tsfChargeGas_preserves {env : Env} {P : WorkingSet → Prop} {A : Int → Prop}
    (I : TsfInvariant env P A) {producer sender : PKHash} {tx : Transfer} {ws : WorkingSet}
    (gl : Nat) (hA : ∀ g, tx.intrinsicGas = some g → A (tx.gasPrice * (g : Int)))
    (hp : ws.cachedAccount producer) (hs : ws.cachedAccount sender) (hP : P ws) :
    P (tsfChargeGas producer tx sender ws gl).ws ∧
    (∀ k, ws.cachedAccount k → (tsfChargeGas producer tx sender ws gl).ws.cachedAccount k) := by
  unfold tsfChargeGas
  split
  · exact ⟨hP, fun _ h => h⟩
  · rename_i g hg
    unfold Account.SubBalance Account.AddBalance
    dsimp only
    split_ifs with h1 h2 h3
    · exact ⟨hP, fun _ h => h⟩
    · exact ⟨hP, fun _ h => h⟩
    · exact ⟨hP, fun _ h => h⟩
    · have h4 : tx.gasPrice * (g : Int) ≤ (ws.account sender).balance := by omega
      exact ⟨I.credit (I.debit hP hs h4) (cachedAccount_setAccount hp _ _) (hA g hg),
        fun k hk => cachedAccount_setAccount (cachedAccount_setAccount hk _ _) _ _⟩

theorem tsfDebit_preserves {env : Env} {P : WorkingSet → Prop} {A : Int → Prop}
    (I : TsfInvariant env P A) {sender : PKHash} (tx : Transfer) {ws : WorkingSet}
    (gl : Nat) (hs : ws.cachedAccount sender) (hP : P ws) :
    P (tsfDebit env tx sender ws gl).ws ∧
    (∀ k, ws.cachedAccount k → (tsfDebit env tx sender ws gl).ws.cachedAccount k) := by
  unfold tsfDebit Account.SubBalance
  split_ifs with h1
  · exact ⟨hP, fun _ h => h⟩
  · dsimp only
    have h1' : tx.amount ≤ (ws.account sender).balance := by omega
    have hP1 := I.debit hP hs h1'
    have hc1 : ∀ k, ws.cachedAccount k → (ws.setAccount sender
        { ws.account sender with balance := (ws.account sender).balance - tx.amount
        }).cachedAccount k := fun k hk => cachedAccount_setAccount hk _ _
    generalize ws.setAccount sender
        { ws.account sender with balance := (ws.account sender).balance - tx.amount } = ws1
      at hP1 hc1 ⊢
    have hs1 := hc1 _ hs
    have h2 : P (if tx.nonce > (ws1.account sender).nonce then
          ws1.setAccount sender { ws1.account sender with nonce := tx.nonce } else ws1) ∧
        ∀ k, ws1.cachedAccount k → (if tx.nonce > (ws1.account sender).nonce then
          ws1.setAccount sender { ws1.account sender with nonce := tx.nonce }
          else ws1).cachedAccount k := by
      split_ifs with hn
      · exact ⟨I.nonce hP1 hs1 hn, fun k hk => cachedAccount_setAccount hk _ _⟩
      · exact ⟨hP1, fun _ h => h⟩
    generalize (if tx.nonce > (ws1.account sender).nonce then
          ws1.setAccount sender { ws1.account sender with nonce := tx.nonce } else ws1) = ws2
      at h2 ⊢
    obtain ⟨hP2, hc2⟩ := h2
    have hc02 : ∀ k, ws.cachedAccount k → ws2.cachedAccount k := fun k hk => hc2 k (hc1 k hk)
    split_ifs with h3
    · split
      · exact ⟨hP2, hc02⟩
      · rename_i hv ws3 hl
        obtain ⟨hcv, hc3⟩ := LoadOrCreate_cached hl
        exact ⟨I.weight _ (I.load hP2 hl) hcv,
          fun k hk => cachedAccount_setAccount (hc3 k (hc02 k hk)) _ _⟩
    · exact ⟨hP2, hc02⟩

theorem tsfSender_preserves {env : Env} {P : WorkingSet → Prop} {A : Int → Prop}
    (I : TsfInvariant env P A) {producer : PKHash} {tx : Transfer} {ws : WorkingSet}
    (gl : Nat) (e : Bool) (hA : ∀ g, tx.intrinsicGas = some g → A (tx.gasPrice * (g : Int)))
    (hp : ws.cachedAccount producer) (hP : P ws) :
    P (tsfSender env producer tx ws gl e).ws ∧
    (∀ k, ws.cachedAccount k → (tsfSender env producer tx ws gl e).ws.cachedAccount k) := by
  unfold tsfSender
  split
  · exact ⟨hP, fun _ h => h⟩
  · rename_i sender ws1 hl
    obtain ⟨hs1, hc1⟩ := LoadOrCreate_cached hl
    have hP1 := I.load hP hl
    split_ifs with he
    · dsimp only
      obtain ⟨hP2, hc2⟩ := tsfChargeGas_preserves I gl hA (hc1 _ hp) hs1 hP1
      split
      · exact ⟨hP2, fun k hk => hc2 k (hc1 k hk)⟩
      · obtain ⟨hP3, hc3⟩ := tsfDebit_preserves I tx
          (tsfChargeGas producer tx sender ws1 gl).gasLimit (hc2 _ hs1) hP2
        exact ⟨hP3, fun k hk => hc3 k (hc2 k (hc1 k hk))⟩
    · obtain ⟨hP3, hc3⟩ := tsfDebit_preserves I tx gl hs1 hP1
      exact ⟨hP3, fun k hk => hc3 k (hc1 k hk)⟩

theorem tsfRecipient_preserves {env : Env} {P : WorkingSet → Prop} {A : Int → Prop}
    (I : TsfInvariant env P A) {tx : Transfer} {ws : WorkingSet}
    (gl : Nat) (hA : A tx.amount) (hP : P ws) :
    P (tsfRecipient env tx ws gl).ws ∧
    (∀ k, ws.cachedAccount k → (tsfRecipient env tx ws gl).ws.cachedAccount k) := by
  unfold tsfRecipient
  split
  · exact ⟨hP, fun _ h => h⟩
  · rename_i recipient ws1 hl
    obtain ⟨hr1, hc1⟩ := LoadOrCreate_cached hl
    have hP1 := I.load hP hl
    unfold Account.AddBalance
    dsimp only
    have hP2 := I.credit hP1 hr1 hA
    have hc2 : ∀ k, ws.cachedAccount k → (ws1.setAccount recipient
        { ws1.account recipient with balance := (ws1.account recipient).balance + tx.amount
        }).cachedAccount k := fun k hk => cachedAccount_setAccount (hc1 k hk) _ _
    generalize ws1.setAccount recipient
        { ws1.account recipient with balance := (ws1.account recipient).balance + tx.amount
        } = ws2 at hP2 hc2 ⊢
    split_ifs with h3
    · split
      · exact ⟨hP2, hc2⟩
      · rename_i hv ws3 hl3
        obtain ⟨hcv, hc3⟩ := LoadOrCreate_cached hl3
        exact ⟨I.weight _ (I.load hP2 hl3) hcv,
          fun k hk => cachedAccount_setAccount (hc3 k (hc2 k hk)) _ _⟩
    · exact ⟨hP2, hc2⟩

theorem tsfStep_preserves {env : Env} {P : WorkingSet → Prop} {A : Int → Prop}
    (I : TsfInvariant env P A) {producer : PKHash} {tx : Transfer} {ws : WorkingSet}
    (gl : Nat) (e : Bool) (hA : A tx.amount)
    (hA' : ∀ g, tx.intrinsicGas = some g → A (tx.gasPrice * (g : Int)))
    (hp : ws.cachedAccount producer) (hP : P ws) :
    P (tsfStep env producer tx ws gl e).ws ∧
    (∀ k, ws.cachedAccount k → (tsfStep env producer tx ws gl e).ws.cachedAccount k) := by
  unfold tsfStep
  split_ifs with h1 h2
  · exact ⟨hP, fun _ h => h⟩
  · dsimp only
    obtain ⟨hP1, hc1⟩ := tsfSender_preserves I gl e hA' hp hP
    split
    · exact ⟨hP1, hc1⟩
    · obtain ⟨hP2, hc2⟩ := tsfRecipient_preserves I
        (tsfSender env producer tx ws gl e).gasLimit hA hP1
      exact ⟨hP2, fun k hk => hc2 k (hc1 k hk)⟩
  · exact tsfRecipient_preserves I gl hA hP

/-- Rule of invariance for `handleTsf`: a property kept by the elementary
updates holds of the working set `handleTsf` leaves behind, whether it returns
an error or not, and accounts that were cached stay cached. -/
theorem handleTsf_preserves {env : Env} {P : WorkingSet → Prop} {A : Int → Prop}
    (I : TsfInvariant env P A) (producer : PKHash) (tsfs : List Transfer) (e : Bool)
    (hA : ∀ tx ∈ tsfs, A tx.amount ∧
      ∀ g, tx.intrinsicGas = some g → A (tx.gasPrice * (g : Int))) :
    ∀ (ws : WorkingSet) (gl : Nat), ws.cachedAccount producer → P ws →
      P (handleTsf env producer tsfs ws gl e).ws ∧
      (∀ k, ws.cachedAccount k → (handleTsf env producer tsfs ws gl e).ws.cachedAccount k) := by
  induction tsfs with
  | nil => intro ws gl _ hP; exact ⟨hP, fun _ h => h⟩
  | cons tx rest ih =>
    intro ws gl hp hP
    unfold handleTsf
    dsimp only
    obtain ⟨hP1, hc1⟩ := tsfStep_preserves I gl e (hA tx (List.mem_cons_self _ _)).1
      (hA tx (List.mem_cons_self _ _)).2 hp hP
    split
    · exact ⟨hP1, hc1⟩
    · obtain ⟨hP2, hc2⟩ := ih (fun t ht => hA t (List.mem_cons_of_mem _ ht))
        (tsfStep env producer tx ws gl e).ws (tsfStep env producer tx ws gl e).gasLimit
        (hc1 _ hp) hP1
      exact ⟨hP2, fun k hk => hc2 k (hc1 k hk)⟩

theorem LoadOrCreate_key {env : Env} {ws ws' : WorkingSet} {addr : String} {h : PKHash}
    (hl : ws.LoadOrCreateAccountState env addr 0 = .ok (h, ws')) :
    env.AddressToPKHash addr = some h := by
  rw [LoadOrCreate_eq_view] at hl
  split at hl
  · cases hl
  · rename_i h' hd
    split at hl
    · cases hl
    · cases hl; exact hd

theorem voteChargeGas_preserves {env : Env} {P : WorkingSet → Prop} {A : Int → Prop}
    (I : TsfInvariant env P A) {producer voteFrom : PKHash} {v : Vote} {ws : WorkingSet}
    (gl : Nat) (hA : ∀ g, v.intrinsicGas = some g → A (v.gasPrice * (g : Int)))
    (hp : ws.cachedAccount producer) (hs : ws.cachedAccount voteFrom) (hP : P ws) :
    P (voteChargeGas producer v voteFrom ws gl).ws ∧
    (∀ k, ws.cachedAccount k → (voteChargeGas producer v voteFrom ws gl).ws.cachedAccount k) := by
  unfold voteChargeGas
  split
  · exact ⟨hP, fun _ h => h⟩
  · rename_i g hg
    unfold Account.SubBalance Account.AddBalance
    dsimp only
    split_ifs with h1 h2
    · exact ⟨hP, fun _ h => h⟩
    · exact ⟨hP, fun _ h => h⟩
    · have h4 : v.gasPrice * (g : Int) ≤ (ws.account voteFrom).balance := by omega
      exact ⟨I.credit (I.debit hP hs h4) (cachedAccount_setAccount hp _ _) (hA g hg),
        fun k hk => cachedAccount_setAccount (cachedAccount_setAccount hk _ _) _ _⟩

theorem selfNominate_cached {ws : WorkingSet} (blockHeight : Nat) (v : Vote)
    (voteFrom voterPKHash : PKHash) {k : PKHash} (hk : ws.cachedAccount k) :
    (selfNominate blockHeight v voteFrom voterPKHash ws).cachedAccount k := by
  unfold selfNominate
  dsimp only
  split
  · exact cachedAccount_setAccount (cachedAccount_setAccount hk _ _) _ _
  · exact cachedAccount_setAccount (cachedAccount_setAccount hk _ _) _ _

theorem voteApply_preserves {env : Env} {P : WorkingSet → Prop} {A : Int → Prop}
    (I : Invariant env P A) (blockHeight : Nat) (v : Vote) {voteFrom : PKHash}
    {ws : WorkingSet} (gl : Nat) (hs : ws.cachedAccount voteFrom) (hP : P ws) :
    P (voteApply env blockHeight v voteFrom voteFrom ws gl).ws ∧
    (∀ k, ws.cachedAccount k →
      (voteApply env blockHeight v voteFrom voteFrom ws gl).ws.cachedAccount k) := by
  unfold voteApply
  dsimp only
  have h1 : P (if v.nonce > (ws.account voteFrom).nonce then
        ws.setAccount voteFrom { ws.account voteFrom with nonce := v.nonce } else ws) ∧
      ∀ k, ws.cachedAccount k → (if v.nonce > (ws.account voteFrom).nonce then
        ws.setAccount voteFrom { ws.account voteFrom with nonce := v.nonce }
        else ws).cachedAccount k := by
    split_ifs with hn
    · exact ⟨I.nonce hP hs hn, fun k hk => cachedAccount_setAccount hk _ _⟩
    · exact ⟨hP, fun _ h => h⟩
  generalize (if v.nonce > (ws.account voteFrom).nonce then
        ws.setAccount voteFrom { ws.account voteFrom with nonce := v.nonce } else ws) = ws1
    at h1 ⊢
  obtain ⟨hP1, hc1⟩ := h1
  have hs1 := hc1 _ hs
  have h2 : ∀ r : Outcome, r = (if (ws1.account voteFrom).votee ≠ "" ∧
        (ws1.account voteFrom).votee ≠ v.voter then
      match ws1.LoadOrCreateAccountState env (ws1.account voteFrom).votee 0 with
      | .error e => (⟨ws1, gl, some e⟩ : Outcome)
      | .ok (oldVotee, ws) =>
        ⟨(ws.setAccount oldVotee
          { ws.account oldVotee with
            votingWeight := (ws.account oldVotee).votingWeight -
              (ws.account voteFrom).balance }).setAccount voteFrom
            { (ws.setAccount oldVotee
              { ws.account oldVotee with
                votingWeight := (ws.account oldVotee).votingWeight -
                  (ws.account voteFrom).balance }).account voteFrom with votee := "" },
          gl, none⟩
      else ⟨ws1, gl, none⟩) → P r.ws ∧ ∀ k, ws1.cachedAccount k → r.ws.cachedAccount k := by
    intro r hr
    subst hr
    split_ifs with h3
    · split
      · exact ⟨hP1, fun _ h => h⟩
      · rename_i oldVotee ws2 hl
        obtain ⟨hco, hc2⟩ := LoadOrCreate_cached hl
        dsimp only
        exact ⟨I.votee _ (I.weight _ (I.load hP1 hl) hco)
            (cachedAccount_setAccount (hc2 _ hs1) _ _),
          fun k hk => cachedAccount_setAccount (cachedAccount_setAccount (hc2 k hk) _ _) _ _⟩
    · exact ⟨hP1, fun _ h => h⟩
  specialize h2 _ rfl
  generalize (if (ws1.account voteFrom).votee ≠ "" ∧
        (ws1.account voteFrom).votee ≠ v.voter then
      match ws1.LoadOrCreateAccountState env (ws1.account voteFrom).votee 0 with
      | .error e => (⟨ws1, gl, some e⟩ : Outcome)
      | .ok (oldVotee, ws) =>
        ⟨(ws.setAccount oldVotee
          { ws.account oldVotee with
            votingWeight := (ws.account oldVotee).votingWeight -
              (ws.account voteFrom).balance }).setAccount voteFrom
            { (ws.setAccount oldVotee
              { ws.account oldVotee with
                votingWeight := (ws.account oldVotee).votingWeight -
                  (ws.account voteFrom).balance }).account voteFrom with votee := "" },
          gl, none⟩
      else ⟨ws1, gl, none⟩) = r at h2 ⊢
  obtain ⟨hP2, hc2⟩ := h2
  have hc02 : ∀ k, ws.cachedAccount k → r.ws.cachedAccount k := fun k hk => hc2 k (hc1 k hk)
  split
  · exact ⟨hP2, hc02⟩
  · split_ifs with h4 h5
    · exact ⟨I.unvote hP2 (hc02 _ hs), fun k hk => cachedAccount_setAccount (hc02 k hk) _ _⟩
    · split
      · exact ⟨hP2, hc02⟩
      · rename_i voteTo ws3 hl
        obtain ⟨hct, hc3⟩ := LoadOrCreate_cached hl
        have hP3 := I.load hP2 hl
        exact ⟨I.votee _ (I.weight _ hP3 hct) (cachedAccount_setAccount (hc3 _ (hc02 _ hs)) _ _),
          fun k hk =>
            cachedAccount_setAccount (cachedAccount_setAccount (hc3 k (hc02 k hk)) _ _) _ _⟩
    · split
      · exact ⟨hP2, hc02⟩
      · rename_i voteTo ws3 hl
        obtain ⟨hct, hc3⟩ := LoadOrCreate_cached hl
        have hP3 := I.load hP2 hl
        exact ⟨I.nominate blockHeight v hP3 (hc3 _ (hc02 _ hs)),
          fun k hk => selfNominate_cached blockHeight v voteFrom voteFrom (hc3 k (hc02 k hk))⟩

theorem voteStep_preserves {env : Env} {P : WorkingSet → Prop} {A : Int → Prop}
    (I : Invariant env P A) {producer : PKHash} (blockHeight : Nat) {v : Vote}
    {ws : WorkingSet} (gl : Nat) (e : Bool)
    (hA : ∀ g, v.intrinsicGas = some g → A (v.gasPrice * (g : Int)))
    (hp : ws.cachedAccount producer) (hP : P ws) :
    P (voteStep env producer blockHeight v ws gl e).ws ∧
    (∀ k, ws.cachedAccount k →
      (voteStep env producer blockHeight v ws gl e).ws.cachedAccount k) := by
  unfold voteStep
  split
  · exact ⟨hP, fun _ h => h⟩
  · rename_i voteFrom ws1 hl
    obtain ⟨hs1, hc1⟩ := LoadOrCreate_cached hl
    have hP1 := I.load hP hl
    rw [LoadOrCreate_key hl]
    dsimp only
    split_ifs with he
    · obtain ⟨hP2, hc2⟩ := voteChargeGas_preserves I.toTsfInvariant gl hA (hc1 _ hp) hs1 hP1
      split
      · exact ⟨hP2, fun k hk => hc2 k (hc1 k hk)⟩
      · obtain ⟨hP3, hc3⟩ := voteApply_preserves I blockHeight v
          (voteChargeGas producer v voteFrom ws1 gl).gasLimit (hc2 _ hs1) hP2
        exact ⟨hP3, fun k hk => hc3 k (hc2 k (hc1 k hk))⟩
    · obtain ⟨hP3, hc3⟩ := voteApply_preserves I blockHeight v gl hs1 hP1
      exact ⟨hP3, fun k hk => hc3 k (hc1 k hk)⟩

/-- Rule of invariance for `handleVote`. -/
theorem handleVote_preserves {env : Env} {P : WorkingSet → Prop} {A : Int → Prop}
    (I : Invariant env P A) (producer : PKHash) (blockHeight : Nat) (votes : List Vote)
    (e : Bool)
    (hA : ∀ v ∈ votes, ∀ g, v.intrinsicGas = some g → A (v.gasPrice * (g : Int))) :
    ∀ (ws : WorkingSet) (gl : Nat), ws.cachedAccount producer → P ws →
      P (handleVote env producer blockHeight votes ws gl e).ws ∧
      (∀ k, ws.cachedAccount k →
        (handleVote env producer blockHeight votes ws gl e).ws.cachedAccount k) := by
  induction votes with
  | nil => intro ws gl _ hP; exact ⟨hP, fun _ h => h⟩
  | cons v rest ih =>
    intro ws gl hp hP
    unfold handleVote
    dsimp only
    obtain ⟨hP1, hc1⟩ := voteStep_preserves I blockHeight gl e
      (hA v (List.mem_cons_self _ _)) hp hP
    split
    · exact ⟨hP1, hc1⟩
    · obtain ⟨hP2, hc2⟩ := ih (fun t ht => hA t (List.mem_cons_of_mem _ ht))
        (voteStep env producer blockHeight v ws gl e).ws
        (voteStep env producer blockHeight v ws gl e).gasLimit (hc1 _ hp) hP1
      exact ⟨hP2, fun k hk => hc2 k (hc1 k hk)⟩

/-! ## Single transfers -/

/-- Claim C1 (amended): for a single non-coinbase, non-contract transfer with a
non-negative amount handled with gas charging, where sender, recipient and
producer are three distinct accounts, sender and recipient have no votee, the
intrinsic gas `g` is within the gas limit and `amount + gasPrice * g` is within
the sender's balance, `handleTsf` succeeds; afterwards the sender holds
`old - amount - gasPrice * g` (its nonce raised to the transfer's nonce if that
is larger), the recipient `old + amount`, the producer `old + gasPrice * g`, and
the gas limit is `old - g`. -/
theorem handleTsf_single_charged (env : Env) (ws : WorkingSet) (tx : Transfer)
    (hp hs hr : PKHash) (sa ra pa : Account) (g gl : Nat)
    (hcoin : tx.isCoinbase = false) (hcontract : tx.isContract = false)
    (hds : env.AddressToPKHash tx.sender = some hs)
    (hdr : env.AddressToPKHash tx.recipient = some hr)
    (hsr : hs ≠ hr) (hsp : hs ≠ hp) (hrp : hr ≠ hp)
    (hsa : ws.view env hs = .ok sa) (hra : ws.view env hr = .ok ra)
    (hpa : ws.cachedStates.lookup hp = some (Iotex.State.account pa))
    (hsv : sa.votee = "") (hrv : ra.votee = "")
    (hg : tx.intrinsicGas = some g) (hgl : g ≤ gl) (hgl64 : gl < 2 ^ 64)
    (hamt : 0 ≤ tx.amount)
    (hbal : tx.amount + tx.gasPrice * (g : Int) ≤ sa.balance) :
    (handleTsf env hp [tx] ws gl true).err = none ∧
    (handleTsf env hp [tx] ws gl true).ws.cachedStates.lookup hs =
      some (Iotex.State.account
        { sa with balance := sa.balance - tx.amount - tx.gasPrice * (g : Int),
                  nonce := max sa.nonce tx.nonce }) ∧
    (handleTsf env hp [tx] ws gl true).ws.cachedStates.lookup hr =
      some (Iotex.State.account { ra with balance := ra.balance + tx.amount }) ∧
    (handleTsf env hp [tx] ws gl true).ws.cachedStates.lookup hp =
      some (Iotex.State.account { pa with balance := pa.balance + tx.gasPrice * (g : Int) }) ∧
    (handleTsf env hp [tx] ws gl true).gasLimit = gl - g := by
  have hfee : ¬ (tx.gasPrice * (g : Int) > sa.balance) := by omega
  have hgas : (gl + 2 ^ 64 - g) % 2 ^ 64 = gl - g := by omega
  have hps : hp ≠ hs := fun h => hsp h.symm
  have hpr : hp ≠ hr := fun h => hrp h.symm
  have hrs : hr ≠ hs := fun h => hsr h.symm
  have hpacc : (ws.ensure hs sa).account hp = pa := by
    rw [account_ensure_ne ws sa hps]; exact account_of_lookup hpa
  have hracc : ∀ a b c,
      ((((ws.ensure hs sa).setAccount hs a).setAccount hp b).setAccount hs c).view env hr =
        .ok ra := by
    intro a b c
    simp [view_setAccount, hrs, hrp, view_ensure hsa, hra]
  have hracc2 : ∀ a b c d,
      (((((ws.ensure hs sa).setAccount hs a).setAccount hp b).setAccount hs c).setAccount
        hs d).view env hr = .ok ra := by
    intro a b c d
    simp [view_setAccount, hrs, hrp, view_ensure hsa, hra]
  simp only [handleTsf, tsfStep, tsfSender, hcontract, hcoin, LoadOrCreate_ok hds hsa]
  by_cases hn : sa.nonce < tx.nonce
  all_goals
    simp [tsfChargeGas, hg, Nat.not_lt.mpr hgl, account_ensure_self hsa, Account.SubBalance,
      Account.AddBalance, hfee, not_lt.mpr hbal, account_setAccount, hps, hsp, hpacc, hgas,
      tsfDebit, hsv, show ¬ (sa.balance - tx.gasPrice * (g:Int) < tx.amount) by omega, hn,
      tsfRecipient, LoadOrCreate_ok hdr (hracc _ _ _), LoadOrCreate_ok hdr (hracc2 _ _ _ _),
      account_ensure_self (hracc _ _ _), account_ensure_self (hracc2 _ _ _ _), hrv,
      lookup_setAccount, hsr, hrs, hpr, hrp, lookup_ensure_ne, lookup_ensure_self hsa, hpa]
  all_goals omega

/-- Witness of C1 on the scenario of the spec: balance 1000, amount 10, gas
price 1, intrinsic gas 21 and gas limit 100 give 969, 10, 21 and 79. -/
theorem handleTsf_single_charged_witness :
    (handleTsf demoEnv [3] [demoTransfer 10 1 21] (demoWs (demoCache 1000)) 100 true).err
      = none ∧
    (handleTsf demoEnv [3] [demoTransfer 10 1 21] (demoWs (demoCache 1000)) 100
        true).ws.cachedStates.lookup [1] =
      some (Iotex.State.account { acct 969 with nonce := 1 }) ∧
    (handleTsf demoEnv [3] [demoTransfer 10 1 21] (demoWs (demoCache 1000)) 100
        true).ws.cachedStates.lookup [2] = some (Iotex.State.account (acct 10)) ∧
    (handleTsf demoEnv [3] [demoTransfer 10 1 21] (demoWs (demoCache 1000)) 100
        true).ws.cachedStates.lookup [3] = some (Iotex.State.account (acct 21)) ∧
    (handleTsf demoEnv [3] [demoTransfer 10 1 21] (demoWs (demoCache 1000)) 100
        true).gasLimit = 79 :=
  handleTsf_single_charged demoEnv (demoWs (demoCache 1000)) (demoTransfer 10 1 21)
    [3] [1] [2] (acct 1000) (acct 0) (acct 0) 21 100 rfl rfl rfl rfl
    (by decide) (by decide) (by decide) (by decide) (by decide) (by decide) rfl rfl rfl
    (by decide) (by decide) (by decide) (by decide)

/-- Counterexample to C1 as stated: a transfer of amount `-5` with gas price
12 and intrinsic gas 1 from a balance of 10 satisfies `amount + gasPrice * g ≤
balance` and `g ≤ gasLimit`, the three accounts are distinct and have no votee,
yet `handleTsf` fails with `ErrNotEnoughBalance` because the gas fee alone
exceeds the balance. -/
theorem handleTsf_negative_amount_fails :
    (demoTransfer (-5) 12 1).isCoinbase = false ∧
    (demoTransfer (-5) 12 1).isContract = false ∧
    (demoWs (demoCache 10)).view demoEnv [1] = .ok (acct 10) ∧
    (demoWs (demoCache 10)).view demoEnv [2] = .ok (acct 0) ∧
    (demoWs (demoCache 10)).view demoEnv [3] = .ok (acct 0) ∧
    (1 : Nat) ≤ 100 ∧
    (demoTransfer (-5) 12 1).amount + (demoTransfer (-5) 12 1).gasPrice * 1 ≤ 10 ∧
    (handleTsf demoEnv [3] [demoTransfer (-5) 12 1] (demoWs (demoCache 10)) 100 true).err
      = some Err.ErrNotEnoughBalance := by
  decide

/-! ## Balances stay non-negative -/

theorem nonNeg_setAccount {env : Env} {ws : WorkingSet} (hP : NonNeg env ws) (h : PKHash)
    {a : Account} (ha : 0 ≤ a.balance) : NonNeg env (ws.setAccount h a) := by
  intro k b hk
  rw [view_setAccount] at hk
  split_ifs at hk with hkh
  · cases hk; exact ha
  · exact hP k b hk

theorem nonNeg_account {env : Env} {ws : WorkingSet} (hP : NonNeg env ws) (h : PKHash) :
    0 ≤ (ws.account h).balance := by
  unfold WorkingSet.account
  cases hl : ws.cachedStates.lookup h with
  | none => simp [Account.zero]
  | some s =>
    cases s with
    | account a => exact hP h a (view_of_lookup hl)
    | other t => simp [Account.zero]

theorem LoadOrCreate_view {env : Env} {ws ws' : WorkingSet} {addr : String} {h : PKHash}
    (hl : ws.LoadOrCreateAccountState env addr 0 = .ok (h, ws')) (k : PKHash) :
    ws'.view env k = ws.view env k := by
  rw [LoadOrCreate_eq_view] at hl
  split at hl
  · cases hl
  · split at hl
    · cases hl
    · rename_i a hv
      cases hl
      exact view_ensure hv k

theorem view_selfNominate (env : Env) (blockHeight : Nat) (v : Vote) (h k : PKHash)
    (ws : WorkingSet) :
    (selfNominate blockHeight v h h ws).view env k =
      if k = h then .ok { ws.account h with votee := v.voter, isCandidate := true }
      else ws.view env k := by
  have key : ∀ c, WorkingSet.view env { (ws.setAccount h { ws.account h with votee := v.voter }
        |>.setAccount h { (ws.setAccount h { ws.account h with votee := v.voter }).account h
          with isCandidate := true }) with cachedCandidates := c } k =
      (ws.setAccount h { ws.account h with votee := v.voter }
        |>.setAccount h { (ws.setAccount h { ws.account h with votee := v.voter }).account h
          with isCandidate := true }).view env k := fun _ => rfl
  unfold selfNominate
  dsimp only
  split
  · simp only [view_setAccount, account_setAccount]
    split_ifs <;> simp
  · rw [key]
    simp only [view_setAccount, account_setAccount]
    split_ifs <;> simp

/-- Non-negativity of the balances is kept by every elementary update. -/
theorem nonNeg_invariant (env : Env) : Invariant env (NonNeg env) (fun x => 0 ≤ x) where
  load := fun hP hl k a hk => hP k a (by rw [← LoadOrCreate_view hl k]; exact hk)
  debit := fun hP _ hx => nonNeg_setAccount hP _ (by simp; omega)
  credit := fun {ws h x} hP _ hx =>
    nonNeg_setAccount hP _ (by have := nonNeg_account hP h; simp; omega)
  nonce := fun {ws h n} hP _ _ => nonNeg_setAccount hP _ (nonNeg_account hP h)
  weight := fun {ws h} _ hP _ => nonNeg_setAccount hP _ (nonNeg_account hP h)
  votee := fun {ws h} _ hP _ => nonNeg_setAccount hP _ (nonNeg_account hP h)
  unvote := fun {ws h} hP _ => nonNeg_setAccount hP _ (nonNeg_account hP h)
  nominate := fun {ws h} blockHeight v hP _ k a hk => by
    rw [view_selfNominate] at hk
    split_ifs at hk with hkh
    · cases hk; exact nonNeg_account hP h
    · exact hP k a hk

theorem handleTsf_cons_err {env : Env} {producer : PKHash} {tx : Transfer}
    {ws : WorkingSet} {gl : Nat} {e : Bool} {err : Err} (rest : List Transfer)
    (h : (tsfStep env producer tx ws gl e).err = some err) :
    handleTsf env producer (tx :: rest) ws gl e = tsfStep env producer tx ws gl e := by
  rw [handleTsf]
  simp only [h]

theorem handleVote_cons_err {env : Env} {producer : PKHash} {blockHeight : Nat} {v : Vote}
    {ws : WorkingSet} {gl : Nat} {e : Bool} {err : Err} (rest : List Vote)
    (h : (voteStep env producer blockHeight v ws gl e).err = some err) :
    handleVote env producer blockHeight (v :: rest) ws gl e =
      voteStep env producer blockHeight v ws gl e := by
  rw [handleVote]
  simp only [h]

theorem tsfSender_insufficient {env : Env} {producer : PKHash} {tx : Transfer}
    {ws : WorkingSet} {gl : Nat} {e : Bool} {hs : PKHash} {sa : Account}
    (hds : env.AddressToPKHash tx.sender = some hs) (hsa : ws.view env hs = .ok sa)
    (hlt : sa.balance < tx.amount +
      (if e then tx.gasPrice * ((tx.intrinsicGas.getD 0 : Nat) : Int) else 0)) :
    ∃ err, (tsfSender env producer tx ws gl e).err = some err := by
  unfold tsfSender
  rw [LoadOrCreate_ok hds hsa]
  cases e with
  | false =>
    simp at hlt
    simp [tsfDebit, Account.SubBalance, account_ensure_self hsa, hlt]
  | true =>
    simp only [if_true] at hlt ⊢
    unfold tsfChargeGas
    cases hg : tx.intrinsicGas with
    | none => simp
    | some g =>
      simp only [hg, Option.getD_some] at hlt
      by_cases hgl : gl < g
      · simp [hgl]
      · simp [hgl, account_ensure_self hsa, hlt]

theorem voteStep_insufficient {env : Env} {producer : PKHash} {blockHeight : Nat} {v : Vote}
    {ws : WorkingSet} {gl : Nat} {hv : PKHash} {va : Account}
    (hd : env.AddressToPKHash v.voter = some hv) (hva : ws.view env hv = .ok va)
    (hlt : va.balance < v.gasPrice * ((v.intrinsicGas.getD 0 : Nat) : Int)) :
    ∃ err, (voteStep env producer blockHeight v ws gl true).err = some err := by
  unfold voteStep
  rw [LoadOrCreate_ok hd hva]
  simp only [hd, if_true]
  unfold voteChargeGas
  cases hg : v.intrinsicGas with
  | none => simp
  | some g =>
    simp only [hg, Option.getD_some] at hlt
    by_cases hgl : gl < g
    · simp [hgl]
    · simp [hgl, account_ensure_self hva, hlt]

/-- Claim C2: balance non-negativity is an invariant of action handling. If
every account the working set sees has a non-negative balance, then after
`handleTsf` on any list of transfers with non-negative amounts and gas prices,
and after `handleVote` on any list of votes with non-negative gas prices, with
either setting of `enableGasCharge` and whether or not the call succeeds,
every account still has a non-negative balance; and a transfer (a vote) whose
amount plus fee (whose fee) exceeds the balance of its sender (voter) makes
the call fail. The producer pointer points into the cache. -/
theorem handle_keeps_balances_nonneg (env : Env) (ws : WorkingSet) (producer : PKHash)
    (hprod : ws.cachedAccount producer) (hP : NonNeg env ws) :
    (∀ (tsfs : List Transfer) (gl : Nat) (e : Bool),
      (∀ tx ∈ tsfs, 0 ≤ tx.amount ∧ 0 ≤ tx.gasPrice) →
      NonNeg env (handleTsf env producer tsfs ws gl e).ws) ∧
    (∀ (votes : List Vote) (blockHeight gl : Nat) (e : Bool),
      (∀ v ∈ votes, 0 ≤ v.gasPrice) →
      NonNeg env (handleVote env producer blockHeight votes ws gl e).ws) ∧
    (∀ (tx : Transfer) (rest : List Transfer) (gl : Nat) (e : Bool) (hs : PKHash)
      (sa : Account), tx.isCoinbase = false → tx.isContract = false →
      env.AddressToPKHash tx.sender = some hs → ws.view env hs = .ok sa →
      sa.balance < tx.amount +
        (if e then tx.gasPrice * ((tx.intrinsicGas.getD 0 : Nat) : Int) else 0) →
      (handleTsf env producer (tx :: rest) ws gl e).err ≠ none) ∧
    (∀ (v : Vote) (rest : List Vote) (blockHeight gl : Nat) (hv : PKHash) (va : Account),
      env.AddressToPKHash v.voter = some hv → ws.view env hv = .ok va →
      va.balance < v.gasPrice * ((v.intrinsicGas.getD 0 : Nat) : Int) →
      (handleVote env producer blockHeight (v :: rest) ws gl true).err ≠ none) := by
  refine ⟨?_, ?_, ?_, ?_⟩
  · intro tsfs gl e hA
    refine (handleTsf_preserves (nonNeg_invariant env).toTsfInvariant producer tsfs e ?_ ws gl hprod hP).1
    intro tx htx
    refine ⟨(hA tx htx).1, fun g _ => ?_⟩
    exact Int.mul_nonneg (hA tx htx).2 (Int.ofNat_nonneg g)
  · intro votes blockHeight gl e hA
    refine (handleVote_preserves (nonNeg_invariant env) producer blockHeight votes e ?_
      ws gl hprod hP).1
    intro v hv g _
    exact Int.mul_nonneg (hA v hv) (Int.ofNat_nonneg g)
  · intro tx rest gl e hs sa hcoin hcontract hds hsa hlt
    obtain ⟨err, herr⟩ := @tsfSender_insufficient env producer tx ws gl e hs sa hds hsa hlt
    have hstep : (tsfStep env producer tx ws gl e).err = some err := by
      unfold tsfStep
      simp [hcoin, hcontract, herr]
    rw [handleTsf_cons_err rest hstep, hstep]
    simp
  · intro v rest blockHeight gl hv va hd hva hlt
    obtain ⟨err, herr⟩ := @voteStep_insufficient env producer blockHeight v ws gl hv va
      hd hva hlt
    rw [handleVote_cons_err rest herr, herr]
    simp

theorem view_demoWs_empty (h : PKHash) : (demoWs ∅).view demoEnv h = .ok Account.zero := by
  simp [WorkingSet.view, demoWs, WorkingSet.State, Trie.Get, demoEnv]

theorem nonNeg_demoWs (balance : Int) (hb : 0 ≤ balance) :
    NonNeg demoEnv (demoWs (demoCache balance)) := by
  have h0 : NonNeg demoEnv (demoWs ∅) := by
    intro h a hv
    rw [view_demoWs_empty] at hv
    cases hv; simp [Account.zero]
  have h1 : demoWs (demoCache balance) =
      ((demoWs ∅).setAccount [1] (acct balance)).setAccount [3] (acct 0) := rfl
  rw [h1]
  exact nonNeg_setAccount (nonNeg_setAccount h0 _ (by simpa [acct, Account.zero] using hb)) _
    (by simp [acct, Account.zero])

/-- Witness of C2: after the transfer of the spec scenario every balance is
non-negative, and the same transfer from a balance of 30, one short of amount
plus fee, makes the call fail. -/
theorem handle_keeps_balances_nonneg_witness :
    NonNeg demoEnv
      (handleTsf demoEnv [3] [demoTransfer 10 1 21] (demoWs (demoCache 1000)) 100 true).ws ∧
    (handleTsf demoEnv [3] [demoTransfer 10 1 21] (demoWs (demoCache 30)) 100 true).err
      ≠ none :=
  ⟨(handle_keeps_balances_nonneg demoEnv (demoWs (demoCache 1000)) [3] ⟨acct 0, rfl⟩
      (nonNeg_demoWs 1000 (by decide))).1 [demoTransfer 10 1 21] 100 true (by decide),
   (handle_keeps_balances_nonneg demoEnv (demoWs (demoCache 30)) [3] ⟨acct 0, rfl⟩
      (nonNeg_demoWs 30 (by decide))).2.2.1 (demoTransfer 10 1 21) [] 100 true [1] (acct 30)
      rfl rfl rfl rfl (by decide)⟩

/-! ## Insufficient balance -/

theorem LoadOrCreate_error_cause {env : Env} {ws : WorkingSet} {addr : String} {e : Err}
    (hl : ws.LoadOrCreateAccountState env addr 0 = .error e) :
    e = Err.invalidAddress ∨ e = Err.trieFailure ∨ e = Err.serialization ∨
      e = Err.castFailure := by
  rw [LoadOrCreate_eq_view] at hl
  split at hl
  · cases hl; simp
  · rename_i h hd
    split at hl
    · rename_i e' hv
      cases hl
      unfold WorkingSet.view at hv
      split at hv
      · rename_i s _
        cases s <;> simp [stateToAccountState] at hv
        simp [← hv]
      · unfold WorkingSet.State Trie.Get at hv
        split_ifs at hv with h1
        · simp at hv; simp [← hv]
        · cases hlk : ws.accountTrie.entries.lookup h with
          | none => simp [hlk] at hv
          | some b =>
            simp only [hlk] at hv
            cases hds : env.Deserialize b with
            | none => simp [hds] at hv; simp [← hv]
            | some a => simp [hds] at hv
    · cases hl

theorem view_of_cachedAccount (env : Env) {ws : WorkingSet} {h : PKHash}
    (hc : ws.cachedAccount h) : ws.view env h = .ok (ws.account h) := by
  obtain ⟨a, ha⟩ := hc
  rw [view_of_lookup ha, account_of_lookup ha]

theorem lookup_of_cachedAccount {ws : WorkingSet} {h : PKHash}
    (hc : ws.cachedAccount h) :
    ws.cachedStates.lookup h = some (Iotex.State.account (ws.account h)) := by
  obtain ⟨a, ha⟩ := hc
  rw [ha, account_of_lookup ha]

theorem cachedAccount_ensure {env : Env} {ws : WorkingSet} {h : PKHash} {a : Account}
    (hv : ws.view env h = .ok a) : (ws.ensure h a).cachedAccount h :=
  ⟨a, lookup_ensure_self hv⟩

theorem tsfRecipient_not_balance (env : Env) (tx : Transfer) (ws : WorkingSet) (gl : Nat) :
    (tsfRecipient env tx ws gl).err ≠ some Err.ErrNotEnoughBalance := by
  unfold tsfRecipient Account.AddBalance
  split
  · rename_i e hl
    have := LoadOrCreate_error_cause hl
    intro h
    simp only [Option.some.injEq] at h
    subst h
    simp at this
  · dsimp only
    split_ifs
    · split
      · rename_i e hl
        have := LoadOrCreate_error_cause hl
        intro h
        simp only [Option.some.injEq] at h
        subst h
        simp at this
      · simp
    · simp

theorem tsfDebit_balance_iff (env : Env) (tx : Transfer) (sender : PKHash) (ws : WorkingSet)
    (gl : Nat) :
    (tsfDebit env tx sender ws gl).err = some Err.ErrNotEnoughBalance ↔
      (ws.account sender).balance < tx.amount := by
  unfold tsfDebit Account.SubBalance
  split_ifs with h1
  · simp; omega
  · dsimp only
    have h1' : ¬ (ws.account sender).balance < tx.amount := by omega
    simp only [h1', iff_false]
    split_ifs
    · split
      · rename_i e hl
        have := LoadOrCreate_error_cause hl
        intro h
        simp only [Option.some.injEq] at h
        subst h
        simp at this
      · simp
    · simp
    · split
      · rename_i e hl
        have := LoadOrCreate_error_cause hl
        intro h
        simp only [Option.some.injEq] at h
        subst h
        simp at this
      · simp
    · simp

/-- The result of the gas block of `handleTsf` when the gas fits the limit. -/
theorem tsfChargeGas_eq {producer sender : PKHash} {tx : Transfer} {ws : WorkingSet}
    {gl g : Nat} (hg : tx.intrinsicGas = some g) (hgl : g ≤ gl)
    (hfee : tx.gasPrice * (g : Int) ≤ tx.amount + tx.gasPrice * (g : Int)) :
    tsfChargeGas producer tx sender ws gl =
      if (ws.account sender).balance < tx.amount + tx.gasPrice * (g : Int) then
        ⟨ws, gl, some Err.ErrNotEnoughBalance⟩
      else
        ⟨(ws.setAccount sender { ws.account sender with
              balance := (ws.account sender).balance - tx.gasPrice * (g : Int) }).setAccount
            producer
            { (ws.setAccount sender { ws.account sender with
                balance := (ws.account sender).balance - tx.gasPrice * (g : Int) }).account
                producer with
              balance := ((ws.setAccount sender { ws.account sender with
                balance := (ws.account sender).balance - tx.gasPrice * (g : Int) }).account
                producer).balance + tx.gasPrice * (g : Int) },
          (gl + 2 ^ 64 - g) % 2 ^ 64, none⟩ := by
  unfold tsfChargeGas Account.SubBalance Account.AddBalance
  simp only [hg, Nat.not_lt.mpr hgl, if_false]
  split_ifs <;> first | rfl | omega

theorem tsfRecipient_ok {env : Env} {tx : Transfer} {ws : WorkingSet} {gl : Nat}
    {hr : PKHash} {ra : Account}
    (hd : env.AddressToPKHash tx.recipient = some hr) (hv : ws.view env hr = .ok ra)
    (hvotee : ra.votee = "" ∨ ra.votee = tx.recipient ∨ Loads env ws ra.votee) :
    (tsfRecipient env tx ws gl).err = none ∧
    ∀ k, k ≠ hr → ws.cachedAccount k →
      (tsfRecipient env tx ws gl).ws.cachedStates.lookup k =
        some (Iotex.State.account
          { ws.account k with votingWeight :=
              ((tsfRecipient env tx ws gl).ws.account k).votingWeight }) := by
  unfold tsfRecipient Account.AddBalance
  rw [LoadOrCreate_ok hd hv]
  simp only [account_ensure_self hv, account_setAccount, if_true]
  have hbase : ∀ k, k ≠ hr → ws.cachedAccount k →
      ((ws.ensure hr ra).setAccount hr
        { ra with balance := ra.balance + tx.amount }).cachedStates.lookup k =
        some (Iotex.State.account (ws.account k)) := by
    intro k hk hc
    rw [lookup_setAccount, if_neg hk, lookup_ensure_ne ws ra hk, lookup_of_cachedAccount hc]
  split_ifs with h1
  · obtain ⟨hv1, hv2⟩ := h1
    rcases hvotee with h | h | ⟨hvt, va, hdv, hvv⟩
    · exact absurd h hv1
    · exact absurd h hv2
    · have hvv' : ((ws.ensure hr ra).setAccount hr
          { ra with balance := ra.balance + tx.amount }).view env hvt =
          .ok (if hvt = hr then { ra with balance := ra.balance + tx.amount } else va) := by
        rw [view_setAccount]
        split_ifs with hh
        · rfl
        · rw [view_ensure hv, hvv]
      rw [LoadOrCreate_ok hdv hvv']
      refine ⟨rfl, ?_⟩
      intro k hk hc
      dsimp only
      simp only [lookup_setAccount, account_setAccount]
      by_cases hkv : k = hvt
      · subst hkv
        simp only [if_true, if_neg hk] at hvv' ⊢
        have h2 := @view_of_lookup env _ _ _ (hbase k hk hc)
        rw [hvv'] at h2
        simp only [Except.ok.injEq] at h2
        rw [account_ensure_self hvv', h2]
      · simp only [if_neg hkv]
        rw [lookup_ensure_ne _ _ hkv, hbase k hk hc]
        have : (((ws.ensure hr ra).setAccount hr
            { ra with balance := ra.balance + tx.amount }).ensure hvt
              (if hvt = hr then { ra with balance := ra.balance + tx.amount } else va)).account
              k = ws.account k := by
          rw [account_ensure_ne _ _ hkv]
          exact account_of_lookup (hbase k hk hc)
        rw [this]
  · refine ⟨rfl, ?_⟩
    intro k hk hc
    dsimp only
    rw [hbase k hk hc, account_of_lookup (hbase k hk hc)]

theorem keepsVotee_set {env : Env} {ws0 ws : WorkingSet} {h : PKHash} {b : Account}
    (hP : KeepsVotee env ws0 ws) (hc : ws.cachedAccount h)
    (hb : b.votee = (ws.account h).votee) : KeepsVotee env ws0 (ws.setAccount h b) := by
  intro k a hk
  obtain ⟨a', ha', hv⟩ := hP k a hk
  rw [view_setAccount]
  split_ifs with hkh
  · subst hkh
    rw [view_of_cachedAccount env hc] at ha'
    cases ha'
    exact ⟨b, rfl, by rw [hb, hv]⟩
  · exact ⟨a', ha', hv⟩

theorem keepsVotee_invariant (env : Env) (ws0 : WorkingSet) :
    TsfInvariant env (KeepsVotee env ws0) (fun _ => True) where
  load := fun hP hl k a hk => by
    obtain ⟨a', ha', hv⟩ := hP k a hk
    exact ⟨a', by rw [LoadOrCreate_view hl k]; exact ha', hv⟩
  debit := fun hP hc _ => keepsVotee_set hP hc rfl
  credit := fun hP hc _ => keepsVotee_set hP hc rfl
  nonce := fun hP hc _ => keepsVotee_set hP hc rfl
  weight := fun _ hP hc => keepsVotee_set hP hc rfl

theorem keepsVotee_refl (env : Env) (ws : WorkingSet) : KeepsVotee env ws ws :=
  fun _ a hk => ⟨a, hk, rfl⟩

theorem loads_of_keepsVotee {env : Env} {ws0 ws : WorkingSet} {addr : String}
    (hP : KeepsVotee env ws0 ws) (hl : Loads env ws0 addr) : Loads env ws addr := by
  obtain ⟨h, a, hd, hv⟩ := hl
  obtain ⟨a', ha', _⟩ := hP h a hv
  exact ⟨h, a', hd, ha'⟩

theorem tsfDebit_ok {env : Env} {tx : Transfer} {sender : PKHash} {ws : WorkingSet}
    {gl : Nat} (hc : ws.cachedAccount sender)
    (hbal : tx.amount ≤ (ws.account sender).balance)
    (hvotee : (ws.account sender).votee = "" ∨ (ws.account sender).votee = tx.sender ∨
      Loads env ws (ws.account sender).votee) :
    (tsfDebit env tx sender ws gl).err = none ∧
    (tsfDebit env tx sender ws gl).gasLimit = gl ∧
    ∃ a, (tsfDebit env tx sender ws gl).ws.cachedStates.lookup sender =
        some (Iotex.State.account a) ∧
      a.balance = (ws.account sender).balance - tx.amount := by
  unfold tsfDebit Account.SubBalance
  rw [if_neg (by omega)]
  dsimp only
  have h2 : ∃ ws2 : WorkingSet, ws2 = (if tx.nonce > ((ws.setAccount sender
        { ws.account sender with balance := (ws.account sender).balance - tx.amount }).account
          sender).nonce then
        (ws.setAccount sender
          { ws.account sender with balance := (ws.account sender).balance - tx.amount
          }).setAccount sender
          { (ws.setAccount sender
            { ws.account sender with balance := (ws.account sender).balance - tx.amount
            }).account sender with nonce := tx.nonce }
        else ws.setAccount sender
          { ws.account sender with balance := (ws.account sender).balance - tx.amount }) ∧
      (∃ a, ws2.cachedStates.lookup sender = some (Iotex.State.account a) ∧
        a.balance = (ws.account sender).balance - tx.amount ∧
        a.votee = (ws.account sender).votee) ∧
      (∀ k, k ≠ sender → ws2.view env k = ws.view env k) := by
    refine ⟨_, rfl, ?_, ?_⟩
    · split_ifs
      · exact ⟨_, by rw [lookup_setAccount, if_pos rfl], by simp [account_setAccount],
          by simp [account_setAccount]⟩
      · refine ⟨{ ws.account sender with
          balance := (ws.account sender).balance - tx.amount }, ?_, rfl, rfl⟩
        rw [lookup_setAccount, if_pos rfl]
    · intro k hk
      split_ifs <;> simp [view_setAccount, hk]
  obtain ⟨ws2, hws2, ⟨a2, hl2, hb2, hv2⟩, hview2⟩ := h2
  rw [← hws2]
  rw [account_of_lookup hl2, hv2]
  split_ifs with h1
  · obtain ⟨hv1, hv1'⟩ := h1
    rcases hvotee with h | h | ⟨hvt, va, hdv, hvv⟩
    · exact absurd h hv1
    · exact absurd h hv1'
    · have hvv' : ws2.view env hvt = .ok (if hvt = sender then a2 else va) := by
        split_ifs with hh
        · subst hh; exact view_of_lookup hl2
        · rw [hview2 hvt hh, hvv]
      rw [LoadOrCreate_ok hdv hvv']
      refine ⟨rfl, rfl, ?_⟩
      dsimp only
      simp only [lookup_setAccount]
      by_cases hkv : sender = hvt
      · subst hkv
        simp only [if_true] at hvv' ⊢
        exact ⟨_, rfl, by rw [account_ensure_self hvv']; exact hb2⟩
      · simp only [if_neg hkv]
        rw [lookup_ensure_ne _ _ hkv]
        exact ⟨a2, hl2, hb2⟩
  · exact ⟨rfl, rfl, a2, hl2, hb2⟩

theorem handleTsf_singleton (env : Env) (producer : PKHash) (tx : Transfer)
    (ws : WorkingSet) (gl : Nat) (e : Bool) :
    handleTsf env producer [tx] ws gl e = tsfStep env producer tx ws gl e := by
  rw [handleTsf]
  split
  · rfl
  · rename_i h
    rw [handleTsf]
    cases hr : tsfStep env producer tx ws gl e with
    | mk w g er =>
      rw [hr] at h
      simp only at h
      subst h
      rfl

theorem tsfSender_spec {env : Env} {ws : WorkingSet} {tx : Transfer} {producer hs : PKHash}
    {sa : Account} {gl : Nat} {e : Bool}
    (hamt : 0 ≤ tx.amount) (hprice : 0 ≤ tx.gasPrice) (hprod : ws.cachedAccount producer)
    (hds : env.AddressToPKHash tx.sender = some hs) (hsa : ws.view env hs = .ok sa)
    (hgas : e = true → ∃ g, tx.intrinsicGas = some g ∧ g ≤ gl) :
    ((tsfSender env producer tx ws gl e).err = some Err.ErrNotEnoughBalance ↔
      sa.balance < tx.amount + tx.fee e) ∧
    (tx.amount + tx.fee e ≤ sa.balance →
      (sa.votee = "" ∨ sa.votee = tx.sender ∨ Loads env ws sa.votee) →
      (tsfSender env producer tx ws gl e).err = none ∧
      ∃ a, (tsfSender env producer tx ws gl e).ws.cachedStates.lookup hs =
          some (Iotex.State.account a) ∧
        a.balance = if hs = producer then sa.balance - tx.amount
                    else sa.balance - tx.fee e - tx.amount) := by
  have hc1 : (ws.ensure hs sa).cachedAccount hs := cachedAccount_ensure hsa
  have hacc1 : (ws.ensure hs sa).account hs = sa := account_ensure_self hsa
  have hK1 : KeepsVotee env ws (ws.ensure hs sa) :=
    fun k a hk => ⟨a, by rw [view_ensure hsa]; exact hk, rfl⟩
  unfold tsfSender
  rw [LoadOrCreate_ok hds hsa]
  cases e with
  | false =>
    simp only [Transfer.fee, Bool.false_eq_true, if_false, add_zero, sub_zero]
    refine ⟨?_, ?_⟩
    · rw [tsfDebit_balance_iff, hacc1]
    · intro hbal hvotee
      have hv' : ((ws.ensure hs sa).account hs).votee = "" ∨
          ((ws.ensure hs sa).account hs).votee = tx.sender ∨
          Loads env (ws.ensure hs sa) ((ws.ensure hs sa).account hs).votee := by
        rw [hacc1]
        rcases hvotee with h | h | h
        · exact Or.inl h
        · exact Or.inr (Or.inl h)
        · exact Or.inr (Or.inr (loads_of_keepsVotee hK1 h))
      obtain ⟨h1, _, a, h3, h4⟩ := @tsfDebit_ok env tx hs _ gl hc1
        (by rw [hacc1]; exact hbal) hv'
      refine ⟨h1, a, h3, ?_⟩
      rw [h4, hacc1]
      split_ifs <;> rfl
  | true =>
    obtain ⟨g, hg, hgl⟩ := hgas rfl
    have hfee0 : 0 ≤ tx.gasPrice * (g : Int) := Int.mul_nonneg hprice (Int.ofNat_nonneg g)
    simp only [Transfer.fee, if_true, hg, Option.getD_some]
    rw [tsfChargeGas_eq hg hgl (by omega), hacc1]
    by_cases hlt : sa.balance < tx.amount + tx.gasPrice * (g : Int)
    · simp only [if_pos hlt, true_iff]
      exact ⟨by trivial, fun h => absurd hlt (by omega)⟩
    · simp only [if_neg hlt]
      have hc2 : ((ws.ensure hs sa).setAccount hs
          { sa with balance := sa.balance - tx.gasPrice * (g : Int) }).cachedAccount producer :=
        cachedAccount_setAccount
          ((LoadOrCreate_cached (LoadOrCreate_ok hds hsa)).2 _ hprod) _ _
      have hK2 := keepsVotee_set hK1 hc1
        (b := { sa with balance := sa.balance - tx.gasPrice * (g : Int) }) (by rw [hacc1])
      have hK3 := keepsVotee_set hK2 hc2
        (b := { (((ws.ensure hs sa).setAccount hs
            { sa with balance := sa.balance - tx.gasPrice * (g : Int) }).account producer) with
          balance := (((ws.ensure hs sa).setAccount hs
            { sa with balance := sa.balance - tx.gasPrice * (g : Int) }).account
              producer).balance + tx.gasPrice * (g : Int) }) rfl
      generalize hws3 : (((ws.ensure hs sa).setAccount hs
          { sa with balance := sa.balance - tx.gasPrice * (g : Int) }).setAccount producer
          { (((ws.ensure hs sa).setAccount hs
              { sa with balance := sa.balance - tx.gasPrice * (g : Int) }).account producer) with
            balance := (((ws.ensure hs sa).setAccount hs
              { sa with balance := sa.balance - tx.gasPrice * (g : Int) }).account
                producer).balance + tx.gasPrice * (g : Int) }) = ws3 at hK3 ⊢
      have hacc3 : (ws3.account hs).balance =
            (if hs = producer then sa.balance else sa.balance - tx.gasPrice * (g : Int)) ∧
          (ws3.account hs).votee = sa.votee := by
        rw [← hws3]
        simp only [account_setAccount]
        by_cases h : hs = producer
        · subst h; simp
        · have h' : ¬ producer = hs := fun x => h x.symm
          simp [h, h']
      have hc3 : ws3.cachedAccount hs := by
        rw [← hws3]
        exact cachedAccount_setAccount (cachedAccount_setAccount_self _ _ _) _ _
      refine ⟨?_, ?_⟩
      · rw [tsfDebit_balance_iff, hacc3.1]
        simp only [hlt, iff_false]
        split_ifs <;> omega
      · intro hbal hvotee
        have hv' : (ws3.account hs).votee = "" ∨ (ws3.account hs).votee = tx.sender ∨
            Loads env ws3 (ws3.account hs).votee := by
          rw [hacc3.2]
          rcases hvotee with h | h | h
          · exact Or.inl h
          · exact Or.inr (Or.inl h)
          · exact Or.inr (Or.inr (loads_of_keepsVotee hK3 h))
        obtain ⟨h1, _, a, h3, h4⟩ := @tsfDebit_ok env tx hs _
          ((gl + 2 ^ 64 - g) % 2 ^ 64) hc3
          (by rw [hacc3.1]; split_ifs <;> omega) hv'
        refine ⟨h1, a, h3, ?_⟩
        rw [h4, hacc3.1]
        split_ifs <;> rfl

/-- Claim C3 (amended): for a non-coinbase, non-contract transfer with
non-negative amount and gas price that passes the gas-limit check, `handleTsf`
fails with cause `ErrNotEnoughBalance` if and only if `amount + fee` exceeds the
sender's balance (`fee = gasPrice × intrinsicGas` with gas charging, `0`
without); and when `amount + fee` equals the balance, the recipient is an
account other than the sender and the recipient and the votees load, the
transfer succeeds and leaves the sender with balance `0`, or with `fee` when
the sender is also the producer. -/
theorem handleTsf_notEnoughBalance_iff (env : Env) (ws : WorkingSet) (tx : Transfer)
    (producer hs : PKHash) (sa : Account) (gl : Nat) (e : Bool)
    (hcoin : tx.isCoinbase = false) (hcontract : tx.isContract = false)
    (hamt : 0 ≤ tx.amount) (hprice : 0 ≤ tx.gasPrice)
    (hprod : ws.cachedAccount producer)
    (hds : env.AddressToPKHash tx.sender = some hs) (hsa : ws.view env hs = .ok sa)
    (hgas : e = true → ∃ g, tx.intrinsicGas = some g ∧ g ≤ gl) :
    ((handleTsf env producer [tx] ws gl e).err = some Err.ErrNotEnoughBalance ↔
      sa.balance < tx.amount + tx.fee e) ∧
    (∀ (hr : PKHash) (ra : Account), tx.amount + tx.fee e = sa.balance →
      env.AddressToPKHash tx.recipient = some hr → hr ≠ hs → ws.view env hr = .ok ra →
      (sa.votee = "" ∨ sa.votee = tx.sender ∨ Loads env ws sa.votee) →
      (ra.votee = "" ∨ ra.votee = tx.recipient ∨ Loads env ws ra.votee) →
      (handleTsf env producer [tx] ws gl e).err = none ∧
      ∃ a, (handleTsf env producer [tx] ws gl e).ws.cachedStates.lookup hs =
          some (Iotex.State.account a) ∧
        a.balance = if hs = producer then tx.fee e else 0) := by
  obtain ⟨hiff, hok⟩ := @tsfSender_spec env ws tx producer hs sa gl e hamt hprice hprod
    hds hsa hgas
  have hfee0 : 0 ≤ tx.fee e := by
    unfold Transfer.fee
    split_ifs
    · exact Int.mul_nonneg hprice (Int.ofNat_nonneg _)
    · exact le_refl 0
  obtain ⟨hK, hcK⟩ := @tsfSender_preserves env _ _ (keepsVotee_invariant env ws) producer
    tx ws gl e (fun _ _ => trivial) hprod (keepsVotee_refl env ws)
  rw [handleTsf_singleton]
  unfold tsfStep
  simp only [hcontract, hcoin, Bool.false_eq_true, if_false, Bool.not_false, if_true]
  refine ⟨?_, ?_⟩
  · cases hr : (tsfSender env producer tx ws gl e).err with
    | some x => simp only; rw [hr] at hiff ⊢; exact hiff
    | none =>
      simp only
      rw [hr] at hiff
      simp only [false_iff, reduceCtorEq] at hiff
      simp only [hiff, iff_false]
      exact tsfRecipient_not_balance env tx _ _
  · intro hr ra hbal hdr hne hra hvs hvr
    obtain ⟨herr, a, hla, hba⟩ := hok (by omega) hvs
    simp only [herr]
    obtain ⟨ra', hra', hvra⟩ := hK hr ra hra
    have hvr' : ra'.votee = "" ∨ ra'.votee = tx.recipient ∨
        Loads env (tsfSender env producer tx ws gl e).ws ra'.votee := by
      rw [hvra]
      rcases hvr with h | h | h
      · exact Or.inl h
      · exact Or.inr (Or.inl h)
      · exact Or.inr (Or.inr (loads_of_keepsVotee hK h))
    obtain ⟨h1, h2⟩ := @tsfRecipient_ok env tx _
      (tsfSender env producer tx ws gl e).gasLimit hr ra' hdr hra' hvr'
    refine ⟨h1, _, h2 hs (fun x => hne x.symm) ⟨a, hla⟩, ?_⟩
    simp only
    rw [account_of_lookup hla, hba]
    split_ifs <;> omega

/-- Witness of C3: with balance 31, amount 10 and fee 21 the transfer is not
rejected for its balance, it succeeds and leaves the sender with balance 0. -/
theorem handleTsf_notEnoughBalance_iff_witness :
    ((handleTsf demoEnv [3] [demoTransfer 10 1 21] (demoWs (demoCache 31)) 100 true).err =
        some Err.ErrNotEnoughBalance ↔
      (31 : Int) < (demoTransfer 10 1 21).amount + (demoTransfer 10 1 21).fee true) ∧
    ((handleTsf demoEnv [3] [demoTransfer 10 1 21] (demoWs (demoCache 31)) 100 true).err =
        none ∧
      ∃ a, (handleTsf demoEnv [3] [demoTransfer 10 1 21] (demoWs (demoCache 31)) 100
          true).ws.cachedStates.lookup [1] = some (Iotex.State.account a) ∧
        a.balance = if ([1] : PKHash) = [3] then (demoTransfer 10 1 21).fee true else 0) :=
  ⟨(handleTsf_notEnoughBalance_iff demoEnv (demoWs (demoCache 31)) (demoTransfer 10 1 21)
      [3] [1] (acct 31) 100 true rfl rfl (by decide) (by decide) ⟨acct 0, rfl⟩ rfl rfl
      (fun _ => ⟨21, rfl, by decide⟩)).1,
   (handleTsf_notEnoughBalance_iff demoEnv (demoWs (demoCache 31)) (demoTransfer 10 1 21)
      [3] [1] (acct 31) 100 true rfl rfl (by decide) (by decide) ⟨acct 0, rfl⟩ rfl rfl
      (fun _ => ⟨21, rfl, by decide⟩)).2 [2] (acct 0) (by decide) rfl (by decide) rfl
      (Or.inl rfl) (Or.inl rfl)⟩

/-- Counterexample to C3 as stated: a transfer of alice's whole balance 10 to
herself, without gas charging, has a non-negative amount and gas price and
`amount + fee = balance`; it succeeds, alice is not the producer, and yet her
balance afterwards is 10, not 0. -/
theorem handleTsf_self_transfer_keeps_balance :
    (demoSelfTransfer 10).isCoinbase = false ∧ (demoSelfTransfer 10).isContract = false ∧
    0 ≤ (demoSelfTransfer 10).amount ∧ 0 ≤ (demoSelfTransfer 10).gasPrice ∧
    (demoWs (demoCache 10)).view demoEnv [1] = .ok (acct 10) ∧
    (demoSelfTransfer 10).amount + (demoSelfTransfer 10).fee false = 10 ∧
    ([1] : PKHash) ≠ [3] ∧
    (handleTsf demoEnv [3] [demoSelfTransfer 10] (demoWs (demoCache 10)) 100 false).err
      = none ∧
    (handleTsf demoEnv [3] [demoSelfTransfer 10] (demoWs (demoCache 10)) 100
      false).ws.cachedStates.lookup [1] =
        some (Iotex.State.account { acct 10 with nonce := 1 }) := by
  decide

/-! ## Gas accounting -/

theorem tsfRecipient_gas (env : Env) (tx : Transfer) (ws : WorkingSet) (gl : Nat) :
    (tsfRecipient env tx ws gl).gasLimit = gl ∧
    (tsfRecipient env tx ws gl).err ≠ some Err.ErrOutOfGas := by
  unfold tsfRecipient Account.AddBalance
  split
  · rename_i e hl
    have := LoadOrCreate_error_cause hl
    refine ⟨rfl, fun h => ?_⟩
    simp only [Option.some.injEq] at h
    subst h
    simp at this
  · dsimp only
    split_ifs
    · split
      · rename_i e hl
        have := LoadOrCreate_error_cause hl
        refine ⟨rfl, fun h => ?_⟩
        simp only [Option.some.injEq] at h
        subst h
        simp at this
      · exact ⟨rfl, by simp⟩
    · exact ⟨rfl, by simp⟩

theorem tsfDebit_gas (env : Env) (tx : Transfer) (sender : PKHash) (ws : WorkingSet)
    (gl : Nat) :
    (tsfDebit env tx sender ws gl).gasLimit = gl ∧
    (tsfDebit env tx sender ws gl).err ≠ some Err.ErrOutOfGas := by
  unfold tsfDebit Account.SubBalance
  split_ifs with h1
  · exact ⟨rfl, by simp⟩
  · dsimp only
    split_ifs
    all_goals first
      | exact ⟨rfl, by simp⟩
      | (split
         · rename_i e hl
           have := LoadOrCreate_error_cause hl
           refine ⟨rfl, fun h => ?_⟩
           simp only [Option.some.injEq] at h
           subst h
           simp at this
         · exact ⟨rfl, by simp⟩)

/-- Gas behaviour of the gas block: out of gas exactly when the intrinsic gas
exceeds the limit, and on success the limit is lowered by the gas. -/
theorem tsfChargeGas_gas (producer sender : PKHash) (tx : Transfer) (ws : WorkingSet)
    (gl : Nat) :
    ((tsfChargeGas producer tx sender ws gl).err = some Err.ErrOutOfGas ↔
      ∃ g, tx.intrinsicGas = some g ∧ gl < g) ∧
    ((tsfChargeGas producer tx sender ws gl).err = none →
      ∃ g, tx.intrinsicGas = some g ∧ g ≤ gl ∧
        (tsfChargeGas producer tx sender ws gl).gasLimit = (gl + 2 ^ 64 - g) % 2 ^ 64) ∧
    ((tsfChargeGas producer tx sender ws gl).err ≠ none →
      (tsfChargeGas producer tx sender ws gl).gasLimit = gl) := by
  unfold tsfChargeGas Account.SubBalance Account.AddBalance
  cases hg : tx.intrinsicGas with
  | none => simp
  | some g =>
    dsimp only
    by_cases hgl : gl < g
    · simp [hgl]
    · simp only [hgl, if_false]
      split_ifs
      · simp [hgl]
      · simp [hgl]
      · simp [hgl]; omega

theorem tsfSender_gas (env : Env) (producer : PKHash) (tx : Transfer) (ws : WorkingSet)
    (gl : Nat) :
    ((tsfSender env producer tx ws gl true).err = none →
      ∃ g, tx.intrinsicGas = some g ∧ g ≤ gl ∧
        (tsfSender env producer tx ws gl true).gasLimit = (gl + 2 ^ 64 - g) % 2 ^ 64) ∧
    ((tsfSender env producer tx ws gl true).err = some Err.ErrOutOfGas →
      ∃ g, tx.intrinsicGas = some g ∧ gl < g ∧
        (tsfSender env producer tx ws gl true).gasLimit = gl) ∧
    (∀ g, tx.intrinsicGas = some g → Loads env ws tx.sender →
      (gl < g → (tsfSender env producer tx ws gl true).err = some Err.ErrOutOfGas) ∧
      (g ≤ gl → (tsfSender env producer tx ws gl true).err ≠ some Err.ErrOutOfGas)) := by
  unfold tsfSender
  split
  · rename_i e hl
    have hc := LoadOrCreate_error_cause hl
    refine ⟨by simp, fun h => ?_, ?_⟩
    · simp only [Option.some.injEq] at h
      subst h
      simp at hc
    · intro g _ ⟨h, a, hd, hv⟩
      rw [LoadOrCreate_ok hd hv] at hl
      cases hl
  · rename_i sender ws1 hl
    simp only [if_true]
    obtain ⟨h1, h2, h3⟩ := tsfChargeGas_gas producer sender tx ws1 gl
    cases hc : (tsfChargeGas producer tx sender ws1 gl).err with
    | some x =>
      simp only
      rw [hc] at h1
      rw [hc]
      refine ⟨fun h => (by cases h), fun h => ?_, ?_⟩
      · obtain ⟨g, hg, hlt⟩ := h1.mp h
        exact ⟨g, hg, hlt, h3 (by rw [hc]; simp)⟩
      · intro g hg _
        refine ⟨fun hlt => ?_, fun hle => ?_⟩
        · exact h1.mpr ⟨g, hg, hlt⟩
        · intro h
          obtain ⟨g', hg', hlt⟩ := h1.mp h
          rw [hg] at hg'
          cases hg'
          omega
    | none =>
      simp only
      obtain ⟨g, hg, hle, hgas⟩ := h2 hc
      obtain ⟨hd1, hd2⟩ := tsfDebit_gas env tx sender
        (tsfChargeGas producer tx sender ws1 gl).ws
        (tsfChargeGas producer tx sender ws1 gl).gasLimit
      refine ⟨fun _ => ⟨g, hg, hle, by rw [hd1, hgas]⟩, fun h => absurd h hd2, ?_⟩
      intro g' hg' _
      rw [hg] at hg'
      cases hg'
      exact ⟨fun hlt => absurd hlt (by omega), fun _ => hd2⟩

/-- Gas behaviour of one iteration of `handleTsf` with gas charging. -/
theorem tsfStep_gas (env : Env) (producer : PKHash) (tx : Transfer) (ws : WorkingSet)
    (gl : Nat) :
    ((tsfStep env producer tx ws gl true).err = none →
      if tx.charged then
        ∃ g, tx.intrinsicGas = some g ∧ g ≤ gl ∧
          (tsfStep env producer tx ws gl true).gasLimit = (gl + 2 ^ 64 - g) % 2 ^ 64
      else (tsfStep env producer tx ws gl true).gasLimit = gl) ∧
    ((tsfStep env producer tx ws gl true).err = some Err.ErrOutOfGas →
      tx.charged = true ∧ ∃ g, tx.intrinsicGas = some g ∧ gl < g ∧
        (tsfStep env producer tx ws gl true).gasLimit = gl) ∧
    (tx.charged = true → ∀ g, tx.intrinsicGas = some g → Loads env ws tx.sender →
      (gl < g → (tsfStep env producer tx ws gl true).err = some Err.ErrOutOfGas) ∧
      (g ≤ gl → (tsfStep env producer tx ws gl true).err ≠ some Err.ErrOutOfGas)) := by
  unfold tsfStep Transfer.charged
  cases hct : tx.isContract with
  | true => simp
  | false =>
    cases hcb : tx.isCoinbase with
    | true =>
      simp only [Bool.false_eq_true, if_false, Bool.not_true, Bool.not_false, Bool.and_false]
      obtain ⟨h1, h2⟩ := tsfRecipient_gas env tx ws gl
      exact ⟨fun _ => h1, fun h => absurd h h2, fun h => by simp at h⟩
    | false =>
      simp only [Bool.false_eq_true, if_false, Bool.not_false, Bool.and_self, if_true]
      obtain ⟨h1, h2, h3⟩ := tsfSender_gas env producer tx ws gl
      cases hs : (tsfSender env producer tx ws gl true).err with
      | some x =>
        simp only
        rw [hs] at h1 h2 h3
        rw [hs]
        refine ⟨fun h => (by cases h), fun h => ?_, fun _ => ?_⟩
        · exact ⟨trivial, h2 h⟩
        · exact h3
      | none =>
        simp only
        obtain ⟨g, hg, hle, hgas⟩ := h1 hs
        obtain ⟨hr1, hr2⟩ := tsfRecipient_gas env tx
          (tsfSender env producer tx ws gl true).ws
          (tsfSender env producer tx ws gl true).gasLimit
        refine ⟨fun _ => ⟨g, hg, hle, by rw [hr1, hgas]⟩, fun h => absurd h hr2, fun _ => ?_⟩
        intro g' hg' _
        rw [hg] at hg'
        cases hg'
        exact ⟨fun hlt => absurd hlt (by omega), fun _ => hr2⟩

theorem handleTsf_append (env : Env) (producer : PKHash) (e : Bool) (pre post : List Transfer) :
    ∀ (ws : WorkingSet) (gl : Nat),
      handleTsf env producer (pre ++ post) ws gl e =
        match (handleTsf env producer pre ws gl e).err with
        | some _ => handleTsf env producer pre ws gl e
        | none => handleTsf env producer post (handleTsf env producer pre ws gl e).ws
            (handleTsf env producer pre ws gl e).gasLimit e := by
  induction pre with
  | nil => intro ws gl; simp [handleTsf]
  | cons tx rest ih =>
    intro ws gl
    rw [List.cons_append, handleTsf, handleTsf]
    cases hs : (tsfStep env producer tx ws gl e).err with
    | some x => simp [hs]
    | none => simp only; rw [ih]

theorem chargedGas_cons (tx : Transfer) (rest : List Transfer) :
    chargedGas (tx :: rest) =
      (if tx.charged then tx.intrinsicGas.getD 0 else 0) + chargedGas rest := rfl

theorem handleTsf_gas_success (env : Env) (producer : PKHash) (tsfs : List Transfer) :
    ∀ (ws : WorkingSet) (gl : Nat), gl < 2 ^ 64 →
      (handleTsf env producer tsfs ws gl true).err = none →
      chargedGas tsfs ≤ gl ∧
      (handleTsf env producer tsfs ws gl true).gasLimit = gl - chargedGas tsfs := by
  induction tsfs with
  | nil => intro ws gl _ _; simp [handleTsf, chargedGas]
  | cons tx rest ih =>
    intro ws gl hgl hok
    rw [handleTsf] at hok ⊢
    cases hs : (tsfStep env producer tx ws gl true).err with
    | some x => rw [hs] at hok; simp only at hok; rw [hs] at hok; cases hok
    | none =>
      rw [hs] at hok
      simp only at hok ⊢
      have h1 := (tsfStep_gas env producer tx ws gl).1 hs
      rw [chargedGas_cons]
      split_ifs at h1 ⊢ with hch
      · obtain ⟨g, hg, hle, hgas⟩ := h1
        have hgas' : (tsfStep env producer tx ws gl true).gasLimit = gl - g := by
          rw [hgas]; omega
        rw [hgas'] at hok ⊢
        obtain ⟨h2, h3⟩ := ih _ (gl - g) (by omega) hok
        rw [h3, hg]
        simp only [Option.getD_some]
        omega
      · rw [h1] at hok ⊢
        obtain ⟨h2, h3⟩ := ih _ gl hgl hok
        rw [h3]
        omega

theorem handleTsf_outOfGas (env : Env) (producer : PKHash) (tsfs : List Transfer) :
    ∀ (ws : WorkingSet) (gl : Nat), gl < 2 ^ 64 →
      (handleTsf env producer tsfs ws gl true).err = some Err.ErrOutOfGas →
      ∃ pre tx post g, tsfs = pre ++ tx :: post ∧ tx.charged = true ∧
        tx.intrinsicGas = some g ∧ (handleTsf env producer pre ws gl true).err = none ∧
        chargedGas pre ≤ gl ∧ gl - chargedGas pre < g ∧
        (handleTsf env producer tsfs ws gl true).gasLimit = gl - chargedGas pre := by
  induction tsfs with
  | nil => intro ws gl _ h; simp [handleTsf] at h
  | cons tx rest ih =>
    intro ws gl hgl hoog
    rw [handleTsf] at hoog ⊢
    cases hs : (tsfStep env producer tx ws gl true).err with
    | some x =>
      rw [hs] at hoog
      simp only at hoog ⊢
      obtain ⟨hch, g, hg, hlt, hgas⟩ := (tsfStep_gas env producer tx ws gl).2.1 hoog
      exact ⟨[], tx, rest, g, rfl, hch, hg, by simp [handleTsf], by simp [chargedGas],
        by simpa [chargedGas] using hlt, by simpa [chargedGas] using hgas⟩
    | none =>
      rw [hs] at hoog
      simp only at hoog ⊢
      have h1 := (tsfStep_gas env producer tx ws gl).1 hs
      have hgas' : (tsfStep env producer tx ws gl true).gasLimit =
            gl - (if tx.charged then tx.intrinsicGas.getD 0 else 0) ∧
          (if tx.charged then tx.intrinsicGas.getD 0 else 0) ≤ gl := by
        split_ifs at h1 ⊢ with hch
        · obtain ⟨g, hg, hle, hgas⟩ := h1
          rw [hgas, hg]
          simp only [Option.getD_some]
          omega
        · rw [h1]; omega
      obtain ⟨pre, tx', post, g', hsplit, hch', hg', hpre, hle', hlt', hfin⟩ :=
        ih _ _ (by rw [hgas'.1]; omega) hoog
      refine ⟨tx :: pre, tx', post, g', by rw [hsplit]; rfl, hch', hg', ?_, ?_, ?_, ?_⟩
      · rw [handleTsf, hs]; exact hpre
      · rw [hgas'.1] at hle'; rw [chargedGas_cons]; omega
      · rw [hgas'.1] at hlt'; rw [chargedGas_cons]; omega
      · rw [hfin, hgas'.1, chargedGas_cons]; omega

/-- Claim C4: gas accounting of `handleTsf` with gas charging, for an unsigned
64-bit gas limit. When `handleTsf` succeeds, the final gas limit is the initial
limit minus the intrinsic gas of all charged (non-coinbase, non-contract)
transfers, a subtraction that never wraps around. When it fails with out-of-gas,
it does so at a charged transfer whose intrinsic gas is strictly greater than
the remaining limit, all earlier transfers having been handled, and the limit
is left at the remaining value. Conversely a charged transfer reached with its
sender loading is rejected with out-of-gas when its gas is strictly greater
than the remaining limit, and is not when its gas equals the remaining limit. -/
theorem handleTsf_gas_accounting (env : Env) (producer : PKHash) (tsfs : List Transfer)
    (ws : WorkingSet) (gl : Nat) (hgl : gl < 2 ^ 64) :
    ((handleTsf env producer tsfs ws gl true).err = none →
      chargedGas tsfs ≤ gl ∧
      (handleTsf env producer tsfs ws gl true).gasLimit = gl - chargedGas tsfs) ∧
    ((handleTsf env producer tsfs ws gl true).err = some Err.ErrOutOfGas →
      ∃ pre tx post g, tsfs = pre ++ tx :: post ∧ tx.charged = true ∧
        tx.intrinsicGas = some g ∧ (handleTsf env producer pre ws gl true).err = none ∧
        chargedGas pre ≤ gl ∧ gl - chargedGas pre < g ∧
        (handleTsf env producer tsfs ws gl true).gasLimit = gl - chargedGas pre) ∧
    (∀ pre tx post g, tsfs = pre ++ tx :: post → tx.charged = true →
      tx.intrinsicGas = some g → (handleTsf env producer pre ws gl true).err = none →
      Loads env (handleTsf env producer pre ws gl true).ws tx.sender →
      (gl - chargedGas pre < g →
        (handleTsf env producer tsfs ws gl true).err = some Err.ErrOutOfGas) ∧
      (g = gl - chargedGas pre →
        (handleTsf env producer (pre ++ [tx]) ws gl true).err ≠ some Err.ErrOutOfGas)) := by
  refine ⟨handleTsf_gas_success env producer tsfs ws gl hgl,
    handleTsf_outOfGas env producer tsfs ws gl hgl, ?_⟩
  intro pre tx post g hsplit hch hg hpre hloads
  obtain ⟨hle, hgas⟩ := handleTsf_gas_success env producer pre ws gl hgl hpre
  obtain ⟨h1, h2⟩ := (tsfStep_gas env producer tx (handleTsf env producer pre ws gl true).ws
    (handleTsf env producer pre ws gl true).gasLimit).2.2 hch g hg hloads
  rw [hgas] at h1 h2
  refine ⟨fun hlt => ?_, fun heq => ?_⟩
  · rw [hsplit, handleTsf_append, hpre]
    simp only
    rw [hgas, handleTsf_cons_err post (h1 hlt)]
    exact h1 hlt
  · rw [handleTsf_append, hpre]
    simp only
    rw [hgas, handleTsf_singleton]
    exact h2 (by omega)

/-- Witness of C4: in the spec scenario the limit 100 is lowered by the
intrinsic gas 21 of the only transfer; a transfer of intrinsic gas 101 is
rejected with out-of-gas, and one of intrinsic gas 100 is not. -/
theorem handleTsf_gas_accounting_witness :
    (chargedGas [demoTransfer 10 1 21] ≤ 100 ∧
      (handleTsf demoEnv [3] [demoTransfer 10 1 21] (demoWs (demoCache 1000)) 100
        true).gasLimit = 100 - chargedGas [demoTransfer 10 1 21]) ∧
    (handleTsf demoEnv [3] [demoTransfer 10 1 101] (demoWs (demoCache 1000)) 100 true).err =
      some Err.ErrOutOfGas ∧
    (handleTsf demoEnv [3] ([] ++ [demoTransfer 10 1 100]) (demoWs (demoCache 1000)) 100
      true).err ≠ some Err.ErrOutOfGas :=
  ⟨(handleTsf_gas_accounting demoEnv [3] [demoTransfer 10 1 21] (demoWs (demoCache 1000)) 100
      (by decide)).1 (by decide),
   ((handleTsf_gas_accounting demoEnv [3] [demoTransfer 10 1 101] (demoWs (demoCache 1000))
      100 (by decide)).2.2 [] (demoTransfer 10 1 101) [] 101 rfl rfl rfl rfl
      ⟨[1], acct 1000, rfl, rfl⟩).1 (by decide),
   ((handleTsf_gas_accounting demoEnv [3] [demoTransfer 10 1 100] (demoWs (demoCache 1000))
      100 (by decide)).2.2 [] (demoTransfer 10 1 100) [] 100 rfl rfl rfl rfl
      ⟨[1], acct 1000, rfl, rfl⟩).2 (by decide)⟩

/-! ## Nonces never decrease -/

theorem nonceOf_setAccount (env : Env) (ws : WorkingSet) (h k : PKHash) (a : Account) :
    nonceOf env (ws.setAccount h a) k = if k = h then a.nonce else nonceOf env ws k := by
  unfold nonceOf
  rw [view_setAccount]
  split_ifs <;> rfl

theorem nonceOf_cached (env : Env) {ws : WorkingSet} {h : PKHash} (hc : ws.cachedAccount h) :
    nonceOf env ws h = (ws.account h).nonce := by
  unfold nonceOf
  rw [view_of_cachedAccount env hc]

theorem nonceMono_set {env : Env} {ws0 ws : WorkingSet} {h : PKHash} {b : Account}
    (hP : ∀ k, nonceOf env ws0 k ≤ nonceOf env ws k) (hc : ws.cachedAccount h)
    (hb : (ws.account h).nonce ≤ b.nonce) :
    ∀ k, nonceOf env ws0 k ≤ nonceOf env (ws.setAccount h b) k := by
  intro k
  rw [nonceOf_setAccount]
  split_ifs with hk
  · subst hk
    have := hP k
    rw [nonceOf_cached env hc] at this
    omega
  · exact hP k

/-- Relative to `ws0`, no nonce has decreased: a property kept by every
elementary update of the action loops. -/
theorem nonceMono_invariant (env : Env) (ws0 : WorkingSet) :
    Invariant env (fun ws => ∀ k, nonceOf env ws0 k ≤ nonceOf env ws k) (fun _ => True) where
  load := fun hP hl k => by
    have := hP k
    unfold nonceOf at this ⊢
    rw [LoadOrCreate_view hl k]
    exact this
  debit := fun hP hc _ => nonceMono_set hP hc (le_refl _)
  credit := fun hP hc _ => nonceMono_set hP hc (le_refl _)
  nonce := fun hP hc hn => nonceMono_set hP hc (Nat.le_of_lt hn)
  weight := fun _ hP hc => nonceMono_set hP hc (le_refl _)
  votee := fun _ hP hc => nonceMono_set hP hc (le_refl _)
  unvote := fun hP hc => nonceMono_set hP hc (le_refl _)
  nominate := fun {ws h} blockHeight v hP hc k => by
    have := hP k
    unfold nonceOf at this ⊢
    rw [view_selfNominate]
    split_ifs with hk
    · subst hk
      rw [view_of_cachedAccount env hc] at this
      exact this
    · exact this

theorem view_PutState {env : Env} {ws ws' : WorkingSet} {h : PKHash} {s : Iotex.State}
    (hp : ws.PutState env h s = .ok ws') (hc : (ws.cachedStates.lookup h).isSome) (k : PKHash) :
    ws'.view env k = ws.view env k := by
  unfold WorkingSet.PutState at hp
  cases hs : env.Serialize s with
  | none => rw [hs] at hp; cases hp
  | some ss =>
    rw [hs] at hp
    unfold Trie.Upsert at hp
    split_ifs at hp with hf
    simp only [Except.ok.injEq] at hp
    subst hp
    unfold WorkingSet.view
    dsimp only
    cases hl : ws.cachedStates.lookup k with
    | some x => rfl
    | none =>
      have hkh : k ≠ h := by
        intro hkh; subst hkh; rw [hl] at hc; cases hc
      unfold WorkingSet.State Trie.Get
      dsimp only
      rw [AList.lookup_insert_ne hkh]

theorem view_CachedState {env : Env} {ws ws' : WorkingSet} {h : PKHash} {s : Iotex.State}
    (hcs : ws.CachedState env h = .ok (s, ws')) :
    ws'.cachedStates.lookup h = some s ∧ ∀ k, ws'.view env k = ws.view env k := by
  unfold WorkingSet.CachedState at hcs
  cases hl : ws.cachedStates.lookup h with
  | some x =>
    rw [hl] at hcs
    simp only [Except.ok.injEq, Prod.mk.injEq] at hcs
    obtain ⟨h1, h2⟩ := hcs
    subst h1 h2
    exact ⟨hl, fun _ => rfl⟩
  | none =>
    rw [hl] at hcs
    simp only at hcs
    cases hst : ws.State env h with
    | error e => rw [hst] at hcs; cases hcs
    | ok a =>
      rw [hst] at hcs
      simp only [Except.ok.injEq, Prod.mk.injEq] at hcs
      obtain ⟨h1, h2⟩ := hcs
      subst h1 h2
      have hv : ws.view env h = .ok a := by
        unfold WorkingSet.view; rw [hl]; simp only; rw [hst]
      refine ⟨by simp, fun k => ?_⟩
      have := view_setAccount env ws h k a
      unfold WorkingSet.setAccount at this
      rw [this]
      split_ifs with hk
      · subst hk; exact hv.symm
      · rfl

theorem bumpExecutor_nonce (env : Env) (ws : WorkingSet) (e : Execution) (k : PKHash) :
    nonceOf env ws k ≤ nonceOf env (bumpExecutor env ws e).1 k := by
  unfold bumpExecutor
  split
  · exact le_refl _
  · rename_i h hd
    split
    · exact le_refl _
    · rename_i state ws1 hcs
      obtain ⟨hl1, hv1⟩ := view_CachedState hcs
      have h01 : nonceOf env ws k = nonceOf env ws1 k := by
        unfold nonceOf; rw [hv1 k]
      rw [h01]
      cases state with
      | other t => simp [stateToAccountState]
      | account a =>
        simp only [stateToAccountState]
        have hc1 : ws1.cachedAccount h := ⟨a, hl1⟩
        have hacc : ws1.account h = a := account_of_lookup hl1
        have h12 : ∀ b : Account, a.nonce ≤ b.nonce →
            nonceOf env ws1 k ≤ nonceOf env (ws1.setAccount h b) k := by
          intro b hb
          exact @nonceMono_set env ws1 ws1 h b (fun _ => le_refl _) hc1
            (by rw [hacc]; exact hb) k
        have hb : a.nonce ≤ (if e.nonce > a.nonce then { a with nonce := e.nonce }
            else a).nonce := by
          split_ifs with hn
          · exact Nat.le_of_lt hn
          · exact le_refl _
        split
        · exact h12 _ hb
        · rename_i ws3 hp
          have hv3 := view_PutState hp (by simp [lookup_setAccount]) k
          unfold nonceOf at h12 ⊢
          rw [hv3]
          exact h12 _ hb

theorem bumpExecutors_nonce (env : Env) (es : List Execution) :
    ∀ (ws : WorkingSet) (k : PKHash),
      nonceOf env ws k ≤ nonceOf env (bumpExecutors env es ws).1 k := by
  induction es with
  | nil => intro ws k; exact le_refl _
  | cons e rest ih =>
    intro ws k
    rw [bumpExecutors]
    have h1 := bumpExecutor_nonce env ws e k
    cases hb : bumpExecutor env ws e with
    | mk ws1 err =>
      rw [hb] at h1
      cases err with
      | some x => exact h1
      | none => exact le_trans h1 (ih ws1 k)

/-- Claim C5: nonces never decrease. For every account (hash `k`), the nonce
the working set sees after `handleTsf`, after `handleVote` and after the loop
of `RunActions` that raises the nonces of executors is at least the nonce
before that step, for every list of transfers, votes and executions and
whether or not the step succeeds. The producer pointer points into the cache. -/
theorem nonce_never_decreases (env : Env) (ws : WorkingSet) (producer : PKHash)
    (hprod : ws.cachedAccount producer) (k : PKHash) :
    (∀ (tsfs : List Transfer) (gl : Nat) (e : Bool),
      nonceOf env ws k ≤ nonceOf env (handleTsf env producer tsfs ws gl e).ws k) ∧
    (∀ (votes : List Vote) (blockHeight gl : Nat) (e : Bool),
      nonceOf env ws k ≤ nonceOf env (handleVote env producer blockHeight votes ws gl e).ws k) ∧
    (∀ executions : List Execution,
      nonceOf env ws k ≤ nonceOf env (bumpExecutors env executions ws).1 k) := by
  refine ⟨?_, ?_, ?_⟩
  · intro tsfs gl e
    exact (handleTsf_preserves (nonceMono_invariant env ws).toTsfInvariant producer tsfs e
      (fun _ _ => ⟨trivial, fun _ _ => trivial⟩) ws gl hprod (fun _ => le_refl _)).1 k
  · intro votes blockHeight gl e
    exact (handleVote_preserves (nonceMono_invariant env ws) producer blockHeight votes e
      (fun _ _ _ _ => trivial) ws gl hprod (fun _ => le_refl _)).1 k
  · intro executions
    exact bumpExecutors_nonce env executions ws k

/-- Witness of C5: in the spec scenario the nonce of alice does not decrease. -/
theorem nonce_never_decreases_witness :
    nonceOf demoEnv (demoWs (demoCache 1000)) [1] ≤
      nonceOf demoEnv
        (handleTsf demoEnv [3] [demoTransfer 10 1 21] (demoWs (demoCache 1000)) 100 true).ws
        [1] :=
  (nonce_never_decreases demoEnv (demoWs (demoCache 1000)) [3] ⟨acct 0, rfl⟩ [1]).1
    [demoTransfer 10 1 21] 100 true

/-! ## Coinbase transfers -/

/-- Claim C6 (amended): a coinbase, non-contract transfer whose recipient loads
leaves the gas limit and the candidate pool unchanged and skips the sender
steps. When the recipient has no votee, or has voted for its own address, the
transfer succeeds and the only change is that the recipient's balance has
grown by the amount. When the recipient has voted for another address, step 6
is not skipped: the transfer succeeds when that votee loads, and then the
votee's voting weight has also grown by the amount; every other account and
every other field is as before. -/
theorem handleTsf_coinbase (env : Env) (ws : WorkingSet) (tx : Transfer)
    (producer hr : PKHash) (ra : Account) (gl : Nat) (e : Bool)
    (hcoin : tx.isCoinbase = true) (hcontract : tx.isContract = false)
    (hdr : env.AddressToPKHash tx.recipient = some hr) (hra : ws.view env hr = .ok ra) :
    (handleTsf env producer [tx] ws gl e).gasLimit = gl ∧
    (handleTsf env producer [tx] ws gl e).ws.cachedCandidates = ws.cachedCandidates ∧
    ((ra.votee = "" ∨ ra.votee = tx.recipient) →
      (handleTsf env producer [tx] ws gl e).err = none ∧
      ∀ k, (handleTsf env producer [tx] ws gl e).ws.view env k =
        if k = hr then .ok { ra with balance := ra.balance + tx.amount }
        else ws.view env k) ∧
    (ra.votee ≠ "" → ra.votee ≠ tx.recipient → ∀ (hv : PKHash) (va : Account),
      env.AddressToPKHash ra.votee = some hv → ws.view env hv = .ok va →
      (handleTsf env producer [tx] ws gl e).err = none ∧
      ∀ k, (handleTsf env producer [tx] ws gl e).ws.view env k =
        if k = hv then
          .ok { (if hv = hr then { ra with balance := ra.balance + tx.amount } else va) with
                votingWeight :=
                  (if hv = hr then { ra with balance := ra.balance + tx.amount }
                    else va).votingWeight + tx.amount }
        else if k = hr then .ok { ra with balance := ra.balance + tx.amount }
        else ws.view env k) := by
  rw [handleTsf_singleton]
  unfold tsfStep
  simp only [hcontract, hcoin, Bool.false_eq_true, if_false, Bool.not_true]
  unfold tsfRecipient Account.AddBalance
  rw [LoadOrCreate_ok hdr hra]
  simp only [account_ensure_self hra, account_setAccount, if_true]
  refine ⟨?_, ?_, ?_, ?_⟩
  · split_ifs
    · split <;> rfl
    · rfl
  · have hce : (ws.ensure hr ra).cachedCandidates = ws.cachedCandidates := by
      unfold WorkingSet.ensure; split <;> rfl
    split_ifs
    · split
      · exact hce
      · rename_i hv ws3 hl
        rw [LoadOrCreate_eq_view] at hl
        split at hl
        · cases hl
        · split at hl
          · cases hl
          · rename_i a hva
            simp only [Except.ok.injEq, Prod.mk.injEq] at hl
            obtain ⟨h1, h2⟩ := hl
            subst h1 h2
            simp only [WorkingSet.setAccount]
            unfold WorkingSet.ensure
            split
            · exact hce
            · exact hce
    · exact hce
  · intro hv
    have hcond : ¬ (ra.votee ≠ "" ∧ ra.votee ≠ tx.recipient) := by
      rintro ⟨h1, h2⟩
      rcases hv with h | h
      · exact h1 h
      · exact h2 h
    rw [if_neg hcond]
    refine ⟨rfl, fun k => ?_⟩
    simp only [view_setAccount, view_ensure hra]
  · intro h1 h2 hv va hdv hva
    rw [if_pos ⟨h1, h2⟩]
    have hvv' : ((ws.ensure hr ra).setAccount hr
        { ra with balance := ra.balance + tx.amount }).view env hv =
        .ok (if hv = hr then { ra with balance := ra.balance + tx.amount } else va) := by
      rw [view_setAccount]
      split_ifs with hh
      · rfl
      · rw [view_ensure hra, hva]
    rw [LoadOrCreate_ok hdv hvv']
    refine ⟨rfl, fun k => ?_⟩
    simp only [view_setAccount, view_ensure hvv', view_ensure hra, account_ensure_self hvv']

/-- Counterexample to C6 as stated: a coinbase transfer of 5 to bob, who has
voted for carol, succeeds and raises the voting weight of carol, an account
other than the recipient, from 0 to 5. -/
theorem handleTsf_coinbase_updates_votee :
    (demoCoinbase 5).isCoinbase = true ∧ (demoCoinbase 5).isContract = false ∧
    (demoWs demoVoterCache).view demoEnv [4] = .ok Account.zero ∧
    (handleTsf demoEnv [3] [demoCoinbase 5] (demoWs demoVoterCache) 100 true).err = none ∧
    (handleTsf demoEnv [3] [demoCoinbase 5] (demoWs demoVoterCache) 100 true).ws.view
      demoEnv [4] = .ok { Account.zero with votingWeight := 5 } := by
  decide

/-- Witness of C6: the same coinbase transfer, by the amended statement: the
gas limit is unchanged, the transfer succeeds and bob holds 5. -/
theorem handleTsf_coinbase_witness :
    (handleTsf demoEnv [3] [demoCoinbase 5] (demoWs demoVoterCache) 100 true).gasLimit = 100 ∧
    (handleTsf demoEnv [3] [demoCoinbase 5] (demoWs demoVoterCache) 100 true).err = none ∧
    (handleTsf demoEnv [3] [demoCoinbase 5] (demoWs demoVoterCache) 100 true).ws.view
      demoEnv [2] = .ok { acct 5 with votee := "io1carol" } :=
  ⟨(handleTsf_coinbase demoEnv (demoWs demoVoterCache) (demoCoinbase 5) [3] [2]
      { acct 0 with votee := "io1carol" } 100 true rfl rfl rfl rfl).1,
   ((handleTsf_coinbase demoEnv (demoWs demoVoterCache) (demoCoinbase 5) [3] [2]
      { acct 0 with votee := "io1carol" } 100 true rfl rfl rfl rfl).2.2.2
      (by decide) (by decide) [4] Account.zero rfl rfl).1,
   ((handleTsf_coinbase demoEnv (demoWs demoVoterCache) (demoCoinbase 5) [3] [2]
      { acct 0 with votee := "io1carol" } 100 true rfl rfl rfl rfl).2.2.2
      (by decide) (by decide) [4] Account.zero rfl rfl).2 [2]⟩

/-! ## Self-nomination -/

theorem handleVote_singleton (env : Env) (producer : PKHash) (blockHeight : Nat) (v : Vote)
    (ws : WorkingSet) (gl : Nat) (e : Bool) :
    handleVote env producer blockHeight [v] ws gl e =
      voteStep env producer blockHeight v ws gl e := by
  rw [handleVote]
  split
  · rfl
  · rename_i h
    rw [handleVote]
    cases hr : voteStep env producer blockHeight v ws gl e with
    | mk w g er =>
      rw [hr] at h
      simp only at h
      subst h
      rfl

theorem LoadOrCreate_candidates {env : Env} {ws ws' : WorkingSet} {addr : String} {h : PKHash}
    (hl : ws.LoadOrCreateAccountState env addr 0 = .ok (h, ws')) :
    ws'.cachedCandidates = ws.cachedCandidates := by
  rw [LoadOrCreate_eq_view] at hl
  split at hl
  · cases hl
  · split at hl
    · cases hl
    · simp only [Except.ok.injEq, Prod.mk.injEq] at hl
      obtain ⟨_, h2⟩ := hl
      subst h2
      unfold WorkingSet.ensure
      split <;> rfl

theorem selfNominate_spec (blockHeight : Nat) (v : Vote) (h : PKHash) (ws : WorkingSet) :
    (selfNominate blockHeight v h h ws).cachedStates.lookup h =
      some (Iotex.State.account
        { ws.account h with votee := v.voter, isCandidate := true }) ∧
    (selfNominate blockHeight v h h ws).cachedCandidates.lookup h =
      some (match ws.cachedCandidates.lookup h with
        | some c => c
        | none => { address := v.voter, publicKey := v.voterPublicKey, votes := 0,
                    creationHeight := blockHeight, lastUpdateHeight := 0 }) ∧
    ∀ k, k ≠ h → (selfNominate blockHeight v h h ws).cachedCandidates.lookup k =
      ws.cachedCandidates.lookup k := by
  unfold selfNominate
  dsimp only
  have hc : ∀ a b, ((ws.setAccount h a).setAccount h b).cachedCandidates =
      ws.cachedCandidates := fun _ _ => rfl
  rw [hc]
  cases hl : ws.cachedCandidates.lookup h with
  | some c =>
    simp only
    refine ⟨?_, ?_, fun k _ => ?_⟩
    · simp [lookup_setAccount, account_setAccount]
    · rw [hc, hl]
    · rw [hc]
  | none =>
    simp only
    refine ⟨?_, ?_, fun k hk => ?_⟩
    · simp [lookup_setAccount, account_setAccount]
    · simp
    · rw [AList.lookup_insert_ne hk]

theorem voteApply_self {env : Env} {blockHeight : Nat} {v : Vote} {h : PKHash}
    {ws : WorkingSet} {gl : Nat} (hself : v.voter = v.votee) (hne : v.votee ≠ "")
    (hok : (voteApply env blockHeight v h h ws gl).err = none) :
    ∃ ws5 : WorkingSet, (voteApply env blockHeight v h h ws gl).ws =
        selfNominate blockHeight v h h ws5 ∧
      ws5.cachedCandidates = ws.cachedCandidates := by
  unfold voteApply at hok ⊢
  dsimp only at hok ⊢
  have h1 : (if v.nonce > (ws.account h).nonce then
        ws.setAccount h { ws.account h with nonce := v.nonce } else ws).cachedCandidates =
      ws.cachedCandidates := by
    split_ifs <;> rfl
  generalize (if v.nonce > (ws.account h).nonce then
        ws.setAccount h { ws.account h with nonce := v.nonce } else ws) = ws1 at h1 hok ⊢
  have h2 : ∀ r : Outcome, r = (if (ws1.account h).votee ≠ "" ∧
        (ws1.account h).votee ≠ v.voter then
      match ws1.LoadOrCreateAccountState env (ws1.account h).votee 0 with
      | .error e => (⟨ws1, gl, some e⟩ : Outcome)
      | .ok (oldVotee, ws) =>
        ⟨(ws.setAccount oldVotee
          { ws.account oldVotee with
            votingWeight := (ws.account oldVotee).votingWeight -
              (ws.account h).balance }).setAccount h
            { (ws.setAccount oldVotee
              { ws.account oldVotee with
                votingWeight := (ws.account oldVotee).votingWeight -
                  (ws.account h).balance }).account h with votee := "" },
          gl, none⟩
      else ⟨ws1, gl, none⟩) → r.ws.cachedCandidates = ws1.cachedCandidates := by
    intro r hr
    subst hr
    split_ifs
    · split
      · rfl
      · rename_i hl
        have := LoadOrCreate_candidates hl
        exact this
    · rfl
  specialize h2 _ rfl
  generalize (if (ws1.account h).votee ≠ "" ∧
        (ws1.account h).votee ≠ v.voter then
      match ws1.LoadOrCreateAccountState env (ws1.account h).votee 0 with
      | .error e => (⟨ws1, gl, some e⟩ : Outcome)
      | .ok (oldVotee, ws) =>
        ⟨(ws.setAccount oldVotee
          { ws.account oldVotee with
            votingWeight := (ws.account oldVotee).votingWeight -
              (ws.account h).balance }).setAccount h
            { (ws.setAccount oldVotee
              { ws.account oldVotee with
                votingWeight := (ws.account oldVotee).votingWeight -
                  (ws.account h).balance }).account h with votee := "" },
          gl, none⟩
      else ⟨ws1, gl, none⟩) = r at h2 hok ⊢
  obtain ⟨rws, rgl, rerr⟩ := r
  cases rerr with
  | some x => simp at hok
  | none =>
    simp only [hne, if_false, hself, ne_eq, not_true_eq_false] at hok h2 ⊢
    split at hok
    · cases hok
    · rename_i voteTo ws5 hl
      exact ⟨ws5, rfl, by rw [LoadOrCreate_candidates hl, h2, h1]⟩

theorem voteChargeGas_candidates (producer : PKHash) (v : Vote) (voteFrom : PKHash)
    (ws : WorkingSet) (gl : Nat) :
    (voteChargeGas producer v voteFrom ws gl).ws.cachedCandidates = ws.cachedCandidates := by
  unfold voteChargeGas Account.SubBalance Account.AddBalance
  split
  · rfl
  · dsimp only
    split_ifs <;> rfl

/-- Claim C7: self-nomination. For a vote with `voter = votee` handled
successfully by `handleVote` at block height `H` (the address decoder rejects
the empty string), the voter's account afterwards has `votee = voter` and
`isCandidate = true`, and `cachedCandidates` has an entry for the voter's hash:
the entry that existed before, unchanged, or else a new entry carrying the
voter's address, the vote's public key and `creationHeight = H`. The entries of
the other candidates are unchanged. -/
theorem handleVote_self_nomination (env : Env) (ws : WorkingSet) (v : Vote)
    (producer : PKHash) (blockHeight gl : Nat) (e : Bool)
    (hempty : env.AddressToPKHash "" = none) (hself : v.voter = v.votee)
    (hok : (handleVote env producer blockHeight [v] ws gl e).err = none) :
    ∃ hv a, env.AddressToPKHash v.voter = some hv ∧
      (handleVote env producer blockHeight [v] ws gl e).ws.cachedStates.lookup hv =
        some (Iotex.State.account a) ∧
      a.votee = v.voter ∧ a.isCandidate = true ∧
      (handleVote env producer blockHeight [v] ws gl e).ws.cachedCandidates.lookup hv =
        some (match ws.cachedCandidates.lookup hv with
          | some c => c
          | none => { address := v.voter, publicKey := v.voterPublicKey, votes := 0,
                      creationHeight := blockHeight, lastUpdateHeight := 0 }) ∧
      ∀ k, k ≠ hv →
        (handleVote env producer blockHeight [v] ws gl e).ws.cachedCandidates.lookup k =
          ws.cachedCandidates.lookup k := by
  rw [handleVote_singleton] at hok ⊢
  unfold voteStep at hok ⊢
  cases hl : ws.LoadOrCreateAccountState env v.voter 0 with
  | error x => simp [hl] at hok
  | ok p =>
    obtain ⟨hv, ws1⟩ := p
    simp only [hl] at hok ⊢
    have hd := LoadOrCreate_key hl
    have hne : v.votee ≠ "" := by
      intro h
      rw [hself, h, hempty] at hd
      cases hd
    have hc1 := LoadOrCreate_candidates hl
    simp only [hd] at hok ⊢
    have key : ∀ (ws2 : WorkingSet) (gl2 : Nat), ws2.cachedCandidates = ws.cachedCandidates →
        (voteApply env blockHeight v hv hv ws2 gl2).err = none →
        ∃ a, (voteApply env blockHeight v hv hv ws2 gl2).ws.cachedStates.lookup hv =
            some (Iotex.State.account a) ∧
          a.votee = v.voter ∧ a.isCandidate = true ∧
          (voteApply env blockHeight v hv hv ws2 gl2).ws.cachedCandidates.lookup hv =
            some (match ws.cachedCandidates.lookup hv with
              | some c => c
              | none => { address := v.voter, publicKey := v.voterPublicKey, votes := 0,
                          creationHeight := blockHeight, lastUpdateHeight := 0 }) ∧
          ∀ k, k ≠ hv →
            (voteApply env blockHeight v hv hv ws2 gl2).ws.cachedCandidates.lookup k =
              ws.cachedCandidates.lookup k := by
      intro ws2 gl2 hc2 hok2
      obtain ⟨ws5, h5, hc5⟩ := voteApply_self hself hne hok2
      obtain ⟨s1, s2, s3⟩ := selfNominate_spec blockHeight v hv ws5
      rw [h5]
      refine ⟨_, s1, rfl, rfl, ?_, ?_⟩
      · rw [s2, hc5, hc2]
      · intro k hk; rw [s3 k hk, hc5, hc2]
    cases e with
    | false =>
      simp only [Bool.false_eq_true, if_false] at hok ⊢
      obtain ⟨a, h1, h2, h3, h4, h5⟩ := key ws1 gl hc1 hok
      exact ⟨hv, a, rfl, h1, h2, h3, h4, h5⟩
    | true =>
      simp only [if_true] at hok ⊢
      have hcg := voteChargeGas_candidates producer v hv ws1 gl
      cases hg : (voteChargeGas producer v hv ws1 gl).err with
      | some x => rw [hg] at hok; simp only at hok; rw [hg] at hok; cases hok
      | none =>
        rw [hg] at hok
        simp only at hok ⊢
        obtain ⟨a, h1, h2, h3, h4, h5⟩ := key _ _ (by rw [hcg, hc1]) hok
        exact ⟨hv, a, rfl, h1, h2, h3, h4, h5⟩

/-- Witness of C7: alice, holding 500, votes for herself at height 7 on an
empty candidate pool. -/
theorem handleVote_self_nomination_witness :
    ∃ hv a, demoEnv.AddressToPKHash demoSelfVote.voter = some hv ∧
      (handleVote demoEnv [3] 7 [demoSelfVote] (demoWs (demoCache 500)) 100
        false).ws.cachedStates.lookup hv = some (Iotex.State.account a) ∧
      a.votee = demoSelfVote.voter ∧ a.isCandidate = true ∧
      (handleVote demoEnv [3] 7 [demoSelfVote] (demoWs (demoCache 500)) 100
        false).ws.cachedCandidates.lookup hv =
        some (match (demoWs (demoCache 500)).cachedCandidates.lookup hv with
          | some c => c
          | none => { address := demoSelfVote.voter, publicKey := demoSelfVote.voterPublicKey,
                      votes := 0, creationHeight := 7, lastUpdateHeight := 0 }) ∧
      ∀ k, k ≠ hv →
        (handleVote demoEnv [3] 7 [demoSelfVote] (demoWs (demoCache 500)) 100
          false).ws.cachedCandidates.lookup k =
          (demoWs (demoCache 500)).cachedCandidates.lookup k :=
  handleVote_self_nomination demoEnv (demoWs (demoCache 500)) demoSelfVote [3] 7 100 false
    rfl rfl (by decide)

/-! ## Candidate flags and the candidate pool -/

theorem candidatesCover_set {env : Env} {ws : WorkingSet} {h : PKHash} {b : Account}
    (hP : CandidatesCover env ws) (hc : ws.cachedAccount h)
    (hb : b.isCandidate = true → (ws.account h).isCandidate = true) :
    CandidatesCover env (ws.setAccount h b) := by
  intro k a hk hcand
  rw [view_setAccount] at hk
  split_ifs at hk with hkh
  · subst hkh
    cases hk
    exact hP k _ (view_of_cachedAccount env hc) (hb hcand)
  · exact hP k a hk hcand

theorem mem_selfNominate (blockHeight : Nat) (v : Vote) (h : PKHash) (ws : WorkingSet) :
    h ∈ (selfNominate blockHeight v h h ws).cachedCandidates ∧
    ∀ k, k ∈ ws.cachedCandidates → k ∈ (selfNominate blockHeight v h h ws).cachedCandidates := by
  obtain ⟨_, s2, s3⟩ := selfNominate_spec blockHeight v h ws
  refine ⟨?_, fun k hk => ?_⟩
  · rw [← AList.lookup_isSome, s2]; rfl
  · by_cases hkh : k = h
    · subst hkh; rw [← AList.lookup_isSome, s2]; rfl
    · rw [← AList.lookup_isSome, s3 k hkh, AList.lookup_isSome]; exact hk

/-- The cover of candidate flags by the candidate pool is kept by every
elementary update of the action loops. -/
theorem candidatesCover_invariant (env : Env) :
    Invariant env (CandidatesCover env) (fun _ => True) where
  load := fun hP hl k a hk hcand => by
    rw [LoadOrCreate_view hl k] at hk
    rw [LoadOrCreate_candidates hl]
    exact hP k a hk hcand
  debit := fun hP hc _ => candidatesCover_set hP hc (fun h => h)
  credit := fun hP hc _ => candidatesCover_set hP hc (fun h => h)
  nonce := fun hP hc _ => candidatesCover_set hP hc (fun h => h)
  weight := fun _ hP hc => candidatesCover_set hP hc (fun h => h)
  votee := fun _ hP hc => candidatesCover_set hP hc (fun h => h)
  unvote := fun hP hc => candidatesCover_set hP hc (fun h => by cases h)
  nominate := fun {ws h} blockHeight v hP hc k a hk hcand => by
    obtain ⟨m1, m2⟩ := mem_selfNominate blockHeight v h ws
    rw [view_selfNominate] at hk
    split_ifs at hk with hkh
    · subst hkh; exact m1
    · exact m2 k (hP k a hk hcand)

theorem cachedCover_of_candidatesCover {env : Env} {ws : WorkingSet}
    (hP : CandidatesCover env ws) : CachedCover ws :=
  fun h a hl hcand => hP h a (view_of_lookup hl) hcand

theorem PutState_caches {env : Env} {ws ws' : WorkingSet} {h : PKHash} {s : Iotex.State}
    (hp : ws.PutState env h s = .ok ws') :
    ws'.cachedStates = ws.cachedStates ∧ ws'.cachedCandidates = ws.cachedCandidates := by
  unfold WorkingSet.PutState at hp
  split at hp
  · cases hp
  · split at hp
    · cases hp
    · simp only [Except.ok.injEq] at hp
      subst hp
      exact ⟨rfl, rfl⟩

/-- One visit of the flush: it never dereferences a missing candidate, keeps the
cover, leaves the cached states alone, never adds a key to the pool, and on
success removes the entry of a visited account that is not a candidate. -/
theorem flushState_spec {env : Env} {blockHeight : Nat} {ws : WorkingSet} {addr : PKHash}
    {state : Iotex.State} (hl : ws.cachedStates.lookup addr = some state)
    (hP : CachedCover ws) :
    (flushState env blockHeight ws addr state).2 ≠ some Err.nilDereference ∧
    (flushState env blockHeight ws addr state).1.cachedStates = ws.cachedStates ∧
    CachedCover (flushState env blockHeight ws addr state).1 ∧
    (∀ k, k ∉ ws.cachedCandidates →
      k ∉ (flushState env blockHeight ws addr state).1.cachedCandidates) ∧
    ((flushState env blockHeight ws addr state).2 = none →
      ∃ a, state = Iotex.State.account a ∧
        (a.isCandidate = false →
          addr ∉ (flushState env blockHeight ws addr state).1.cachedCandidates)) := by
  unfold flushState
  cases hp : ws.PutState env addr state with
  | error x =>
    refine ⟨?_, rfl, hP, fun _ h => h, fun h => by cases h⟩
    intro h
    have h' : x = Err.nilDereference := by injection h
    subst h'
    unfold WorkingSet.PutState Trie.Upsert at hp
    split at hp
    · cases hp
    · split_ifs at hp
      cases hp
  | ok ws1 =>
    simp only
    obtain ⟨hs1, hc1⟩ := PutState_caches hp
    have hP1 : CachedCover ws1 := by
      intro h a hla hcand
      rw [hs1] at hla; rw [hc1]; exact hP h a hla hcand
    cases state with
    | other t =>
      simp only [stateToAccountState]
      exact ⟨by simp, hs1, hP1, fun k hk => by rw [hc1]; exact hk, by simp⟩
    | account a =>
      simp only [stateToAccountState]
      cases hcand : a.isCandidate with
      | false =>
        simp only [Bool.not_false, if_true]
        refine ⟨by simp, hs1, ?_, ?_, ?_⟩
        · intro h b hlb hb
          have hlb' : ws.cachedStates.lookup h = some (Iotex.State.account b) := by
            rw [← hs1]; exact hlb
          have hne : h ≠ addr := by
            intro hh; subst hh
            rw [hl] at hlb'
            simp only [Option.some.injEq, State.account.injEq] at hlb'
            subst hlb'
            rw [hcand] at hb; cases hb
          show h ∈ ws1.cachedCandidates.erase addr
          rw [AList.mem_erase, hc1]
          exact ⟨hne, hP h b hlb' hb⟩
        · intro k hk
          show k ∉ ws1.cachedCandidates.erase addr
          rw [AList.mem_erase, hc1]
          exact fun h => hk h.2
        · intro _
          refine ⟨a, rfl, fun _ => ?_⟩
          show addr ∉ ws1.cachedCandidates.erase addr
          rw [AList.mem_erase]
          exact fun h => h.1 rfl
      | true =>
        simp only [Bool.not_true, Bool.false_eq_true, if_false]
        cases hd : env.AddressToPKHash a.votee with
        | none =>
          simp only
          exact ⟨by simp, hs1, hP1, fun k hk => by rw [hc1]; exact hk, by simp⟩
        | some voteePKHash =>
          simp only
          have hmem : addr ∈ ws1.cachedCandidates := by
            rw [hc1]; exact hP addr a hl hcand
          unfold WorkingSet.updateCandidate
          rw [← AList.lookup_isSome] at hmem
          cases hlc : ws1.cachedCandidates.lookup addr with
          | none => rw [hlc] at hmem; cases hmem
          | some c =>
            simp only
            refine ⟨by simp, hs1, ?_, ?_, ?_⟩
            · intro h b hlb hb
              have := hP1 h b hlb hb
              show h ∈ ws1.cachedCandidates.insert addr _
              rw [AList.mem_insert]
              exact Or.inr this
            · intro k hk
              show k ∉ ws1.cachedCandidates.insert addr _
              rw [AList.mem_insert, hc1]
              rintro (h | h)
              · subst h
                apply hk
                rw [← hc1, ← AList.lookup_isSome, hlc]; rfl
              · exact hk h
            · intro _
              exact ⟨a, rfl, fun h => by rw [hcand] at h; cases h⟩

theorem flushStates_spec (env : Env) (blockHeight : Nat) (entries : List (PKHash × Iotex.State)) :
    ∀ ws : WorkingSet, (∀ p ∈ entries, ws.cachedStates.lookup p.1 = some p.2) →
      CachedCover ws →
      (flushStates env blockHeight entries ws).2 ≠ some Err.nilDereference ∧
      (flushStates env blockHeight entries ws).1.cachedStates = ws.cachedStates ∧
      CachedCover (flushStates env blockHeight entries ws).1 ∧
      (∀ k, k ∉ ws.cachedCandidates →
        k ∉ (flushStates env blockHeight entries ws).1.cachedCandidates) ∧
      ((flushStates env blockHeight entries ws).2 = none →
        ∀ p ∈ entries, ∃ a, p.2 = Iotex.State.account a ∧
          (a.isCandidate = false →
            p.1 ∉ (flushStates env blockHeight entries ws).1.cachedCandidates)) := by
  induction entries with
  | nil =>
    intro ws _ hP
    exact ⟨by simp [flushStates], rfl, hP, fun _ h => h, fun _ p hp => by cases hp⟩
  | cons p rest ih =>
    intro ws hent hP
    obtain ⟨addr, state⟩ := p
    have hl : ws.cachedStates.lookup addr = some state := hent (addr, state) (List.mem_cons_self _ _)
    obtain ⟨f1, f2, f3, f4, f5⟩ := @flushState_spec env blockHeight ws addr state hl hP
    rw [flushStates]
    cases hf : flushState env blockHeight ws addr state with
    | mk ws1 err =>
      rw [hf] at f1 f2 f3 f4 f5
      cases err with
      | some x =>
        simp only at f1 f2 f3 f4 f5 ⊢
        exact ⟨f1, f2, f3, f4, fun h => by cases h⟩
      | none =>
        simp only at f1 f2 f3 f4 f5 ⊢
        have hent1 : ∀ p ∈ rest, ws1.cachedStates.lookup p.1 = some p.2 := by
          intro p hp
          rw [f2]
          exact hent p (List.mem_cons_of_mem _ hp)
        obtain ⟨g1, g2, g3, g4, g5⟩ := ih ws1 hent1 f3
        refine ⟨g1, by rw [g2, f2], g3, fun k hk => g4 k (f4 k hk), ?_⟩
        intro hok p hp
        rcases List.mem_cons.mp hp with h | h
        · subst h
          obtain ⟨a, ha, hna⟩ := f5 trivial
          exact ⟨a, ha, fun hc => g4 _ (hna hc)⟩
        · exact g5 hok p h

theorem mem_rangeEntries {V : Type} (env : Env) (hperm : ∀ l, (env.rangeOrder l).Perm l)
    (m : Map V) (k : Bytes) (v : V) :
    (k, v) ∈ rangeEntries env m ↔ m.lookup k = some v := by
  unfold rangeEntries
  rw [List.mem_filterMap]
  constructor
  · rintro ⟨k', _, hk'⟩
    cases hl : m.lookup k' with
    | none => rw [hl] at hk'; cases hk'
    | some v' =>
      rw [hl] at hk'
      simp only [Option.map_some', Option.some.injEq, Prod.mk.injEq] at hk'
      obtain ⟨h1, h2⟩ := hk'
      subst h1 h2
      exact hl
  · intro hl
    refine ⟨k, ?_, by rw [hl]; rfl⟩
    rw [(hperm m.keys).mem_iff, ← AList.mem_keys, ← AList.lookup_isSome, hl]
    rfl

theorem recoverCandidates_cover {env : Env} {ws ws1 : WorkingSet} {blockHeight : Nat}
    (hP : CandidatesCover env ws)
    (hrec : recoverCandidates env ws blockHeight = .ok ws1) : CandidatesCover env ws1 := by
  unfold recoverCandidates at hrec
  split_ifs at hrec with h
  · dsimp only at hrec
    split at hrec
    · cases hrec
    · rename_i m _
      simp only [Except.ok.injEq] at hrec
      subst hrec
      intro k a hk hcand
      have hmem := hP k a hk hcand
      rw [AList.mem_keys] at hmem
      have hnil : ws.cachedCandidates.keys = [] := List.length_eq_zero.mp h.2
      rw [hnil] at hmem
      cases hmem
  · simp only [Except.ok.injEq] at hrec
    subst hrec
    exact hP

/-- Claim C8: candidate-flag consistency. Assume that before the block every
account the working set sees with `isCandidate` set has an entry in
`cachedCandidates`, and that a `range` over a map visits each of its keys.
Run the start of `RunActions` (recovery of the candidates, loading of the
producer), `handleTsf`, `handleVote` and the flush of the cached states. Then
the flush never dereferences a missing candidate entry, and when it succeeds,
every address in `cachedStates` holds an account whose `isCandidate` flag is
set if and only if the address is a key of `cachedCandidates`. -/
theorem candidate_flag_consistency (env : Env) (hperm : ∀ l, (env.rangeOrder l).Perm l)
    (ws0 ws1 ws2 : WorkingSet) (blockHeight gl : Nat) (e : Bool) (producerAddr : String)
    (producer : PKHash) (tsfs : List Transfer) (votes : List Vote)
    (hcover : CandidatesCover env ws0)
    (hrec : recoverCandidates env { ws0 with blkHeight := blockHeight } blockHeight = .ok ws1)
    (hload : ws1.LoadOrCreateAccountState env producerAddr 0 = .ok (producer, ws2)) :
    (flushStates env blockHeight
      (rangeEntries env
        (handleVote env producer blockHeight votes (handleTsf env producer tsfs ws2 gl e).ws
          (handleTsf env producer tsfs ws2 gl e).gasLimit e).ws.cachedStates)
      (handleVote env producer blockHeight votes (handleTsf env producer tsfs ws2 gl e).ws
        (handleTsf env producer tsfs ws2 gl e).gasLimit e).ws).2 ≠ some Err.nilDereference ∧
    ((flushStates env blockHeight
      (rangeEntries env
        (handleVote env producer blockHeight votes (handleTsf env producer tsfs ws2 gl e).ws
          (handleTsf env producer tsfs ws2 gl e).gasLimit e).ws.cachedStates)
      (handleVote env producer blockHeight votes (handleTsf env producer tsfs ws2 gl e).ws
        (handleTsf env producer tsfs ws2 gl e).gasLimit e).ws).2 = none →
      ∀ h s, (flushStates env blockHeight
          (rangeEntries env
            (handleVote env producer blockHeight votes (handleTsf env producer tsfs ws2 gl e).ws
              (handleTsf env producer tsfs ws2 gl e).gasLimit e).ws.cachedStates)
          (handleVote env producer blockHeight votes (handleTsf env producer tsfs ws2 gl e).ws
            (handleTsf env producer tsfs ws2 gl e).gasLimit e).ws).1.cachedStates.lookup h =
          some s →
        ∃ a, s = Iotex.State.account a ∧
          (a.isCandidate = true ↔
            h ∈ (flushStates env blockHeight
              (rangeEntries env
                (handleVote env producer blockHeight votes
                  (handleTsf env producer tsfs ws2 gl e).ws
                  (handleTsf env producer tsfs ws2 gl e).gasLimit e).ws.cachedStates)
              (handleVote env producer blockHeight votes
                (handleTsf env producer tsfs ws2 gl e).ws
                (handleTsf env producer tsfs ws2 gl e).gasLimit e).ws).1.cachedCandidates)) := by
  have hc0 : CandidatesCover env { ws0 with blkHeight := blockHeight } := hcover
  have hc1 := recoverCandidates_cover hc0 hrec
  have hc2 := (candidatesCover_invariant env).load hc1 hload
  have hp2 := (LoadOrCreate_cached hload).1
  obtain ⟨hc3, hk3⟩ := handleTsf_preserves (candidatesCover_invariant env).toTsfInvariant
    producer tsfs e (fun _ _ => ⟨trivial, fun _ _ => trivial⟩) ws2 gl hp2 hc2
  obtain ⟨hc4, _⟩ := handleVote_preserves (candidatesCover_invariant env) producer blockHeight
    votes e (fun _ _ _ _ => trivial) (handleTsf env producer tsfs ws2 gl e).ws
    (handleTsf env producer tsfs ws2 gl e).gasLimit (hk3 _ hp2) hc3
  generalize (handleVote env producer blockHeight votes (handleTsf env producer tsfs ws2 gl e).ws
    (handleTsf env producer tsfs ws2 gl e).gasLimit e).ws = ws4 at hc4 ⊢
  obtain ⟨g1, g2, g3, _, g5⟩ := flushStates_spec env blockHeight
    (rangeEntries env ws4.cachedStates) ws4
    (fun p hp => (mem_rangeEntries env hperm ws4.cachedStates p.1 p.2).mp hp)
    (cachedCover_of_candidatesCover hc4)
  refine ⟨g1, fun hok h s hl => ?_⟩
  rw [g2] at hl
  obtain ⟨a, ha, hna⟩ := g5 hok (h, s) ((mem_rangeEntries env hperm ws4.cachedStates h s).mpr hl)
  refine ⟨a, ha, fun hc => ?_, fun hm => ?_⟩
  · refine g3 h a ?_ hc
    simp only at ha
    rw [g2, hl, ha]
  · cases hcand : a.isCandidate with
    | true => rfl
    | false => exact absurd hm (hna hcand)

theorem view_demoWs (balance : Int) (k : PKHash) :
    (demoWs (demoCache balance)).view demoEnv k =
      if k = [3] then .ok (acct 0) else if k = [1] then .ok (acct balance)
      else .ok Account.zero := by
  have h1 : demoWs (demoCache balance) =
      ((demoWs ∅).setAccount [1] (acct balance)).setAccount [3] (acct 0) := rfl
  rw [h1, view_setAccount, view_setAccount, view_demoWs_empty]

theorem candidatesCover_demoWs (balance : Int) :
    CandidatesCover demoEnv (demoWs (demoCache balance)) := by
  intro k a hk hcand
  rw [view_demoWs] at hk
  split_ifs at hk <;> cases hk <;> cases hcand

/-- Witness of C8: alice votes for herself in block 7; the flush succeeds and
leaves flags and pool consistent. -/
theorem candidate_flag_consistency_witness :
    demoFlushed.2 = none ∧
    ∀ h s, demoFlushed.1.cachedStates.lookup h = some s →
      ∃ a, s = Iotex.State.account a ∧
        (a.isCandidate = true ↔ h ∈ demoFlushed.1.cachedCandidates) :=
  ⟨by decide,
   (candidate_flag_consistency demoEnv (fun l => List.Perm.refl l) (demoWs (demoCache 500))
      demoBlockStart demoBlockStart 7 100 false "io1producer" [3] [] [demoSelfVote]
      (candidatesCover_demoWs 500) rfl rfl).2 (by decide)⟩

/-! ## Recovery of the candidate snapshot -/

/-- Claim C9 (amended): when `RunActions` is called with `blockHeight > 0` and an
empty candidate cache, any error of `getCandidates` (the snapshot is absent,
the read fails with another error, or the stored value does not deserialize)
is treated as an empty candidate list and the block proceeds from an empty
candidate cache; the only error the recovery returns is a failure of
`CandidatesToMap` on a list that was read and decoded. -/
theorem candidate_recovery (env : Env) (handlers : List ActionHandler) (ws : WorkingSet)
    (ctx : Option RunActionsCtx) (blockHeight : Nat) (actions : List Action)
    (hH : blockHeight > 0) (hempty : ws.cachedCandidates.keys.length = 0) :
    (∀ e, ws.getCandidates env (blockHeight - 1) = .error e →
      ws.RunActions env handlers ctx blockHeight actions =
        runActionsFrom env handlers
          { ws with blkHeight := blockHeight, cachedCandidates := ∅ } ctx blockHeight actions) ∧
    (∀ e, recoverCandidates env { ws with blkHeight := blockHeight } blockHeight = .error e →
      ∃ candidates, ws.getCandidates env (blockHeight - 1) = .ok candidates ∧
        CandidatesToMap env candidates = .error e) := by
  have hg : ∀ h, WorkingSet.getCandidates env { ws with blkHeight := blockHeight } h =
      ws.getCandidates env h := fun _ => rfl
  refine ⟨?_, ?_⟩
  · intro e he
    unfold WorkingSet.RunActions recoverCandidates
    simp only [hH, hempty, and_self, if_true, hg, he]
    rfl
  · intro e he
    unfold recoverCandidates at he
    simp only [hH, hempty, and_self, if_true, hg] at he
    cases hgc : ws.getCandidates env (blockHeight - 1) with
    | error x =>
      rw [hgc] at he
      simp [CandidatesToMap, candidatesToMapLoop] at he
    | ok candidates =>
      rw [hgc] at he
      simp only at he
      refine ⟨candidates, rfl, ?_⟩
      split at he
      · rename_i e' hc
        simp only [Except.error.injEq] at he
        subst he
        exact hc
      · cases he

/-- Witness of C9: a stored snapshot that does not deserialize is treated as
an empty candidate list. -/
theorem candidate_recovery_witness :
    WorkingSet.RunActions demoEnv [] { demoWs ∅ with dao := demoBadStore } (some demoCtx) 7 [] =
      runActionsFrom demoEnv []
        { ({ demoWs ∅ with dao := demoBadStore } : WorkingSet) with
          blkHeight := 7, cachedCandidates := ∅ } (some demoCtx) 7 [] :=
  (candidate_recovery demoEnv [] { demoWs ∅ with dao := demoBadStore } (some demoCtx) 7 []
    (by decide) rfl).1 Err.serialization rfl

/-- Counterexample to C9 as stated: the store holds, at the key of the
candidate snapshot of height 6, a value that fails to deserialize, the
candidate cache is empty and the block height is 7; `getCandidates` fails with
a deserialization error, yet `RunActions` returns no error. -/
theorem RunActions_ignores_corrupt_snapshot :
    demoBadStore.Get CandidateKVNameSpace (Uint64ToBytes (7 - 1)) = .ok [1, 2, 3] ∧
    demoEnv.DeserializeCandidates [1, 2, 3] = none ∧
    WorkingSet.getCandidates demoEnv { demoWs ∅ with dao := demoBadStore } (7 - 1) =
      .error Err.serialization ∧
    (WorkingSet.RunActions demoEnv [] { demoWs ∅ with dao := demoBadStore } (some demoCtx) 7
      []).err = none := by
  decide

/-! ## Finalisation writes -/

theorem KVStore.Get_Put_self (s : KVStore) (ns : String) (key value : Bytes) :
    (s.Put ns key value).Get ns key = .ok value := by
  simp [KVStore.Get, KVStore.Put]

theorem KVStore.Get_Put_ne (s : KVStore) (ns ns' : String) (key key' value : Bytes)
    (h : ns' ≠ ns ∨ key' ≠ key) :
    (s.Put ns key value).Get ns' key' = s.Get ns' key' := by
  unfold KVStore.Get KVStore.Put KVStore.bucket
  by_cases hns : ns' = ns
  · subst hns
    have hk : key' ≠ key := by
      rcases h with h | h
      · exact absurd rfl h
      · exact h
    simp only [AList.lookup_insert]
    cases hl : s.buckets.lookup ns' with
    | none =>
      simp only [Option.getD_none, AList.lookup_insert_ne hk, AList.lookup_empty]
    | some b =>
      simp only [Option.getD_some, AList.lookup_insert_ne hk]
  · simp only [AList.lookup_insert_ne hns]

theorem KVStore.replay_append (q r : List WriteOp) :
    ∀ s : KVStore, s.replay (q ++ r) =
      match s.replay q with
      | .error e => .error e
      | .ok s' => s'.replay r := by
  induction q with
  | nil => intro s; rfl
  | cons w rest ih =>
    intro s
    rw [List.cons_append, KVStore.replay, KVStore.replay]
    cases w.writeType with
    | Put => simp only; rw [ih]
    | Delete => simp only; rw [ih]
    | PutIfNotExists =>
      simp only
      cases s.PutIfNotExists w.ns w.key (w.value.getD []) with
      | error e => rfl
      | ok s' => simp only; rw [ih]

theorem finalize_ok {env : Env} {blockHeight : Nat} {ws : WorkingSet} {gl : Nat}
    {receipts : Map Receipt} (hok : (finalize env blockHeight ws gl receipts).err = none) :
    ∃ candidates candidatesBytes,
      MapToCandidates env ws.cachedCandidates = .ok candidates ∧
      env.SerializeCandidates (sortCandidates candidates) = some candidatesBytes ∧
      (finalize env blockHeight ws gl receipts).ws =
        { ws with cb := (((ws.cb.Put AccountKVNameSpace env.AccountTrieRootKey
            (ws.accountTrie.RootHash env)).Put CandidateKVNameSpace (Uint64ToBytes blockHeight)
            candidatesBytes).Put AccountKVNameSpace env.CurrentHeightKey
            (Uint64ToBytes blockHeight)) } ∧
      (finalize env blockHeight ws gl receipts).root = ws.accountTrie.RootHash env ∧
      (finalize env blockHeight ws gl receipts).receipts = some receipts ∧
      (finalize env blockHeight ws gl receipts).gasLimit = gl := by
  unfold finalize at hok ⊢
  simp only [MapToCandidates] at hok ⊢
  cases hs : env.SerializeCandidates
      (sortCandidates ((rangeEntries env ws.cachedCandidates).map Prod.snd)) with
  | none => rw [hs] at hok; simp [RunResult.fail] at hok
  | some b =>
    refine ⟨_, b, rfl, hs, ?_, ?_, ?_, ?_⟩ <;> rfl

theorem runActionsFrom_ok {env : Env} {handlers : List ActionHandler} {ws : WorkingSet}
    {ctx : Option RunActionsCtx} {blockHeight : Nat} {actions : List Action}
    (hok : (runActionsFrom env handlers ws ctx blockHeight actions).err = none) :
    ∃ (ws' : WorkingSet) (gl : Nat) (receipts : Map Receipt),
      runActionsFrom env handlers ws ctx blockHeight actions =
        finalize env blockHeight ws' gl receipts := by
  unfold runActionsFrom at hok ⊢
  split at hok
  · simp [RunResult.fail] at hok
  · split at hok
    · simp [RunResult.fail] at hok
    · dsimp only at hok ⊢
      split at hok
      · simp [RunResult.fail] at hok
      · split at hok
        · simp [RunResult.fail] at hok
        · split at hok
          · simp [RunResult.fail] at hok
          · split at hok
            · simp [RunResult.fail] at hok
            · split at hok
              · simp [RunResult.fail] at hok
              · split at hok
                · simp [RunResult.fail] at hok
                · exact ⟨_, _, _, rfl⟩

/-- Claim C10: finalisation writes. Whenever `RunActions` at height `H`
succeeds, the last three entries of the shared batch are, in this order,
`Put(Account, AccountTrieRootKey, root)`, `Put(Candidate, u64-BE(H), bytes)`
with `bytes` the serialised sorted candidates, and
`Put(Account, CurrentHeightKey, u64-BE(H))`, where `root` is both the root hash
returned by `RunActions` and `ws.RootHash()`; hence, the two key constants
being different, after a successful `Commit` the store holds `ws.RootHash()` at
`(Account, AccountTrieRootKey)`. -/
theorem RunActions_finalization (env : Env) (handlers : List ActionHandler) (ws : WorkingSet)
    (ctx : Option RunActionsCtx) (blockHeight : Nat) (actions : List Action)
    (hok : (ws.RunActions env handlers ctx blockHeight actions).err = none) :
    ∃ (queue : List WriteOp) (candidates : CandidateList) (candidatesBytes : Bytes),
      MapToCandidates env
        (ws.RunActions env handlers ctx blockHeight actions).ws.cachedCandidates =
          .ok candidates ∧
      env.SerializeCandidates (sortCandidates candidates) = some candidatesBytes ∧
      (ws.RunActions env handlers ctx blockHeight actions).ws.cb.writeQueue =
        queue ++
          [⟨WriteType.Put, AccountKVNameSpace, env.AccountTrieRootKey,
              some (ws.RunActions env handlers ctx blockHeight actions).root⟩,
           ⟨WriteType.Put, CandidateKVNameSpace, Uint64ToBytes blockHeight,
              some candidatesBytes⟩,
           ⟨WriteType.Put, AccountKVNameSpace, env.CurrentHeightKey,
              some (Uint64ToBytes blockHeight)⟩] ∧
      (ws.RunActions env handlers ctx blockHeight actions).root =
        (ws.RunActions env handlers ctx blockHeight actions).ws.RootHash env ∧
      (env.AccountTrieRootKey ≠ env.CurrentHeightKey →
        (ws.RunActions env handlers ctx blockHeight actions).ws.Commit.2 = none →
        (ws.RunActions env handlers ctx blockHeight actions).ws.Commit.1.dao.Get
            AccountKVNameSpace env.AccountTrieRootKey =
          .ok ((ws.RunActions env handlers ctx blockHeight actions).ws.Commit.1.RootHash
            env)) := by
  have hfin : ∃ (ws' : WorkingSet) (gl : Nat) (receipts : Map Receipt),
      ws.RunActions env handlers ctx blockHeight actions =
        finalize env blockHeight ws' gl receipts := by
    unfold WorkingSet.RunActions at hok ⊢
    dsimp only at hok ⊢
    split at hok
    · simp [RunResult.fail] at hok
    · exact runActionsFrom_ok hok
  obtain ⟨ws', gl, receipts, hrun⟩ := hfin
  rw [hrun] at hok ⊢
  obtain ⟨candidates, candidatesBytes, h1, h2, h3, h4, _, _⟩ := finalize_ok hok
  rw [h3, h4]
  refine ⟨ws'.cb.writeQueue, candidates, candidatesBytes, h1, h2, ?_, rfl, ?_⟩
  · simp [CachedBatch.Put]
  · intro hkeys hcommit
    unfold WorkingSet.Commit KVStore.Commit at hcommit ⊢
    dsimp only at hcommit ⊢
    have hq : (((ws'.cb.Put AccountKVNameSpace env.AccountTrieRootKey
        (ws'.accountTrie.RootHash env)).Put CandidateKVNameSpace (Uint64ToBytes blockHeight)
        candidatesBytes).Put AccountKVNameSpace env.CurrentHeightKey
        (Uint64ToBytes blockHeight)).writeQueue =
        ws'.cb.writeQueue ++
          [⟨WriteType.Put, AccountKVNameSpace, env.AccountTrieRootKey,
              some (ws'.accountTrie.RootHash env)⟩,
           ⟨WriteType.Put, CandidateKVNameSpace, Uint64ToBytes blockHeight,
              some candidatesBytes⟩,
           ⟨WriteType.Put, AccountKVNameSpace, env.CurrentHeightKey,
              some (Uint64ToBytes blockHeight)⟩] := by
      simp [CachedBatch.Put]
    rw [hq, KVStore.replay_append] at hcommit ⊢
    cases hr : ws'.dao.replay ws'.cb.writeQueue with
    | error e => rw [hr] at hcommit; simp at hcommit
    | ok s1 =>
      simp only [KVStore.replay, Option.getD_some, WorkingSet.clearCache,
        WorkingSet.RootHash]
      rw [KVStore.Get_Put_ne _ _ _ _ _ _ (Or.inr hkeys),
        KVStore.Get_Put_ne _ _ _ _ _ _ (Or.inl (by decide)), KVStore.Get_Put_self]

/-- Witness of C10: a block without actions at height 7 on an empty working
set succeeds, its batch ends with the three writes, the commit succeeds and
the store then holds the root hash under the root key. -/
theorem RunActions_finalization_witness :
    ((demoWs ∅).RunActions demoEnv [] (some demoCtx) 7 []).err = none ∧
    ((demoWs ∅).RunActions demoEnv [] (some demoCtx) 7 []).ws.Commit.2 = none ∧
    ((demoWs ∅).RunActions demoEnv [] (some demoCtx) 7 []).ws.Commit.1.dao.Get
        AccountKVNameSpace demoEnv.AccountTrieRootKey =
      .ok (((demoWs ∅).RunActions demoEnv [] (some demoCtx) 7 []).ws.Commit.1.RootHash
        demoEnv) ∧
    ∃ (queue : List WriteOp) (candidatesBytes : Bytes),
      ((demoWs ∅).RunActions demoEnv [] (some demoCtx) 7 []).ws.cb.writeQueue =
        queue ++
          [⟨WriteType.Put, AccountKVNameSpace, demoEnv.AccountTrieRootKey,
              some ((demoWs ∅).RunActions demoEnv [] (some demoCtx) 7 []).root⟩,
           ⟨WriteType.Put, CandidateKVNameSpace, Uint64ToBytes 7, some candidatesBytes⟩,
           ⟨WriteType.Put, AccountKVNameSpace, demoEnv.CurrentHeightKey,
              some (Uint64ToBytes 7)⟩] ∧
      ((demoWs ∅).RunActions demoEnv [] (some demoCtx) 7 []).root =
        ((demoWs ∅).RunActions demoEnv [] (some demoCtx) 7 []).ws.RootHash demoEnv :=
  match RunActions_finalization demoEnv [] (demoWs ∅) (some demoCtx) 7 [] (by decide) with
  | ⟨queue, _, candidatesBytes, _, _, h3, h4, h5⟩ =>
    ⟨by decide, by decide, h5 (by decide) (by decide), queue, candidatesBytes, h3, h4⟩

/-! ## The candidate snapshot -/

theorem Candidate.before_total (a b : Candidate) : a.before b ∨ b.before a := by
  unfold Candidate.before
  rcases lt_trichotomy a.votes b.votes with h | h | h
  · exact Or.inr (Or.inl h)
  · rcases le_total a.address b.address with h' | h'
    · exact Or.inl (Or.inr ⟨h, h'⟩)
    · exact Or.inr (Or.inr ⟨h.symm, h'⟩)
  · exact Or.inl (Or.inl h)

theorem Candidate.before_trans {a b c : Candidate} (hab : a.before b) (hbc : b.before c) :
    a.before c := by
  unfold Candidate.before at *
  rcases hab with h1 | ⟨h1, h1'⟩ <;> rcases hbc with h2 | ⟨h2, h2'⟩
  · exact Or.inl (by omega)
  · exact Or.inl (by omega)
  · exact Or.inl (by omega)
  · exact Or.inr ⟨by omega, le_trans h1' h2'⟩

theorem rangeEntries_perm {V : Type} (env : Env) (hperm : ∀ l, (env.rangeOrder l).Perm l)
    (m : Map V) : ((rangeEntries env m).map Prod.snd).Perm (mapValues m) := by
  unfold rangeEntries mapValues
  have h1 : ((env.rangeOrder m.keys).filterMap
      (fun k => (m.lookup k).map (fun v => (k, v)))).Perm
      (m.keys.filterMap (fun k => (m.lookup k).map (fun v => (k, v)))) :=
    (hperm m.keys).filterMap _
  have h2 : m.keys.filterMap (fun k => (m.lookup k).map (fun v => (k, v))) =
      m.entries.map (fun e => (e.1, e.2)) := by
    unfold AList.keys List.keys
    rw [List.filterMap_map]
    rw [← List.filterMap_eq_map]
    apply List.filterMap_congr
    intro e he
    have : m.lookup e.1 = some e.2 := by
      unfold AList.lookup
      exact List.mem_dlookup m.nodupKeys he
    simp [this]
  rw [h2] at h1
  have h3 := h1.map Prod.snd
  simpa [List.map_map] using h3

theorem sortCandidates_spec (l : CandidateList) :
    (sortCandidates l).Perm l ∧ (sortCandidates l).Sorted Candidate.before :=
  ⟨List.perm_insertionSort _ l,
    @List.sorted_insertionSort _ Candidate.before _ ⟨Candidate.before_total⟩
      ⟨fun _ _ _ => Candidate.before_trans⟩ l⟩

/-! ## The cached batch as a log -/

theorem lastOp_append_singleton (q : List WriteOp) (w : WriteOp) (ns : String) (key : Bytes) :
    lastOp (q ++ [w]) ns key = if w.touches ns key then some w else lastOp q ns key := by
  induction q with
  | nil => simp [lastOp]
  | cons x rest ih =>
    rw [List.cons_append, lastOp, ih, lastOp]
    by_cases hw : w.touches ns key
    · simp [hw]
    · simp [hw]

theorem lastOp_eq_none {q : List WriteOp} {ns : String} {key : Bytes} :
    lastOp q ns key = none ↔ ∀ w ∈ q, ¬ w.touches ns key := by
  induction q with
  | nil => simp [lastOp]
  | cons x rest ih =>
    rw [lastOp]
    cases h : lastOp rest ns key with
    | some w' =>
      simp only [reduceCtorEq, false_iff]
      intro hall
      have := ih.mpr (fun w hw => hall w (List.mem_cons_of_mem _ hw))
      rw [h] at this
      cases this
    | none =>
      have hr := ih.mp h
      by_cases hx : x.touches ns key
      · simp [hx]
      · simp only [hx, if_false, true_iff]
        intro w hw
        rcases List.mem_cons.mp hw with rfl | hw
        · exact hx
        · exact hr w hw

theorem coherent_new : NewCachedBatch.Coherent := by
  intro ns key
  simp [CachedBatch.Get, NewCachedBatch, logReads, lastOp]

theorem CachedBatch.batchGet_Put (cb : CachedBatch) (ns ns' : String) (key key' value : Bytes) :
    (cb.Put ns key value).Get ns' key' =
      if ns = ns' ∧ key = key' then .ok value else cb.Get ns' key' := by
  unfold CachedBatch.Get CachedBatch.Put
  by_cases h : ns = ns' ∧ key = key'
  · obtain ⟨rfl, rfl⟩ := h
    simp
  · have hne : (ns', key') ≠ (ns, key) := by
      intro he
      simp only [Prod.mk.injEq] at he
      exact h ⟨he.1.symm, he.2.symm⟩
    simp only [AList.lookup_insert_ne hne, h, if_false]

theorem CachedBatch.batchGet_Delete (cb : CachedBatch) (ns ns' : String) (key key' : Bytes) :
    (cb.Delete ns key).Get ns' key' =
      if ns = ns' ∧ key = key' then .error Err.ErrNotExist else cb.Get ns' key' := by
  unfold CachedBatch.Get CachedBatch.Delete
  by_cases h : ns = ns' ∧ key = key'
  · obtain ⟨rfl, rfl⟩ := h
    simp
  · have hne : (ns', key') ≠ (ns, key) := by
      intro he
      simp only [Prod.mk.injEq] at he
      exact h ⟨he.1.symm, he.2.symm⟩
    simp only [AList.lookup_insert_ne hne, h, if_false]

theorem CachedBatch.batchPutIfNotExists_spec (cb : CachedBatch) (ns : String) (key value : Bytes) :
    ((∃ v, cb.Get ns key = .ok v) ∧ cb.PutIfNotExists ns key value = .error Err.ErrAlreadyExist) ∨
    ((¬ ∃ v, cb.Get ns key = .ok v) ∧
      cb.PutIfNotExists ns key value =
        .ok { writeQueue := cb.writeQueue ++ [⟨WriteType.PutIfNotExists, ns, key, some value⟩],
              overlay := cb.overlay.insert (ns, key) (some value) }) := by
  unfold CachedBatch.PutIfNotExists CachedBatch.Get
  cases h : cb.overlay.lookup (ns, key) with
  | none => right; simp
  | some o =>
    cases o with
    | none => right; simp
    | some v => left; simp

theorem logReads_append_singleton (q : List WriteOp) (w : WriteOp) (ns : String) (key : Bytes) :
    logReads (q ++ [w]) ns key = if w.touches ns key then w.reads else logReads q ns key := by
  unfold logReads
  rw [lastOp_append_singleton]
  split_ifs <;> rfl

theorem coherent_call {cb : CachedBatch} (h : cb.Coherent) (c : BatchCall) :
    (cb.call c).Coherent := by
  intro ns' key'
  cases c with
  | Put ns key value =>
    simp only [CachedBatch.call]
    rw [CachedBatch.batchGet_Put]
    have hq : (cb.Put ns key value).writeQueue =
        cb.writeQueue ++ [⟨WriteType.Put, ns, key, some value⟩] := rfl
    rw [hq, logReads_append_singleton, h ns' key']
    simp [WriteOp.touches, WriteOp.reads]
  | Delete ns key =>
    simp only [CachedBatch.call]
    rw [CachedBatch.batchGet_Delete]
    have hq : (cb.Delete ns key).writeQueue =
        cb.writeQueue ++ [⟨WriteType.Delete, ns, key, none⟩] := rfl
    rw [hq, logReads_append_singleton, h ns' key']
    simp [WriteOp.touches, WriteOp.reads]
  | Clear =>
    simp only [CachedBatch.call, CachedBatch.Clear]
    exact coherent_new ns' key'
  | PutIfNotExists ns key value =>
    simp only [CachedBatch.call]
    rcases cb.batchPutIfNotExists_spec ns key value with ⟨_, he⟩ | ⟨_, he⟩
    · rw [he]; exact h ns' key'
    · rw [he]
      have hg := CachedBatch.batchGet_Put cb ns ns' key key' value
      unfold CachedBatch.Put CachedBatch.Get at hg
      unfold CachedBatch.Get
      simp only at hg ⊢
      rw [hg, logReads_append_singleton]
      have := h ns' key'
      unfold CachedBatch.Get at this
      rw [this]
      simp [WriteOp.touches, WriteOp.reads]

theorem coherent_run (calls : List BatchCall) :
    ∀ {cb : CachedBatch}, cb.Coherent → (cb.run calls).Coherent := by
  induction calls with
  | nil => intro cb h; exact h
  | cons c rest ih => intro cb h; exact ih (coherent_call h c)

theorem sinceClear_of_not_mem {l : List BatchCall} (h : BatchCall.Clear ∉ l) :
    sinceClear l = l := by
  cases l with
  | nil => rfl
  | cons c rest =>
    simp only [List.mem_cons, not_or] at h
    rw [sinceClear, if_neg h.2, if_neg (fun hc => h.1 hc.symm)]

theorem mem_accepted_clear (calls : List BatchCall) :
    ∀ cb : CachedBatch, BatchCall.Clear ∈ cb.accepted calls ↔ BatchCall.Clear ∈ calls := by
  induction calls with
  | nil => intro cb; simp [CachedBatch.accepted]
  | cons c rest ih =>
    intro cb
    rw [CachedBatch.accepted, List.mem_append, ih, List.mem_cons]
    by_cases hc : c = BatchCall.Clear
    · subst hc
      simp [CachedBatch.accepts]
    · have : BatchCall.Clear ∉ (if cb.accepts c = true then [c] else []) := by
        split_ifs
        · simp [Ne.symm hc]
        · simp
      simp [this, Ne.symm hc]

theorem call_writeQueue (cb : CachedBatch) (c : BatchCall) (hc : c ≠ BatchCall.Clear) :
    (cb.call c).writeQueue =
      cb.writeQueue ++ (if cb.accepts c then [c] else []).filterMap BatchCall.op := by
  cases c with
  | Put ns key value => simp [CachedBatch.call, CachedBatch.accepts, CachedBatch.Put, BatchCall.op]
  | Delete ns key => simp [CachedBatch.call, CachedBatch.accepts, CachedBatch.Delete, BatchCall.op]
  | Clear => exact absurd rfl hc
  | PutIfNotExists ns key value =>
    rcases cb.batchPutIfNotExists_spec ns key value with ⟨_, he⟩ | ⟨_, he⟩
    · simp [CachedBatch.call, CachedBatch.accepts, he]
    · simp [CachedBatch.call, CachedBatch.accepts, he, BatchCall.op]

theorem run_writeQueue (calls : List BatchCall) :
    ∀ cb : CachedBatch, (cb.run calls).writeQueue =
      (if BatchCall.Clear ∈ calls then [] else cb.writeQueue) ++
        (sinceClear (cb.accepted calls)).filterMap BatchCall.op := by
  induction calls with
  | nil => intro cb; simp [CachedBatch.run, CachedBatch.accepted, sinceClear]
  | cons c rest ih =>
    intro cb
    rw [CachedBatch.run, ih, CachedBatch.accepted]
    by_cases hr : BatchCall.Clear ∈ rest
    · have hr' : BatchCall.Clear ∈ (cb.call c).accepted rest :=
        (mem_accepted_clear rest _).mpr hr
      simp only [hr, if_true, List.mem_cons, or_true, List.nil_append]
      split_ifs
      · rw [List.singleton_append, sinceClear, if_pos hr']
      · rw [List.nil_append]
    · have hr' : BatchCall.Clear ∉ (cb.call c).accepted rest :=
        fun h => hr ((mem_accepted_clear rest _).mp h)
      simp only [hr, if_false]
      rw [sinceClear_of_not_mem hr']
      by_cases hc : c = BatchCall.Clear
      · subst hc
        have hcl : cb.call BatchCall.Clear = NewCachedBatch := rfl
        rw [hcl] at hr' ⊢
        have hacc : (if cb.accepts BatchCall.Clear = true then [BatchCall.Clear] else []) =
            [BatchCall.Clear] := rfl
        rw [hacc, List.singleton_append, sinceClear, if_neg hr', if_pos rfl]
        simp [NewCachedBatch]
      · have hmem : ¬ (BatchCall.Clear ∈ c :: rest) := by
          simp [Ne.symm hc, hr]
        rw [if_neg hmem, call_writeQueue cb c hc]
        have hnm : BatchCall.Clear ∉
            (if cb.accepts c = true then [c] else []) ++ (cb.call c).accepted rest := by
          intro h
          rcases List.mem_append.mp h with h | h
          · split_ifs at h
            · simp [Ne.symm hc] at h
            · simp at h
          · exact hr' h
        rw [sinceClear_of_not_mem hnm, List.filterMap_append, List.append_assoc]

theorem run_fresh_writeQueue (calls : List BatchCall) :
    (NewCachedBatch.run calls).writeQueue = recordedOps calls := by
  rw [run_writeQueue]
  unfold recordedOps
  split_ifs <;> simp [NewCachedBatch]

/-! ## Replay of a log on the store -/

theorem KVStore.Get_eq_bucket (s : KVStore) (ns : String) (key : Bytes) :
    s.Get ns key = match (s.bucket ns).lookup key with
      | none => .error Err.ErrNotExist
      | some v => .ok v := by
  unfold KVStore.Get KVStore.bucket
  cases h : s.buckets.lookup ns with
  | none => simp
  | some b =>
    simp only [Option.getD_some]

theorem KVStore.Get_Put (s : KVStore) (ns ns' : String) (key key' value : Bytes) :
    (s.Put ns key value).Get ns' key' =
      if ns = ns' ∧ key = key' then .ok value else s.Get ns' key' := by
  by_cases h : ns = ns' ∧ key = key'
  · obtain ⟨rfl, rfl⟩ := h
    simp [KVStore.Get, KVStore.Put]
  · rw [if_neg h]
    unfold KVStore.Get KVStore.Put KVStore.bucket
    by_cases hns : ns' = ns
    · subst hns
      have hk : key' ≠ key := fun hk => h ⟨rfl, hk.symm⟩
      simp only [AList.lookup_insert]
      cases hl : s.buckets.lookup ns' with
      | none => simp only [Option.getD_none, AList.lookup_insert_ne hk, AList.lookup_empty]
      | some b => simp only [Option.getD_some, AList.lookup_insert_ne hk]
    · simp only [AList.lookup_insert_ne hns]

theorem KVStore.Get_Delete (s : KVStore) (ns ns' : String) (key key' : Bytes) :
    (s.Delete ns key).Get ns' key' =
      if ns = ns' ∧ key = key' then .error Err.ErrNotExist else s.Get ns' key' := by
  unfold KVStore.Delete
  cases hl : s.buckets.lookup ns with
  | none =>
    simp only
    split_ifs with h
    · obtain ⟨rfl, rfl⟩ := h
      simp [KVStore.Get, hl]
    · rfl
  | some b =>
    simp only
    unfold KVStore.Get
    by_cases hns : ns' = ns
    · subst hns
      simp only [AList.lookup_insert, hl, true_and]
      by_cases hk : key = key'
      · subst hk
        simp
      · simp only [hk, if_false]
        rw [AList.lookup_erase_ne (fun h => hk h.symm)]
    · have : ¬ (ns = ns' ∧ key = key') := fun h => hns h.1.symm
      simp only [AList.lookup_insert_ne hns, this, if_false]

theorem KVStore.PutIfNotExists_spec (s : KVStore) (ns : String) (key value : Bytes) :
    ((∃ v, s.Get ns key = .ok v) ∧ s.PutIfNotExists ns key value = .error Err.ErrAlreadyExist) ∨
    ((s.Get ns key = .error Err.ErrNotExist) ∧
      s.PutIfNotExists ns key value = .ok (s.Put ns key value)) := by
  rw [KVStore.Get_eq_bucket]
  unfold KVStore.PutIfNotExists
  cases h : (s.bucket ns).lookup key with
  | none => right; simp
  | some v => left; simp

/-- The store after one operation of a replay, or the error that stops it. -/
theorem KVStore.replay_cons (s : KVStore) (w : WriteOp) (rest : List WriteOp) :
    s.replay (w :: rest) =
      match s.replay [w] with
      | .error e => .error e
      | .ok s' => s'.replay rest := by
  have := KVStore.replay_append [w] rest s
  simpa using this

theorem KVStore.replay_singleton_reads {s s1 : KVStore} {w : WriteOp}
    (h : s.replay [w] = .ok s1) (ns : String) (key : Bytes) :
    s1.Get ns key = if w.touches ns key then w.reads else s.Get ns key := by
  unfold KVStore.replay at h
  unfold WriteOp.touches WriteOp.reads
  cases hw : w.writeType with
  | Put =>
    simp only [hw, KVStore.replay, Except.ok.injEq] at h
    subst h
    rw [KVStore.Get_Put]
  | Delete =>
    simp only [hw, KVStore.replay, Except.ok.injEq] at h
    subst h
    rw [KVStore.Get_Delete]
  | PutIfNotExists =>
    simp only [hw] at h
    rcases s.PutIfNotExists_spec w.ns w.key (w.value.getD []) with ⟨_, he⟩ | ⟨_, he⟩
    · rw [he] at h; cases h
    · rw [he] at h
      simp only [KVStore.replay, Except.ok.injEq] at h
      subst h
      rw [KVStore.Get_Put]

theorem KVStore.replay_reads (q : List WriteOp) :
    ∀ {s s' : KVStore}, s.replay q = .ok s' → ∀ (ns : String) (key : Bytes),
      s'.Get ns key = match lastOp q ns key with
        | none => s.Get ns key
        | some w => w.reads := by
  induction q with
  | nil =>
    intro s s' h ns key
    simp only [KVStore.replay, Except.ok.injEq] at h
    subst h
    rfl
  | cons w rest ih =>
    intro s s' h ns key
    rw [KVStore.replay_cons] at h
    cases h1 : s.replay [w] with
    | error e => rw [h1] at h; cases h
    | ok s1 =>
      rw [h1] at h
      simp only at h
      rw [ih h ns key, lastOp]
      cases hl : lastOp rest ns key with
      | some w' => rfl
      | none =>
        simp only
        rw [KVStore.replay_singleton_reads h1]
        split_ifs <;> rfl

theorem KVStore.replay_collision {s s1 : KVStore} {pre post : List WriteOp} {w : WriteOp}
    {v : Bytes} (hw : w.writeType = WriteType.PutIfNotExists) (hpre : s.replay pre = .ok s1)
    (hget : s1.Get w.ns w.key = .ok v) :
    s.replay (pre ++ w :: post) = .error Err.ErrAlreadyExist := by
  rw [KVStore.replay_append, hpre]
  simp only
  rw [KVStore.replay]
  simp only [hw]
  rcases s1.PutIfNotExists_spec w.ns w.key (w.value.getD []) with ⟨_, he⟩ | ⟨hn, _⟩
  · rw [he]
  · rw [hn] at hget; cases hget

/-! ## The cached batch: reads, create-if-absent, entries -/

theorem recordedOps_value {calls : List BatchCall} {w : WriteOp} (hw : w ∈ recordedOps calls) :
    (w.writeType = WriteType.Delete ∧ w.value = none) ∨
      (w.writeType ≠ WriteType.Delete ∧ ∃ v, w.value = some v) := by
  unfold recordedOps at hw
  obtain ⟨c, _, hc⟩ := List.mem_filterMap.mp hw
  cases c with
  | Put ns key value => simp only [BatchCall.op, Option.some.injEq] at hc; subst hc; simp
  | PutIfNotExists ns key value =>
    simp only [BatchCall.op, Option.some.injEq] at hc; subst hc; simp
  | Delete ns key => simp only [BatchCall.op, Option.some.injEq] at hc; subst hc; simp
  | Clear => simp [BatchCall.op] at hc

theorem lastOp_mem {q : List WriteOp} {ns : String} {key : Bytes} {w : WriteOp}
    (h : lastOp q ns key = some w) : w ∈ q ∧ w.touches ns key := by
  induction q with
  | nil => simp [lastOp] at h
  | cons x rest ih =>
    rw [lastOp] at h
    cases hl : lastOp rest ns key with
    | some w' =>
      rw [hl] at h
      simp only [Option.some.injEq] at h
      subst h
      exact ⟨List.mem_cons_of_mem _ (ih hl).1, (ih hl).2⟩
    | none =>
      rw [hl] at h
      simp only at h
      split_ifs at h with hx
      simp only [Option.some.injEq] at h
      subst h
      exact ⟨List.mem_cons_self _ _, hx⟩

/-- Claim C14: read-your-writes of the cached batch. After any sequence of
`Put`, `PutIfNotExists`, `Delete` and `Clear` calls on a fresh batch, the log of
the batch holds the operations of the calls that succeeded since the last
`Clear`, and `Get(ns, key)` is decided by the most recent of them on
`(ns, key)`: the value it wrote when it is a `Put` or a `PutIfNotExists`,
`ErrNotExist` when it is a `Delete` or when there is none. -/
theorem cachedBatch_read_your_writes (calls : List BatchCall) (ns : String) (key : Bytes) :
    (NewCachedBatch.run calls).writeQueue = recordedOps calls ∧
    (lastOp (recordedOps calls) ns key = none →
      (NewCachedBatch.run calls).Get ns key = .error Err.ErrNotExist) ∧
    (∀ w, lastOp (recordedOps calls) ns key = some w → w.writeType = WriteType.Delete →
      (NewCachedBatch.run calls).Get ns key = .error Err.ErrNotExist) ∧
    (∀ w, lastOp (recordedOps calls) ns key = some w → w.writeType ≠ WriteType.Delete →
      ∃ v, w.value = some v ∧ (NewCachedBatch.run calls).Get ns key = .ok v) := by
  have hq := run_fresh_writeQueue calls
  have hc := coherent_run calls coherent_new ns key
  rw [hq] at hc
  unfold logReads at hc
  refine ⟨hq, ?_, ?_, ?_⟩
  · intro h; rw [hc, h]
  · intro w h hd; rw [hc, h]; simp [WriteOp.reads, hd]
  · intro w h hd
    rcases recordedOps_value (lastOp_mem h).1 with ⟨h1, _⟩ | ⟨_, v, hv⟩
    · exact absurd h1 hd
    · refine ⟨v, hv, ?_⟩
      rw [hc, h]
      unfold WriteOp.reads
      cases hwt : w.writeType with
      | Delete => exact absurd hwt hd
      | Put => simp [hv]
      | PutIfNotExists => simp [hv]

/-- Claim C15: `CachedBatch.PutIfNotExists(ns, key, value)` fails, with
`ErrAlreadyExist`, if and only if the overlay holds a live value for
`(ns, key)`, and then the batch is as it was; otherwise (the key is absent from
the overlay or tombstoned, whatever other keys and namespaces hold) it
succeeds, appends one `PutIfNotExists` operation, makes `Get(ns, key)` return
the value and leaves the reading of every other key as it was. The backing
store is not consulted: the call succeeds also for a key that the store holds. -/
theorem cachedBatch_putIfNotExists (cb : CachedBatch) (ns : String) (key value : Bytes) :
    (cb.PutIfNotExists ns key value = .error Err.ErrAlreadyExist ↔
      ∃ v, cb.overlay.lookup (ns, key) = some (some v)) ∧
    (∀ e, cb.PutIfNotExists ns key value = .error e →
      e = Err.ErrAlreadyExist ∧ cb.call (BatchCall.PutIfNotExists ns key value) = cb) ∧
    ((¬ ∃ v, cb.overlay.lookup (ns, key) = some (some v)) →
      ∃ cb', cb.PutIfNotExists ns key value = .ok cb' ∧
        cb.call (BatchCall.PutIfNotExists ns key value) = cb' ∧
        cb'.writeQueue =
          cb.writeQueue ++ [⟨WriteType.PutIfNotExists, ns, key, some value⟩] ∧
        cb'.Get ns key = .ok value ∧
        ∀ ns' key', ¬ (ns = ns' ∧ key = key') → cb'.Get ns' key' = cb.Get ns' key') ∧
    (∀ (s : KVStore) (v : Bytes), s.Get ns key = .ok v →
      (¬ ∃ v', cb.overlay.lookup (ns, key) = some (some v')) →
      ∃ cb', cb.PutIfNotExists ns key value = .ok cb') := by
  have hlive : (∃ v, cb.Get ns key = .ok v) ↔ ∃ v, cb.overlay.lookup (ns, key) = some (some v) := by
    unfold CachedBatch.Get
    cases cb.overlay.lookup (ns, key) with
    | none => simp
    | some o => cases o <;> simp
  rcases cb.batchPutIfNotExists_spec ns key value with ⟨hl, he⟩ | ⟨hl, he⟩
  · have hl' := hlive.mp hl
    refine ⟨⟨fun _ => hl', fun _ => he⟩, ?_, fun hn => absurd hl' hn,
      fun _ _ _ hn => absurd hl' hn⟩
    intro e hx
    rw [he] at hx
    simp only [Except.error.injEq] at hx
    refine ⟨hx.symm, ?_⟩
    simp [CachedBatch.call, he]
  · have hl' : ¬ ∃ v, cb.overlay.lookup (ns, key) = some (some v) := fun h => hl (hlive.mpr h)
    have hput : ∀ cb', cb.PutIfNotExists ns key value = .ok cb' → ∀ ns' key',
        cb'.Get ns' key' = if ns = ns' ∧ key = key' then .ok value else cb.Get ns' key' := by
      intro cb' h ns' key'
      rw [he] at h
      simp only [Except.ok.injEq] at h
      subst h
      exact CachedBatch.batchGet_Put cb ns ns' key key' value
    refine ⟨⟨fun h => ?_, fun h => absurd h hl'⟩, ?_, fun _ => ⟨_, he, ?_, rfl, ?_, ?_⟩,
      fun _ _ _ _ => ⟨_, he⟩⟩
    · rw [he] at h; cases h
    · intro e hx; rw [he] at hx; cases hx
    · simp [CachedBatch.call, he]
    · rw [hput _ he]; simp
    · intro ns' key' hne; rw [hput _ he, if_neg hne]

/-- Claim C16: `KVStore.Commit` is atomic on failure. If the replay of the
batch in order reaches a `PutIfNotExists` whose `(namespace, key)` the store
holds at that point of the replay, `Commit` fails with `ErrAlreadyExist`; and
after any failed `Commit` every `Get` returns what it returned before, also for
the keys written by earlier operations of the batch. -/
theorem kvStore_commit_atomic (S : KVStore) (B : CachedBatch) :
    (∀ (pre post : List WriteOp) (w : WriteOp) (s1 : KVStore) (v : Bytes),
      B.writeQueue = pre ++ w :: post → w.writeType = WriteType.PutIfNotExists →
      S.replay pre = .ok s1 → s1.Get w.ns w.key = .ok v →
      (S.Commit B).2 = some Err.ErrAlreadyExist) ∧
    (∀ e, (S.Commit B).2 = some e →
      ∀ ns key, (S.Commit B).1.Get ns key = S.Get ns key) := by
  refine ⟨?_, ?_⟩
  · intro pre post w s1 v hq hw hpre hget
    unfold KVStore.Commit
    rw [hq, KVStore.replay_collision hw hpre hget]
  · intro e he ns key
    unfold KVStore.Commit at he ⊢
    cases hr : S.replay B.writeQueue with
    | ok s' => rw [hr] at he; cases he
    | error x => rfl

/-- Witness of C16: on a store holding `(test_ns2, [1])`, a batch that puts
`(test_ns1, [3])` and then creates `(test_ns2, [1])` fails to commit with
`ErrAlreadyExist`, and `(test_ns1, [3])` is still absent. -/
theorem kvStore_commit_atomic_witness :
    (demoStore.Commit (NewCachedBatch.run demoCollidingCalls)).2 = some Err.ErrAlreadyExist ∧
    (demoStore.Commit (NewCachedBatch.run demoCollidingCalls)).1.Get "test_ns1" [3] =
      demoStore.Get "test_ns1" [3] :=
  ⟨(kvStore_commit_atomic demoStore (NewCachedBatch.run demoCollidingCalls)).1
      [⟨WriteType.Put, "test_ns1", [3], some [13]⟩] []
      ⟨WriteType.PutIfNotExists, "test_ns2", [1], some [12]⟩
      (demoStore.Put "test_ns1" [3] [13]) [10] rfl rfl rfl (by decide),
   (kvStore_commit_atomic demoStore (NewCachedBatch.run demoCollidingCalls)).2
      Err.ErrAlreadyExist (by decide) "test_ns1" [3]⟩

/-- Claim C17: a successful commit agrees with the overlay. For a batch built
by any sequence of calls on a fresh `CachedBatch`, if `S.Commit(B)` succeeds,
then for every `(namespace, key)` touched by an operation of `B` the store
afterwards returns what `B.Get` returned before the commit (the same value, or
`ErrNotExist` when the last operation on the key is a `Delete`), and every
key no operation of `B` touches reads as before. -/
theorem kvStore_commit_matches_overlay (S : KVStore) (calls : List BatchCall)
    (hok : (S.Commit (NewCachedBatch.run calls)).2 = none) (ns : String) (key : Bytes) :
    ((∃ w ∈ (NewCachedBatch.run calls).writeQueue, w.touches ns key) →
      (S.Commit (NewCachedBatch.run calls)).1.Get ns key =
        (NewCachedBatch.run calls).Get ns key) ∧
    ((∀ w ∈ (NewCachedBatch.run calls).writeQueue, ¬ w.touches ns key) →
      (S.Commit (NewCachedBatch.run calls)).1.Get ns key = S.Get ns key) := by
  have hc := coherent_run calls coherent_new ns key
  unfold logReads at hc
  unfold KVStore.Commit at hok ⊢
  cases hr : S.replay (NewCachedBatch.run calls).writeQueue with
  | error e => rw [hr] at hok; cases hok
  | ok s' =>
    simp only
    have hg := KVStore.replay_reads _ hr ns key
    refine ⟨fun ht => ?_, fun hn => ?_⟩
    · cases hl : lastOp (NewCachedBatch.run calls).writeQueue ns key with
      | none =>
        obtain ⟨w, hw, hwt⟩ := ht
        exact absurd hwt (lastOp_eq_none.mp hl w hw)
      | some w => rw [hg, hc, hl]
    · rw [hg, lastOp_eq_none.mpr hn]

/-- Witness of C17: a batch that puts `(test_ns1, [3])` and deletes
`(test_ns2, [1])` commits on `demoStore`; the put key and the deleted key read
as in the overlay, and an untouched key reads as before. -/
theorem kvStore_commit_matches_overlay_witness :
    (demoStore.Commit (NewCachedBatch.run demoCleanCalls)).1.Get "test_ns1" [3] =
      (NewCachedBatch.run demoCleanCalls).Get "test_ns1" [3] ∧
    (demoStore.Commit (NewCachedBatch.run demoCleanCalls)).1.Get "test_ns2" [1] =
      (NewCachedBatch.run demoCleanCalls).Get "test_ns2" [1] ∧
    (demoStore.Commit (NewCachedBatch.run demoCleanCalls)).1.Get "test_ns2" [5] =
      demoStore.Get "test_ns2" [5] :=
  ⟨(kvStore_commit_matches_overlay demoStore demoCleanCalls (by decide) "test_ns1" [3]).1
      ⟨⟨WriteType.Put, "test_ns1", [3], some [13]⟩, by decide, by decide⟩,
   (kvStore_commit_matches_overlay demoStore demoCleanCalls (by decide) "test_ns2" [1]).1
      ⟨⟨WriteType.Delete, "test_ns2", [1], none⟩, by decide, by decide⟩,
   (kvStore_commit_matches_overlay demoStore demoCleanCalls (by decide) "test_ns2" [5]).2
      (by decide)⟩

theorem filterMap_op_get (l : List BatchCall) (hcl : BatchCall.Clear ∉ l) :
    (l.filterMap BatchCall.op).length = l.length ∧
    ∀ i, (l.filterMap BatchCall.op).get? i = (l.get? i).bind BatchCall.op := by
  induction l with
  | nil => simp
  | cons c rest ih =>
    simp only [List.mem_cons, not_or] at hcl
    obtain ⟨h1, h2⟩ := ih hcl.2
    have hop : ∃ w, c.op = some w := by
      cases c with
      | Clear => exact absurd rfl hcl.1
      | Put ns key value => exact ⟨_, rfl⟩
      | PutIfNotExists ns key value => exact ⟨_, rfl⟩
      | Delete ns key => exact ⟨_, rfl⟩
    obtain ⟨w, hw⟩ := hop
    rw [List.filterMap_cons_some hw]
    refine ⟨by simp [h1], fun i => ?_⟩
    cases i with
    | zero => simp [hw]
    | succ n =>
      simp only [List.get?_cons_succ]
      exact h2 n

/-- Claim C18: the batch is an append-ordered log. After any sequence of `Put`,
`PutIfNotExists` and `Delete` calls on a fresh batch, `Size()` is the number of
calls that succeeded and, for every `i < Size()`, `Entry(i)` returns without
error the operation of the `i`-th successful call, with that call's kind,
namespace, key and value; the entry of a `Delete` has no value, and a call that
fails leaves the batch as it was. -/
theorem cachedBatch_entries (calls : List BatchCall) (hcl : BatchCall.Clear ∉ calls) :
    (NewCachedBatch.run calls).Size = (NewCachedBatch.accepted calls).length ∧
    (∀ i, i < (NewCachedBatch.run calls).Size →
      ∃ c w, (NewCachedBatch.accepted calls).get? i = some c ∧ c.op = some w ∧
        (NewCachedBatch.run calls).Entry i = .ok w) ∧
    (∀ i w, (NewCachedBatch.run calls).Entry i = .ok w → w.writeType = WriteType.Delete →
      w.value = none) ∧
    (∀ (cb : CachedBatch) (c : BatchCall), cb.accepts c = false → cb.call c = cb) := by
  have hacc : BatchCall.Clear ∉ NewCachedBatch.accepted calls :=
    fun h => hcl ((mem_accepted_clear calls _).mp h)
  have hq : (NewCachedBatch.run calls).writeQueue =
      (NewCachedBatch.accepted calls).filterMap BatchCall.op := by
    rw [run_fresh_writeQueue, recordedOps, sinceClear_of_not_mem hacc]
  obtain ⟨hlen, hget⟩ := filterMap_op_get _ hacc
  refine ⟨?_, ?_, ?_, ?_⟩
  · unfold CachedBatch.Size; rw [hq, hlen]
  · intro i hi
    unfold CachedBatch.Size at hi
    rw [hq, hlen] at hi
    obtain ⟨c, hc⟩ : ∃ c, (NewCachedBatch.accepted calls).get? i = some c :=
      ⟨_, List.get?_eq_get hi⟩
    have hw := hget i
    rw [hc] at hw
    simp only [Option.some_bind] at hw
    cases hop : c.op with
    | none =>
      rw [hop] at hw
      have := List.get?_eq_none.mp hw
      rw [hlen] at this
      omega
    | some w =>
      rw [hop] at hw
      refine ⟨c, w, hc, hop, ?_⟩
      unfold CachedBatch.Entry
      rw [hq, hw]
  · intro i w he hd
    unfold CachedBatch.Entry at he
    cases hg : (NewCachedBatch.run calls).writeQueue.get? i with
    | none => rw [hg] at he; cases he
    | some w' =>
      rw [hg] at he
      simp only [Except.ok.injEq] at he
      subst he
      have hmem : w' ∈ recordedOps calls := by
        rw [← run_fresh_writeQueue]
        exact List.get?_mem hg
      rcases recordedOps_value hmem with ⟨_, h2⟩ | ⟨h1, _⟩
      · exact h2
      · exact absurd hd h1
  · intro cb c hc
    cases c with
    | Put ns key value => simp [CachedBatch.accepts] at hc
    | Delete ns key => simp [CachedBatch.accepts] at hc
    | Clear => simp [CachedBatch.accepts] at hc
    | PutIfNotExists ns key value =>
      simp only [CachedBatch.accepts] at hc
      simp only [CachedBatch.call]
      cases hp : cb.PutIfNotExists ns key value with
      | ok cb' => rw [hp] at hc; simp at hc
      | error e => rfl

/-- Witness of C18, the sequence of the test of the batch: `Put(b1, k1, v1)`, a
refused `PutIfNotExists(b1, k1, v1)`, `Delete(b1, k2)`, `Delete(b1, k1)` and
`PutIfNotExists(b1, k1, v1)` leave four entries; entry 1 is the `Delete` of
`k2` without value and entry 3 the `PutIfNotExists` of `k1` with `v1`. -/
theorem cachedBatch_entries_witness :
    (NewCachedBatch.run demoCalls).Size = 4 ∧
    (NewCachedBatch.run demoCalls).Entry 1 =
      .ok ⟨WriteType.Delete, "test_ns1", [4], none⟩ ∧
    (NewCachedBatch.run demoCalls).Entry 3 =
      .ok ⟨WriteType.PutIfNotExists, "test_ns1", [1], some [11]⟩ ∧
    (NewCachedBatch.run demoCalls).Size = (NewCachedBatch.accepted demoCalls).length :=
  ⟨by decide, by decide, by decide, (cachedBatch_entries demoCalls (by decide)).1⟩

/-- Witness of C15: on a batch without entry for `(test_ns2, [1])` the creation
succeeds although `demoStore` holds the key, and on a batch that has put the
key it is refused with `ErrAlreadyExist`. -/
theorem cachedBatch_putIfNotExists_witness :
    (∃ cb', NewCachedBatch.PutIfNotExists "test_ns2" [1] [12] = .ok cb') ∧
    (NewCachedBatch.Put "test_ns2" [1] [10]).PutIfNotExists "test_ns2" [1] [12] =
      .error Err.ErrAlreadyExist :=
  ⟨(cachedBatch_putIfNotExists NewCachedBatch "test_ns2" [1] [12]).2.2.2 demoStore [10]
      (by decide) (by simp [NewCachedBatch]),
   (cachedBatch_putIfNotExists (NewCachedBatch.Put "test_ns2" [1] [10]) "test_ns2" [1]
      [12]).1.mpr ⟨[10], by decide⟩⟩

/-! ## Commit and the caches -/

/-- Claim C12: `WorkingSet.Commit` is all-or-nothing on the caches. If
`KVStore.Commit` of the shared batch succeeds, `Commit` returns no error and
`cachedStates`, `cachedContract` and `cachedCandidates` are empty afterwards,
the store being the committed one; if it fails, `Commit` returns the error of
the store, and the three caches, the shared batch and the account trie are as
before the call. -/
theorem Commit_all_or_nothing (ws : WorkingSet) :
    ((ws.dao.Commit ws.cb).2 = none →
      ws.Commit.2 = none ∧ ws.Commit.1.cachedStates = ∅ ∧ ws.Commit.1.cachedContract = ∅ ∧
      ws.Commit.1.cachedCandidates = ∅ ∧ ws.Commit.1.dao = (ws.dao.Commit ws.cb).1) ∧
    (∀ e, (ws.dao.Commit ws.cb).2 = some e →
      ws.Commit.2 = some e ∧ ws.Commit.1.cachedStates = ws.cachedStates ∧
      ws.Commit.1.cachedContract = ws.cachedContract ∧
      ws.Commit.1.cachedCandidates = ws.cachedCandidates ∧ ws.Commit.1.cb = ws.cb ∧
      ws.Commit.1.accountTrie = ws.accountTrie) := by
  unfold WorkingSet.Commit
  cases h : ws.dao.Commit ws.cb with
  | mk dao err =>
    cases err with
    | none => simp [WorkingSet.clearCache]
    | some e => simp

/-- Witness of C12: a working set with cached accounts whose batch collides
with the store keeps its caches and its batch when `Commit` fails, and the same
working set with a clean batch has empty caches after `Commit`. -/
theorem Commit_all_or_nothing_witness :
    ((demoCommit demoCollidingCalls).Commit.2 = some Err.ErrAlreadyExist ∧
      (demoCommit demoCollidingCalls).Commit.1.cachedStates =
        (demoCommit demoCollidingCalls).cachedStates ∧
      (demoCommit demoCollidingCalls).Commit.1.cb = (demoCommit demoCollidingCalls).cb) ∧
    ((demoCommit demoCleanCalls).Commit.2 = none ∧
      (demoCommit demoCleanCalls).Commit.1.cachedStates = ∅) :=
  ⟨⟨((Commit_all_or_nothing (demoCommit demoCollidingCalls)).2 Err.ErrAlreadyExist
        (by decide)).1,
     ((Commit_all_or_nothing (demoCommit demoCollidingCalls)).2 Err.ErrAlreadyExist
        (by decide)).2.1,
     ((Commit_all_or_nothing (demoCommit demoCollidingCalls)).2 Err.ErrAlreadyExist
        (by decide)).2.2.2.2.1⟩,
   ((Commit_all_or_nothing (demoCommit demoCleanCalls)).1 (by decide)).1,
   ((Commit_all_or_nothing (demoCommit demoCleanCalls)).1 (by decide)).2.1⟩

/-! ## Loading or creating an account -/

/-- What `LoadOrCreateAccountState(addr, init)` computes for an address that
decodes to `h`. If `h` has an account in `cachedStates`, that account is
returned and the working set is unchanged; if it has none there but the account
trie holds one, that account is cached and returned; in both cases `init` is
ignored. Otherwise (`ErrStateNotExist`) a new account is inserted into
`cachedStates` and returned, with nonce `0`, voting weight `0`, an empty votee
and `isCandidate = false`; its balance is built with `SetBytes(init.Bytes())`,
which gives `init` whenever `init ≥ 0` and drops the sign of a negative `init`. -/
theorem LoadOrCreateAccountState_spec (env : Env) (ws : WorkingSet) (addr : String)
    (init : Int) (h : PKHash) (hd : env.AddressToPKHash addr = some h) :
    (∀ a, ws.cachedStates.lookup h = some (Iotex.State.account a) →
      ws.LoadOrCreateAccountState env addr init = .ok (h, ws) ∧ ws.account h = a) ∧
    (∀ a, ws.cachedStates.lookup h = none → ws.State env h = .ok a →
      ∃ ws', ws.LoadOrCreateAccountState env addr init = .ok (h, ws') ∧
        ws' = { ws with cachedStates := ws.cachedStates.insert h (Iotex.State.account a) } ∧
        ws'.account h = a) ∧
    (ws.cachedStates.lookup h = none → ws.State env h = .error Err.ErrStateNotExist →
      ∃ ws', ws.LoadOrCreateAccountState env addr init = .ok (h, ws') ∧
        ws' = ws.setAccount h (ws'.account h) ∧
        ws'.account h =
          { nonce := 0, balance := |init|, root := ZeroHash32B, codeHash := [],
            isCandidate := false,
            votingWeight := 0, votee := "" } ∧
        (0 ≤ init → (ws'.account h).balance = init)) := by
  refine ⟨?_, ?_, ?_⟩
  · intro a hl
    refine ⟨?_, account_of_lookup hl⟩
    simp [WorkingSet.LoadOrCreateAccountState, hd, WorkingSet.CachedState, hl,
      stateToAccountState]
  · intro a hl hs
    refine ⟨_, ?_, rfl, ?_⟩
    · simp [WorkingSet.LoadOrCreateAccountState, hd, WorkingSet.CachedState, hl, hs,
        stateToAccountState]
    · simp [WorkingSet.account]
  · intro hl hs
    have hacc : ∀ a : Account, (ws.setAccount h a).account h = a := by
      intro a; simp [account_setAccount]
    refine ⟨ws.setAccount h { Account.zero with balance := |init| }, ?_, ?_, ?_, ?_⟩
    · unfold WorkingSet.LoadOrCreateAccountState WorkingSet.CachedState
      simp only [hd, hl, hs, Account.zero, Int.abs_eq_natAbs, WorkingSet.setAccount]
    · rw [hacc]
    · rw [hacc]; rfl
    · intro h0
      rw [hacc]
      exact abs_of_nonneg h0

/-- On an empty working set, loading alice with `init = 7` creates an account
of balance 7. -/
theorem LoadOrCreateAccountState_spec_witness :
    ∃ ws', (demoWs ∅).LoadOrCreateAccountState demoEnv "io1alice" 7 = .ok ([1], ws') ∧
      ws' = (demoWs ∅).setAccount [1] (ws'.account [1]) ∧
      ws'.account [1] =
        { nonce := 0, balance := |(7 : Int)|, root := ZeroHash32B, codeHash := [],
          isCandidate := false,
          votingWeight := 0, votee := "" } ∧
      ((0 : Int) ≤ 7 → (ws'.account [1]).balance = 7) :=
  (LoadOrCreateAccountState_spec demoEnv (demoWs ∅) "io1alice" 7 [1] rfl).2.2 rfl rfl

/-- Claim C13, where the code departs from it: on an empty working set (no
cached state, nothing in the trie), `LoadOrCreateAccountState` with `init = -5`
creates an account whose balance is 5, while the claim and the comment of the
function ("adds a new account state with initial balance") give it the balance
`init`. -/
theorem LoadOrCreateAccountState_negative_init :
    (demoWs ∅).cachedStates.lookup [1] = none ∧
    (demoWs ∅).State demoEnv [1] = .error Err.ErrStateNotExist ∧
    ((demoWs ∅).LoadOrCreateAccountState demoEnv "io1alice" (-5)).map
        (fun p => (p.1, p.2.cachedStates.lookup p.1)) =
      .ok ([1], some (Iotex.State.account (acct 5))) ∧
    (acct 5).balance ≠ -5 := by
  decide

/-! ## The staged candidate snapshot -/

theorem RunActions_ok_finalize {env : Env} {handlers : List ActionHandler} {ws : WorkingSet}
    {ctx : Option RunActionsCtx} {blockHeight : Nat} {actions : List Action}
    (hok : (ws.RunActions env handlers ctx blockHeight actions).err = none) :
    ∃ (ws' : WorkingSet) (gl : Nat) (receipts : Map Receipt),
      ws.RunActions env handlers ctx blockHeight actions =
        finalize env blockHeight ws' gl receipts := by
  unfold WorkingSet.RunActions at hok ⊢
  dsimp only at hok ⊢
  split at hok
  · simp [RunResult.fail] at hok
  · exact runActionsFrom_ok hok

/-- Claim C11: the candidate snapshot is deterministic. For every map of cached
candidates, the list `RunActions` sorts for the snapshot is a permutation of
the values of the map (a `range` over a map visiting each key once) and is
sorted by votes descending, ties broken by address ascending; and when
`RunActions` succeeds at height `H`, the value it stages at
`(Candidate, u64-BE(H))` is the serialisation of such a list for the
`cachedCandidates` it ends with. -/
theorem candidate_snapshot_sorted (env : Env) (hperm : ∀ l, (env.rangeOrder l).Perm l) :
    (∀ (m : Map Candidate) (l : CandidateList), MapToCandidates env m = .ok l →
      (sortCandidates l).Perm (mapValues m) ∧
      (sortCandidates l).Sorted Candidate.before) ∧
    (∀ (handlers : List ActionHandler) (ws : WorkingSet) (ctx : Option RunActionsCtx)
      (blockHeight : Nat) (actions : List Action),
      (ws.RunActions env handlers ctx blockHeight actions).err = none →
      ∃ (snapshot : CandidateList) (bytes : Bytes),
        env.SerializeCandidates snapshot = some bytes ∧
        (ws.RunActions env handlers ctx blockHeight actions).ws.cb.Get CandidateKVNameSpace
          (Uint64ToBytes blockHeight) = .ok bytes ∧
        snapshot.Perm
          (mapValues (ws.RunActions env handlers ctx blockHeight actions).ws.cachedCandidates) ∧
        snapshot.Sorted Candidate.before) := by
  have hmap : ∀ (m : Map Candidate) (l : CandidateList), MapToCandidates env m = .ok l →
      (sortCandidates l).Perm (mapValues m) ∧
      (sortCandidates l).Sorted Candidate.before := by
    intro m l hl
    unfold MapToCandidates at hl
    simp only [Except.ok.injEq] at hl
    subst hl
    exact ⟨(sortCandidates_spec _).1.trans (rangeEntries_perm env hperm m),
      (sortCandidates_spec _).2⟩
  refine ⟨hmap, ?_⟩
  intro handlers ws ctx blockHeight actions hok
  obtain ⟨ws', gl, receipts, hrun⟩ := RunActions_ok_finalize hok
  rw [hrun] at hok ⊢
  obtain ⟨candidates, bytes, h1, h2, h3, _, _, _⟩ := finalize_ok hok
  rw [h3]
  refine ⟨sortCandidates candidates, bytes, h2, ?_, (hmap _ _ h1).1, (hmap _ _ h1).2⟩
  simp only
  have hns : AccountKVNameSpace ≠ CandidateKVNameSpace := by decide
  rw [CachedBatch.batchGet_Put, if_neg (fun h => hns h.1), CachedBatch.batchGet_Put]
  simp

/-- Witness of C11: alice nominates herself in block 7; the snapshot staged at
`(Candidate, u64-BE(7))` holds her entry alone. -/
theorem candidate_snapshot_sorted_witness :
    ∃ (snapshot : CandidateList) (bytes : Bytes),
      demoEnv.SerializeCandidates snapshot = some bytes ∧
      ((demoWs (demoCache 500)).RunActions demoEnv [] (some demoCtx) 7
        [Action.vote demoSelfVote]).ws.cb.Get CandidateKVNameSpace (Uint64ToBytes 7) =
          .ok bytes ∧
      snapshot.Perm
        (mapValues ((demoWs (demoCache 500)).RunActions demoEnv [] (some demoCtx) 7
          [Action.vote demoSelfVote]).ws.cachedCandidates) ∧
      snapshot.Sorted Candidate.before :=
  (candidate_snapshot_sorted demoEnv (fun l => List.Perm.refl l)).2 [] (demoWs (demoCache 500))
    (some demoCtx) 7 [Action.vote demoSelfVote] (by decide)

/-- The body of the loop of `handleVote` after gas charging is the sequence of
its three steps. -/
theorem voteApply_steps (env : Env) (blockHeight : Nat) (v : Vote) (voteFrom voterPKHash : PKHash)
    (ws : WorkingSet) (gl : Nat) :
    voteApply env blockHeight v voteFrom voterPKHash ws gl =
      match (voteOldVotee env v voteFrom (voteNonce v voteFrom ws) gl).err with
      | some _ => voteOldVotee env v voteFrom (voteNonce v voteFrom ws) gl
      | none => voteNewVotee env blockHeight v voteFrom voterPKHash
          (voteOldVotee env v voteFrom (voteNonce v voteFrom ws) gl).ws gl := rfl

theorem account_of_view {env : Env} {ws : WorkingSet} {h : PKHash} {a : Account}
    (hc : ws.cachedAccount h) (hv : ws.view env h = .ok a) : ws.account h = a := by
  rw [view_of_cachedAccount env hc] at hv
  simp only [Except.ok.injEq] at hv
  exact hv

theorem cachedAccount_ensure_of {ws : WorkingSet} {k : PKHash} (hk : ws.cachedAccount k)
    (h : PKHash) (a : Account) : (ws.ensure h a).cachedAccount k := by
  unfold WorkingSet.ensure
  split
  · exact hk
  · exact cachedAccount_setAccount hk h a

theorem voteNonce_view {env : Env} {v : Vote} {ws : WorkingSet} {hx : PKHash} {xa : Account}
    (hc : ws.cachedAccount hx) (hxa : ws.view env hx = .ok xa) :
    (voteNonce v hx ws).cachedAccount hx ∧
    (voteNonce v hx ws).cachedCandidates = ws.cachedCandidates ∧
    ∀ k, (voteNonce v hx ws).view env k =
      if k = hx then .ok { xa with nonce := max xa.nonce v.nonce } else ws.view env k := by
  unfold voteNonce
  rw [account_of_view hc hxa]
  split_ifs with hn
  · refine ⟨cachedAccount_setAccount_self _ _ _, rfl, fun k => ?_⟩
    rw [view_setAccount, max_eq_right (le_of_lt hn)]
  · refine ⟨hc, rfl, fun k => ?_⟩
    rw [max_eq_left (not_lt.mp hn)]
    split_ifs with hk
    · rw [hk, hxa]
    · rfl

theorem voteOldVotee_skip {env : Env} {v : Vote} {ws : WorkingSet} {hx : PKHash}
    {xa : Account} (gl : Nat) (hc : ws.cachedAccount hx) (hxa : ws.view env hx = .ok xa)
    (hv : xa.votee = "" ∨ xa.votee = v.voter) :
    voteOldVotee env v hx ws gl = ⟨ws, gl, none⟩ := by
  unfold voteOldVotee
  rw [account_of_view hc hxa, if_neg]
  rintro ⟨h1, h2⟩
  rcases hv with h | h
  · exact h1 h
  · exact h2 h

theorem voteOldVotee_view {env : Env} {v : Vote} {ws : WorkingSet} {hx ho : PKHash}
    {xa oa : Account} (gl : Nat) (hc : ws.cachedAccount hx) (hxa : ws.view env hx = .ok xa)
    (h1 : xa.votee ≠ "") (h2 : xa.votee ≠ v.voter)
    (hdo : env.AddressToPKHash xa.votee = some ho) (hoa : ws.view env ho = .ok oa) :
    (voteOldVotee env v hx ws gl).err = none ∧
    (voteOldVotee env v hx ws gl).ws.cachedAccount hx ∧
    (voteOldVotee env v hx ws gl).ws.cachedCandidates = ws.cachedCandidates ∧
    ∀ k, (voteOldVotee env v hx ws gl).ws.view env k =
      if k = hx then
        .ok { xa with votee := "",
                      votingWeight := xa.votingWeight - (if ho = hx then xa.balance else 0) }
      else if k = ho then .ok { oa with votingWeight := oa.votingWeight - xa.balance }
      else ws.view env k := by
  unfold voteOldVotee
  rw [account_of_view hc hxa, if_pos ⟨h1, h2⟩, LoadOrCreate_ok hdo hoa]
  have hcx : (ws.ensure ho oa).cachedAccount hx := cachedAccount_ensure_of hc ho oa
  have hax : (ws.ensure ho oa).account hx = xa :=
    account_of_view hcx (by rw [view_ensure hoa]; exact hxa)
  have hce : (ws.ensure ho oa).cachedCandidates = ws.cachedCandidates := by
    unfold WorkingSet.ensure; split <;> rfl
  simp only [account_ensure_self hoa, hax, account_setAccount]
  refine ⟨trivial, cachedAccount_setAccount_self _ _ _, hce, fun k => ?_⟩
  simp only [view_setAccount, view_ensure hoa]
  by_cases e : hx = ho
  · subst e
    have : oa = xa := by rw [hxa] at hoa; cases hoa; rfl
    subst this
    simp only [if_true]
  · have e' : ¬ ho = hx := fun h => e h.symm
    simp only [e, e', if_false]
    split_ifs <;> first | rfl | simp

theorem voteNewVotee_unvote {env : Env} {v : Vote} {ws : WorkingSet} {hx : PKHash}
    {xa : Account} (blockHeight gl : Nat) (hk : PKHash) (hc : ws.cachedAccount hx)
    (hxa : ws.view env hx = .ok xa) (hv : v.votee = "") :
    (voteNewVotee env blockHeight v hx hk ws gl).err = none ∧
    (voteNewVotee env blockHeight v hx hk ws gl).ws.cachedCandidates = ws.cachedCandidates ∧
    ∀ k, (voteNewVotee env blockHeight v hx hk ws gl).ws.view env k =
      if k = hx then .ok { xa with isCandidate := false } else ws.view env k := by
  unfold voteNewVotee
  rw [if_pos hv, account_of_view hc hxa]
  exact ⟨rfl, rfl, fun k => view_setAccount env ws hx k _⟩

theorem voteNewVotee_other {env : Env} {v : Vote} {ws : WorkingSet} {hx ht : PKHash}
    {xa ta : Account} (blockHeight gl : Nat) (hk : PKHash) (hc : ws.cachedAccount hx)
    (hxa : ws.view env hx = .ok xa) (hne : v.votee ≠ "") (hvt : v.voter ≠ v.votee)
    (hdt : env.AddressToPKHash v.votee = some ht) (hta : ws.view env ht = .ok ta) :
    (voteNewVotee env blockHeight v hx hk ws gl).err = none ∧
    (voteNewVotee env blockHeight v hx hk ws gl).ws.cachedCandidates = ws.cachedCandidates ∧
    ∀ k, (voteNewVotee env blockHeight v hx hk ws gl).ws.view env k =
      if k = hx then
        .ok { xa with votee := v.votee,
                      votingWeight := xa.votingWeight + (if ht = hx then xa.balance else 0) }
      else if k = ht then .ok { ta with votingWeight := ta.votingWeight + xa.balance }
      else ws.view env k := by
  unfold voteNewVotee
  rw [if_neg hne, LoadOrCreate_ok hdt hta]
  have hcx : (ws.ensure ht ta).cachedAccount hx := cachedAccount_ensure_of hc ht ta
  have hax : (ws.ensure ht ta).account hx = xa :=
    account_of_view hcx (by rw [view_ensure hta]; exact hxa)
  have hce : (ws.ensure ht ta).cachedCandidates = ws.cachedCandidates := by
    unfold WorkingSet.ensure; split <;> rfl
  simp only [hvt, ne_eq, not_false_eq_true, if_true, account_ensure_self hta, hax,
    account_setAccount]
  refine ⟨trivial, hce, fun k => ?_⟩
  simp only [view_setAccount, view_ensure hta]
  by_cases e : hx = ht
  · subst e
    have : ta = xa := by rw [hxa] at hta; cases hta; rfl
    subst this
    simp only [if_true]
  · have e' : ¬ ht = hx := fun h => e h.symm
    simp only [e, e', if_false]
    split_ifs <;> first | rfl | simp

theorem voteApply_revote {env : Env} {v : Vote} {ws : WorkingSet} {hx ht ho : PKHash}
    {xa ta oa : Account} (blockHeight gl : Nat) (hc : ws.cachedAccount hx)
    (hxa : ws.view env hx = .ok xa) (hne : v.votee ≠ "") (hvt : v.voter ≠ v.votee)
    (hdt : env.AddressToPKHash v.votee = some ht) (hta : ws.view env ht = .ok ta)
    (h1 : xa.votee ≠ "") (h2 : xa.votee ≠ v.voter)
    (hdo : env.AddressToPKHash xa.votee = some ho) (hoa : ws.view env ho = .ok oa) :
    (voteApply env blockHeight v hx hx ws gl).err = none ∧
    (voteApply env blockHeight v hx hx ws gl).ws.cachedCandidates = ws.cachedCandidates ∧
    ∀ k, (voteApply env blockHeight v hx hx ws gl).ws.view env k =
      if k = hx then
        .ok { xa with nonce := max xa.nonce v.nonce, votee := v.votee,
                      votingWeight := xa.votingWeight - (if ho = hx then xa.balance else 0) +
                        (if ht = hx then xa.balance else 0) }
      else if k = ht then
        .ok { ta with votingWeight := ta.votingWeight -
                (if ho = ht then xa.balance else 0) + xa.balance }
      else if k = ho then .ok { oa with votingWeight := oa.votingWeight - xa.balance }
      else ws.view env k := by
  obtain ⟨c2, d2, v2⟩ := @voteNonce_view env v ws hx xa hc hxa
  have hx2 := v2 hx
  rw [if_pos rfl] at hx2
  have ho2 : (voteNonce v hx ws).view env ho =
      .ok (if ho = hx then { xa with nonce := max xa.nonce v.nonce } else oa) := by
    rw [v2 ho]; split_ifs <;> first | rfl | exact hoa
  obtain ⟨e3, c3, d3, v3⟩ := voteOldVotee_view gl c2 hx2 h1 h2 hdo ho2
  have hx3 := v3 hx
  rw [if_pos rfl] at hx3
  have ht3 : ∃ t3, (voteOldVotee env v hx (voteNonce v hx ws) gl).ws.view env ht = .ok t3 ∧
      t3 = (if ht = hx then
          { xa with nonce := max xa.nonce v.nonce, votee := "",
                    votingWeight := xa.votingWeight - (if ho = hx then xa.balance else 0) }
        else if ht = ho then
          { (if ho = hx then { xa with nonce := max xa.nonce v.nonce } else oa) with
            votingWeight := (if ho = hx then { xa with nonce := max xa.nonce v.nonce }
              else oa).votingWeight - xa.balance }
        else ta) := by
    refine ⟨_, ?_, rfl⟩
    rw [v3 ht, v2 ht]
    split_ifs <;> first | rfl | exact hta
  obtain ⟨t3, ht3, ht3e⟩ := ht3
  obtain ⟨e4, d4, v4⟩ := voteNewVotee_other blockHeight gl hx c3 hx3 hne hvt hdt ht3
  rw [voteApply_steps, e3]
  simp only
  refine ⟨e4, by rw [d4, d3, d2], fun k => ?_⟩
  rw [v4 k, v3 k, v2 k, ht3e]
  by_cases k1 : k = hx
  · subst k1
    simp only [if_true]
  · simp only [k1, if_false]
    by_cases k2 : k = ht
    · subst k2
      simp only [if_true, k1, if_false]
      by_cases k3 : k = ho
      · subst k3
        simp only [if_true, k1, if_false]
        have : oa = ta := by rw [hta] at hoa; cases hoa; rfl
        subst this
        rfl
      · have k3' : ¬ ho = k := fun h => k3 h.symm
        simp only [k3, k3', if_false]
        congr 2
        omega
    · simp only [k2, if_false]
      by_cases k3 : k = ho
      · subst k3
        simp only [if_true, k1, if_false]
      · simp only [k3, if_false]

theorem voteApply_first {env : Env} {v : Vote} {ws : WorkingSet} {hx ht : PKHash}
    {xa ta : Account} (blockHeight gl : Nat) (hc : ws.cachedAccount hx)
    (hxa : ws.view env hx = .ok xa) (hne : v.votee ≠ "") (hvt : v.voter ≠ v.votee)
    (hdt : env.AddressToPKHash v.votee = some ht) (hta : ws.view env ht = .ok ta)
    (hv : xa.votee = "" ∨ xa.votee = v.voter) :
    (voteApply env blockHeight v hx hx ws gl).err = none ∧
    (voteApply env blockHeight v hx hx ws gl).ws.cachedCandidates = ws.cachedCandidates ∧
    ∀ k, (voteApply env blockHeight v hx hx ws gl).ws.view env k =
      if k = hx then
        .ok { xa with nonce := max xa.nonce v.nonce, votee := v.votee,
                      votingWeight := xa.votingWeight + (if ht = hx then xa.balance else 0) }
      else if k = ht then .ok { ta with votingWeight := ta.votingWeight + xa.balance }
      else ws.view env k := by
  obtain ⟨c2, d2, v2⟩ := @voteNonce_view env v ws hx xa hc hxa
  have hx2 := v2 hx
  rw [if_pos rfl] at hx2
  have e3 := voteOldVotee_skip gl c2 hx2 hv
  have ht2 : ∃ t2, (voteNonce v hx ws).view env ht = .ok t2 ∧
      t2 = (if ht = hx then { xa with nonce := max xa.nonce v.nonce } else ta) := by
    refine ⟨_, ?_, rfl⟩
    rw [v2 ht]
    split_ifs <;> first | rfl | exact hta
  obtain ⟨t2, ht2, ht2e⟩ := ht2
  obtain ⟨e4, d4, v4⟩ := voteNewVotee_other blockHeight gl hx c2 hx2 hne hvt hdt ht2
  rw [voteApply_steps, e3]
  simp only
  refine ⟨e4, by rw [d4, d2], fun k => ?_⟩
  rw [v4 k, v2 k, ht2e]
  by_cases k1 : k = hx
  · subst k1
    simp only [if_true]
  · simp only [k1, if_false]
    by_cases k2 : k = ht
    · subst k2
      simp only [if_true, k1, if_false]
    · simp only [k2, if_false]

theorem voteApply_unvote {env : Env} {v : Vote} {ws : WorkingSet} {hx : PKHash}
    {xa : Account} (blockHeight gl : Nat) (hc : ws.cachedAccount hx)
    (hxa : ws.view env hx = .ok xa) (hun : v.votee = "") :
    (xa.votee ≠ "" → xa.votee ≠ v.voter → ∀ (ho : PKHash) (oa : Account),
      env.AddressToPKHash xa.votee = some ho → ws.view env ho = .ok oa →
      (voteApply env blockHeight v hx hx ws gl).err = none ∧
      (voteApply env blockHeight v hx hx ws gl).ws.cachedCandidates = ws.cachedCandidates ∧
      ∀ k, (voteApply env blockHeight v hx hx ws gl).ws.view env k =
        if k = hx then
          .ok { xa with nonce := max xa.nonce v.nonce, votee := "", isCandidate := false,
                        votingWeight := xa.votingWeight - (if ho = hx then xa.balance else 0) }
        else if k = ho then .ok { oa with votingWeight := oa.votingWeight - xa.balance }
        else ws.view env k) ∧
    ((xa.votee = "" ∨ xa.votee = v.voter) →
      (voteApply env blockHeight v hx hx ws gl).err = none ∧
      (voteApply env blockHeight v hx hx ws gl).ws.cachedCandidates = ws.cachedCandidates ∧
      ∀ k, (voteApply env blockHeight v hx hx ws gl).ws.view env k =
        if k = hx then .ok { xa with nonce := max xa.nonce v.nonce, isCandidate := false }
        else ws.view env k) := by
  obtain ⟨c2, d2, v2⟩ := @voteNonce_view env v ws hx xa hc hxa
  have hx2 := v2 hx
  rw [if_pos rfl] at hx2
  refine ⟨?_, ?_⟩
  · intro h1 h2 ho oa hdo hoa
    have ho2 : (voteNonce v hx ws).view env ho =
        .ok (if ho = hx then { xa with nonce := max xa.nonce v.nonce } else oa) := by
      rw [v2 ho]; split_ifs <;> first | rfl | exact hoa
    obtain ⟨e3, c3, d3, v3⟩ := voteOldVotee_view gl c2 hx2 h1 h2 hdo ho2
    have hx3 := v3 hx
    rw [if_pos rfl] at hx3
    obtain ⟨e4, d4, v4⟩ := voteNewVotee_unvote blockHeight gl hx c3 hx3 hun
    rw [voteApply_steps, e3]
    simp only
    refine ⟨e4, by rw [d4, d3, d2], fun k => ?_⟩
    rw [v4 k, v3 k, v2 k]
    by_cases k1 : k = hx
    · subst k1
      simp only [if_true]
    · simp only [k1, if_false]
      by_cases k3 : k = ho
      · subst k3
        simp only [if_true, k1, if_false]
      · simp only [k3, if_false]
  · intro hv
    have e3 := voteOldVotee_skip gl c2 hx2 hv
    obtain ⟨e4, d4, v4⟩ := voteNewVotee_unvote blockHeight gl hx c2 hx2 hun
    rw [voteApply_steps, e3]
    simp only
    refine ⟨e4, by rw [d4, d2], fun k => ?_⟩
    rw [v4 k, v2 k]
    by_cases k1 : k = hx
    · subst k1
      simp only [if_true]
    · simp only [k1, if_false]

theorem handleVote_uncharged {env : Env} {v : Vote} {ws : WorkingSet} {hx : PKHash}
    {xa : Account} (producer : PKHash) (blockHeight gl : Nat)
    (hdx : env.AddressToPKHash v.voter = some hx) (hxa : ws.view env hx = .ok xa) :
    handleVote env producer blockHeight [v] ws gl false =
      voteApply env blockHeight v hx hx (ws.ensure hx xa) gl := by
  rw [handleVote_singleton]
  unfold voteStep
  rw [LoadOrCreate_ok hdx hxa]
  simp only [hdx, Bool.false_eq_true, if_false]

/-- Claim C19: re-voting moves the voter's whole balance between votees. A vote
of `X` (hash `hx`, account `xa`) handled alone without gas charging, all the
accounts involved loading: for a votee `T ≠ X`, when `X` had a prior votee `O`,
non-empty and other than `X`, the weight of `O` decreases by the balance of
`X`, the weight of `T` increases by it (net zero when `O = T`) and the votee of
`X` becomes `T`; when `X` had no prior votee or had voted for itself, only the
weight of `T` changes, by the balance of `X`. For an unvote (empty votee),
`isCandidate` of `X` becomes false, and a prior votee `O` other than `X` loses
the balance of `X`, the votee of `X` being cleared. In each case the nonce of
`X` is raised to the nonce of the vote if that is larger, the vote succeeds,
and every other account and the candidate pool are as before. -/
theorem handleVote_revote (env : Env) (ws : WorkingSet) (v : Vote) (producer hx : PKHash)
    (xa : Account) (blockHeight gl : Nat)
    (hdx : env.AddressToPKHash v.voter = some hx) (hxa : ws.view env hx = .ok xa) :
    (v.votee ≠ "" → v.voter ≠ v.votee → ∀ (ht : PKHash) (ta : Account),
      env.AddressToPKHash v.votee = some ht → ws.view env ht = .ok ta →
      (xa.votee ≠ "" → xa.votee ≠ v.voter → ∀ (ho : PKHash) (oa : Account),
        env.AddressToPKHash xa.votee = some ho → ws.view env ho = .ok oa →
        (handleVote env producer blockHeight [v] ws gl false).err = none ∧
        (handleVote env producer blockHeight [v] ws gl false).ws.cachedCandidates =
          ws.cachedCandidates ∧
        ∀ k, (handleVote env producer blockHeight [v] ws gl false).ws.view env k =
          if k = hx then
            .ok { xa with nonce := max xa.nonce v.nonce, votee := v.votee,
                          votingWeight := xa.votingWeight -
                            (if ho = hx then xa.balance else 0) +
                            (if ht = hx then xa.balance else 0) }
          else if k = ht then
            .ok { ta with votingWeight := ta.votingWeight -
                    (if ho = ht then xa.balance else 0) + xa.balance }
          else if k = ho then .ok { oa with votingWeight := oa.votingWeight - xa.balance }
          else ws.view env k) ∧
      ((xa.votee = "" ∨ xa.votee = v.voter) →
        (handleVote env producer blockHeight [v] ws gl false).err = none ∧
        (handleVote env producer blockHeight [v] ws gl false).ws.cachedCandidates =
          ws.cachedCandidates ∧
        ∀ k, (handleVote env producer blockHeight [v] ws gl false).ws.view env k =
          if k = hx then
            .ok { xa with nonce := max xa.nonce v.nonce, votee := v.votee,
                          votingWeight := xa.votingWeight +
                            (if ht = hx then xa.balance else 0) }
          else if k = ht then .ok { ta with votingWeight := ta.votingWeight + xa.balance }
          else ws.view env k)) ∧
    (v.votee = "" →
      (xa.votee ≠ "" → xa.votee ≠ v.voter → ∀ (ho : PKHash) (oa : Account),
        env.AddressToPKHash xa.votee = some ho → ws.view env ho = .ok oa →
        (handleVote env producer blockHeight [v] ws gl false).err = none ∧
        (handleVote env producer blockHeight [v] ws gl false).ws.cachedCandidates =
          ws.cachedCandidates ∧
        ∀ k, (handleVote env producer blockHeight [v] ws gl false).ws.view env k =
          if k = hx then
            .ok { xa with nonce := max xa.nonce v.nonce, votee := "", isCandidate := false,
                          votingWeight := xa.votingWeight -
                            (if ho = hx then xa.balance else 0) }
          else if k = ho then .ok { oa with votingWeight := oa.votingWeight - xa.balance }
          else ws.view env k) ∧
      ((xa.votee = "" ∨ xa.votee = v.voter) →
        (handleVote env producer blockHeight [v] ws gl false).err = none ∧
        (handleVote env producer blockHeight [v] ws gl false).ws.cachedCandidates =
          ws.cachedCandidates ∧
        ∀ k, (handleVote env producer blockHeight [v] ws gl false).ws.view env k =
          if k = hx then .ok { xa with nonce := max xa.nonce v.nonce, isCandidate := false }
          else ws.view env k)) := by
  have hc := @cachedAccount_ensure env ws hx xa hxa
  have hve : ∀ k, (ws.ensure hx xa).view env k = ws.view env k := view_ensure hxa
  have hxa' : (ws.ensure hx xa).view env hx = .ok xa := by rw [hve]; exact hxa
  have hce : (ws.ensure hx xa).cachedCandidates = ws.cachedCandidates := by
    unfold WorkingSet.ensure; split <;> rfl
  rw [handleVote_uncharged producer blockHeight gl hdx hxa]
  refine ⟨?_, ?_⟩
  · intro hne hvt ht ta hdt hta
    have hta' : (ws.ensure hx xa).view env ht = .ok ta := by rw [hve]; exact hta
    refine ⟨?_, ?_⟩
    · intro h1 h2 ho oa hdo hoa
      have hoa' : (ws.ensure hx xa).view env ho = .ok oa := by rw [hve]; exact hoa
      obtain ⟨r1, r2, r3⟩ := voteApply_revote blockHeight gl hc hxa' hne hvt hdt hta' h1 h2
        hdo hoa'
      refine ⟨r1, by rw [r2, hce], fun k => ?_⟩
      rw [r3 k, hve]
    · intro hv
      obtain ⟨r1, r2, r3⟩ := voteApply_first blockHeight gl hc hxa' hne hvt hdt hta' hv
      refine ⟨r1, by rw [r2, hce], fun k => ?_⟩
      rw [r3 k, hve]
  · intro hun
    obtain ⟨p1, p2⟩ := @voteApply_unvote env v (ws.ensure hx xa) hx xa blockHeight gl hc hxa' hun
    refine ⟨?_, ?_⟩
    · intro h1 h2 ho oa hdo hoa
      have hoa' : (ws.ensure hx xa).view env ho = .ok oa := by rw [hve]; exact hoa
      obtain ⟨r1, r2, r3⟩ := p1 h1 h2 ho oa hdo hoa'
      refine ⟨r1, by rw [r2, hce], fun k => ?_⟩
      rw [r3 k, hve]
    · intro hv
      obtain ⟨r1, r2, r3⟩ := p2 hv
      refine ⟨r1, by rw [r2, hce], fun k => ?_⟩
      rw [r3 k, hve]

/-- Witness of C19: alice holds 500 and has voted for bob, whose weight is 500;
she votes for carol. The vote succeeds, bob's weight falls to 0, carol's rises
to 500 and alice's votee is carol. -/
theorem handleVote_revote_witness :
    (handleVote demoEnv [3] 7 [demoVote "io1carol"] (demoWs demoRevoteCache) 100 false).err =
      none ∧
    (handleVote demoEnv [3] 7 [demoVote "io1carol"] (demoWs demoRevoteCache) 100 false).ws.view
      demoEnv [2] = .ok (acct 0) ∧
    (handleVote demoEnv [3] 7 [demoVote "io1carol"] (demoWs demoRevoteCache) 100 false).ws.view
      demoEnv [4] = .ok { Account.zero with votingWeight := 500 } ∧
    (handleVote demoEnv [3] 7 [demoVote "io1carol"] (demoWs demoRevoteCache) 100 false).ws.view
      demoEnv [1] = .ok { acct 500 with nonce := 1, votee := "io1carol" } :=
  ⟨(((handleVote_revote demoEnv (demoWs demoRevoteCache) (demoVote "io1carol") [3] [1]
      { acct 500 with votee := "io1bob" } 7 100 rfl rfl).1 (by decide) (by decide) [4]
      Account.zero rfl rfl).1 (by decide) (by decide) [2]
      { acct 0 with votingWeight := 500 } rfl rfl).1,
   (((handleVote_revote demoEnv (demoWs demoRevoteCache) (demoVote "io1carol") [3] [1]
      { acct 500 with votee := "io1bob" } 7 100 rfl rfl).1 (by decide) (by decide) [4]
      Account.zero rfl rfl).1 (by decide) (by decide) [2]
      { acct 0 with votingWeight := 500 } rfl rfl).2.2 [2],
   (((handleVote_revote demoEnv (demoWs demoRevoteCache) (demoVote "io1carol") [3] [1]
      { acct 500 with votee := "io1bob" } 7 100 rfl rfl).1 (by decide) (by decide) [4]
      Account.zero rfl rfl).1 (by decide) (by decide) [2]
      { acct 0 with votingWeight := 500 } rfl rfl).2.2 [4],
   (((handleVote_revote demoEnv (demoWs demoRevoteCache) (demoVote "io1carol") [3] [1]
      { acct 500 with votee := "io1bob" } 7 100 rfl rfl).1 (by decide) (by decide) [4]
      Account.zero rfl rfl).1 (by decide) (by decide) [2]
      { acct 0 with votingWeight := 500 } rfl rfl).2.2 [1]⟩

/-! ## The update of the candidate pool in the flush -/

theorem flushState_pool {env : Env} {blockHeight : Nat} {ws : WorkingSet} {addr : PKHash}
    {state : Iotex.State} (hok : (flushState env blockHeight ws addr state).2 = none) :
    ∃ a, state = Iotex.State.account a ∧
      (∀ k, k ≠ addr → (flushState env blockHeight ws addr state).1.cachedCandidates.lookup k =
        ws.cachedCandidates.lookup k) ∧
      (a.isCandidate = false →
        (flushState env blockHeight ws addr state).1.cachedCandidates.lookup addr = none) ∧
      (a.isCandidate = true → ∃ hv c, env.AddressToPKHash a.votee = some hv ∧
        ws.cachedCandidates.lookup addr = some c ∧
        (flushState env blockHeight ws addr state).1.cachedCandidates.lookup addr =
          some { c with votes := if addr = hv then a.votingWeight + a.balance
                                 else a.votingWeight,
                        lastUpdateHeight := blockHeight }) := by
  unfold flushState at hok ⊢
  cases hp : ws.PutState env addr state with
  | error x => rw [hp] at hok; cases hok
  | ok ws1 =>
    rw [hp] at hok
    simp only at hok ⊢
    obtain ⟨_, hc1⟩ := PutState_caches hp
    cases state with
    | other t => simp [stateToAccountState] at hok
    | account a =>
      refine ⟨a, rfl, ?_⟩
      simp only [stateToAccountState] at hok ⊢
      cases hcand : a.isCandidate with
      | false =>
        simp only [Bool.not_false, if_true]
        refine ⟨fun k hk => ?_, fun _ => ?_, fun h => by cases h⟩
        · rw [AList.lookup_erase_ne hk, hc1]
        · exact AList.lookup_erase addr _
      | true =>
        rw [hcand] at hok
        simp only [Bool.not_true, Bool.false_eq_true, if_false] at hok ⊢
        cases hd : env.AddressToPKHash a.votee with
        | none => rw [hd] at hok; cases hok
        | some hv =>
          rw [hd] at hok
          simp only at hok ⊢
          unfold WorkingSet.updateCandidate at hok ⊢
          cases hlc : ws1.cachedCandidates.lookup addr with
          | none => rw [hlc] at hok; cases hok
          | some c =>
            simp only
            refine ⟨fun k hk => ?_, fun h => (by cases h), fun _ => ⟨hv, c, rfl, ?_, ?_⟩⟩
            · rw [AList.lookup_insert_ne hk, hc1]
            · rw [← hc1]; exact hlc
            · rw [AList.lookup_insert]
              split_ifs <;> simp

theorem flushState_cachedStates {env : Env} {blockHeight : Nat} {ws : WorkingSet}
    {addr : PKHash} {state : Iotex.State} :
    (flushState env blockHeight ws addr state).1.cachedStates = ws.cachedStates := by
  unfold flushState
  cases hp : ws.PutState env addr state with
  | error x => rfl
  | ok ws1 =>
    simp only
    obtain ⟨hs1, _⟩ := PutState_caches hp
    cases state with
    | other t => exact hs1
    | account a =>
      simp only [stateToAccountState]
      split_ifs
      · exact hs1
      · split
        · exact hs1
        · unfold WorkingSet.updateCandidate
          cases ws1.cachedCandidates.lookup addr with
          | none => exact hs1
          | some c => exact hs1

theorem flushStates_pool (env : Env) (blockHeight : Nat)
    (entries : List (PKHash × Iotex.State)) :
    ∀ ws : WorkingSet, (∀ p ∈ entries, ws.cachedStates.lookup p.1 = some p.2) →
      (flushStates env blockHeight entries ws).2 = none →
      (∀ k, k ∉ entries.map Prod.fst →
        (flushStates env blockHeight entries ws).1.cachedCandidates.lookup k =
          ws.cachedCandidates.lookup k) ∧
      (∀ p ∈ entries, ∃ a, p.2 = Iotex.State.account a ∧
        (a.isCandidate = false →
          (flushStates env blockHeight entries ws).1.cachedCandidates.lookup p.1 = none) ∧
        (a.isCandidate = true → ∃ hv c, env.AddressToPKHash a.votee = some hv ∧
          ws.cachedCandidates.lookup p.1 = some c ∧
          (flushStates env blockHeight entries ws).1.cachedCandidates.lookup p.1 =
            some { c with votes := if p.1 = hv then a.votingWeight + a.balance
                                   else a.votingWeight,
                          lastUpdateHeight := blockHeight })) := by
  induction entries with
  | nil =>
    intro ws _ _
    exact ⟨fun _ _ => rfl, fun p hp => by cases hp⟩
  | cons q rest ih =>
    intro ws hent hok
    obtain ⟨addr, state⟩ := q
    rw [flushStates] at hok ⊢
    have hcs := @flushState_cachedStates env blockHeight ws addr state
    have hstep := @flushState_pool env blockHeight ws addr state
    cases hf : flushState env blockHeight ws addr state with
    | mk ws1 err =>
      rw [hf] at hok hcs hstep
      cases err with
      | some x => simp only at hok; cases hok
      | none =>
        simp only at hok hcs hstep ⊢
        obtain ⟨a, ha, s1, s2, s3⟩ := hstep trivial
        have hent1 : ∀ p ∈ rest, ws1.cachedStates.lookup p.1 = some p.2 := by
          intro p hp
          rw [hcs]
          exact hent p (List.mem_cons_of_mem _ hp)
        obtain ⟨g1, g2⟩ := ih ws1 hent1 hok
        have hla : ws.cachedStates.lookup addr = some (Iotex.State.account a) := by
          rw [← ha]; exact hent (addr, state) (List.mem_cons_self _ _)
        -- the entry of an address `k` visited with account `b`
        have key : ∀ (k : PKHash) (b : Account),
            ws.cachedStates.lookup k = some (Iotex.State.account b) →
            (k = addr ∨ k ∈ rest.map Prod.fst) →
            (b.isCandidate = false →
              (flushStates env blockHeight rest ws1).1.cachedCandidates.lookup k = none) ∧
            (b.isCandidate = true → ∃ hv c, env.AddressToPKHash b.votee = some hv ∧
              ws.cachedCandidates.lookup k = some c ∧
              (flushStates env blockHeight rest ws1).1.cachedCandidates.lookup k =
                some { c with votes := if k = hv then b.votingWeight + b.balance
                                       else b.votingWeight,
                              lastUpdateHeight := blockHeight }) := by
          intro k b hlb hk
          by_cases hkr : k ∈ rest.map Prod.fst
          · obtain ⟨p, hp, hpk⟩ := List.mem_map.mp hkr
            obtain ⟨b', hb', r1, r2⟩ := g2 p hp
            have hpb : b' = b := by
              have := hent p (List.mem_cons_of_mem _ hp)
              rw [hpk, hlb, hb'] at this
              simp only [Option.some.injEq, State.account.injEq] at this
              exact this.symm
            subst hpb
            rw [hpk] at r1 r2
            refine ⟨r1, fun hc => ?_⟩
            obtain ⟨hv, c1, h1, h2, h3⟩ := r2 hc
            by_cases hka : k = addr
            · subst hka
              have hba : b' = a := by
                rw [hla] at hlb
                simp only [Option.some.injEq, State.account.injEq] at hlb
                exact hlb.symm
              subst hba
              obtain ⟨hv', c, h1', h2', h3'⟩ := s3 hc
              rw [h1] at h1'
              simp only [Option.some.injEq] at h1'
              subst h1'
              rw [h3'] at h2
              simp only [Option.some.injEq] at h2
              refine ⟨hv, c, h1, h2', ?_⟩
              rw [h3, ← h2]
            · rw [s1 k hka] at h2
              exact ⟨hv, c1, h1, h2, h3⟩
          · have hka : k = addr := by
              rcases hk with h | h
              · exact h
              · exact absurd h hkr
            subst hka
            have hba : b = a := by
              rw [hla] at hlb
              simp only [Option.some.injEq, State.account.injEq] at hlb
              exact hlb.symm
            subst hba
            rw [g1 k hkr]
            exact ⟨s2, s3⟩
        refine ⟨?_, ?_⟩
        · intro k hk
          simp only [List.map_cons, List.mem_cons, not_or] at hk
          rw [g1 k hk.2, s1 k hk.1]
        · intro p hp
          rcases List.mem_cons.mp hp with h | h
          · subst h
            exact ⟨a, ha, key addr a hla (Or.inl rfl)⟩
          · obtain ⟨b, hb, _, _⟩ := g2 p h
            have hlb : ws.cachedStates.lookup p.1 = some (Iotex.State.account b) := by
              rw [← hb]; exact hent p (List.mem_cons_of_mem _ h)
            exact ⟨b, hb, key p.1 b hlb (Or.inr (List.mem_map.mpr ⟨p, h, rfl⟩))⟩

/-- Claim C20: the update of the candidate pool by the flush of the cached
states in `RunActions` at height `H` (a `range` over a map visiting each of its
keys). When the flush succeeds, every address of `cachedStates` holds an
account; if the account is not `isCandidate`, the address is not a key of
`cachedCandidates` afterwards; if it is, its entry has `votes` equal to
`votingWeight + balance` when the votee of the account decodes to the address
itself and to `votingWeight` otherwise, `lastUpdateHeight = H`, and its
address, public key and creation height unchanged. The entries of the
addresses that are not in `cachedStates` are unchanged. -/
theorem flush_updates_pool (env : Env) (hperm : ∀ l, (env.rangeOrder l).Perm l)
    (ws : WorkingSet) (blockHeight : Nat)
    (hok : (flushStates env blockHeight (rangeEntries env ws.cachedStates) ws).2 = none) :
    (∀ k s, ws.cachedStates.lookup k = some s → ∃ a, s = Iotex.State.account a ∧
      (a.isCandidate = false →
        k ∉ (flushStates env blockHeight (rangeEntries env ws.cachedStates)
          ws).1.cachedCandidates) ∧
      (a.isCandidate = true → ∃ hv c, env.AddressToPKHash a.votee = some hv ∧
        ws.cachedCandidates.lookup k = some c ∧
        (flushStates env blockHeight (rangeEntries env ws.cachedStates)
          ws).1.cachedCandidates.lookup k =
          some { c with votes := if k = hv then a.votingWeight + a.balance
                                 else a.votingWeight,
                        lastUpdateHeight := blockHeight })) ∧
    (∀ k, ws.cachedStates.lookup k = none →
      (flushStates env blockHeight (rangeEntries env ws.cachedStates)
        ws).1.cachedCandidates.lookup k = ws.cachedCandidates.lookup k) := by
  obtain ⟨g1, g2⟩ := flushStates_pool env blockHeight (rangeEntries env ws.cachedStates) ws
    (fun p hp => (mem_rangeEntries env hperm ws.cachedStates p.1 p.2).mp hp) hok
  refine ⟨?_, ?_⟩
  · intro k s hl
    obtain ⟨a, ha, r1, r2⟩ := g2 (k, s) ((mem_rangeEntries env hperm ws.cachedStates k s).mpr hl)
    refine ⟨a, ha, fun hc => ?_, r2⟩
    rw [← AList.lookup_isSome, r1 hc]
    simp
  · intro k hl
    apply g1
    intro hk
    obtain ⟨p, hp, hpk⟩ := List.mem_map.mp hk
    have := (mem_rangeEntries env hperm ws.cachedStates p.1 p.2).mp hp
    rw [hpk, hl] at this
    cases this

/-- Witness of C20: alice, holding 500 and without delegators, has nominated
herself in block 7; after the flush her entry has 500 votes and was last
updated at height 7, and her address, key and creation height are kept. -/
theorem flush_updates_pool_witness :
    (∃ a, Iotex.State.account
        { acct 500 with nonce := 1, votee := "io1alice", isCandidate := true } =
          Iotex.State.account a ∧
      (a.isCandidate = false → [1] ∉ demoFlushed.1.cachedCandidates) ∧
      (a.isCandidate = true → ∃ hv c, demoEnv.AddressToPKHash a.votee = some hv ∧
        (handleVote demoEnv [3] 7 [demoSelfVote]
          (handleTsf demoEnv [3] [] demoBlockStart 100 false).ws
          (handleTsf demoEnv [3] [] demoBlockStart 100 false).gasLimit
          false).ws.cachedCandidates.lookup [1] = some c ∧
        demoFlushed.1.cachedCandidates.lookup [1] =
          some { c with votes := if ([1] : PKHash) = hv then a.votingWeight + a.balance
                                 else a.votingWeight,
                        lastUpdateHeight := 7 })) ∧
    demoFlushed.1.cachedCandidates.lookup [1] =
      some { address := "io1alice", publicKey := [9], votes := 500, creationHeight := 7,
             lastUpdateHeight := 7 } :=
  ⟨(flush_updates_pool demoEnv (fun l => List.Perm.refl l)
      (handleVote demoEnv [3] 7 [demoSelfVote]
        (handleTsf demoEnv [3] [] demoBlockStart 100 false).ws
        (handleTsf demoEnv [3] [] demoBlockStart 100 false).gasLimit false).ws 7
      (by decide)).1 [1]
      (Iotex.State.account
        { acct 500 with nonce := 1, votee := "io1alice", isCandidate := true })
      (by decide),
   by decide⟩

/-- Witness of C14 on the calls of the test of the batch: the key `[1]`, last
created with `[11]`, reads `[11]`; the key `[4]`, last deleted, reads
`ErrNotExist`; the key `[7]`, never touched, reads `ErrNotExist`. -/
theorem cachedBatch_read_your_writes_witness :
    (∃ v, (some [11] : Option Bytes) = some v ∧
      (NewCachedBatch.run demoCalls).Get "test_ns1" [1] = .ok v) ∧
    (NewCachedBatch.run demoCalls).Get "test_ns1" [4] = .error Err.ErrNotExist ∧
    (NewCachedBatch.run demoCalls).Get "test_ns1" [7] = .error Err.ErrNotExist :=
  ⟨(cachedBatch_read_your_writes demoCalls "test_ns1" [1]).2.2.2
      ⟨WriteType.PutIfNotExists, "test_ns1", [1], some [11]⟩ (by decide) (by decide),
   (cachedBatch_read_your_writes demoCalls "test_ns1" [4]).2.2.1
      ⟨WriteType.Delete, "test_ns1", [4], none⟩ (by decide) rfl,
   (cachedBatch_read_your_writes demoCalls "test_ns1" [7]).2.1 (by decide)⟩

/-! ## Contract transfers -/

/-- Claim C22: contract transfers are skipped entirely. For a transfer with
`IsContract` true, one iteration of `handleTsf` returns no error and leaves
the working set (every account and the set of cached accounts) and the gas
limit as they were, whatever the flag of gas charging and the fields of the
transfer are; so `handleTsf` on a list is `handleTsf` on the list without its
contract transfers. -/
theorem handleTsf_skips_contracts (env : Env) (producer : PKHash) (e : Bool) :
    (∀ (tx : Transfer) (ws : WorkingSet) (gl : Nat), tx.isContract = true →
      tsfStep env producer tx ws gl e = ⟨ws, gl, none⟩ ∧
      ∀ rest, handleTsf env producer (tx :: rest) ws gl e =
        handleTsf env producer rest ws gl e) ∧
    (∀ (tsfs : List Transfer) (ws : WorkingSet) (gl : Nat),
      handleTsf env producer tsfs ws gl e =
        handleTsf env producer (tsfs.filter (fun tx => !tx.isContract)) ws gl e) := by
  have hstep : ∀ (tx : Transfer) (ws : WorkingSet) (gl : Nat), tx.isContract = true →
      tsfStep env producer tx ws gl e = ⟨ws, gl, none⟩ := by
    intro tx ws gl hc
    unfold tsfStep
    rw [if_pos hc]
  have hcons : ∀ (tx : Transfer) (ws : WorkingSet) (gl : Nat), tx.isContract = true →
      ∀ rest, handleTsf env producer (tx :: rest) ws gl e =
        handleTsf env producer rest ws gl e := by
    intro tx ws gl hc rest
    rw [handleTsf, hstep tx ws gl hc]
  refine ⟨fun tx ws gl hc => ⟨hstep tx ws gl hc, hcons tx ws gl hc⟩, ?_⟩
  intro tsfs
  induction tsfs with
  | nil => intro ws gl; rfl
  | cons tx rest ih =>
    intro ws gl
    cases hc : tx.isContract with
    | true =>
      rw [hcons tx ws gl hc, List.filter_cons_of_neg (by simp [hc])]
      exact ih ws gl
    | false =>
      rw [List.filter_cons_of_pos (by simp [hc]), handleTsf, handleTsf]
      cases (tsfStep env producer tx ws gl e).err with
      | some x => rfl
      | none => exact ih _ _

/-- Witness of C22: a contract transfer of alice's, of an amount beyond her
balance and with gas charging, is skipped: the gas limit is unchanged. -/
theorem handleTsf_skips_contracts_witness :
    tsfStep demoEnv [3] { demoTransfer 5000 1 21 with isContract := true }
        (demoWs (demoCache 10)) 100 true =
      ⟨demoWs (demoCache 10), 100, none⟩ ∧
    (handleTsf demoEnv [3] [{ demoTransfer 5000 1 21 with isContract := true }]
      (demoWs (demoCache 10)) 100 true).gasLimit = 100 :=
  ⟨((handleTsf_skips_contracts demoEnv [3] true).1
      { demoTransfer 5000 1 21 with isContract := true } (demoWs (demoCache 10)) 100 rfl).1,
   by rw [((handleTsf_skips_contracts demoEnv [3] true).1
      { demoTransfer 5000 1 21 with isContract := true } (demoWs (demoCache 10)) 100 rfl).2]
      rfl⟩

/-! ## Staging of the finalisation writes -/

/-- `RunActions` is its body before the finalisation followed by the
finalisation. -/
theorem RunActions_stages (env : Env) (handlers : List ActionHandler) (ws : WorkingSet)
    (ctx : Option RunActionsCtx) (blockHeight : Nat) (actions : List Action) :
    ws.RunActions env handlers ctx blockHeight actions =
      match runStages env handlers ws ctx blockHeight actions with
      | .error r => r
      | .ok st => finalize env blockHeight st.ws st.gasLimit st.receipts := by
  unfold WorkingSet.RunActions runStages runActionsFrom
  dsimp only
  repeat' split
  all_goals first | rfl | simp_all

theorem finalize_cases (env : Env) (blockHeight : Nat) (ws : WorkingSet) (gl : Nat)
    (receipts : Map Receipt) :
    ((finalize env blockHeight ws gl receipts).err = none ∧
      ∃ bytes, env.SerializeCandidates
        (sortCandidates ((rangeEntries env ws.cachedCandidates).map Prod.snd)) = some bytes) ∨
    ((finalize env blockHeight ws gl receipts).err = some Err.serialization ∧
      env.SerializeCandidates
        (sortCandidates ((rangeEntries env ws.cachedCandidates).map Prod.snd)) = none ∧
      (finalize env blockHeight ws gl receipts).ws =
        { ws with cb := (ws.cb.Put AccountKVNameSpace env.AccountTrieRootKey
            (ws.accountTrie.RootHash env)) }) := by
  unfold finalize
  simp only [MapToCandidates]
  cases hs : env.SerializeCandidates
      (sortCandidates ((rangeEntries env ws.cachedCandidates).map Prod.snd)) with
  | none => right; exact ⟨rfl, rfl, rfl⟩
  | some b => left; exact ⟨rfl, b, rfl⟩

/-- Claim C28 (amended): staging of the finalisation writes. When `RunActions`
fails before the finalisation (missing context, producer, transfers, votes,
flushes, nonces of executors, handlers), what it returns is the return of the
stage that failed: the finalisation has not run and none of its three writes
has been staged. When the stages succeed and `RunActions` still fails, the
serialisation of the candidate list has failed, and the write of the root at
`(Account, AccountTrieRootKey)`, which precedes it, has been appended to the
shared batch, the other two writes not. -/
theorem finalization_staging (env : Env) (handlers : List ActionHandler) (ws : WorkingSet)
    (ctx : Option RunActionsCtx) (blockHeight : Nat) (actions : List Action) (e : Err)
    (herr : (ws.RunActions env handlers ctx blockHeight actions).err = some e) :
    (∃ r, runStages env handlers ws ctx blockHeight actions = .error r ∧
      ws.RunActions env handlers ctx blockHeight actions = r) ∨
    (∃ st, runStages env handlers ws ctx blockHeight actions = .ok st ∧
      e = Err.serialization ∧
      env.SerializeCandidates
        (sortCandidates ((rangeEntries env st.ws.cachedCandidates).map Prod.snd)) = none ∧
      (ws.RunActions env handlers ctx blockHeight actions).ws.cb.writeQueue =
        st.ws.cb.writeQueue ++
          [⟨WriteType.Put, AccountKVNameSpace, env.AccountTrieRootKey,
            some (st.ws.accountTrie.RootHash env)⟩]) := by
  rw [RunActions_stages] at herr ⊢
  cases hst : runStages env handlers ws ctx blockHeight actions with
  | error r => left; exact ⟨r, rfl, rfl⟩
  | ok st =>
    right
    rw [hst] at herr
    simp only at herr ⊢
    rcases finalize_cases env blockHeight st.ws st.gasLimit st.receipts with ⟨h1, _⟩ | ⟨h1, h2, h3⟩
    · rw [h1] at herr; cases herr
    · rw [h1] at herr
      simp only [Option.some.injEq] at herr
      refine ⟨st, rfl, herr.symm, h2, ?_⟩
      rw [h3]
      rfl

/-- Witness of C28: with a candidate encoder that fails, a block without
actions fails with a serialisation error after its stages have succeeded. -/
theorem finalization_staging_witness :
    (∃ r, runStages demoEnvNoEncoder [] (demoWs ∅) (some demoCtx) 7 [] = .error r ∧
      (demoWs ∅).RunActions demoEnvNoEncoder [] (some demoCtx) 7 [] = r) ∨
    (∃ st, runStages demoEnvNoEncoder [] (demoWs ∅) (some demoCtx) 7 [] = .ok st ∧
      Err.serialization = Err.serialization ∧
      demoEnvNoEncoder.SerializeCandidates
        (sortCandidates ((rangeEntries demoEnvNoEncoder st.ws.cachedCandidates).map
          Prod.snd)) = none ∧
      ((demoWs ∅).RunActions demoEnvNoEncoder [] (some demoCtx) 7 []).ws.cb.writeQueue =
        st.ws.cb.writeQueue ++
          [⟨WriteType.Put, AccountKVNameSpace, demoEnvNoEncoder.AccountTrieRootKey,
            some (st.ws.accountTrie.RootHash demoEnvNoEncoder)⟩]) :=
  finalization_staging demoEnvNoEncoder [] (demoWs ∅) (some demoCtx) 7 [] Err.serialization
    (by decide)

/-- Counterexample to C28 as stated: with a candidate encoder that fails, a
block without actions on a working set with an empty batch returns an error,
and yet the shared batch then holds the finalisation write of the root at
`(Account, AccountTrieRootKey)`, appended by this call. -/
theorem RunActions_failure_keeps_root_write :
    (demoWs ∅).cb.writeQueue = [] ∧
    ((demoWs ∅).RunActions demoEnvNoEncoder [] (some demoCtx) 7 []).err =
      some Err.serialization ∧
    ⟨WriteType.Put, AccountKVNameSpace, demoEnvNoEncoder.AccountTrieRootKey,
        some (((demoWs ∅).RunActions demoEnvNoEncoder [] (some demoCtx) 7 []).ws.RootHash
          demoEnvNoEncoder)⟩ ∈
      ((demoWs ∅).RunActions demoEnvNoEncoder [] (some demoCtx) 7 []).ws.cb.writeQueue := by
  decide

/-! ## The flush and the order of visit -/

theorem flushState_ok_iff (env : Env) (blockHeight : Nat) (ws : WorkingSet) (addr : PKHash)
    (state : Iotex.State) :
    (flushState env blockHeight ws addr state).2 = none ↔ FlushOk env ws (addr, state) := by
  unfold flushState FlushOk WorkingSet.PutState Trie.Upsert
  simp only
  cases hs : env.Serialize state with
  | none => simp
  | some ss =>
    cases hu : env.trieUpsertFails addr with
    | true => simp
    | false =>
      simp only [Bool.false_eq_true, if_false]
      cases state with
      | other t => simp [stateToAccountState]
      | account a =>
        simp only [stateToAccountState]
        cases hc : a.isCandidate with
        | false => simp [hc]
        | true =>
          simp only [Bool.not_true, Bool.false_eq_true, if_false]
          cases hd : env.AddressToPKHash a.votee with
          | none => simp [hc, hd]
          | some hv =>
            simp only [WorkingSet.updateCandidate]
            cases hl : ws.cachedCandidates.lookup addr with
            | none =>
              have : addr ∉ ws.cachedCandidates := by
                rw [← AList.lookup_isSome, hl]; simp
              simp [this, hc, hd, hl]
            | some c =>
              have : addr ∈ ws.cachedCandidates := by
                rw [← AList.lookup_isSome, hl]; rfl
              simp [this, hc, hd, hl]

theorem flushState_trie {env : Env} {blockHeight : Nat} {ws : WorkingSet} {addr : PKHash}
    {state : Iotex.State} (hok : (flushState env blockHeight ws addr state).2 = none) :
    ∃ ss, env.Serialize state = some ss ∧
      (flushState env blockHeight ws addr state).1.accountTrie.entries =
        ws.accountTrie.entries.insert addr ss := by
  unfold flushState WorkingSet.PutState Trie.Upsert at hok ⊢
  simp only at hok ⊢
  cases hs : env.Serialize state with
  | none => rw [hs] at hok; simp at hok
  | some ss =>
    rw [hs] at hok
    refine ⟨ss, rfl, ?_⟩
    cases hu : env.trieUpsertFails addr with
    | true => rw [hu] at hok; simp at hok
    | false =>
      rw [hu] at hok
      simp only [Bool.false_eq_true, if_false] at hok ⊢
      cases state with
      | other t => simp [stateToAccountState] at hok
      | account a =>
        simp only [stateToAccountState] at hok ⊢
        cases hc : a.isCandidate with
        | false => simp
        | true =>
          rw [hc] at hok
          simp only [Bool.not_true, Bool.false_eq_true, if_false] at hok ⊢
          cases hd : env.AddressToPKHash a.votee with
          | none => rw [hd] at hok
          | some hv =>
            rw [hd] at hok
            simp only [WorkingSet.updateCandidate] at hok ⊢
            cases hl : ws.cachedCandidates.lookup addr with
            | none => rw [hl] at hok
            | some c => simp

theorem flushOk_congr {env : Env} {ws ws1 : WorkingSet} {p : PKHash × Iotex.State}
    (h : ws1.cachedCandidates.lookup p.1 = ws.cachedCandidates.lookup p.1) :
    FlushOk env ws1 p ↔ FlushOk env ws p := by
  unfold FlushOk
  rw [← AList.lookup_isSome, ← AList.lookup_isSome, h]

theorem flushStates_ok_iff (env : Env) (blockHeight : Nat)
    (entries : List (PKHash × Iotex.State)) :
    ∀ ws : WorkingSet, (entries.map Prod.fst).Nodup →
      ((flushStates env blockHeight entries ws).2 = none ↔
        ∀ p ∈ entries, FlushOk env ws p) := by
  induction entries with
  | nil => intro ws _; simp [flushStates]
  | cons q rest ih =>
    intro ws hnd
    obtain ⟨addr, state⟩ := q
    simp only [List.map_cons, List.nodup_cons] at hnd
    rw [flushStates]
    have hiff := flushState_ok_iff env blockHeight ws addr state
    have hpool := @flushState_pool env blockHeight ws addr state
    cases hf : flushState env blockHeight ws addr state with
    | mk ws1 err =>
      rw [hf] at hiff hpool
      cases err with
      | some x =>
        simp only at hiff ⊢
        constructor
        · intro h; cases h
        · intro h
          exact absurd (hiff.mpr (h _ (List.mem_cons_self _ _))) (by simp)
      | none =>
        simp only at hiff hpool ⊢
        obtain ⟨_, _, s1, _, _⟩ := hpool trivial
        rw [ih ws1 hnd.2]
        have hrest : ∀ p ∈ rest, (FlushOk env ws1 p ↔ FlushOk env ws p) := by
          intro p hp
          apply flushOk_congr
          apply s1
          intro hpa
          exact hnd.1 (List.mem_map.mpr ⟨p, hp, hpa⟩)
        constructor
        · intro h p hp
          rcases List.mem_cons.mp hp with h' | h'
          · rw [h']; exact hiff.mp trivial
          · exact (hrest p h').mp (h p h')
        · intro h p hp
          exact (hrest p hp).mpr (h p (List.mem_cons_of_mem _ hp))

theorem flushStates_trie (env : Env) (blockHeight : Nat)
    (entries : List (PKHash × Iotex.State)) :
    ∀ ws : WorkingSet, (entries.map Prod.fst).Nodup →
      (flushStates env blockHeight entries ws).2 = none →
      (∀ p ∈ entries, ∃ ss, env.Serialize p.2 = some ss ∧
        (flushStates env blockHeight entries ws).1.accountTrie.entries.lookup p.1 = some ss) ∧
      (∀ k, k ∉ entries.map Prod.fst →
        (flushStates env blockHeight entries ws).1.accountTrie.entries.lookup k =
          ws.accountTrie.entries.lookup k) := by
  induction entries with
  | nil => intro ws _ _; exact ⟨fun p hp => (by cases hp), fun _ _ => rfl⟩
  | cons q rest ih =>
    intro ws hnd hok
    obtain ⟨addr, state⟩ := q
    simp only [List.map_cons, List.nodup_cons] at hnd
    rw [flushStates] at hok ⊢
    have htrie := @flushState_trie env blockHeight ws addr state
    cases hf : flushState env blockHeight ws addr state with
    | mk ws1 err =>
      rw [hf] at hok htrie
      cases err with
      | some x => simp only at hok; cases hok
      | none =>
        simp only at hok htrie ⊢
        obtain ⟨ss, hss, ht⟩ := htrie trivial
        obtain ⟨g1, g2⟩ := ih ws1 hnd.2 hok
        refine ⟨?_, ?_⟩
        · intro p hp
          rcases List.mem_cons.mp hp with h' | h'
          · subst h'
            refine ⟨ss, hss, ?_⟩
            rw [g2 addr hnd.1, ht, AList.lookup_insert]
          · exact g1 p h'
        · intro k hk
          simp only [List.map_cons, List.mem_cons, not_or] at hk
          rw [g2 k hk.2, ht, AList.lookup_insert_ne hk.1]

theorem mem_mapEntries {V : Type} (m : Map V) (k : Bytes) (v : V) :
    (k, v) ∈ mapEntries m ↔ m.lookup k = some v := by
  unfold mapEntries
  rw [List.mem_map]
  constructor
  · rintro ⟨e, he, hkv⟩
    simp only [Prod.mk.injEq] at hkv
    obtain ⟨h1, h2⟩ := hkv
    subst h1 h2
    exact List.mem_dlookup m.nodupKeys he
  · intro hl
    exact ⟨⟨k, v⟩, List.of_mem_dlookup hl, rfl⟩

theorem nodup_mapEntries {V : Type} (m : Map V) : ((mapEntries m).map Prod.fst).Nodup := by
  unfold mapEntries
  rw [List.map_map]
  exact m.nodupKeys

/-- Claim C27: the flush of the cached states does not depend on the order of
visit. For any two orders `l1`, `l2` in which the entries of `cachedStates` are
visited, the flush at height `H` fails for both or succeeds for both; and when
it succeeds, the resulting `cachedCandidates` are the same map and the account
trie holds the same content (the same upserts of `(address, account)`). -/
theorem flush_order_independent (env : Env) (ws : WorkingSet) (blockHeight : Nat)
    (l1 l2 : List (PKHash × Iotex.State))
    (h1 : l1.Perm (mapEntries ws.cachedStates)) (h2 : l2.Perm (mapEntries ws.cachedStates)) :
    ((flushStates env blockHeight l1 ws).2 = none ↔
      (flushStates env blockHeight l2 ws).2 = none) ∧
    ((flushStates env blockHeight l1 ws).2 = none →
      (flushStates env blockHeight l2 ws).2 = none →
      (∀ k, (flushStates env blockHeight l1 ws).1.cachedCandidates.lookup k =
        (flushStates env blockHeight l2 ws).1.cachedCandidates.lookup k) ∧
      (∀ k, (flushStates env blockHeight l1 ws).1.accountTrie.entries.lookup k =
        (flushStates env blockHeight l2 ws).1.accountTrie.entries.lookup k)) := by
  have hnd : ∀ l : List (PKHash × Iotex.State), l.Perm (mapEntries ws.cachedStates) →
      (l.map Prod.fst).Nodup :=
    fun l hl => (hl.map Prod.fst).nodup_iff.mpr (nodup_mapEntries ws.cachedStates)
  have hmem : ∀ p, p ∈ l1 ↔ p ∈ l2 := fun p => (h1.trans h2.symm).mem_iff
  have hcons : ∀ l : List (PKHash × Iotex.State), l.Perm (mapEntries ws.cachedStates) →
      ∀ p ∈ l, ws.cachedStates.lookup p.1 = some p.2 :=
    fun l hl p hp => (mem_mapEntries ws.cachedStates p.1 p.2).mp (hl.mem_iff.mp hp)
  have hkeys : ∀ k, k ∈ l1.map Prod.fst ↔ k ∈ l2.map Prod.fst :=
    fun k => ((h1.trans h2.symm).map Prod.fst).mem_iff
  refine ⟨?_, ?_⟩
  · rw [flushStates_ok_iff env blockHeight l1 ws (hnd l1 h1),
      flushStates_ok_iff env blockHeight l2 ws (hnd l2 h2)]
    exact ⟨fun h p hp => h p ((hmem p).mpr hp), fun h p hp => h p ((hmem p).mp hp)⟩
  · intro ok1 ok2
    obtain ⟨a1, a2⟩ := flushStates_pool env blockHeight l1 ws (hcons l1 h1) ok1
    obtain ⟨b1, b2⟩ := flushStates_pool env blockHeight l2 ws (hcons l2 h2) ok2
    obtain ⟨c1, c2⟩ := flushStates_trie env blockHeight l1 ws (hnd l1 h1) ok1
    obtain ⟨d1, d2⟩ := flushStates_trie env blockHeight l2 ws (hnd l2 h2) ok2
    refine ⟨fun k => ?_, fun k => ?_⟩
    · by_cases hk : k ∈ l1.map Prod.fst
      · obtain ⟨p, hp, hpk⟩ := List.mem_map.mp hk
        obtain ⟨a, ha, x1, x2⟩ := a2 p hp
        obtain ⟨a', ha', y1, y2⟩ := b2 p ((hmem p).mp hp)
        have haa : a' = a := by
          rw [ha] at ha'
          simp only [State.account.injEq] at ha'
          exact ha'.symm
        subst haa
        rw [← hpk]
        cases hc : a'.isCandidate with
        | false => rw [x1 hc, y1 hc]
        | true =>
          obtain ⟨hv, c, e1, e2, e3⟩ := x2 hc
          obtain ⟨hv', c', f1, f2, f3⟩ := y2 hc
          rw [e1] at f1
          simp only [Option.some.injEq] at f1
          rw [e2] at f2
          simp only [Option.some.injEq] at f2
          subst f1 f2
          rw [e3, f3]
      · rw [a1 k hk, b1 k (fun h => hk ((hkeys k).mpr h))]
    · by_cases hk : k ∈ l1.map Prod.fst
      · obtain ⟨p, hp, hpk⟩ := List.mem_map.mp hk
        obtain ⟨ss, s1, s2⟩ := c1 p hp
        obtain ⟨ss', t1, t2⟩ := d1 p ((hmem p).mp hp)
        rw [s1] at t1
        simp only [Option.some.injEq] at t1
        subst t1
        rw [← hpk, s2, t2]
      · rw [c2 k hk, d2 k (fun h => hk ((hkeys k).mpr h))]

/-- Witness of C27: the two orders of the two cached accounts of the example. -/
theorem flush_order_independent_witness :
    ((flushStates demoEnv 7 (mapEntries (demoCache 500)) (demoWs (demoCache 500))).2 = none ↔
      (flushStates demoEnv 7 (mapEntries (demoCache 500)).reverse
        (demoWs (demoCache 500))).2 = none) ∧
    (flushStates demoEnv 7 (mapEntries (demoCache 500)) (demoWs (demoCache 500))).2 = none ∧
    (flushStates demoEnv 7 (mapEntries (demoCache 500)) (demoWs
        (demoCache 500))).1.accountTrie.entries.lookup [1] =
      (flushStates demoEnv 7 (mapEntries (demoCache 500)).reverse (demoWs
        (demoCache 500))).1.accountTrie.entries.lookup [1] :=
  ⟨(flush_order_independent demoEnv (demoWs (demoCache 500)) 7 (mapEntries (demoCache 500))
      (mapEntries (demoCache 500)).reverse (List.Perm.refl _) (List.reverse_perm _)).1,
   by decide,
   ((flush_order_independent demoEnv (demoWs (demoCache 500)) 7 (mapEntries (demoCache 500))
      (mapEntries (demoCache 500)).reverse (List.Perm.refl _) (List.reverse_perm _)).2
      (by decide) (by decide)).2 [1]⟩

/-! ## Ownership of the account of a contract -/

theorem CachedState_maps {env : Env} {ws ws' : WorkingSet} {h : PKHash} {s : Iotex.State}
    (hc : ws.CachedState env h = .ok (s, ws')) :
    ws'.cachedContract = ws.cachedContract ∧ ws'.cachedStates.lookup h = some s ∧
    ∀ k, k ∈ ws'.cachedStates → k = h ∨ k ∈ ws.cachedStates := by
  unfold WorkingSet.CachedState at hc
  cases hl : ws.cachedStates.lookup h with
  | some s0 =>
    rw [hl] at hc
    simp only [Except.ok.injEq, Prod.mk.injEq] at hc
    obtain ⟨h1, h2⟩ := hc
    subst h1 h2
    exact ⟨rfl, hl, fun k hk => Or.inr hk⟩
  | none =>
    rw [hl] at hc
    simp only at hc
    cases hs : ws.State env h with
    | error e => rw [hs] at hc; cases hc
    | ok a =>
      rw [hs] at hc
      simp only [Except.ok.injEq, Prod.mk.injEq] at hc
      obtain ⟨h1, h2⟩ := hc
      subst h1 h2
      refine ⟨rfl, by simp, fun k hk => ?_⟩
      simp only [AList.mem_insert] at hk
      exact hk

theorem singleOwner_CachedState {env : Env} {ws ws' : WorkingSet} {h : PKHash}
    {s : Iotex.State} (hP : SingleOwner ws) (hn : h ∉ ws.cachedContract)
    (hc : ws.CachedState env h = .ok (s, ws')) : SingleOwner ws' := by
  obtain ⟨h1, _, h3⟩ := CachedState_maps hc
  intro k ⟨hk1, hk2⟩
  rw [h1] at hk2
  rcases h3 k hk1 with rfl | hk
  · exact hn hk2
  · exact hP k ⟨hk, hk2⟩

/-- The effect of `getContract` on the two caches. -/
theorem getContract_spec (env : Env) (cenv : ContractEnv) (ws : WorkingSet) (addr : PKHash) :
    (∀ c, (ws.getContract env cenv addr).2 = .ok c →
      addr ∉ (ws.getContract env cenv addr).1.cachedStates ∧
      (ws.getContract env cenv addr).1.cachedContract.lookup addr = some c ∧
      ∃ a ws1, ws.CachedState env addr = .ok (Iotex.State.account a, ws1) ∧
        c.account = if a.root = ZeroHash32B then { a with root := cenv.EmptyRoot } else a) ∧
    (SingleOwner ws → addr ∉ ws.cachedContract →
      SingleOwner (ws.getContract env cenv addr).1) ∧
    (∀ k, k ∈ (ws.getContract env cenv addr).1.cachedContract →
      k = addr ∨ k ∈ ws.cachedContract) := by
  unfold WorkingSet.getContract
  cases hc : ws.CachedState env addr with
  | error e =>
    simp only
    exact ⟨fun c h => (by cases h), fun hP _ => hP, fun k hk => Or.inr hk⟩
  | ok p =>
    obtain ⟨s, ws1⟩ := p
    obtain ⟨m1, m2, m3⟩ := CachedState_maps hc
    simp only
    cases s with
    | other t =>
      simp only [stateToAccountState]
      refine ⟨fun c h => (by cases h), fun hP hn => singleOwner_CachedState hP hn hc,
        fun k hk => Or.inr (by rw [← m1]; exact hk)⟩
    | account a =>
      simp only [stateToAccountState]
      have herase : ∀ k, k ∈ ws1.cachedStates.erase addr → k ≠ addr ∧ k ∈ ws.cachedStates := by
        intro k hk
        rw [AList.mem_erase] at hk
        rcases m3 k hk.2 with h | h
        · exact absurd h hk.1
        · exact ⟨hk.1, h⟩
      generalize hacc : (if a.root = ZeroHash32B then { a with root := cenv.EmptyRoot }
        else a) = acc
      cases hf : cenv.newTrieFails acc.root with
      | true =>
        simp only [if_true]
        refine ⟨fun c h => (by cases h), fun hP _ => ?_,
          fun k hk => Or.inr (by rw [← m1]; exact hk)⟩
        intro k ⟨hk1, hk2⟩
        have hk2' : k ∈ ws.cachedContract := by rw [← m1]; exact hk2
        exact hP k ⟨(herase k hk1).2, hk2'⟩
      | false =>
        simp only [Bool.false_eq_true, if_false]
        refine ⟨fun c h => ?_, fun hP _ => ?_, fun k hk => ?_⟩
        · simp only [Except.ok.injEq] at h
          subst h
          refine ⟨?_, by simp, a, ws1, rfl, hacc.symm⟩
          show addr ∉ ws1.cachedStates.erase addr
          rw [AList.mem_erase]
          exact fun h => h.1 rfl
        · intro k ⟨hk1, hk2⟩
          have hk1' := herase k hk1
          have hk2' : k ∈ ws1.cachedContract.insert addr _ := hk2
          rw [AList.mem_insert] at hk2'
          rcases hk2' with h | h
          · exact hk1'.1 h
          · rw [m1] at h
            exact hP k ⟨hk1'.2, h⟩
        · have hk' : k ∈ ws1.cachedContract.insert addr _ := hk
          rw [AList.mem_insert, m1] at hk'
          exact hk'

theorem singleOwner_insert_contract {ws : WorkingSet} (hP : SingleOwner ws) {addr : PKHash}
    (hn : addr ∉ ws.cachedStates) (c : Contract) (cb : CachedBatch) :
    SingleOwner { ws with cachedContract := ws.cachedContract.insert addr c, cb := cb } := by
  intro k ⟨hk1, hk2⟩
  have hk2' : k ∈ ws.cachedContract.insert addr c := hk2
  rw [AList.mem_insert] at hk2'
  rcases hk2' with h | h
  · subst h; exact hn hk1
  · exact hP k ⟨hk1, h⟩

theorem not_mem_states_of_contract {ws : WorkingSet} (hP : SingleOwner ws) {addr : PKHash}
    {c : Contract} (hl : ws.cachedContract.lookup addr = some c) : addr ∉ ws.cachedStates := by
  intro h
  refine hP addr ⟨h, ?_⟩
  rw [← AList.lookup_isSome, hl]
  rfl

theorem not_mem_contract_of_lookup {ws : WorkingSet} {addr : PKHash}
    (hl : ws.cachedContract.lookup addr = none) : addr ∉ ws.cachedContract := by
  rw [← AList.lookup_isSome, hl]
  simp

/-- Every operation that consults `cachedContract` first keeps the two caches
disjoint. -/
theorem singleOwner_apply (env : Env) (cenv : ContractEnv) {ws : WorkingSet}
    (hP : SingleOwner ws) (op : WsOp) (hop : op.viaContract = true) :
    SingleOwner (ws.apply env cenv op) := by
  have hget : ∀ addr, ws.cachedContract.lookup addr = none →
      SingleOwner (ws.getContract env cenv addr).1 ∧
      ∀ c, (ws.getContract env cenv addr).2 = .ok c →
        addr ∉ (ws.getContract env cenv addr).1.cachedStates := by
    intro addr hl
    obtain ⟨g1, g2, _⟩ := getContract_spec env cenv ws addr
    exact ⟨g2 hP (not_mem_contract_of_lookup hl), fun c hc => (g1 c hc).1⟩
  cases op with
  | LoadOrCreateAccountState addr init => cases hop
  | CachedState hash => cases hop
  | UpdateCachedStates pkHash account => cases hop
  | CachedAccountState addr =>
    simp only [WorkingSet.apply, WorkingSet.CachedAccountState]
    cases hd : env.AddressToPKHash addr with
    | none => exact hP
    | some h =>
      simp only
      cases hl : ws.cachedContract.lookup h with
      | some c => exact hP
      | none =>
        simp only
        cases hc : ws.CachedState env h with
        | error e => exact hP
        | ok p => exact singleOwner_CachedState hP (not_mem_contract_of_lookup hl) hc
  | GetCodeHash addr =>
    simp only [WorkingSet.apply, WorkingSet.GetCodeHash]
    cases hl : ws.cachedContract.lookup addr with
    | some c => exact hP
    | none =>
      simp only
      cases hc : ws.CachedState env addr with
      | error e => exact hP
      | ok p =>
        have := singleOwner_CachedState hP (not_mem_contract_of_lookup hl) hc
        simp only
        cases stateToAccountState p.1 <;> exact this
  | GetCode addr =>
    simp only [WorkingSet.apply, WorkingSet.GetCode]
    cases hl : ws.cachedContract.lookup addr with
    | some c => exact hP
    | none =>
      simp only
      cases hc : ws.CachedState env addr with
      | error e => exact hP
      | ok p =>
        have := singleOwner_CachedState hP (not_mem_contract_of_lookup hl) hc
        simp only
        cases stateToAccountState p.1 <;> exact this
  | SetCode addr code =>
    simp only [WorkingSet.apply, WorkingSet.SetCode]
    cases hl : ws.cachedContract.lookup addr with
    | some c => exact singleOwner_insert_contract hP (not_mem_states_of_contract hP hl) _ _
    | none =>
      simp only
      obtain ⟨g1, g2⟩ := hget addr hl
      cases hg : ws.getContract env cenv addr with
      | mk ws1 r =>
        rw [hg] at g1 g2
        cases r with
        | error e => exact g1
        | ok c => exact singleOwner_insert_contract g1 (g2 c rfl) _ _
  | GetContractState addr key =>
    simp only [WorkingSet.apply, WorkingSet.GetContractState]
    cases hl : ws.cachedContract.lookup addr with
    | some c => exact hP
    | none =>
      simp only
      obtain ⟨g1, _⟩ := hget addr hl
      cases hg : ws.getContract env cenv addr with
      | mk ws1 r =>
        rw [hg] at g1
        cases r with
        | error e => exact g1
        | ok c => exact g1
  | SetContractState addr key value =>
    simp only [WorkingSet.apply, WorkingSet.SetContractState]
    cases hl : ws.cachedContract.lookup addr with
    | some c =>
      simp only
      cases hs : c.SetState env ws.cb key value with
      | error e => exact hP
      | ok p => exact singleOwner_insert_contract hP (not_mem_states_of_contract hP hl) _ _
    | none =>
      simp only
      obtain ⟨g1, g2⟩ := hget addr hl
      cases hg : ws.getContract env cenv addr with
      | mk ws1 r =>
        rw [hg] at g1 g2
        cases r with
        | error e => exact g1
        | ok c =>
          simp only
          cases hs : c.SetState env ws1.cb key value with
          | error e => exact g1
          | ok p => exact singleOwner_insert_contract g1 (g2 c rfl) _ _

theorem singleOwner_applyAll (env : Env) (cenv : ContractEnv) (ops : List WsOp) :
    ∀ ws : WorkingSet, SingleOwner ws → (∀ op ∈ ops, op.viaContract = true) →
      SingleOwner (ws.applyAll env cenv ops) := by
  induction ops with
  | nil => intro ws hP _; exact hP
  | cons op rest ih =>
    intro ws hP hops
    exact ih _ (singleOwner_apply env cenv hP op (hops op (List.mem_cons_self _ _)))
      (fun o ho => hops o (List.mem_cons_of_mem _ ho))

/-- Claim C24 (amended): after `getContract(addr)` succeeds, `addr` is a key of
`cachedContract` and not of `cachedStates`, and the contract holds the account
that `CachedState` resolved with a zero storage root replaced by the empty-root
sentinel; and for every sequence of the operations CachedAccountState,
GetCodeHash, GetCode, SetCode, GetContractState and SetContractState, starting
from a fresh working set or from any working set in which no address is a key of
both caches, no address is a key of both caches afterwards. The raw cache
primitives do not consult `cachedContract`: `UpdateCachedStates` on the address
of a materialized contract, and every `CachedState` on it that succeeds, leave
the address a key of both caches. -/
theorem contract_single_owner (env : Env) (cenv : ContractEnv) (ws : WorkingSet) :
    (∀ addr c, (ws.getContract env cenv addr).2 = .ok c →
      addr ∈ (ws.getContract env cenv addr).1.cachedContract ∧
      addr ∉ (ws.getContract env cenv addr).1.cachedStates ∧
      (ws.getContract env cenv addr).1.cachedContract.lookup addr = some c ∧
      ∃ a ws1, ws.CachedState env addr = .ok (State.account a, ws1) ∧
        c.account = if a.root = ZeroHash32B then { a with root := cenv.EmptyRoot } else a) ∧
    (∀ ops : List WsOp, (∀ op ∈ ops, op.viaContract = true) →
      ((ws.cachedStates = ∅ ∧ ws.cachedContract = ∅) ∨ SingleOwner ws) →
      SingleOwner (ws.applyAll env cenv ops)) ∧
    (∀ addr account, addr ∈ ws.cachedContract →
      addr ∈ (ws.UpdateCachedStates addr account).cachedStates ∧
      addr ∈ (ws.UpdateCachedStates addr account).cachedContract ∧
      ¬ SingleOwner (ws.UpdateCachedStates addr account)) ∧
    (∀ addr s ws', addr ∈ ws.cachedContract → ws.CachedState env addr = .ok (s, ws') →
      addr ∈ ws'.cachedStates ∧ addr ∈ ws'.cachedContract ∧ ¬ SingleOwner ws') := by
  refine ⟨?_, ?_, ?_, ?_⟩
  · intro addr c hc
    obtain ⟨g1, _, _⟩ := getContract_spec env cenv ws addr
    obtain ⟨h1, h2, h3⟩ := g1 c hc
    refine ⟨?_, h1, h2, h3⟩
    rw [← AList.lookup_isSome, h2]
    rfl
  · intro ops hops h0
    refine singleOwner_applyAll env cenv ops ws ?_ hops
    rcases h0 with ⟨_, h2⟩ | h
    · intro k ⟨_, hk⟩
      rw [h2] at hk
      exact (AList.not_mem_empty k) hk
    · exact h
  · intro addr account hc
    have h1 : addr ∈ (ws.UpdateCachedStates addr account).cachedStates := by
      unfold WorkingSet.UpdateCachedStates
      exact (AList.mem_insert _).2 (Or.inl rfl)
    exact ⟨h1, hc, fun h => h addr ⟨h1, hc⟩⟩
  · intro addr s ws' hc hcs
    obtain ⟨m1, m2, _⟩ := CachedState_maps hcs
    have h1 : addr ∈ ws'.cachedStates := by
      rw [← AList.lookup_isSome, m2]
      rfl
    have h2 : addr ∈ ws'.cachedContract := by rw [m1]; exact hc
    exact ⟨h1, h2, fun h => h addr ⟨h1, h2⟩⟩

/-- Witness of C24: the account of alice becomes a contract and leaves
`cachedStates`; the contract-aware operations keep the caches disjoint, and
`UpdateCachedStates` on her address puts it back. -/
theorem contract_single_owner_witness :
    ((demoWs (demoCache 5)).getContract demoEnv demoContractEnv [1]).2
        = .ok ⟨{ acct 5 with root := [0] }, ⟨∅⟩⟩ ∧
      [1] ∉ ((demoWs (demoCache 5)).getContract demoEnv demoContractEnv [1]).1.cachedStates ∧
      SingleOwner ((demoWs (demoCache 5)).applyAll demoEnv demoContractEnv
        [WsOp.CachedAccountState "io1producer", WsOp.SetCode [1] [9],
          WsOp.CachedAccountState "io1alice", WsOp.SetContractState [1] [2] [3]]) ∧
      ¬ SingleOwner (((demoWs (demoCache 5)).applyAll demoEnv demoContractEnv
        [WsOp.SetCode [1] [9]]).UpdateCachedStates [1] (acct 5)) :=
  have h : ((demoWs (demoCache 5)).getContract demoEnv demoContractEnv [1]).2
      = .ok ⟨{ acct 5 with root := [0] }, ⟨∅⟩⟩ := by rfl
  ⟨h, ((contract_single_owner demoEnv demoContractEnv (demoWs (demoCache 5))).1 [1] _ h).2.1,
    (contract_single_owner demoEnv demoContractEnv (demoWs (demoCache 5))).2.1 _ (by decide)
      (Or.inr (fun k hk => AList.not_mem_empty k hk.2)),
    ((contract_single_owner demoEnv demoContractEnv
      ((demoWs (demoCache 5)).applyAll demoEnv demoContractEnv [WsOp.SetCode [1] [9]])).2.2.1
      [1] (acct 5) (AList.lookup_isSome.1 (by decide))).2.2⟩

/-- Claim C24 as written fails: from a fresh working set, `UpdateCachedStates`
on the address of alice after her account has become a contract leaves the
address a key of both caches; so does `CachedState` when the account trie holds
her account. -/
theorem raw_cache_ops_after_contract :
    SingleOwner (demoWs ∅) ∧
    ¬ SingleOwner ((demoWs ∅).applyAll demoEnv demoContractEnv
        [WsOp.UpdateCachedStates [1] (acct 5), WsOp.SetCode [1] [9],
          WsOp.UpdateCachedStates [1] (acct 5)]) ∧
    SingleOwner demoWsStored ∧
    ¬ SingleOwner (demoWsStored.applyAll demoEnvStored demoContractEnv
        [WsOp.SetCode [1] [9], WsOp.CachedState [1]]) := by
  have e1 : ∀ k, ¬ (k ∈ (demoWs ∅).cachedStates ∧ k ∈ (demoWs ∅).cachedContract) :=
    fun k hk => AList.not_mem_empty k hk.2
  have e2 : ∀ k, ¬ (k ∈ demoWsStored.cachedStates ∧ k ∈ demoWsStored.cachedContract) :=
    fun k hk => AList.not_mem_empty k hk.2
  have a1 : (((demoWs ∅).applyAll demoEnv demoContractEnv
        [WsOp.UpdateCachedStates [1] (acct 5), WsOp.SetCode [1] [9],
          WsOp.UpdateCachedStates [1] (acct 5)]).cachedStates.lookup [1]).isSome = true := by
    decide
  have a2 : (((demoWs ∅).applyAll demoEnv demoContractEnv
        [WsOp.UpdateCachedStates [1] (acct 5), WsOp.SetCode [1] [9],
          WsOp.UpdateCachedStates [1] (acct 5)]).cachedContract.lookup [1]).isSome = true := by
    decide
  have b1 : ((demoWsStored.applyAll demoEnvStored demoContractEnv
        [WsOp.SetCode [1] [9], WsOp.CachedState [1]]).cachedStates.lookup [1]).isSome
      = true := by
    decide
  have b2 : ((demoWsStored.applyAll demoEnvStored demoContractEnv
        [WsOp.SetCode [1] [9], WsOp.CachedState [1]]).cachedContract.lookup [1]).isSome
      = true := by
    decide
  exact ⟨e1, fun h => h [1] ⟨AList.lookup_isSome.1 a1, AList.lookup_isSome.1 a2⟩, e2,
    fun h => h [1] ⟨AList.lookup_isSome.1 b1, AList.lookup_isSome.1 b2⟩⟩

/-- `LoadOrCreateAccountState` does not make the check of `cachedContract` that
its sibling `CachedAccountState` makes: after the account of alice has become a
contract, loading it again adds a second, fresh account for her address to
`cachedStates`. -/
theorem LoadOrCreateAccountState_after_contract :
    (((demoWs ∅).applyAll demoEnv demoContractEnv
        [WsOp.LoadOrCreateAccountState "io1alice" 0, WsOp.SetCode [1] [9],
          WsOp.LoadOrCreateAccountState "io1alice" 0]).cachedStates.lookup [1]).isSome = true ∧
      (((demoWs ∅).applyAll demoEnv demoContractEnv
        [WsOp.LoadOrCreateAccountState "io1alice" 0, WsOp.SetCode [1] [9],
          WsOp.LoadOrCreateAccountState "io1alice" 0]).cachedContract.lookup [1]).isSome = true ∧
      ¬ SingleOwner ((demoWs ∅).applyAll demoEnv demoContractEnv
        [WsOp.LoadOrCreateAccountState "io1alice" 0, WsOp.SetCode [1] [9],
          WsOp.LoadOrCreateAccountState "io1alice" 0]) := by
  have h1 : (((demoWs ∅).applyAll demoEnv demoContractEnv
        [WsOp.LoadOrCreateAccountState "io1alice" 0, WsOp.SetCode [1] [9],
          WsOp.LoadOrCreateAccountState "io1alice" 0]).cachedStates.lookup [1]).isSome = true := by
    decide
  have h2 : (((demoWs ∅).applyAll demoEnv demoContractEnv
        [WsOp.LoadOrCreateAccountState "io1alice" 0, WsOp.SetCode [1] [9],
          WsOp.LoadOrCreateAccountState "io1alice" 0]).cachedContract.lookup [1]).isSome = true := by
    decide
  exact ⟨h1, h2, fun h => h [1] ⟨AList.lookup_isSome.1 h1, AList.lookup_isSome.1 h2⟩⟩

/-! ## The effect of the action loops on the ledger -/

theorem ledger_congr {env : Env} {ws ws' : WorkingSet}
    (h : ∀ k, ws'.view env k = ws.view env k) : ws'.ledger env = ws.ledger env := by
  funext k
  unfold WorkingSet.ledger
  rw [h k]

theorem ledger_cached (env : Env) {ws : WorkingSet} {h : PKHash} (hc : ws.cachedAccount h) :
    ws.ledger env h = ws.account h := by
  unfold WorkingSet.ledger
  rw [view_of_cachedAccount env hc]

theorem ledger_setAccount (env : Env) {ws : WorkingSet} {h : PKHash} (hc : ws.cachedAccount h)
    (g : Account → Account) {a : Account} (ha : a = g (ws.account h)) :
    (ws.setAccount h a).ledger env = setAt (ws.ledger env) h g := by
  funext k
  unfold WorkingSet.ledger setAt
  rw [view_setAccount]
  by_cases hk : k = h
  · subst hk
    simp only [if_true]
    rw [view_of_cachedAccount env hc, ha]
  · simp only [hk, if_false]

theorem ledger_load {env : Env} {ws ws' : WorkingSet} {addr : String} {h : PKHash}
    (hl : ws.LoadOrCreateAccountState env addr 0 = .ok (h, ws')) :
    ws'.ledger env = ws.ledger env ∧ env.AddressToPKHash addr = some h ∧
      ws'.cachedAccount h ∧ ∀ k, ws.cachedAccount k → ws'.cachedAccount k :=
  ⟨ledger_congr (LoadOrCreate_view hl), LoadOrCreate_key hl, (LoadOrCreate_cached hl).1,
    (LoadOrCreate_cached hl).2⟩

theorem setAt_apply (G : PKHash → Account) (h k : PKHash) (g : Account → Account) :
    setAt G h g k = if k = h then g (G h) else G k := rfl

theorem setAt_setAt (G : PKHash → Account) (h : PKHash) (g f : Account → Account) :
    setAt (setAt G h g) h f = setAt G h (fun a => f (g a)) := by
  funext k
  simp only [setAt_apply]
  split_ifs <;> rfl

/-- The gas block of `handleTsf`, when it succeeds, moves the fee from the
sender to the producer. -/
theorem tsfChargeGas_ledger (env : Env) {producer sender : PKHash} {tx : Transfer}
    {ws : WorkingSet} {gl : Nat} (hs : ws.cachedAccount sender)
    (hp : ws.cachedAccount producer)
    (hok : (tsfChargeGas producer tx sender ws gl).err = none) :
    (tsfChargeGas producer tx sender ws gl).ws.ledger env =
        gasEffect producer sender (tx.fee true) (ws.ledger env) ∧
      ∀ k, ws.cachedAccount k → (tsfChargeGas producer tx sender ws gl).ws.cachedAccount k := by
  unfold tsfChargeGas at hok ⊢
  cases hg : tx.intrinsicGas with
  | none => rw [hg] at hok; cases hok
  | some gas =>
    rw [hg] at hok
    simp only at hok ⊢
    unfold Account.SubBalance Account.AddBalance at hok ⊢
    simp only at hok ⊢
    split_ifs at hok ⊢ with h1 h2
    have hp1 : (ws.setAccount sender
        { ws.account sender with balance := (ws.account sender).balance - tx.gasPrice * gas }
        ).cachedAccount producer := cachedAccount_setAccount hp _ _
    refine ⟨?_, fun k hk => cachedAccount_setAccount (cachedAccount_setAccount hk _ _) _ _⟩
    rw [ledger_setAccount env hp1 (Account.credit (tx.fee true)) (by
        simp [Account.credit, Transfer.fee, hg]),
      ledger_setAccount env hs (Account.credit (-(tx.fee true))) (by
        simp [Account.credit, Transfer.fee, hg, sub_eq_add_neg])]
    rfl

theorem ledger_bump (env : Env) {ws : WorkingSet} {h : PKHash} (hc : ws.cachedAccount h)
    (n : Nat) :
    (if n > (ws.account h).nonce then ws.setAccount h { ws.account h with nonce := n }
      else ws).ledger env = setAt (ws.ledger env) h (Account.bump n) ∧
    ∀ k, ws.cachedAccount k →
      (if n > (ws.account h).nonce then ws.setAccount h { ws.account h with nonce := n }
        else ws).cachedAccount k := by
  split_ifs with hn
  · exact ⟨ledger_setAccount env hc (Account.bump n) (by simp [Account.bump, hn]),
      fun k hk => cachedAccount_setAccount hk _ _⟩
  · refine ⟨?_, fun k hk => hk⟩
    funext k
    rw [setAt_apply]
    split_ifs with hk
    · subst hk
      rw [ledger_cached env hc]
      simp [Account.bump, hn]
    · rfl

/-- The weight update that follows a change of balance, in terms of the ledger;
`sign` is the update of the weight the code performs. -/
theorem ledger_shiftWeight (env : Env) {ws : WorkingSet} {h : PKHash} (self : String) (x : Int)
    (hc : ws.cachedAccount h) {ws' : WorkingSet} {hv : PKHash}
    (hcond : (ws.account h).votee ≠ "" ∧ (ws.account h).votee ≠ self)
    (hl : ws.LoadOrCreateAccountState env (ws.account h).votee 0 = .ok (hv, ws'))
    {a : Account} (ha : a = Account.addWeight x (ws'.account hv)) :
    (ws'.setAccount hv a).ledger env = shiftWeight env self h x (ws.ledger env) ∧
      ∀ k, ws.cachedAccount k → (ws'.setAccount hv a).cachedAccount k := by
  obtain ⟨h1, h2, h3, h4⟩ := ledger_load hl
  refine ⟨?_, fun k hk => cachedAccount_setAccount (h4 k hk) _ _⟩
  rw [ledger_setAccount env h3 (Account.addWeight x) ha, h1]
  unfold shiftWeight delegate
  rw [ledger_cached env hc, if_pos hcond, h2]

theorem ledger_shiftWeight_none (env : Env) {ws : WorkingSet} {h : PKHash} (self : String)
    (x : Int) (hc : ws.cachedAccount h)
    (hcond : ¬ ((ws.account h).votee ≠ "" ∧ (ws.account h).votee ≠ self)) :
    ws.ledger env = shiftWeight env self h x (ws.ledger env) := by
  unfold shiftWeight delegate
  rw [ledger_cached env hc, if_neg hcond]

/-- The debit block of `handleTsf`, when it succeeds, in terms of the ledger. -/
theorem tsfDebit_ledger (env : Env) {tx : Transfer} {sender : PKHash} {ws : WorkingSet}
    {gl : Nat} (hs : ws.cachedAccount sender)
    (hok : (tsfDebit env tx sender ws gl).err = none) :
    (tsfDebit env tx sender ws gl).ws.ledger env =
        shiftWeight env tx.sender sender (-tx.amount)
          (setAt (setAt (ws.ledger env) sender (Account.credit (-tx.amount))) sender
            (Account.bump tx.nonce)) ∧
      ∀ k, ws.cachedAccount k → (tsfDebit env tx sender ws gl).ws.cachedAccount k := by
  unfold tsfDebit at hok ⊢
  unfold Account.SubBalance at hok ⊢
  by_cases h1 : tx.amount > (ws.account sender).balance
  · rw [if_pos h1] at hok; cases hok
  · rw [if_neg h1] at hok ⊢
    simp only at hok ⊢
    have hc1 : (ws.setAccount sender
        { ws.account sender with balance := (ws.account sender).balance - tx.amount }
        ).cachedAccount sender := cachedAccount_setAccount hs _ _
    have hl1 := ledger_setAccount env hs (Account.credit (-tx.amount))
      (show ({ ws.account sender with balance := (ws.account sender).balance - tx.amount }
        : Account) = _ by simp [Account.credit, sub_eq_add_neg])
    obtain ⟨hl2, hk2⟩ := ledger_bump env hc1 tx.nonce
    rw [hl1] at hl2
    generalize (if tx.nonce > ((ws.setAccount sender
        { ws.account sender with balance := (ws.account sender).balance - tx.amount }
        ).account sender).nonce then
        (ws.setAccount sender
          { ws.account sender with balance := (ws.account sender).balance - tx.amount }
          ).setAccount sender
          { (ws.setAccount sender
            { ws.account sender with balance := (ws.account sender).balance - tx.amount }
            ).account sender with nonce := tx.nonce }
      else ws.setAccount sender
        { ws.account sender with balance := (ws.account sender).balance - tx.amount }) = ws2
      at hok hl2 hk2 ⊢
    have hc2 : ws2.cachedAccount sender := hk2 _ hc1
    have hk02 : ∀ k, ws.cachedAccount k → ws2.cachedAccount k :=
      fun k hk => hk2 k (cachedAccount_setAccount hk _ _)
    rw [← hl2]
    split_ifs at hok ⊢ with hcond
    · cases hl : ws2.LoadOrCreateAccountState env (ws2.account sender).votee 0 with
      | error e => rw [hl] at hok; cases hok
      | ok p =>
        obtain ⟨hv, ws3⟩ := p
        simp only
        obtain ⟨g1, g2⟩ := ledger_shiftWeight env tx.sender (-tx.amount) hc2 hcond hl
          (show ({ ws3.account hv with
            votingWeight := (ws3.account hv).votingWeight - tx.amount } : Account) = _ by
            simp [Account.addWeight, sub_eq_add_neg])
        exact ⟨g1, fun k hk => g2 k (hk02 k hk)⟩
    · exact ⟨ledger_shiftWeight_none env tx.sender (-tx.amount) hc2 hcond, hk02⟩

/-- The recipient part of `handleTsf`, when it succeeds, in terms of the ledger. -/
theorem tsfRecipient_ledger (env : Env) {tx : Transfer} {ws : WorkingSet} {gl : Nat}
    (hok : (tsfRecipient env tx ws gl).err = none) :
    (tsfRecipient env tx ws gl).ws.ledger env = recipientEffect env tx (ws.ledger env) ∧
      ∀ k, ws.cachedAccount k → (tsfRecipient env tx ws gl).ws.cachedAccount k := by
  unfold tsfRecipient at hok ⊢
  cases hl : ws.LoadOrCreateAccountState env tx.recipient 0 with
  | error e => rw [hl] at hok; cases hok
  | ok p =>
    obtain ⟨hr, ws1⟩ := p
    rw [hl] at hok
    obtain ⟨l1, l2, l3, l4⟩ := ledger_load hl
    unfold Account.AddBalance at hok ⊢
    simp only at hok ⊢
    have hc2 : (ws1.setAccount hr
        { ws1.account hr with balance := (ws1.account hr).balance + tx.amount }
        ).cachedAccount hr := cachedAccount_setAccount l3 _ _
    have hl2 := ledger_setAccount env l3 (Account.credit tx.amount)
      (show ({ ws1.account hr with balance := (ws1.account hr).balance + tx.amount }
        : Account) = _ from rfl)
    rw [l1] at hl2
    have hk02 : ∀ k, ws.cachedAccount k → (ws1.setAccount hr
        { ws1.account hr with balance := (ws1.account hr).balance + tx.amount }
        ).cachedAccount k := fun k hk => cachedAccount_setAccount (l4 k hk) _ _
    generalize ws1.setAccount hr
        { ws1.account hr with balance := (ws1.account hr).balance + tx.amount } = ws2
      at hok hl2 hc2 hk02 ⊢
    unfold recipientEffect
    rw [l2]
    simp only
    rw [← hl2]
    split_ifs at hok ⊢ with hcond
    · cases hl3 : ws2.LoadOrCreateAccountState env (ws2.account hr).votee 0 with
      | error e => rw [hl3] at hok; cases hok
      | ok p =>
        obtain ⟨hv, ws3⟩ := p
        simp only
        obtain ⟨g1, g2⟩ := ledger_shiftWeight env tx.recipient tx.amount hc2 hcond hl3
          (show ({ ws3.account hv with
            votingWeight := (ws3.account hv).votingWeight + tx.amount } : Account) = _ from rfl)
        exact ⟨g1, fun k hk => g2 k (hk02 k hk)⟩
    · exact ⟨ledger_shiftWeight_none env tx.recipient tx.amount hc2 hcond, hk02⟩

/-- The sender part of `handleTsf`, when it succeeds, in terms of the ledger. -/
theorem tsfSender_ledger (env : Env) {producer : PKHash} {tx : Transfer} {ws : WorkingSet}
    {gl : Nat} {e : Bool} (hp : e = true → ws.cachedAccount producer)
    (hok : (tsfSender env producer tx ws gl e).err = none) :
    (tsfSender env producer tx ws gl e).ws.ledger env =
        senderEffect env producer tx e (ws.ledger env) ∧
      ∀ k, ws.cachedAccount k → (tsfSender env producer tx ws gl e).ws.cachedAccount k := by
  unfold tsfSender at hok ⊢
  cases hl : ws.LoadOrCreateAccountState env tx.sender 0 with
  | error err => rw [hl] at hok; cases hok
  | ok p =>
    obtain ⟨hs, ws1⟩ := p
    rw [hl] at hok
    obtain ⟨l1, l2, l3, l4⟩ := ledger_load hl
    unfold senderEffect
    rw [l2]
    simp only at hok ⊢
    cases e with
    | false =>
      simp only [Bool.false_eq_true, if_false] at hok ⊢
      obtain ⟨g1, g2⟩ := tsfDebit_ledger env l3 hok
      rw [l1] at g1
      exact ⟨g1, fun k hk => g2 k (l4 k hk)⟩
    | true =>
      simp only [if_true] at hok ⊢
      cases hg : (tsfChargeGas producer tx hs ws1 gl).err with
      | some err => rw [hg] at hok; exact absurd hok (by rw [hg]; simp)
      | none =>
        rw [hg] at hok
        simp only at hok ⊢
        obtain ⟨c1, c2⟩ := tsfChargeGas_ledger env l3 (l4 _ (hp rfl)) hg
        obtain ⟨g1, g2⟩ := tsfDebit_ledger env (c2 _ l3) hok
        rw [c1, l1] at g1
        exact ⟨g1, fun k hk => g2 k (c2 k (l4 k hk))⟩

/-- One iteration of the loop of `handleTsf`, when it succeeds, in terms of the
ledger. -/
theorem tsfStep_ledger (env : Env) {producer : PKHash} {tx : Transfer} {ws : WorkingSet}
    {gl : Nat} {e : Bool} (hp : e = true → ws.cachedAccount producer)
    (hok : (tsfStep env producer tx ws gl e).err = none) :
    (tsfStep env producer tx ws gl e).ws.ledger env =
        tsfEffect env producer tx e (ws.ledger env) ∧
      ∀ k, ws.cachedAccount k → (tsfStep env producer tx ws gl e).ws.cachedAccount k := by
  unfold tsfStep at hok ⊢
  unfold tsfEffect
  cases hc : tx.isContract with
  | true =>
    simp only [if_true]
    exact ⟨trivial, fun k hk => hk⟩
  | false =>
    rw [hc] at hok
    simp only [Bool.false_eq_true, if_false] at hok ⊢
    cases hb : tx.isCoinbase with
    | false =>
      rw [hb] at hok
      simp only [Bool.not_false, if_true] at hok ⊢
      cases hg : (tsfSender env producer tx ws gl e).err with
      | some err =>
        simp only [hg] at hok
        cases hok
      | none =>
        simp only [hg] at hok ⊢
        obtain ⟨c1, c2⟩ := tsfSender_ledger env hp hg
        obtain ⟨g1, g2⟩ := tsfRecipient_ledger env hok
        rw [c1] at g1
        exact ⟨g1, fun k hk => g2 k (c2 k hk)⟩
    | true =>
      rw [hb] at hok
      simp only [Bool.not_true, Bool.false_eq_true, if_false] at hok ⊢
      exact tsfRecipient_ledger env hok

/-- The effect of a list of transfers on the ledger. -/
theorem handleTsf_ledger (env : Env) (producer : PKHash) (e : Bool) (tsfs : List Transfer) :
    ∀ (ws : WorkingSet) (gl : Nat), (e = true → ws.cachedAccount producer) →
      (handleTsf env producer tsfs ws gl e).err = none →
      (handleTsf env producer tsfs ws gl e).ws.ledger env =
          tsfs.foldl (fun G tx => tsfEffect env producer tx e G) (ws.ledger env) ∧
        ∀ k, ws.cachedAccount k → (handleTsf env producer tsfs ws gl e).ws.cachedAccount k := by
  induction tsfs with
  | nil => intro ws gl _ _; exact ⟨rfl, fun k hk => hk⟩
  | cons tx rest ih =>
    intro ws gl hp hok
    rw [handleTsf] at hok ⊢
    cases hg : (tsfStep env producer tx ws gl e).err with
    | some err =>
      simp only [hg] at hok
      cases hok
    | none =>
      simp only [hg] at hok ⊢
      obtain ⟨c1, c2⟩ := tsfStep_ledger env hp hg
      obtain ⟨g1, g2⟩ := ih _ _ (fun he => c2 _ (hp he)) hok
      rw [c1] at g1
      exact ⟨g1, fun k hk => g2 k (c2 k hk)⟩

/-- The gas block of `handleVote`, when it succeeds, moves the fee from the
voter to the producer. -/
theorem voteChargeGas_ledger (env : Env) {producer voteFrom : PKHash} {v : Vote}
    {ws : WorkingSet} {gl : Nat} (hs : ws.cachedAccount voteFrom)
    (hp : ws.cachedAccount producer)
    (hok : (voteChargeGas producer v voteFrom ws gl).err = none) :
    (voteChargeGas producer v voteFrom ws gl).ws.ledger env =
        gasEffect producer voteFrom v.fee (ws.ledger env) ∧
      ∀ k, ws.cachedAccount k →
        (voteChargeGas producer v voteFrom ws gl).ws.cachedAccount k := by
  unfold voteChargeGas at hok ⊢
  cases hg : v.intrinsicGas with
  | none => rw [hg] at hok; cases hok
  | some gas =>
    rw [hg] at hok
    simp only at hok ⊢
    unfold Account.SubBalance Account.AddBalance at hok ⊢
    simp only at hok ⊢
    split_ifs at hok ⊢ with h1 h2
    have hp1 : (ws.setAccount voteFrom
        { ws.account voteFrom with balance := (ws.account voteFrom).balance - v.gasPrice * gas }
        ).cachedAccount producer := cachedAccount_setAccount hp _ _
    refine ⟨?_, fun k hk => cachedAccount_setAccount (cachedAccount_setAccount hk _ _) _ _⟩
    rw [ledger_setAccount env hp1 (Account.credit v.fee) (by
        simp [Account.credit, Vote.fee, hg]),
      ledger_setAccount env hs (Account.credit (-v.fee)) (by
        simp [Account.credit, Vote.fee, hg, sub_eq_add_neg])]
    rfl

theorem voteNonce_ledger (env : Env) {v : Vote} {voteFrom : PKHash} {ws : WorkingSet}
    (hc : ws.cachedAccount voteFrom) :
    (voteNonce v voteFrom ws).ledger env = setAt (ws.ledger env) voteFrom (Account.bump v.nonce) ∧
      ∀ k, ws.cachedAccount k → (voteNonce v voteFrom ws).cachedAccount k :=
  ledger_bump env hc v.nonce

theorem voteOldVotee_ledger (env : Env) {v : Vote} {voteFrom : PKHash} {ws : WorkingSet}
    {gl : Nat} (hc : ws.cachedAccount voteFrom)
    (hok : (voteOldVotee env v voteFrom ws gl).err = none) :
    (voteOldVotee env v voteFrom ws gl).ws.ledger env =
        oldVoteeEffect env v voteFrom (ws.ledger env) ∧
      ∀ k, ws.cachedAccount k → (voteOldVotee env v voteFrom ws gl).ws.cachedAccount k := by
  unfold voteOldVotee at hok ⊢
  unfold oldVoteeEffect delegate
  rw [ledger_cached env hc]
  split_ifs at hok ⊢ with hcond
  · cases hl : ws.LoadOrCreateAccountState env (ws.account voteFrom).votee 0 with
    | error e => rw [hl] at hok; cases hok
    | ok p =>
      obtain ⟨ho, ws1⟩ := p
      obtain ⟨l1, l2, l3, l4⟩ := ledger_load hl
      have hacc : ws1.account voteFrom = ws.account voteFrom := by
        rw [← ledger_cached env (l4 _ hc), l1, ledger_cached env hc]
      simp only [l2]
      refine ⟨?_, fun k hk =>
        cachedAccount_setAccount (cachedAccount_setAccount (l4 k hk) _ _) _ _⟩
      rw [ledger_setAccount env (cachedAccount_setAccount (l4 _ hc) _ _)
          (fun a => { a with votee := "" }) rfl,
        ledger_setAccount env l3 (Account.addWeight (-(ws.account voteFrom).balance)) (by
          simp [Account.addWeight, sub_eq_add_neg, hacc]), l1]
  · exact ⟨rfl, fun k hk => hk⟩

theorem selfNominate_ledger (env : Env) (blockHeight : Nat) (v : Vote)
    (voteFrom voterPKHash : PKHash) {ws : WorkingSet} (hc : ws.cachedAccount voteFrom) :
    (selfNominate blockHeight v voteFrom voterPKHash ws).ledger env =
      setAt (ws.ledger env) voteFrom
        (fun a => { a with votee := v.voter, isCandidate := true }) := by
  have key : ∀ (w : WorkingSet) c, ({ w with cachedCandidates := c } : WorkingSet).ledger env =
      w.ledger env := fun _ _ => rfl
  have h2 : ((ws.setAccount voteFrom { ws.account voteFrom with votee := v.voter }).setAccount
      voteFrom { (ws.setAccount voteFrom { ws.account voteFrom with votee := v.voter }).account
        voteFrom with isCandidate := true }).ledger env =
      setAt (ws.ledger env) voteFrom
        (fun a => { a with votee := v.voter, isCandidate := true }) := by
    rw [ledger_setAccount env (cachedAccount_setAccount hc _ _)
        (fun a => { a with isCandidate := true }) rfl,
      ledger_setAccount env hc (fun a => { a with votee := v.voter }) rfl, setAt_setAt]
  unfold selfNominate
  dsimp only
  split
  · exact h2
  · rw [key]; exact h2

theorem voteNewVotee_ledger (env : Env) {blockHeight : Nat} {v : Vote}
    {voteFrom voterPKHash : PKHash} {ws : WorkingSet} {gl : Nat}
    (hc : ws.cachedAccount voteFrom)
    (hok : (voteNewVotee env blockHeight v voteFrom voterPKHash ws gl).err = none) :
    (voteNewVotee env blockHeight v voteFrom voterPKHash ws gl).ws.ledger env =
        newVoteeEffect env v voteFrom (ws.ledger env) ∧
      ∀ k, ws.cachedAccount k →
        (voteNewVotee env blockHeight v voteFrom voterPKHash ws gl).ws.cachedAccount k := by
  unfold voteNewVotee at hok ⊢
  unfold newVoteeEffect
  by_cases h0 : v.votee = ""
  · rw [if_pos h0, if_pos h0]
    exact ⟨ledger_setAccount env hc (fun a => { a with isCandidate := false }) rfl,
      fun k hk => cachedAccount_setAccount hk _ _⟩
  · rw [if_neg h0] at hok
    rw [if_neg h0, if_neg h0]
    cases hl : ws.LoadOrCreateAccountState env v.votee 0 with
    | error e => rw [hl] at hok; cases hok
    | ok p =>
      obtain ⟨ht, ws1⟩ := p
      obtain ⟨l1, l2, l3, l4⟩ := ledger_load hl
      have hacc : ws1.account voteFrom = ws.account voteFrom := by
        rw [← ledger_cached env (l4 _ hc), l1, ledger_cached env hc]
      simp only [l2]
      by_cases hne : v.voter ≠ v.votee
      · rw [if_pos hne, if_pos hne]
        refine ⟨?_, fun k hk =>
          cachedAccount_setAccount (cachedAccount_setAccount (l4 k hk) _ _) _ _⟩
        rw [ledger_setAccount env (cachedAccount_setAccount (l4 _ hc) _ _)
            (fun a => { a with votee := v.votee }) rfl,
          ledger_setAccount env l3 (Account.addWeight ((ws.ledger env) voteFrom).balance) (by
            simp [Account.addWeight, hacc, ledger_cached env hc]), l1]
      · rw [if_neg hne, if_neg hne]
        refine ⟨?_, fun k hk => selfNominate_cached _ _ _ _ (l4 k hk)⟩
        rw [selfNominate_ledger env _ _ _ _ (l4 _ hc), l1]

theorem voteApply_ledger (env : Env) {blockHeight : Nat} {v : Vote}
    {voteFrom voterPKHash : PKHash} {ws : WorkingSet} {gl : Nat}
    (hc : ws.cachedAccount voteFrom)
    (hok : (voteApply env blockHeight v voteFrom voterPKHash ws gl).err = none) :
    (voteApply env blockHeight v voteFrom voterPKHash ws gl).ws.ledger env =
        newVoteeEffect env v voteFrom (oldVoteeEffect env v voteFrom
          (setAt (ws.ledger env) voteFrom (Account.bump v.nonce))) ∧
      ∀ k, ws.cachedAccount k →
        (voteApply env blockHeight v voteFrom voterPKHash ws gl).ws.cachedAccount k := by
  rw [voteApply_steps] at hok ⊢
  obtain ⟨n1, n2⟩ := @voteNonce_ledger env v voteFrom ws hc
  cases hg : (voteOldVotee env v voteFrom (voteNonce v voteFrom ws) gl).err with
  | some err =>
    simp only [hg] at hok
    cases hok
  | none =>
    simp only [hg] at hok ⊢
    obtain ⟨o1, o2⟩ := voteOldVotee_ledger env (n2 _ hc) hg
    obtain ⟨g1, g2⟩ := voteNewVotee_ledger env (o2 _ (n2 _ hc)) hok
    rw [o1, n1] at g1
    exact ⟨g1, fun k hk => g2 k (o2 k (n2 k hk))⟩

/-- One iteration of the loop of `handleVote`, when it succeeds, in terms of the
ledger. -/
theorem voteStep_ledger (env : Env) {producer : PKHash} {blockHeight : Nat} {v : Vote}
    {ws : WorkingSet} {gl : Nat} {e : Bool} (hp : e = true → ws.cachedAccount producer)
    (hok : (voteStep env producer blockHeight v ws gl e).err = none) :
    (voteStep env producer blockHeight v ws gl e).ws.ledger env =
        voteEffect env producer v e (ws.ledger env) ∧
      ∀ k, ws.cachedAccount k →
        (voteStep env producer blockHeight v ws gl e).ws.cachedAccount k := by
  unfold voteStep at hok ⊢
  cases hl : ws.LoadOrCreateAccountState env v.voter 0 with
  | error err => rw [hl] at hok; cases hok
  | ok p =>
    obtain ⟨hf, ws1⟩ := p
    rw [hl] at hok
    obtain ⟨l1, l2, l3, l4⟩ := ledger_load hl
    unfold voteEffect
    rw [l2]
    simp only at hok ⊢
    rw [l2] at hok
    simp only at hok
    cases e with
    | false =>
      simp only [Bool.false_eq_true, if_false] at hok ⊢
      obtain ⟨g1, g2⟩ := voteApply_ledger env l3 hok
      rw [l1] at g1
      exact ⟨g1, fun k hk => g2 k (l4 k hk)⟩
    | true =>
      simp only [if_true] at hok ⊢
      cases hg : (voteChargeGas producer v hf ws1 gl).err with
      | some err =>
        simp only [hg] at hok
        cases hok
      | none =>
        simp only [hg] at hok ⊢
        obtain ⟨c1, c2⟩ := voteChargeGas_ledger env l3 (l4 _ (hp rfl)) hg
        obtain ⟨g1, g2⟩ := voteApply_ledger env (c2 _ l3) hok
        rw [c1, l1] at g1
        exact ⟨g1, fun k hk => g2 k (c2 k (l4 k hk))⟩

/-- The effect of a list of votes on the ledger. -/
theorem handleVote_ledger (env : Env) (producer : PKHash) (blockHeight : Nat) (e : Bool)
    (votes : List Vote) :
    ∀ (ws : WorkingSet) (gl : Nat), (e = true → ws.cachedAccount producer) →
      (handleVote env producer blockHeight votes ws gl e).err = none →
      (handleVote env producer blockHeight votes ws gl e).ws.ledger env =
          votes.foldl (fun G v => voteEffect env producer v e G) (ws.ledger env) ∧
        ∀ k, ws.cachedAccount k →
          (handleVote env producer blockHeight votes ws gl e).ws.cachedAccount k := by
  induction votes with
  | nil => intro ws gl _ _; exact ⟨rfl, fun k hk => hk⟩
  | cons v rest ih =>
    intro ws gl hp hok
    rw [handleVote] at hok ⊢
    cases hg : (voteStep env producer blockHeight v ws gl e).err with
    | some err =>
      simp only [hg] at hok
      cases hok
    | none =>
      simp only [hg] at hok ⊢
      obtain ⟨c1, c2⟩ := voteStep_ledger env hp hg
      obtain ⟨g1, g2⟩ := ih _ _ (fun he => c2 _ (hp he)) hok
      rw [c1] at g1
      exact ⟨g1, fun k hk => g2 k (c2 k hk)⟩

/-! ## The fields of the accounts under the effects -/

theorem setAt_keep {α : Type} (π : Account → α) (G : PKHash → Account) (h : PKHash)
    (g : Account → Account) (hg : ∀ a, π (g a) = π a) (k : PKHash) :
    π (setAt G h g k) = π (G k) := by
  rw [setAt_apply]
  split_ifs with hk
  · subst hk; exact hg _
  · rfl

theorem shiftWeight_keep {α : Type} (π : Account → α)
    (hπ : ∀ x a, π (Account.addWeight x a) = π a) (env : Env) (self : String) (h : PKHash)
    (x : Int) (G : PKHash → Account) (k : PKHash) :
    π (shiftWeight env self h x G k) = π (G k) := by
  unfold shiftWeight
  cases delegate env self (G h) with
  | some hv => exact setAt_keep π _ _ _ (hπ x) k
  | none => rfl

theorem gasEffect_keep {α : Type} (π : Account → α)
    (hπ : ∀ x a, π (Account.credit x a) = π a) (producer payer : PKHash) (fee : Int)
    (G : PKHash → Account) (k : PKHash) :
    π (gasEffect producer payer fee G k) = π (G k) := by
  unfold gasEffect
  rw [setAt_keep π _ _ _ (hπ fee), setAt_keep π _ _ _ (hπ (-fee))]

theorem gasIf_keep {α : Type} (π : Account → α)
    (hπ : ∀ x a, π (Account.credit x a) = π a) (producer payer : PKHash) (fee : Int)
    (e : Bool) (G : PKHash → Account) (k : PKHash) :
    π ((if e = true then gasEffect producer payer fee G else G) k) = π (G k) := by
  split_ifs
  · exact gasEffect_keep π hπ _ _ _ _ _
  · rfl

theorem bump_nonce (n : Nat) (a : Account) : (Account.bump n a).nonce = max a.nonce n := by
  unfold Account.bump
  split_ifs with h
  · exact (max_eq_right (Nat.le_of_lt h)).symm
  · exact (max_eq_left (Nat.le_of_not_lt h)).symm

theorem bump_keep {α : Type} (π : Account → α) (hπ : ∀ n a, π { a with nonce := n } = π a)
    (n : Nat) (a : Account) : π (Account.bump n a) = π a := by
  unfold Account.bump
  split_ifs
  · exact hπ n a
  · rfl

theorem recipientEffect_keep {α : Type} (π : Account → α)
    (hc : ∀ x a, π (Account.credit x a) = π a) (hw : ∀ x a, π (Account.addWeight x a) = π a)
    (env : Env) (tx : Transfer) (G : PKHash → Account) (k : PKHash) :
    π (recipientEffect env tx G k) = π (G k) := by
  unfold recipientEffect
  cases env.AddressToPKHash tx.recipient with
  | none => rfl
  | some hr =>
    simp only
    rw [shiftWeight_keep π hw, setAt_keep π _ _ _ (hc _)]

theorem senderEffect_keep {α : Type} (π : Account → α)
    (hc : ∀ x a, π (Account.credit x a) = π a) (hw : ∀ x a, π (Account.addWeight x a) = π a)
    (hn : ∀ n a, π { a with nonce := n } = π a)
    (env : Env) (producer : PKHash) (tx : Transfer) (e : Bool) (G : PKHash → Account)
    (k : PKHash) :
    π (senderEffect env producer tx e G k) = π (G k) := by
  unfold senderEffect
  cases env.AddressToPKHash tx.sender with
  | none => rfl
  | some hs =>
    simp only
    rw [shiftWeight_keep π hw, setAt_keep π _ _ _ (bump_keep π hn _),
      setAt_keep π _ _ _ (hc _), gasIf_keep π hc]

theorem tsfEffect_keep {α : Type} (π : Account → α)
    (hc : ∀ x a, π (Account.credit x a) = π a) (hw : ∀ x a, π (Account.addWeight x a) = π a)
    (hn : ∀ n a, π { a with nonce := n } = π a)
    (env : Env) (producer : PKHash) (tx : Transfer) (e : Bool) (G : PKHash → Account)
    (k : PKHash) :
    π (tsfEffect env producer tx e G k) = π (G k) := by
  unfold tsfEffect
  split_ifs
  · rfl
  · rw [recipientEffect_keep π hc hw, senderEffect_keep π hc hw hn]
  · rw [recipientEffect_keep π hc hw]

theorem senderEffect_nonce (env : Env) (producer : PKHash) (tx : Transfer) (e : Bool)
    (G : PKHash → Account) (k : PKHash) :
    (senderEffect env producer tx e G k).nonce =
      if tx.sentBy env k = true then max (G k).nonce tx.nonce else (G k).nonce := by
  unfold senderEffect Transfer.sentBy
  cases hd : env.AddressToPKHash tx.sender with
  | none => simp
  | some hs =>
    simp only
    rw [shiftWeight_keep Account.nonce (fun _ _ => rfl), setAt_apply]
    by_cases hk : k = hs
    · subst hk
      simp only [if_true, decide_True]
      rw [bump_nonce, setAt_keep Account.nonce _ _ (Account.credit _) (fun _ => rfl),
        gasIf_keep Account.nonce (fun _ _ => rfl)]
    · have hk' : ¬ (some hs = some k) := fun h => hk (Option.some.inj h).symm
      simp only [hk, if_false, hk', decide_False, Bool.false_eq_true]
      rw [setAt_keep Account.nonce _ _ (Account.credit _) (fun _ => rfl),
        gasIf_keep Account.nonce (fun _ _ => rfl)]

theorem tsfEffect_nonce (env : Env) (producer : PKHash) (tx : Transfer) (e : Bool)
    (G : PKHash → Account) (k : PKHash) :
    (tsfEffect env producer tx e G k).nonce =
      if tx.charged = true ∧ tx.sentBy env k = true then max (G k).nonce tx.nonce
      else (G k).nonce := by
  unfold tsfEffect Transfer.charged
  cases tx.isContract <;> cases tx.isCoinbase <;>
    simp [recipientEffect_keep Account.nonce (fun _ _ => rfl) (fun _ _ => rfl),
      senderEffect_nonce]

theorem maxNonce_cons (n a : Nat) (l : List Nat) : maxNonce n (a :: l) = maxNonce (max n a) l :=
  rfl

theorem foldl_tsfEffect_nonce (env : Env) (producer : PKHash) (e : Bool) (k : PKHash)
    (tsfs : List Transfer) : ∀ G : PKHash → Account,
    (tsfs.foldl (fun G tx => tsfEffect env producer tx e G) G k).nonce =
      maxNonce (G k).nonce
        ((tsfs.filter (fun tx => tx.charged && tx.sentBy env k)).map Transfer.nonce) := by
  induction tsfs with
  | nil => intro G; rfl
  | cons tx rest ih =>
    intro G
    rw [List.foldl_cons, ih, tsfEffect_nonce, List.filter_cons]
    by_cases h : tx.charged = true ∧ tx.sentBy env k = true
    · rw [if_pos h]
      have : (tx.charged && tx.sentBy env k) = true := by simp [h.1, h.2]
      rw [this, if_pos rfl, List.map_cons, maxNonce_cons]
    · rw [if_neg h]
      have : (tx.charged && tx.sentBy env k) = false := by
        rw [Bool.and_eq_false_iff]
        by_cases h1 : tx.charged = true
        · right
          exact Bool.eq_false_iff.mpr (fun h2 => h ⟨h1, h2⟩)
        · left
          exact Bool.eq_false_iff.mpr h1
      rw [this]
      rfl

theorem oldVoteeEffect_keep {α : Type} (π : Account → α)
    (hw : ∀ x a, π (Account.addWeight x a) = π a) (hv : ∀ s a, π { a with votee := s } = π a)
    (env : Env) (v : Vote) (hf : PKHash) (G : PKHash → Account) (k : PKHash) :
    π (oldVoteeEffect env v hf G k) = π (G k) := by
  unfold oldVoteeEffect
  cases delegate env v.voter (G hf) with
  | none => rfl
  | some ho =>
    simp only
    rw [setAt_keep π _ _ (fun a => { a with votee := "" }) (hv ""),
      setAt_keep π _ _ _ (hw _)]

theorem newVoteeEffect_keep {α : Type} (π : Account → α)
    (hw : ∀ x a, π (Account.addWeight x a) = π a) (hv : ∀ s a, π { a with votee := s } = π a)
    (hc : ∀ b a, π { a with isCandidate := b } = π a)
    (hb : ∀ s a, π { a with votee := s, isCandidate := true } = π a)
    (env : Env) (v : Vote) (hf : PKHash) (G : PKHash → Account) (k : PKHash) :
    π (newVoteeEffect env v hf G k) = π (G k) := by
  unfold newVoteeEffect
  by_cases h0 : v.votee = ""
  · rw [if_pos h0]
    exact setAt_keep π _ _ (fun a => { a with isCandidate := false }) (hc false) k
  · rw [if_neg h0]
    cases env.AddressToPKHash v.votee with
    | none => rfl
    | some ht =>
      simp only
      by_cases hne : v.voter ≠ v.votee
      · rw [if_pos hne, setAt_keep π _ _ (fun a => { a with votee := v.votee }) (hv _),
          setAt_keep π _ _ _ (hw _)]
      · rw [if_neg hne]
        exact setAt_keep π _ _ (fun a => { a with votee := v.voter, isCandidate := true })
          (hb _) k

theorem voteEffect_nonce (env : Env) (producer : PKHash) (v : Vote) (e : Bool)
    (G : PKHash → Account) (k : PKHash) :
    (voteEffect env producer v e G k).nonce =
      if v.castBy env k = true then max (G k).nonce v.nonce else (G k).nonce := by
  unfold voteEffect Vote.castBy
  cases hd : env.AddressToPKHash v.voter with
  | none => simp
  | some hf =>
    simp only
    rw [newVoteeEffect_keep Account.nonce (fun _ _ => rfl) (fun _ _ => rfl) (fun _ _ => rfl)
        (fun _ _ => rfl),
      oldVoteeEffect_keep Account.nonce (fun _ _ => rfl) (fun _ _ => rfl), setAt_apply]
    by_cases hk : k = hf
    · subst hk
      simp only [if_true, decide_True]
      rw [bump_nonce, gasIf_keep Account.nonce (fun _ _ => rfl)]
    · have hk' : ¬ (some hf = some k) := fun h => hk (Option.some.inj h).symm
      simp only [hk, if_false, hk', decide_False, Bool.false_eq_true]
      rw [gasIf_keep Account.nonce (fun _ _ => rfl)]

theorem foldl_voteEffect_nonce (env : Env) (producer : PKHash) (e : Bool) (k : PKHash)
    (votes : List Vote) : ∀ G : PKHash → Account,
    (votes.foldl (fun G v => voteEffect env producer v e G) G k).nonce =
      maxNonce (G k).nonce ((votes.filter (Vote.castBy env k)).map Vote.nonce) := by
  induction votes with
  | nil => intro G; rfl
  | cons v rest ih =>
    intro G
    rw [List.foldl_cons, ih, voteEffect_nonce, List.filter_cons]
    by_cases h : v.castBy env k = true
    · rw [if_pos h, if_pos h, List.map_cons, maxNonce_cons]
    · rw [if_neg h, if_neg h]

/-- One iteration of the loop that raises the nonces of executors, when it
succeeds, in terms of the ledger. -/
theorem bumpExecutor_ledger (env : Env) (ws : WorkingSet) (x : Execution)
    (hok : (bumpExecutor env ws x).2 = none) :
    ∃ h, env.AddressToPKHash x.executor = some h ∧
      (bumpExecutor env ws x).1.ledger env = setAt (ws.ledger env) h (Account.bump x.nonce) := by
  unfold bumpExecutor at hok ⊢
  cases hd : env.AddressToPKHash x.executor with
  | none => rw [hd] at hok; cases hok
  | some h =>
    refine ⟨h, rfl, ?_⟩
    rw [hd] at hok
    simp only at hok ⊢
    cases hcs : ws.CachedState env h with
    | error err => rw [hcs] at hok; cases hok
    | ok p =>
      obtain ⟨state, ws1⟩ := p
      rw [hcs] at hok
      simp only at hok ⊢
      obtain ⟨hl1, hv1⟩ := view_CachedState hcs
      cases state with
      | other t => simp [stateToAccountState] at hok
      | account a =>
        simp only [stateToAccountState] at hok ⊢
        have hc1 : ws1.cachedAccount h := ⟨a, hl1⟩
        have hacc : ws1.account h = a := account_of_lookup hl1
        have hb : (if x.nonce > a.nonce then { a with nonce := x.nonce } else a) =
            Account.bump x.nonce (ws1.account h) := by rw [hacc]; rfl
        have h2 := ledger_setAccount env hc1 (Account.bump x.nonce) hb
        rw [ledger_congr hv1] at h2
        cases hp : (ws1.setAccount h
            (if x.nonce > a.nonce then { a with nonce := x.nonce } else a)).PutState env h
            (Iotex.State.account
              (if x.nonce > a.nonce then { a with nonce := x.nonce } else a)) with
        | error err => rw [hp] at hok; cases hok
        | ok ws3 =>
          simp only
          rw [ledger_congr (view_PutState hp (by simp [lookup_setAccount])), h2]

theorem bumpExecutors_nonce_eq (env : Env) (k : PKHash) (es : List Execution) :
    ∀ ws : WorkingSet, (bumpExecutors env es ws).2 = none →
      ((bumpExecutors env es ws).1.ledger env k).nonce =
        maxNonce (ws.ledger env k).nonce
          ((es.filter (Execution.runBy env k)).map Execution.nonce) := by
  induction es with
  | nil => intro ws _; rfl
  | cons x rest ih =>
    intro ws hok
    rw [bumpExecutors] at hok ⊢
    cases hb : bumpExecutor env ws x with
    | mk ws1 err =>
      rw [hb] at hok
      cases err with
      | some err => cases hok
      | none =>
        simp only at hok ⊢
        obtain ⟨h, hd, hl⟩ := bumpExecutor_ledger env ws x (by rw [hb])
        rw [hb] at hl
        simp only at hl
        rw [ih ws1 hok, hl, setAt_apply, List.filter_cons]
        by_cases hk : k = h
        · subst hk
          have : Execution.runBy env k x = true := by simp [Execution.runBy, hd]
          rw [this, if_pos rfl, if_pos rfl, List.map_cons, maxNonce_cons, bump_nonce]
        · have : ¬ Execution.runBy env k x = true := by
            simp only [Execution.runBy, hd, decide_eq_true_eq]
            exact fun h' => hk (Option.some.inj h').symm
          rw [if_neg this, if_neg hk]

theorem nonceOf_ledger (env : Env) (ws : WorkingSet) (k : PKHash) :
    nonceOf env ws k = (ws.ledger env k).nonce := by
  unfold nonceOf WorkingSet.ledger
  cases ws.view env k <;> rfl

/-! ## The nonce is the running maximum -/

/-- Claim C23: the nonce of a sender is the running maximum. For every list of
non-coinbase, non-contract transfers that `handleTsf` processes successfully,
the nonce of every account afterwards is the maximum of its nonce before the
call and the nonces of the transfers of the list it has sent, so a transfer
with a lower nonce is applied and leaves the nonce unchanged and the nonce of an
account that sent nothing is unchanged. The same holds for the voters in
`handleVote` and for the executors in the loop of `RunActions` that raises
their nonces. When gas is charged the producer pointer points into the cache. -/
theorem nonce_running_maximum (env : Env) (ws : WorkingSet) (producer : PKHash) (k : PKHash) :
    (∀ (tsfs : List Transfer) (gl : Nat) (e : Bool),
      (e = true → ws.cachedAccount producer) →
      (∀ tx ∈ tsfs, tx.isCoinbase = false ∧ tx.isContract = false) →
      (handleTsf env producer tsfs ws gl e).err = none →
      nonceOf env (handleTsf env producer tsfs ws gl e).ws k =
        maxNonce (nonceOf env ws k)
          ((tsfs.filter (Transfer.sentBy env k)).map Transfer.nonce)) ∧
    (∀ (votes : List Vote) (blockHeight gl : Nat) (e : Bool),
      (e = true → ws.cachedAccount producer) →
      (handleVote env producer blockHeight votes ws gl e).err = none →
      nonceOf env (handleVote env producer blockHeight votes ws gl e).ws k =
        maxNonce (nonceOf env ws k) ((votes.filter (Vote.castBy env k)).map Vote.nonce)) ∧
    (∀ executions : List Execution,
      (bumpExecutors env executions ws).2 = none →
      nonceOf env (bumpExecutors env executions ws).1 k =
        maxNonce (nonceOf env ws k)
          ((executions.filter (Execution.runBy env k)).map Execution.nonce)) := by
  refine ⟨?_, ?_, ?_⟩
  · intro tsfs gl e hp hall hok
    rw [nonceOf_ledger, nonceOf_ledger, (handleTsf_ledger env producer e tsfs ws gl hp hok).1,
      foldl_tsfEffect_nonce]
    congr 2
    apply List.filter_congr
    intro tx htx
    obtain ⟨h1, h2⟩ := hall tx htx
    simp [Transfer.charged, h1, h2]
  · intro votes blockHeight gl e hp hok
    rw [nonceOf_ledger, nonceOf_ledger,
      (handleVote_ledger env producer blockHeight e votes ws gl hp hok).1,
      foldl_voteEffect_nonce]
  · intro executions hok
    rw [nonceOf_ledger, nonceOf_ledger, bumpExecutors_nonce_eq env k executions ws hok]

/-- Witness of C23: alice sends a transfer with nonce 5 and then one with nonce
2; both are applied and her nonce is the maximum. -/
theorem nonce_running_maximum_witness :
    (handleTsf demoEnv [3]
        [{ demoTransfer 10 1 21 with nonce := 5 }, { demoTransfer 10 1 21 with nonce := 2 }]
        (demoWs (demoCache 1000)) 100 true).err = none ∧
      nonceOf demoEnv (handleTsf demoEnv [3]
        [{ demoTransfer 10 1 21 with nonce := 5 }, { demoTransfer 10 1 21 with nonce := 2 }]
        (demoWs (demoCache 1000)) 100 true).ws [1] =
      maxNonce (nonceOf demoEnv (demoWs (demoCache 1000)) [1])
        (([{ demoTransfer 10 1 21 with nonce := 5 },
            { demoTransfer 10 1 21 with nonce := 2 }].filter
          (Transfer.sentBy demoEnv [1])).map Transfer.nonce) :=
  ⟨by decide,
    (nonce_running_maximum demoEnv (demoWs (demoCache 1000)) [3] [1]).1 _ 100 true
      (fun _ => ⟨acct 0, rfl⟩) (by decide) (by decide)⟩

/-! ## The voting-weight effect of a transfer -/

theorem delegate_congr (env : Env) (self : String) {a b : Account} (h : a.votee = b.votee) :
    delegate env self a = delegate env self b := by
  unfold delegate
  rw [h]

theorem delegate_eq_some (env : Env) (self : String) (a : Account) (X : PKHash) :
    delegate env self a = some X ↔
      a.votee ≠ "" ∧ a.votee ≠ self ∧ env.AddressToPKHash a.votee = some X := by
  unfold delegate
  split_ifs with h
  · exact ⟨fun hd => ⟨h.1, h.2, hd⟩, fun hd => hd.2.2⟩
  · constructor
    · intro hd; cases hd
    · intro hd; exact absurd ⟨hd.1, hd.2.1⟩ h

theorem shiftWeight_weight (env : Env) (self : String) (h : PKHash) (x : Int)
    (G : PKHash → Account) (k : PKHash) :
    (shiftWeight env self h x G k).votingWeight =
      (G k).votingWeight + if delegate env self (G h) = some k then x else 0 := by
  unfold shiftWeight
  cases hd : delegate env self (G h) with
  | none => simp
  | some hv =>
    simp only [setAt_apply]
    by_cases hk : k = hv
    · subst hk; simp [Account.addWeight]
    · have : ¬ (some hv = some k) := fun h' => hk (Option.some.inj h').symm
      simp [hk, this]

theorem recipientEffect_weight (env : Env) (tx : Transfer) (G : PKHash → Account)
    {hr : PKHash} (hd : env.AddressToPKHash tx.recipient = some hr) (k : PKHash) :
    (recipientEffect env tx G k).votingWeight =
      (G k).votingWeight + if delegate env tx.recipient (G hr) = some k then tx.amount else 0 := by
  unfold recipientEffect
  rw [hd]
  simp only
  rw [shiftWeight_weight, setAt_keep Account.votingWeight _ _ (Account.credit _) (fun _ => rfl),
    delegate_congr env tx.recipient
      (setAt_keep Account.votee G hr (Account.credit tx.amount) (fun _ => rfl) hr)]

theorem senderEffect_weight (env : Env) (producer : PKHash) (tx : Transfer) (e : Bool)
    (G : PKHash → Account) {hs : PKHash} (hd : env.AddressToPKHash tx.sender = some hs)
    (k : PKHash) :
    (senderEffect env producer tx e G k).votingWeight =
      (G k).votingWeight + if delegate env tx.sender (G hs) = some k then -tx.amount else 0 := by
  have hv : ((setAt (setAt (if e = true then gasEffect producer hs (tx.fee true) G else G) hs
      (Account.credit (-tx.amount))) hs (Account.bump tx.nonce)) hs).votee = (G hs).votee := by
    rw [setAt_keep Account.votee _ _ _ (bump_keep Account.votee (fun _ _ => rfl) _),
      setAt_keep Account.votee _ _ (Account.credit _) (fun _ => rfl),
      gasIf_keep Account.votee (fun _ _ => rfl)]
  unfold senderEffect
  rw [hd]
  simp only
  rw [shiftWeight_weight, delegate_congr env tx.sender hv,
    setAt_keep Account.votingWeight _ _ _ (bump_keep Account.votingWeight (fun _ _ => rfl) _),
    setAt_keep Account.votingWeight _ _ (Account.credit _) (fun _ => rfl),
    gasIf_keep Account.votingWeight (fun _ _ => rfl)]

/-- A successful iteration of `handleTsf` on a transfer that is not a contract
transfer has decoded the recipient, and the sender unless the transfer is a
coinbase transfer. -/
theorem tsfStep_decodes {env : Env} {producer : PKHash} {tx : Transfer} {ws : WorkingSet}
    {gl : Nat} {e : Bool} (hct : tx.isContract = false)
    (hok : (tsfStep env producer tx ws gl e).err = none) :
    (∃ hr, env.AddressToPKHash tx.recipient = some hr) ∧
      (tx.isCoinbase = false → ∃ hs, env.AddressToPKHash tx.sender = some hs) := by
  have hrec : ∀ w g, (tsfRecipient env tx w g).err = none →
      ∃ hr, env.AddressToPKHash tx.recipient = some hr := by
    intro w g h
    unfold tsfRecipient at h
    cases hl : w.LoadOrCreateAccountState env tx.recipient 0 with
    | error err => rw [hl] at h; cases h
    | ok p => exact ⟨p.1, LoadOrCreate_key hl⟩
  unfold tsfStep at hok
  rw [hct] at hok
  simp only [Bool.false_eq_true, if_false] at hok
  cases hb : tx.isCoinbase with
  | true =>
    rw [hb] at hok
    simp only [Bool.not_true, Bool.false_eq_true, if_false] at hok
    exact ⟨hrec _ _ hok, fun h => by cases h⟩
  | false =>
    rw [hb] at hok
    simp only [Bool.not_false, if_true] at hok
    cases hg : (tsfSender env producer tx ws gl e).err with
    | some err =>
      simp only [hg] at hok
      cases hok
    | none =>
      simp only [hg] at hok
      refine ⟨hrec _ _ hok, fun _ => ?_⟩
      unfold tsfSender at hg
      cases hl : ws.LoadOrCreateAccountState env tx.sender 0 with
      | error err => rw [hl] at hg; cases hg
      | ok p => exact ⟨p.1, LoadOrCreate_key hl⟩

/-- Claim C21: the voting-weight effect of a transfer. When `handleTsf` has
processed the transfers `pre` and then processes the non-coinbase, non-contract
transfer `tx` successfully, the voting weight of every account `X` changes by
`d1 + d2`, where `d1` is minus the amount if the sender has a non-empty votee
different from the sender and that votee is `X` (zero otherwise) and `d2` is the
amount if the recipient has a non-empty votee different from the recipient and
that votee is `X` (zero otherwise); the votee and the candidate flag of every
account are unchanged. When gas is charged the producer pointer points into the
cache. -/
theorem transfer_weight_effect (env : Env) (ws : WorkingSet) (producer : PKHash)
    (pre : List Transfer) (tx : Transfer) (gl : Nat) (e : Bool)
    (hp : e = true → ws.cachedAccount producer)
    (hcb : tx.isCoinbase = false) (hct : tx.isContract = false)
    (hok : (handleTsf env producer (pre ++ [tx]) ws gl e).err = none) :
    ∃ hs hr, env.AddressToPKHash tx.sender = some hs ∧
      env.AddressToPKHash tx.recipient = some hr ∧
      ∀ X : PKHash,
        ((handleTsf env producer (pre ++ [tx]) ws gl e).ws.ledger env X).votingWeight =
          ((handleTsf env producer pre ws gl e).ws.ledger env X).votingWeight
            + (if ((handleTsf env producer pre ws gl e).ws.ledger env hs).votee ≠ "" ∧
                  ((handleTsf env producer pre ws gl e).ws.ledger env hs).votee ≠ tx.sender ∧
                  env.AddressToPKHash
                    ((handleTsf env producer pre ws gl e).ws.ledger env hs).votee = some X
                then -tx.amount else 0)
            + (if ((handleTsf env producer pre ws gl e).ws.ledger env hr).votee ≠ "" ∧
                  ((handleTsf env producer pre ws gl e).ws.ledger env hr).votee ≠ tx.recipient ∧
                  env.AddressToPKHash
                    ((handleTsf env producer pre ws gl e).ws.ledger env hr).votee = some X
                then tx.amount else 0) ∧
        ((handleTsf env producer (pre ++ [tx]) ws gl e).ws.ledger env X).votee =
          ((handleTsf env producer pre ws gl e).ws.ledger env X).votee ∧
        ((handleTsf env producer (pre ++ [tx]) ws gl e).ws.ledger env X).isCandidate =
          ((handleTsf env producer pre ws gl e).ws.ledger env X).isCandidate := by
  rw [handleTsf_append] at hok ⊢
  cases hpre : (handleTsf env producer pre ws gl e).err with
  | some err =>
    simp only [hpre] at hok
    cases hok
  | none =>
    simp only [hpre] at hok ⊢
    rw [handleTsf_singleton] at hok ⊢
    have hp1 := fun he => (handleTsf_ledger env producer e pre ws gl hp hpre).2 producer (hp he)
    obtain ⟨l1, _⟩ := tsfStep_ledger env hp1 hok
    obtain ⟨⟨hr, hdr⟩, hsd⟩ := tsfStep_decodes hct hok
    obtain ⟨hs, hds⟩ := hsd hcb
    refine ⟨hs, hr, hds, hdr, fun X => ?_⟩
    rw [l1]
    generalize (handleTsf env producer pre ws gl e).ws.ledger env = G
    have heff : tsfEffect env producer tx e G =
        recipientEffect env tx (senderEffect env producer tx e G) := by
      unfold tsfEffect
      simp [hcb, hct]
    rw [heff]
    refine ⟨?_, ?_, ?_⟩
    · rw [recipientEffect_weight env tx _ hdr, senderEffect_weight env producer tx e G hds,
        delegate_congr env tx.recipient
          (senderEffect_keep Account.votee (fun _ _ => rfl) (fun _ _ => rfl) (fun _ _ => rfl)
            env producer tx e G hr)]
      simp only [delegate_eq_some]
    · rw [recipientEffect_keep Account.votee (fun _ _ => rfl) (fun _ _ => rfl),
        senderEffect_keep Account.votee (fun _ _ => rfl) (fun _ _ => rfl) (fun _ _ => rfl)]
    · rw [recipientEffect_keep Account.isCandidate (fun _ _ => rfl) (fun _ _ => rfl),
        senderEffect_keep Account.isCandidate (fun _ _ => rfl) (fun _ _ => rfl)
          (fun _ _ => rfl)]

/-- Witness of C21: alice, who has voted for bob, sends 10 and then 100 to bob
with gas charged; the second transfer lowers the weight of bob by 100. -/
theorem transfer_weight_effect_witness :
    (handleTsf demoEnv [3] ([demoTransfer 10 1 21] ++ [demoTransfer 100 1 21])
        (demoWs demoRevoteCache) 100 true).err = none ∧
      ∃ hs hr, demoEnv.AddressToPKHash "io1alice" = some hs ∧
        demoEnv.AddressToPKHash "io1bob" = some hr ∧
        ((handleTsf demoEnv [3] ([demoTransfer 10 1 21] ++ [demoTransfer 100 1 21])
            (demoWs demoRevoteCache) 100 true).ws.ledger demoEnv [2]).votingWeight =
          ((handleTsf demoEnv [3] [demoTransfer 10 1 21]
            (demoWs demoRevoteCache) 100 true).ws.ledger demoEnv [2]).votingWeight
            + (if ((handleTsf demoEnv [3] [demoTransfer 10 1 21]
                    (demoWs demoRevoteCache) 100 true).ws.ledger demoEnv hs).votee ≠ "" ∧
                  ((handleTsf demoEnv [3] [demoTransfer 10 1 21]
                    (demoWs demoRevoteCache) 100 true).ws.ledger demoEnv hs).votee ≠ "io1alice" ∧
                  demoEnv.AddressToPKHash
                    ((handleTsf demoEnv [3] [demoTransfer 10 1 21]
                      (demoWs demoRevoteCache) 100 true).ws.ledger demoEnv hs).votee = some [2]
                then -100 else 0)
            + (if ((handleTsf demoEnv [3] [demoTransfer 10 1 21]
                    (demoWs demoRevoteCache) 100 true).ws.ledger demoEnv hr).votee ≠ "" ∧
                  ((handleTsf demoEnv [3] [demoTransfer 10 1 21]
                    (demoWs demoRevoteCache) 100 true).ws.ledger demoEnv hr).votee ≠ "io1bob" ∧
                  demoEnv.AddressToPKHash
                    ((handleTsf demoEnv [3] [demoTransfer 10 1 21]
                      (demoWs demoRevoteCache) 100 true).ws.ledger demoEnv hr).votee = some [2]
                then 100 else 0) :=
  ⟨by decide,
    let ⟨hs, hr, h1, h2, h3⟩ := transfer_weight_effect demoEnv (demoWs demoRevoteCache) [3]
      [demoTransfer 10 1 21] (demoTransfer 100 1 21) 100 true (fun _ => ⟨acct 0, rfl⟩) rfl rfl
      (by decide)
    ⟨hs, hr, h1, h2, (h3 [2]).1⟩⟩

/-! ## Conservation of funds -/

theorem Moves.refl (G : PKHash → Account) : Moves G G 0 :=
  ⟨∅, fun _ _ => rfl, fun K _ => by simp⟩

theorem Moves.trans {G G' G'' : PKHash → Account} {c c' : Int} (h1 : Moves G G' c)
    (h2 : Moves G' G'' c') : Moves G G'' (c + c') := by
  obtain ⟨S1, a1, b1⟩ := h1
  obtain ⟨S2, a2, b2⟩ := h2
  refine ⟨S1 ∪ S2, ?_, ?_⟩
  · intro k hk
    rw [Finset.mem_union, not_or] at hk
    rw [a2 k hk.2, a1 k hk.1]
  · intro K hK
    rw [b2 K (Finset.union_subset_right hK), b1 K (Finset.union_subset_left hK)]
    ring

theorem Moves.congr {G G' : PKHash → Account} {c c' : Int} (h : Moves G G' c) (hc : c = c') :
    Moves G G' c' := hc ▸ h

theorem Moves.setAt (G : PKHash → Account) (h : PKHash) (g : Account → Account) (x : Int)
    (hg : ∀ a, (g a).balance = a.balance + x) : Moves G (setAt G h g) x := by
  refine ⟨{h}, ?_, ?_⟩
  · intro k hk
    rw [Finset.mem_singleton] at hk
    rw [setAt_apply, if_neg hk]
  · intro K hK
    have hmem : h ∈ K := hK (Finset.mem_singleton_self h)
    rw [← Finset.add_sum_erase K _ hmem, ← Finset.add_sum_erase K (fun k => (G k).balance) hmem]
    have : ∑ k in K.erase h, (Iotex.setAt G h g k).balance = ∑ k in K.erase h, (G k).balance := by
      apply Finset.sum_congr rfl
      intro k hk
      rw [setAt_apply, if_neg (Finset.ne_of_mem_erase hk)]
    rw [this, setAt_apply, if_pos rfl, hg]
    ring

theorem Moves.keep (G : PKHash → Account) (h : PKHash) (g : Account → Account)
    (hg : ∀ a, (g a).balance = a.balance) : Moves G (Iotex.setAt G h g) 0 :=
  Moves.setAt G h g 0 (fun a => by rw [hg, add_zero])

theorem gasIf_moves (producer payer : PKHash) (fee : Int) (e : Bool) (G : PKHash → Account) :
    Moves G (if e = true then gasEffect producer payer fee G else G) 0 := by
  split_ifs
  · unfold gasEffect
    exact ((Moves.setAt G payer (Account.credit (-fee)) (-fee) (fun _ => rfl)).trans
      (Moves.setAt _ producer (Account.credit fee) fee (fun _ => rfl))).congr (by ring)
  · exact Moves.refl G

theorem shiftWeight_moves (env : Env) (self : String) (h : PKHash) (x : Int)
    (G : PKHash → Account) : Moves G (shiftWeight env self h x G) 0 := by
  unfold shiftWeight
  cases delegate env self (G h) with
  | none => exact Moves.refl G
  | some hv => exact Moves.keep G hv _ (fun _ => rfl)

theorem bump_balance (n : Nat) (a : Account) : (Account.bump n a).balance = a.balance :=
  bump_keep Account.balance (fun _ _ => rfl) n a

theorem senderEffect_moves (env : Env) (producer : PKHash) (tx : Transfer) (e : Bool)
    (G : PKHash → Account) {hs : PKHash} (hd : env.AddressToPKHash tx.sender = some hs) :
    Moves G (senderEffect env producer tx e G) (-tx.amount) := by
  unfold senderEffect
  rw [hd]
  simp only
  exact ((((gasIf_moves producer hs (tx.fee true) e G).trans
    (Moves.setAt _ hs (Account.credit (-tx.amount)) (-tx.amount) (fun _ => rfl))).trans
    (Moves.keep _ hs (Account.bump tx.nonce) (bump_balance _))).trans
    (shiftWeight_moves env tx.sender hs (-tx.amount) _)).congr (by ring)

theorem recipientEffect_moves (env : Env) (tx : Transfer) (G : PKHash → Account)
    {hr : PKHash} (hd : env.AddressToPKHash tx.recipient = some hr) :
    Moves G (recipientEffect env tx G) tx.amount := by
  unfold recipientEffect
  rw [hd]
  simp only
  exact ((Moves.setAt G hr (Account.credit tx.amount) tx.amount (fun _ => rfl)).trans
    (shiftWeight_moves env tx.recipient hr tx.amount _)).congr (by ring)

/-- A successful iteration of `handleTsf` moves funds between accounts, and
creates the amount of a coinbase transfer that is not skipped. -/
theorem tsfStep_moves (env : Env) {producer : PKHash} {tx : Transfer} {ws : WorkingSet}
    {gl : Nat} {e : Bool} (hp : e = true → ws.cachedAccount producer)
    (hok : (tsfStep env producer tx ws gl e).err = none) :
    Moves (ws.ledger env) ((tsfStep env producer tx ws gl e).ws.ledger env)
      (if tx.isCoinbase = true ∧ ¬ tx.isContract = true then tx.amount else 0) := by
  rw [(tsfStep_ledger env hp hok).1]
  cases hct : tx.isContract with
  | true =>
    unfold tsfEffect
    simp only [hct, if_true]
    exact (Moves.refl _).congr (by simp)
  | false =>
    obtain ⟨⟨hr, hdr⟩, hsd⟩ := tsfStep_decodes hct hok
    unfold tsfEffect
    cases hcb : tx.isCoinbase with
    | true =>
      simp only [hct, Bool.false_eq_true, if_false, Bool.not_true]
      exact (recipientEffect_moves env tx _ hdr).congr (by simp)
    | false =>
      obtain ⟨hs, hds⟩ := hsd hcb
      simp only [hct, Bool.false_eq_true, if_false, Bool.not_false, if_true]
      exact ((senderEffect_moves env producer tx e _ hds).trans
        (recipientEffect_moves env tx _ hdr)).congr (by simp)

theorem handleTsf_moves (env : Env) (producer : PKHash) (e : Bool) (tsfs : List Transfer) :
    ∀ (ws : WorkingSet) (gl : Nat), (e = true → ws.cachedAccount producer) →
      (handleTsf env producer tsfs ws gl e).err = none →
      Moves (ws.ledger env) ((handleTsf env producer tsfs ws gl e).ws.ledger env)
        (coinbaseTotal tsfs) := by
  induction tsfs with
  | nil => intro ws gl _ _; exact Moves.refl _
  | cons tx rest ih =>
    intro ws gl hp hok
    rw [handleTsf] at hok ⊢
    cases hg : (tsfStep env producer tx ws gl e).err with
    | some err =>
      simp only [hg] at hok
      cases hok
    | none =>
      simp only [hg] at hok ⊢
      exact (tsfStep_moves env hp hg).trans
        (ih _ _ (fun he => (tsfStep_ledger env hp hg).2 _ (hp he)) hok)

theorem voteEffect_moves (env : Env) (producer : PKHash) (v : Vote) (e : Bool)
    (G : PKHash → Account) : Moves G (voteEffect env producer v e G) 0 := by
  unfold voteEffect
  cases env.AddressToPKHash v.voter with
  | none => exact Moves.refl G
  | some hf =>
    simp only
    have h1 := (gasIf_moves producer hf v.fee e G).trans
      (Moves.keep _ hf (Account.bump v.nonce) (bump_balance _))
    have h2 : ∀ G1 : PKHash → Account, Moves G1 (oldVoteeEffect env v hf G1) 0 := by
      intro G1
      unfold oldVoteeEffect
      cases delegate env v.voter (G1 hf) with
      | none => exact Moves.refl G1
      | some ho =>
        exact ((Moves.keep G1 ho (Account.addWeight _) (fun _ => rfl)).trans
          (Moves.keep _ hf (fun a => { a with votee := "" }) (fun _ => rfl))).congr (by ring)
    have h3 : ∀ G1 : PKHash → Account, Moves G1 (newVoteeEffect env v hf G1) 0 := by
      intro G1
      unfold newVoteeEffect
      by_cases h0 : v.votee = ""
      · rw [if_pos h0]
        exact Moves.keep G1 hf (fun a => { a with isCandidate := false }) (fun _ => rfl)
      · rw [if_neg h0]
        cases env.AddressToPKHash v.votee with
        | none => exact Moves.refl G1
        | some ht =>
          simp only
          by_cases hne : v.voter ≠ v.votee
          · rw [if_pos hne]
            exact ((Moves.keep G1 ht (Account.addWeight _) (fun _ => rfl)).trans
              (Moves.keep _ hf (fun a => { a with votee := v.votee }) (fun _ => rfl))).congr
              (by ring)
          · rw [if_neg hne]
            exact Moves.keep G1 hf (fun a => { a with votee := v.voter, isCandidate := true })
              (fun _ => rfl)
    exact ((h1.trans (h2 _)).trans (h3 _)).congr (by ring)

theorem foldl_voteEffect_moves (env : Env) (producer : PKHash) (e : Bool) (votes : List Vote) :
    ∀ G : PKHash → Account,
      Moves G (votes.foldl (fun G v => voteEffect env producer v e G) G) 0 := by
  induction votes with
  | nil => intro G; exact Moves.refl G
  | cons v rest ih =>
    intro G
    rw [List.foldl_cons]
    exact ((voteEffect_moves env producer v e G).trans (ih _)).congr (by ring)

/-- Claim C25 (amended): conservation of funds. For every working set and
every list of transfers and votes, with or without gas charging, if `handleTsf`
(resp. `handleVote`) succeeds then the balances change on finitely many accounts
only, and the sum of the balances over any finite set that contains these
accounts (an account that does not exist yet counts as balance 0) equals the sum
before the call plus the total amount of the coinbase transfers of the list that
are not contract transfers, which `handleTsf` skips; for votes the sum is
unchanged. Gas fees are only moved from the payer to the producer, also when
sender, recipient and producer coincide. When gas is charged the producer
pointer points into the cache. -/
theorem funds_conserved (env : Env) (ws : WorkingSet) (producer : PKHash) (e : Bool)
    (hp : e = true → ws.cachedAccount producer) :
    (∀ (tsfs : List Transfer) (gl : Nat),
      (handleTsf env producer tsfs ws gl e).err = none →
      ∃ S : Finset PKHash,
        (∀ k, k ∉ S → ((handleTsf env producer tsfs ws gl e).ws.ledger env k).balance =
          (ws.ledger env k).balance) ∧
        ∀ K : Finset PKHash, S ⊆ K →
          ∑ k in K, ((handleTsf env producer tsfs ws gl e).ws.ledger env k).balance =
            ∑ k in K, (ws.ledger env k).balance + coinbaseTotal tsfs) ∧
    (∀ (votes : List Vote) (blockHeight gl : Nat),
      (handleVote env producer blockHeight votes ws gl e).err = none →
      ∃ S : Finset PKHash,
        (∀ k, k ∉ S →
          ((handleVote env producer blockHeight votes ws gl e).ws.ledger env k).balance =
            (ws.ledger env k).balance) ∧
        ∀ K : Finset PKHash, S ⊆ K →
          ∑ k in K, ((handleVote env producer blockHeight votes ws gl e).ws.ledger env k).balance =
            ∑ k in K, (ws.ledger env k).balance) := by
  refine ⟨?_, ?_⟩
  · intro tsfs gl hok
    exact handleTsf_moves env producer e tsfs ws gl hp hok
  · intro votes blockHeight gl hok
    rw [(handleVote_ledger env producer blockHeight e votes ws gl hp hok).1]
    obtain ⟨S, a, b⟩ := foldl_voteEffect_moves env producer e votes (ws.ledger env)
    exact ⟨S, a, fun K hK => by rw [b K hK, add_zero]⟩

/-- Witness of C25: alice pays bob 10 with gas charged to the producer, and a
coinbase transfer creates 7. -/
theorem funds_conserved_witness :
    (handleTsf demoEnv [3] [demoTransfer 10 1 21, demoCoinbase 7]
        (demoWs (demoCache 1000)) 100 true).err = none ∧
      ∃ S : Finset PKHash,
        (∀ k, k ∉ S →
          ((handleTsf demoEnv [3] [demoTransfer 10 1 21, demoCoinbase 7]
            (demoWs (demoCache 1000)) 100 true).ws.ledger demoEnv k).balance =
          ((demoWs (demoCache 1000)).ledger demoEnv k).balance) ∧
        ∀ K : Finset PKHash, S ⊆ K →
          ∑ k in K, ((handleTsf demoEnv [3] [demoTransfer 10 1 21, demoCoinbase 7]
            (demoWs (demoCache 1000)) 100 true).ws.ledger demoEnv k).balance =
            ∑ k in K, ((demoWs (demoCache 1000)).ledger demoEnv k).balance +
              coinbaseTotal [demoTransfer 10 1 21, demoCoinbase 7] :=
  ⟨by decide,
    (funds_conserved demoEnv (demoWs (demoCache 1000)) [3] true (fun _ => ⟨acct 0, rfl⟩)).1
      [demoTransfer 10 1 21, demoCoinbase 7] 100 (by decide)⟩

/-- Claim C25 as written fails: a coinbase transfer of 7 that is also a contract
transfer is skipped, so `handleTsf` succeeds and no balance changes, although
the coinbase transfers of the list amount to 7. -/
theorem handleTsf_skips_contract_coinbase :
    (handleTsf demoEnv [3] [{ demoCoinbase 7 with isContract := true }]
        (demoWs (demoCache 1000)) 100 true).err = none ∧
      coinbaseAmount [{ demoCoinbase 7 with isContract := true }] = 7 ∧
      ∀ K : Finset PKHash,
        ∑ k in K, ((handleTsf demoEnv [3] [{ demoCoinbase 7 with isContract := true }]
          (demoWs (demoCache 1000)) 100 true).ws.ledger demoEnv k).balance =
        ∑ k in K, ((demoWs (demoCache 1000)).ledger demoEnv k).balance :=
  ⟨by decide, by decide, fun _ => rfl⟩

/-! ## The delegated-weight property -/

theorem weightSum_eq_sum (env : Env) (G : PKHash → Account) (K : Finset PKHash) (X : PKHash) :
    weightSum env G K X = ∑ Y in K, contrib env (G Y) Y X := by
  unfold weightSum contrib
  rw [Finset.sum_filter]

theorem contrib_congr (env : Env) {a b : Account} (hb : a.balance = b.balance)
    (hv : a.votee = b.votee) (Y X : PKHash) : contrib env a Y X = contrib env b Y X := by
  simp only [contrib, votesFor, hb, hv]

theorem weightSum_mono (env : Env) {G : PKHash → Account} {K K' : Finset PKHash}
    (hc : Covers G K) (hK : K ⊆ K') (X : PKHash) :
    weightSum env G K' X = weightSum env G K X := by
  rw [weightSum_eq_sum, weightSum_eq_sum]
  symm
  apply Finset.sum_subset hK
  intro Y _ hY
  unfold contrib
  rw [hc Y hY]
  split_ifs <;> rfl

/-- The sums when the balances and votees change at the hash `h` only. -/
theorem weightSum_change (env : Env) {G G' : PKHash → Account} {K : Finset PKHash}
    {h : PKHash} (hmem : h ∈ K)
    (hb : ∀ k, k ≠ h → (G' k).balance = (G k).balance)
    (hv : ∀ k, k ≠ h → (G' k).votee = (G k).votee) (X : PKHash) :
    weightSum env G' K X =
      weightSum env G K X + contrib env (G' h) h X - contrib env (G h) h X := by
  rw [weightSum_eq_sum, weightSum_eq_sum,
    ← Finset.add_sum_erase K (fun Y => contrib env (G' Y) Y X) hmem,
    ← Finset.add_sum_erase K (fun Y => contrib env (G Y) Y X) hmem]
  have : ∑ Y in K.erase h, contrib env (G' Y) Y X = ∑ Y in K.erase h, contrib env (G Y) Y X := by
    apply Finset.sum_congr rfl
    intro Y hY
    have hne := Finset.ne_of_mem_erase hY
    exact contrib_congr env (hb Y hne) (hv Y hne) Y X
  rw [this]
  ring

/-- With an injective decoder, the account at the hash of `self` adds its balance
to the sum of `X` exactly when `X` is its delegate. -/
theorem contrib_eq_delegate {env : Env} (hinj : DecoderInjective env) {self : String}
    {h : PKHash} (hd : env.AddressToPKHash self = some h) (a : Account) (X : PKHash) :
    contrib env a h X = if delegate env self a = some X then a.balance else 0 := by
  unfold contrib votesFor
  have : (h ≠ X ∧ a.votee ≠ "" ∧ env.AddressToPKHash a.votee = some X) ↔
      delegate env self a = some X := by
    rw [delegate_eq_some]
    constructor
    · rintro ⟨h1, h2, h3⟩
      refine ⟨h2, ?_, h3⟩
      intro hs
      rw [hs, hd] at h3
      exact h1 (Option.some.inj h3)
    · rintro ⟨h1, h2, h3⟩
      refine ⟨?_, h1, h3⟩
      intro hX
      subst hX
      exact h2 (hinj _ _ _ h3 hd)
  by_cases hc : delegate env self a = some X
  · rw [if_pos hc, if_pos (this.mpr hc)]
  · rw [if_neg hc, if_neg (fun h' => hc (this.mp h'))]

/-- A change of the balance of one account by `x`, with the weight of its
delegate changed by `x`, keeps the delegated-weight property. -/
theorem delegated_shift {env : Env} (hinj : DecoderInjective env) {self : String} {h : PKHash}
    (hd : env.AddressToPKHash self = some h) (x : Int) {G G' : PKHash → Account}
    (hb : ∀ k, (G' k).balance = (G k).balance + if k = h then x else 0)
    (hv : ∀ k, (G' k).votee = (G k).votee)
    (hw : ∀ X, (G' X).votingWeight =
      (G X).votingWeight + if delegate env self (G h) = some X then x else 0)
    (hD : Delegated env G) : Delegated env G' := by
  obtain ⟨K, hc, hK⟩ := hD
  refine ⟨insert h K, ?_, ?_⟩
  · intro k hk
    rw [Finset.mem_insert, not_or] at hk
    rw [hb k, if_neg hk.1, add_zero, hc k hk.2]
  · intro X
    rw [weightSum_change env (Finset.mem_insert_self h K)
        (fun k hk => by rw [hb k, if_neg hk, add_zero]) (fun k _ => hv k) X,
      weightSum_mono env hc (Finset.subset_insert h K) X, ← hK X, hw X,
      contrib_eq_delegate hinj hd, contrib_eq_delegate hinj hd,
      delegate_congr env self (hv h), hb h, if_pos rfl]
    split_ifs <;> ring

/-- A change of the votee and the balance of one account, with the weights
changed by what the account adds to the sums, keeps the delegated-weight
property. -/
theorem delegated_change {env : Env} (h : PKHash) {G G' : PKHash → Account}
    (hb : ∀ k, k ≠ h → (G' k).balance = (G k).balance)
    (hv : ∀ k, k ≠ h → (G' k).votee = (G k).votee)
    (hw : ∀ X, (G' X).votingWeight =
      (G X).votingWeight + contrib env (G' h) h X - contrib env (G h) h X)
    (hD : Delegated env G) : Delegated env G' := by
  obtain ⟨K, hc, hK⟩ := hD
  refine ⟨insert h K, ?_, ?_⟩
  · intro k hk
    rw [Finset.mem_insert, not_or] at hk
    rw [hb k hk.1, hc k hk.2]
  · intro X
    rw [weightSum_change env (Finset.mem_insert_self h K) hb hv X,
      weightSum_mono env hc (Finset.subset_insert h K) X, ← hK X, hw X]

theorem delegated_congr {env : Env} {G G' : PKHash → Account}
    (hb : ∀ k, (G' k).balance = (G k).balance) (hv : ∀ k, (G' k).votee = (G k).votee)
    (hw : ∀ k, (G' k).votingWeight = (G k).votingWeight)
    (hD : Delegated env G) : Delegated env G' := by
  obtain ⟨K, hc, hK⟩ := hD
  refine ⟨K, fun k hk => by rw [hb k, hc k hk], fun X => ?_⟩
  rw [hw X, hK X, weightSum_eq_sum, weightSum_eq_sum]
  exact Finset.sum_congr rfl (fun Y _ => (contrib_congr env (hb Y) (hv Y) Y X).symm)

theorem senderEffect_balance (env : Env) (producer : PKHash) (tx : Transfer)
    (G : PKHash → Account) {hs : PKHash} (hd : env.AddressToPKHash tx.sender = some hs)
    (k : PKHash) :
    (senderEffect env producer tx false G k).balance =
      (G k).balance + if k = hs then -tx.amount else 0 := by
  unfold senderEffect
  rw [hd]
  simp only [Bool.false_eq_true, if_false]
  rw [shiftWeight_keep Account.balance (fun _ _ => rfl),
    setAt_keep Account.balance _ _ _ (bump_balance _), setAt_apply]
  split_ifs with hk
  · subst hk; rfl
  · rw [add_zero]

theorem recipientEffect_balance (env : Env) (tx : Transfer) (G : PKHash → Account)
    {hr : PKHash} (hd : env.AddressToPKHash tx.recipient = some hr) (k : PKHash) :
    (recipientEffect env tx G k).balance = (G k).balance + if k = hr then tx.amount else 0 := by
  unfold recipientEffect
  rw [hd]
  simp only
  rw [shiftWeight_keep Account.balance (fun _ _ => rfl), setAt_apply]
  split_ifs with hk
  · subst hk; rfl
  · rw [add_zero]

theorem senderEffect_delegated {env : Env} (hinj : DecoderInjective env) (producer : PKHash)
    (tx : Transfer) {G : PKHash → Account} (hD : Delegated env G) :
    Delegated env (senderEffect env producer tx false G) := by
  cases hd : env.AddressToPKHash tx.sender with
  | none =>
    unfold senderEffect
    rw [hd]
    exact hD
  | some hs =>
    exact delegated_shift hinj hd (-tx.amount) (senderEffect_balance env producer tx G hd)
      (senderEffect_keep Account.votee (fun _ _ => rfl) (fun _ _ => rfl) (fun _ _ => rfl)
        env producer tx false G)
      (senderEffect_weight env producer tx false G hd) hD

theorem recipientEffect_delegated {env : Env} (hinj : DecoderInjective env)
    (tx : Transfer) {G : PKHash → Account} (hD : Delegated env G) :
    Delegated env (recipientEffect env tx G) := by
  cases hd : env.AddressToPKHash tx.recipient with
  | none =>
    unfold recipientEffect
    rw [hd]
    exact hD
  | some hr =>
    exact delegated_shift hinj hd tx.amount (recipientEffect_balance env tx G hd)
      (recipientEffect_keep Account.votee (fun _ _ => rfl) (fun _ _ => rfl) env tx G)
      (recipientEffect_weight env tx G hd) hD

theorem tsfEffect_delegated {env : Env} (hinj : DecoderInjective env) (producer : PKHash)
    (tx : Transfer) {G : PKHash → Account} (hD : Delegated env G) :
    Delegated env (tsfEffect env producer tx false G) := by
  unfold tsfEffect
  split_ifs
  · exact hD
  · exact recipientEffect_delegated hinj tx (senderEffect_delegated hinj producer tx hD)
  · exact recipientEffect_delegated hinj tx hD

theorem foldl_tsfEffect_delegated {env : Env} (hinj : DecoderInjective env) (producer : PKHash)
    (tsfs : List Transfer) : ∀ G : PKHash → Account, Delegated env G →
    Delegated env (tsfs.foldl (fun G tx => tsfEffect env producer tx false G) G) := by
  induction tsfs with
  | nil => intro G hD; exact hD
  | cons tx rest ih =>
    intro G hD
    rw [List.foldl_cons]
    exact ih _ (tsfEffect_delegated hinj producer tx hD)

theorem contrib_no_votee (env : Env) {a : Account} (h : a.votee = "") (Y X : PKHash) :
    contrib env a Y X = 0 := by
  unfold contrib votesFor
  rw [if_neg (fun hc => hc.2.1 h)]

theorem contrib_of_delegate_none {env : Env} (hinj : DecoderInjective env) {self : String}
    {h : PKHash} (hd : env.AddressToPKHash self = some h) {a : Account}
    (hn : delegate env self a = none) (X : PKHash) : contrib env a h X = 0 := by
  rw [contrib_eq_delegate hinj hd, hn]
  simp

theorem oldVoteeEffect_delegated {env : Env} (hinj : DecoderInjective env) (v : Vote)
    {hf : PKHash} (hd : env.AddressToPKHash v.voter = some hf) {G : PKHash → Account}
    (hD : Delegated env G) :
    Delegated env (oldVoteeEffect env v hf G) ∧
      delegate env v.voter (oldVoteeEffect env v hf G hf) = none := by
  unfold oldVoteeEffect
  cases hdel : delegate env v.voter (G hf) with
  | none => exact ⟨hD, hdel⟩
  | some ho =>
    simp only
    have hval : (setAt (setAt G ho (Account.addWeight (-(G hf).balance))) hf
        (fun a => { a with votee := "" }) hf).votee = "" := by
      rw [setAt_apply, if_pos rfl]
    refine ⟨delegated_change hf ?_ ?_ ?_ hD, ?_⟩
    · intro k _
      rw [setAt_keep Account.balance _ _ (fun a => { a with votee := "" }) (fun _ => rfl),
        setAt_keep Account.balance _ _ (Account.addWeight _) (fun _ => rfl)]
    · intro k hk
      rw [setAt_apply, if_neg hk,
        setAt_keep Account.votee _ _ (Account.addWeight _) (fun _ => rfl)]
    · intro X
      rw [contrib_no_votee env hval, contrib_eq_delegate hinj hd, hdel,
        setAt_keep Account.votingWeight _ _ (fun a => { a with votee := "" }) (fun _ => rfl),
        setAt_apply]
      by_cases hX : X = ho
      · subst hX
        simp [Account.addWeight]
        ring
      · have : ¬ (some ho = some X) := fun h' => hX (Option.some.inj h').symm
        rw [if_neg hX, if_neg this]
        ring
    · unfold delegate
      rw [hval]
      simp

theorem newVoteeEffect_delegated {env : Env} (hinj : DecoderInjective env) (v : Vote)
    {hf : PKHash} (hd : env.AddressToPKHash v.voter = some hf) {G : PKHash → Account}
    (hn : delegate env v.voter (G hf) = none) (hD : Delegated env G) :
    Delegated env (newVoteeEffect env v hf G) := by
  unfold newVoteeEffect
  by_cases h0 : v.votee = ""
  · rw [if_pos h0]
    exact delegated_congr
      (setAt_keep Account.balance _ _ (fun a => { a with isCandidate := false }) (fun _ => rfl))
      (setAt_keep Account.votee _ _ (fun a => { a with isCandidate := false }) (fun _ => rfl))
      (setAt_keep Account.votingWeight _ _ (fun a => { a with isCandidate := false })
        (fun _ => rfl)) hD
  · rw [if_neg h0]
    cases hdt : env.AddressToPKHash v.votee with
    | none => exact hD
    | some ht =>
      simp only
      by_cases hne : v.voter ≠ v.votee
      · rw [if_pos hne]
        have hval : (setAt (setAt G ht (Account.addWeight (G hf).balance)) hf
            (fun a => { a with votee := v.votee }) hf).votee = v.votee := by
          rw [setAt_apply, if_pos rfl]
        have hbal : (setAt (setAt G ht (Account.addWeight (G hf).balance)) hf
            (fun a => { a with votee := v.votee }) hf).balance = (G hf).balance := by
          rw [setAt_keep Account.balance _ _ (fun a => { a with votee := v.votee })
              (fun _ => rfl),
            setAt_keep Account.balance _ _ (Account.addWeight _) (fun _ => rfl)]
        have hfht : hf ≠ ht := by
          intro h'
          subst h'
          exact hne (hinj _ _ _ hd hdt)
        refine delegated_change hf ?_ ?_ ?_ hD
        · intro k _
          rw [setAt_keep Account.balance _ _ (fun a => { a with votee := v.votee })
              (fun _ => rfl),
            setAt_keep Account.balance _ _ (Account.addWeight _) (fun _ => rfl)]
        · intro k hk
          rw [setAt_apply, if_neg hk,
            setAt_keep Account.votee _ _ (Account.addWeight _) (fun _ => rfl)]
        · intro X
          rw [contrib_of_delegate_none hinj hd hn,
            setAt_keep Account.votingWeight _ _ (fun a => { a with votee := v.votee })
              (fun _ => rfl),
            setAt_apply]
          simp only [contrib, votesFor, hval, hbal, hdt]
          by_cases hX : X = ht
          · subst hX
            rw [if_pos rfl, if_pos ⟨hfht, h0, rfl⟩]
            simp [Account.addWeight]
          · have : ¬ (some ht = some X) := fun h' => hX (Option.some.inj h').symm
            rw [if_neg hX, if_neg (fun hc => this hc.2.2)]
            ring
      · rw [if_neg hne]
        have hval : (setAt G hf (fun a => { a with votee := v.voter, isCandidate := true })
            hf).votee = v.voter := by
          rw [setAt_apply, if_pos rfl]
        refine delegated_change hf ?_ ?_ ?_ hD
        · intro k _
          exact setAt_keep Account.balance _ _
            (fun a => { a with votee := v.voter, isCandidate := true }) (fun _ => rfl) k
        · intro k hk
          rw [setAt_apply, if_neg hk]
        · intro X
          rw [contrib_of_delegate_none hinj hd hn,
            setAt_keep Account.votingWeight _ _
              (fun a => { a with votee := v.voter, isCandidate := true }) (fun _ => rfl)]
          simp only [contrib, votesFor, hval, hd]
          have : ¬ (hf ≠ X ∧ v.voter ≠ "" ∧ some hf = some X) :=
            fun hc => hc.1 (Option.some.inj hc.2.2)
          rw [if_neg this]
          ring

theorem voteEffect_delegated {env : Env} (hinj : DecoderInjective env) (producer : PKHash)
    (v : Vote) {G : PKHash → Account} (hD : Delegated env G) :
    Delegated env (voteEffect env producer v false G) := by
  unfold voteEffect
  cases hd : env.AddressToPKHash v.voter with
  | none => exact hD
  | some hf =>
    simp only [Bool.false_eq_true, if_false]
    have h0 : Delegated env (setAt G hf (Account.bump v.nonce)) :=
      delegated_congr (setAt_keep Account.balance _ _ _ (bump_balance _))
        (setAt_keep Account.votee _ _ _ (bump_keep Account.votee (fun _ _ => rfl) _))
        (setAt_keep Account.votingWeight _ _ _
          (bump_keep Account.votingWeight (fun _ _ => rfl) _)) hD
    obtain ⟨h1, h2⟩ := oldVoteeEffect_delegated hinj v hd h0
    exact newVoteeEffect_delegated hinj v hd h2 h1

theorem foldl_voteEffect_delegated {env : Env} (hinj : DecoderInjective env)
    (producer : PKHash) (votes : List Vote) : ∀ G : PKHash → Account, Delegated env G →
    Delegated env (votes.foldl (fun G v => voteEffect env producer v false G) G) := by
  induction votes with
  | nil => intro G hD; exact hD
  | cons v rest ih =>
    intro G hD
    rw [List.foldl_cons]
    exact ih _ (voteEffect_delegated hinj producer v hD)

theorem decoderInjective_demoEnv : DecoderInjective demoEnv := by
  intro s t h hs ht
  simp only [demoEnv] at hs ht
  split_ifs at hs ht <;>
    (simp only [Option.some.injEq] at hs ht
     subst hs
     first
     | exact absurd ht (by decide)
     | simp_all)

theorem ledger_demoRevote (k : PKHash) :
    (demoWs demoRevoteCache).ledger demoEnv k =
      if k = [3] then acct 0
      else if k = [2] then { acct 0 with votingWeight := 500 }
      else if k = [1] then { acct 500 with votee := "io1bob" }
      else Account.zero := by
  have h1 : demoWs demoRevoteCache =
      (((demoWs ∅).setAccount [1] { acct 500 with votee := "io1bob" }).setAccount [2]
        { acct 0 with votingWeight := 500 }).setAccount [3] (acct 0) := rfl
  unfold WorkingSet.ledger
  rw [h1, view_setAccount, view_setAccount, view_setAccount, view_demoWs_empty]
  split_ifs <;> rfl

theorem delegated_demoRevote : Delegated demoEnv ((demoWs demoRevoteCache).ledger demoEnv) := by
  refine ⟨{[1]}, ?_, ?_⟩
  · intro k hk
    rw [Finset.mem_singleton] at hk
    rw [ledger_demoRevote]
    split_ifs <;> rfl
  · intro X
    rw [weightSum_eq_sum, Finset.sum_singleton, ledger_demoRevote, ledger_demoRevote]
    simp only [contrib, votesFor, demoEnv, acct, Account.zero]
    by_cases h3 : X = [3]
    · subst h3; decide
    · by_cases h2 : X = [2]
      · subst h2; decide
      · by_cases h1 : X = [1]
        · subst h1; decide
        · have : ¬ (some [2] = some X) := fun h => h2 (Option.some.inj h).symm
          simp [h3, h2, h1, this]

/-- Claim C26: the delegated-weight invariant. With gas charging disabled,
`handleTsf` and `handleVote` keep the property that the voting weight of every
account `X` is the sum of the balances of the accounts other than `X` whose
votee is `X` (an absent account counts as balance 0, weight 0 and no votee): if
it holds before a successful call it holds after it, for every list of transfers
(coinbase or not, also with sender = recipient or votee = counterparty) and every
list of votes. The address decoder is assumed to map different addresses to
different hashes. -/
theorem delegated_weight_preserved (env : Env) (hinj : DecoderInjective env)
    (ws : WorkingSet) (producer : PKHash) (hD : Delegated env (ws.ledger env)) :
    (∀ (tsfs : List Transfer) (gl : Nat),
      (handleTsf env producer tsfs ws gl false).err = none →
      Delegated env ((handleTsf env producer tsfs ws gl false).ws.ledger env)) ∧
    (∀ (votes : List Vote) (blockHeight gl : Nat),
      (handleVote env producer blockHeight votes ws gl false).err = none →
      Delegated env ((handleVote env producer blockHeight votes ws gl false).ws.ledger env)) := by
  refine ⟨?_, ?_⟩
  · intro tsfs gl hok
    rw [(handleTsf_ledger env producer false tsfs ws gl (fun h => by cases h) hok).1]
    exact foldl_tsfEffect_delegated hinj producer tsfs _ hD
  · intro votes blockHeight gl hok
    rw [(handleVote_ledger env producer blockHeight false votes ws gl
      (fun h => by cases h) hok).1]
    exact foldl_voteEffect_delegated hinj producer votes _ hD

/-- Witness of C26: alice, who holds 500 and has voted for bob, pays 100 to bob
and 50 to herself, and a coinbase transfer credits bob. -/
theorem delegated_weight_preserved_witness :
    (handleTsf demoEnv [3] [demoTransfer 100 0 0, demoSelfTransfer 50, demoCoinbase 7]
        (demoWs demoRevoteCache) 100 false).err = none ∧
      Delegated demoEnv
        ((handleTsf demoEnv [3] [demoTransfer 100 0 0, demoSelfTransfer 50, demoCoinbase 7]
          (demoWs demoRevoteCache) 100 false).ws.ledger demoEnv) :=
  ⟨by decide,
    (delegated_weight_preserved demoEnv decoderInjective_demoEnv (demoWs demoRevoteCache) [3]
      delegated_demoRevote).1 _ 100 (by decide)⟩

end Iotex
